import Mathlib

/-!
# SPLATT sparse tensor store: a shallow embedding of `src/sptensor.c`

The coordinate-format tensor of `sptensor.c` is embedded as a record of
lists.  Index values (`idx_t`) are natural numbers; the places where the C
code can leave the range of a 64-bit unsigned integer are reduced modulo
`2 ^ 64` explicitly.  Values (`val_t`) are integers, i.e. the arithmetic on
values is exact.  A function that can fail an assertion or index outside a
buffer it allocated returns an `Option`, `none` standing for such a run.
-/

namespace Splatt

/-! ## Machine integers -/

/-- Number of values of `idx_t`, an unsigned integer of 64 bits (the `printf` calls of
`tt_union` print indices with `%lu`). -/
def IDX_MOD : Nat := 2 ^ 64

/-- Addition of two `idx_t` values. -/
def idx_add (a b : Nat) : Nat := (a + b) % IDX_MOD

/-- Subtraction of two `idx_t` values (`b` is a value of the type, `b < IDX_MOD`). -/
def idx_sub (a b : Nat) : Nat := (a + IDX_MOD - b) % IDX_MOD

/-- Modelled from the spec: the macro `SS_MAX` of `util.h`, which is not among the
sources; the dimension inference of the spec is "a per-mode maximum-index reduction". -/
def SS_MAX (x y : Nat) : Nat := if x > y then x else y

/-! ## Data model -/

/-- Tiling state of a tensor (`tt->tiled`); only `SPLATT_NOTILE` is ever stored by
the functions embedded here. -/
inductive tile_type where
  | SPLATT_NOTILE
  | SPLATT_TILED
deriving DecidableEq

/-- Kind of tensor (`tt->type`). -/
inductive tt_type where
  | SPLATT_3MODE
  | SPLATT_NMODE
deriving DecidableEq

/-- The struct `sptensor_t`.  `ind` holds one row per mode, `ind[m][n]` being the
mode-`m` index of entry `n`; `indmap[m]` is `none` for a `NULL` pointer, and a
buffer whose cells are `none` until they are written (the result of `malloc`). -/
structure sptensor where
  ttype : tt_type
  nmodes : Nat
  nnz : Nat
  dims : List Nat
  ind : List (List Nat)
  vals : List Int
  tiled : tile_type
  indmap : List (Option (List (Option Nat)))
deriving DecidableEq

/-- Read `ind[m][n]`. -/
def rd (ind : List (List Nat)) (m n : Nat) : Nat := (ind.getD m []).getD n 0

/-- Write `ind[m][n] = v`. -/
def wr (ind : List (List Nat)) (m n v : Nat) : List (List Nat) :=
  ind.set m ((ind.getD m []).set n v)

/-- The coordinate tuple of entry `n`: its index in each of the `nmodes` modes. -/
def coord (tt : sptensor) (n : Nat) : List Nat :=
  (List.range tt.nmodes).map (fun m => rd tt.ind m n)

/-- Entry `n` of the tensor: coordinate tuple and value. -/
def entry_at (tt : sptensor) (n : Nat) : List Nat × Int :=
  (coord tt n, tt.vals.getD n 0)

/-- The stored entries `0 .. nnz - 1`. -/
def entries (tt : sptensor) : List (List Nat × Int) :=
  (List.range tt.nnz).map (entry_at tt)

/-- The arrays of the struct have the shape the allocation gives them: one extent,
one index row and one `indmap` slot per mode, and room for `nnz` entries. -/
def shape_ok (tt : sptensor) : Prop :=
  tt.dims.length = tt.nmodes ∧ tt.ind.length = tt.nmodes ∧
  (∀ row ∈ tt.ind, tt.nnz ≤ row.length) ∧ tt.nnz ≤ tt.vals.length ∧
  tt.nmodes ≤ tt.indmap.length

instance (tt : sptensor) : Decidable (shape_ok tt) := by
  unfold shape_ok; infer_instance

/-- The index-range invariant of the data model: `ind[m][n] < dims[m]`. -/
def in_range (tt : sptensor) : Prop :=
  ∀ m < tt.nmodes, ∀ n < tt.nnz, rd tt.ind m n < tt.dims.getD m 0

instance (tt : sptensor) : Decidable (in_range tt) := by
  unfold in_range; infer_instance

/-! ## `tt_fill_dims` and `tt_fill` -/

/-- The reduction of lines 326-330 over one index row: `dim = SS_MAX(dim, ind[m][n] + 1)`. -/
def fill_dim (row : List Nat) (nnz : Nat) : Nat :=
  (List.range nnz).foldl (fun dim n => SS_MAX dim (idx_add (row.getD n 0) 1)) 0

/-- The function `tt_fill_dims` (lines 322-333). -/
def tt_fill_dims (tt : sptensor) : sptensor :=
  { tt with
    dims := (List.range tt.nmodes).foldl
      (fun dims m => dims.set m (fill_dim (tt.ind.getD m []) tt.nnz)) tt.dims }

/-- The function `tt_fill` (lines 465-485): adopt the caller's arrays, allocate `dims`
(one uninitialised cell per mode, here `0`), clear `indmap`, infer `dims`.  The
argument `tt` is the struct being filled. -/
def tt_fill (tt : sptensor) (nnz nmodes : Nat) (inds : List (List Nat)) (vals : List Int) :
    sptensor :=
  tt_fill_dims
    { ttype := if nmodes = 3 then tt_type.SPLATT_3MODE else tt_type.SPLATT_NMODE
      nmodes := nmodes
      nnz := nnz
      dims := List.replicate nmodes 0
      ind := inds
      vals := vals
      tiled := tile_type.SPLATT_NOTILE
      indmap := (List.range nmodes).foldl (fun im m => im.set m none) tt.indmap }

/-! ## `tt_sort` -/

/-- Lexicographic comparison of two index tuples, `a ≤ b`. -/
def lex_le : List Nat → List Nat → Bool
  | [], _ => true
  | _ :: _, [] => false
  | a :: as, b :: bs => if a < b then true else if b < a then false else lex_le as bs

/-- The key `tt_sort` compares entries by: the coordinate read in the order
`mode, mode + 1, ...` (a fixed rotation of the modes). -/
def sort_key (nmodes mode : Nat) (c : List Nat) : List Nat :=
  (List.range nmodes).map (fun k => c.getD ((mode + k) % nmodes) 0)

/-- The order `tt_sort` puts the entries in: `a` comes no later than `b`. -/
def entry_le (nmodes mode : Nat) (a b : List Nat × Int) : Prop :=
  lex_le (sort_key nmodes mode a.1) (sort_key nmodes mode b.1) = true

instance (nmodes mode : Nat) : DecidableRel (entry_le nmodes mode) :=
  fun a b => by unfold entry_le; infer_instance

/-- Modelled from the spec: `tt_sort` of `sort.c`, which is not among the sources.
The spec: `sortByMode(primaryMode)` "establishes a total order over entries --
lexicographic by `(ind[primaryMode], ind[other modes in a fixed rotation], ...)`".
The `nnz` entries are rearranged (index rows and values together) into that order;
storage past `nnz` is left alone. -/
def tt_sort (tt : sptensor) (mode : Nat) : sptensor :=
  { tt with
    ind := (List.range tt.ind.length).map (fun m =>
      if m < tt.nmodes then
        ((entries tt).insertionSort (entry_le tt.nmodes mode)).map (fun e => e.1.getD m 0)
          ++ (tt.ind.getD m []).drop tt.nnz
      else tt.ind.getD m [])
    vals := ((entries tt).insertionSort (entry_le tt.nmodes mode)).map (fun e => e.2)
      ++ tt.vals.drop tt.nnz }

/-! ## `tt_remove_dups` -/

/-- The function `p_same_coord` (lines 19-37). -/
def p_same_coord (tt : sptensor) (i j : Nat) : Bool :=
  if tt.nmodes = 3 then
    (rd tt.ind 0 i == rd tt.ind 0 j) && (rd tt.ind 1 i == rd tt.ind 1 j) &&
      (rd tt.ind 2 i == rd tt.ind 2 j)
  else
    (List.range tt.nmodes).all (fun m => rd tt.ind m i == rd tt.ind m j)

/-- One iteration of the loop of lines 344-356; the state is the tensor and `newnnz`,
the argument `n` is the loop counter (called `nnz` in the source). -/
def dups_step (st : sptensor × Nat) (n : Nat) : sptensor × Nat :=
  if p_same_coord st.1 st.2 n then
    ({ st.1 with vals := st.1.vals.set st.2 (st.1.vals.getD st.2 0 + st.1.vals.getD n 0) }, st.2)
  else
    ({ st.1 with
        ind := (List.range st.1.nmodes).foldl
          (fun ind m => wr ind m (st.2 + 1) (rd ind m n)) st.1.ind
        vals := st.1.vals.set (st.2 + 1) (st.1.vals.getD n 0) }, st.2 + 1)

/-- The function `tt_remove_dups` (lines 336-362): the tensor afterwards and the
returned `diff`. -/
def tt_remove_dups (tt : sptensor) : sptensor × Nat :=
  let st := (List.range' 1 (tt.nnz - 1)).foldl dups_step (tt_sort tt 0, 0)
  ({ st.1 with nnz := st.2 + 1 }, idx_sub tt.nnz (st.2 + 1))

/-! ## `tt_remove_empty` -/

/-- The loop of lines 376-379: the largest extent. -/
def max_dim (tt : sptensor) : Nat :=
  (List.range tt.nmodes).foldl
    (fun maxdim m => if tt.dims.getD m 0 > maxdim then tt.dims.getD m 0 else maxdim) 0

/-- The loop of lines 388-394 over the indices `ind[m][0 .. nnz)`: mark the slices
that occur and count them.  `none` when an index lies outside `scounts`. -/
def count_slices : List Nat → List Nat → Nat → Option (List Nat × Nat)
  | [], scounts, dsz => some (scounts, dsz)
  | g :: rest, scounts, dsz =>
    if g < scounts.length then
      if scounts.getD g 0 = 0 then count_slices rest (scounts.set g 1) (dsz + 1)
      else count_slices rest scounts dsz
    else none

/-- The loop of lines 405-410: replace the mark of each slice that occurs by its
rank `ptr++`. -/
def scan_slices (dim : Nat) (scounts : List Nat) : List Nat × Nat :=
  (List.range dim).foldl
    (fun st i => if st.1.getD i 0 = 1 then (st.1.set i st.2, st.2 + 1) else st) (scounts, 0)

/-- The loop of lines 416-422 over the indices `ind[m][0 .. nnz)`: relabel each index
and store the local-to-global map.  `none` when the assertion `local < dim_sizes[m]`
fails or an index lies outside `scounts`. -/
def relabel (scounts : List Nat) (dsz : Nat) :
    List Nat → List (Option Nat) → Option (List Nat × List (Option Nat))
  | [], imap => some ([], imap)
  | g :: rest, imap =>
    if g < scounts.length then
      if scounts.getD g 0 < dsz then
        match relabel scounts dsz rest (imap.set (scounts.getD g 0) (some g)) with
        | some (row, imap2) => some (scounts.getD g 0 :: row, imap2)
        | none => none
      else none
    else none

/-- The body of the loop over the modes (lines 383-423) for mode `m`; the state is
the tensor and `nremoved`. -/
def remove_empty_mode (maxdim : Nat) (st : sptensor × Nat) (m : Nat) :
    Option (sptensor × Nat) :=
  match count_slices ((st.1.ind.getD m []).take st.1.nnz) (List.replicate maxdim 0) 0 with
  | none => none
  | some (scounts, dsz) =>
    if dsz = st.1.dims.getD m 0 then
      some ({ st.1 with indmap := st.1.indmap.set m none }, st.2)
    else
      match relabel (scan_slices (st.1.dims.getD m 0) scounts).1 dsz
          ((st.1.ind.getD m []).take st.1.nnz) (List.replicate dsz none) with
      | none => none
      | some (row, imap) =>
        some ({ st.1 with
                dims := st.1.dims.set m dsz
                ind := st.1.ind.set m (row ++ (st.1.ind.getD m []).drop st.1.nnz)
                indmap := st.1.indmap.set m (some imap) },
              idx_add st.2 (idx_sub (st.1.dims.getD m 0) dsz))

/-- The function `tt_remove_empty` (lines 365-427): the tensor afterwards and the
returned `nremoved`; `none` when the run leaves defined behaviour (a failed
assertion, an access outside `scounts`). -/
def tt_remove_empty (tt : sptensor) : Option (sptensor × Nat) :=
  (List.range tt.nmodes).foldlM (remove_empty_mode (max_dim tt)) (tt, 0)

/-! ## `tt_get_slices` -/

/-- Modelled from the spec: the macro `SS_MIN` of `util.h`, which is not among the
sources; `tt_get_slices` uses it in its "single pass to find observed range". -/
def SS_MIN (x y : Nat) : Nat := if x < y then x else y

/-- The loop of lines 83-86: `(minidx, maxidx)`, started at `(dims[m], 0)`. -/
def slice_bounds (dim : Nat) (inds : List Nat) (nnz : Nat) : Nat × Nat :=
  (List.range nnz).foldl
    (fun mm n => (SS_MIN mm.1 (inds.getD n 0), SS_MAX mm.2 (inds.getD n 0))) (dim, 0)

/-- The loop of lines 93-100 over the indices `inds[0 .. nnz)`: mark the slices that
occur in `slice_mkrs` and count them.  `none` when the assertion `inds[n] >= minidx`
fails or `inds[n] - minidx` lies outside `slice_mkrs`. -/
def mark_slices (minidx : Nat) : List Nat → List Nat → Nat → Option (List Nat × Nat)
  | [], mkrs, found => some (mkrs, found)
  | g :: rest, mkrs, found =>
    if minidx ≤ g then
      if g - minidx < mkrs.length then
        if mkrs.getD (g - minidx) 0 = 0 then
          mark_slices minidx rest (mkrs.set (g - minidx) 1) (found + 1)
        else mark_slices minidx rest mkrs found
      else none
    else none

/-- The loop of lines 106-110: `slices[ptr++] = i + minidx` for every marked `i`;
the state is `slices` and `ptr`.  `none` when `ptr` lies outside `slices`. -/
def collect_slices (minidx : Nat) (mkrs : List Nat) (slices : List (Option Nat)) :
    Option (List (Option Nat) × Nat) :=
  (List.range mkrs.length).foldlM
    (fun (st : List (Option Nat) × Nat) i =>
      if mkrs.getD i 0 = 1 then
        if st.2 < st.1.length then some (st.1.set st.2 (some (i + minidx)), st.2 + 1)
        else none
      else some st)
    (slices, 0)

/-- The function `tt_get_slices` (lines 70-115): the returned array `slices`, whose
cells are `none` until written, and the value stored in `*nunique`.  The mark array
has `1 + maxidx - minidx` cells, computed in `idx_t`. -/
def tt_get_slices (tt : sptensor) (m : Nat) : Option (List (Option Nat) × Nat) :=
  let mm := slice_bounds (tt.dims.getD m 0) (tt.ind.getD m []) tt.nnz
  let maxrange := idx_sub (idx_add 1 mm.2) mm.1
  match mark_slices mm.1 ((tt.ind.getD m []).take tt.nnz) (List.replicate maxrange 0) 0 with
  | none => none
  | some (mkrs, found) =>
    match collect_slices mm.1 mkrs (List.replicate found none) with
    | none => none
    | some (slices, _) => some (slices, found)

/-! ## `tt_unfold` -/

/-- Modelled from the spec: the struct `spmatrix_t` of `matrix.h`, which is not among
the sources: "a 2-D sparse matrix (compressed row form)" with `I` rows, `J` columns,
row pointers, column indices and values.  A cell is `none` until it is written. -/
structure spmatrix where
  I : Nat
  J : Nat
  nnz : Nat
  rowptr : List (Option Nat)
  colind : List (Option Nat)
  vals : List (Option Int)
deriving DecidableEq

/-- Modelled from the spec: `spmat_alloc` of `matrix.c`, which is not among the
sources: storage for a compressed-row matrix, `nrows + 1` row pointers and `nnz`
column indices and values, all unwritten. -/
def spmat_alloc (nrows ncols nnz : Nat) : spmatrix :=
  { I := nrows
    J := ncols
    nnz := nnz
    rowptr := List.replicate (nrows + 1) none
    colind := List.replicate nnz none
    vals := List.replicate nnz none }

/-- Multiplication of two `idx_t` values. -/
def idx_mul (a b : Nat) : Nat := (a * b) % IDX_MOD

/-- The loop of lines 511-513: `ncols`, the product of the extents of the other modes. -/
def unfold_ncols (tt : sptensor) (mode : Nat) : Nat :=
  (List.range' 1 (tt.nmodes - 1)).foldl
    (fun ncols m => idx_mul ncols (tt.dims.getD ((mode + m) % tt.nmodes) 0)) 1

/-- The loop of lines 533-542 for entry `n`: the state is `(col, mult)`. -/
def unfold_col (tt : sptensor) (mode n : Nat) : Nat × Nat :=
  (List.range tt.nmodes).foldl
    (fun cm m =>
      if tt.nmodes - 1 - m = mode then cm
      else (idx_add cm.1 (idx_mul (rd tt.ind (tt.nmodes - 1 - m) n) cm.2),
            idx_mul cm.2 (tt.dims.getD (tt.nmodes - 1 - m) 0)))
    (0, 1)

/-- The loop `while(row <= ind[mode][n]) rowptr[row++] = n` of lines 528-530, and with
`n = nnz` and `last = nrows` the loop of lines 547-549: the cells `row .. last` of
`rowptr` are set to `n`.  The state is `rowptr` and `row`; `none` when a cell lies
outside `rowptr`. -/
def fill_rowptr (n last : Nat) (st : List (Option Nat) × Nat) :
    Option (List (Option Nat) × Nat) :=
  (List.range' st.2 (last + 1 - st.2)).foldlM
    (fun (s : List (Option Nat) × Nat) r =>
      if r < s.1.length then some (s.1.set r (some n), r + 1) else none)
    st

/-- One pass of the loop over the entries (lines 526-545) for entry `n`; the state is
the matrix and `row`. -/
def unfold_step (tt : sptensor) (mode : Nat) (st : spmatrix × Nat) (n : Nat) :
    Option (spmatrix × Nat) :=
  match fill_rowptr n (rd tt.ind mode n) (st.1.rowptr, st.2) with
  | none => none
  | some (rowptr, row) =>
    if n < st.1.vals.length ∧ n < st.1.colind.length then
      some ({ st.1 with
              rowptr := rowptr
              vals := st.1.vals.set n (some (tt.vals.getD n 0))
              colind := st.1.colind.set n (some (unfold_col tt mode n).1) }, row)
    else none

/-- The function `tt_unfold` (lines 504-552): the tensor, sorted by `mode`, and the
matrix returned; `none` when a write lies outside the matrix. -/
def tt_unfold (tt : sptensor) (mode : Nat) : Option (sptensor × spmatrix) :=
  let nrows := tt.dims.getD mode 0
  let ncols := unfold_ncols tt mode
  let ts := tt_sort tt mode
  match (List.range ts.nnz).foldlM (unfold_step ts mode)
      (spmat_alloc nrows ncols ts.nnz, 0) with
  | none => none
  | some (mat, row) =>
    match fill_rowptr ts.nnz nrows (mat.rowptr, row) with
    | none => none
    | some (rowptr, _) => some (ts, { mat with rowptr := rowptr })
/-! ## `tt_union` -/

/-- A tensor as `tt_alloc` leaves it: the cells of `ind` and `vals` come from `malloc`
and are `none` until they are written.  `dims` is allocated too and written only by
`tt_fill_dims`; every `indmap[m]` is `NULL`. -/
structure raw_tensor where
  ttype : tt_type
  nmodes : Nat
  nnz : Nat
  ind : List (List (Option Nat))
  vals : List (Option Int)
  tiled : tile_type
deriving DecidableEq

/-- The function `tt_alloc` (lines 441-462). -/
def tt_alloc (nnz nmodes : Nat) : raw_tensor :=
  { ttype := if nmodes = 3 then tt_type.SPLATT_3MODE else tt_type.SPLATT_NMODE
    nmodes := nmodes
    nnz := nnz
    ind := List.replicate nmodes (List.replicate nnz none)
    vals := List.replicate nnz none
    tiled := tile_type.SPLATT_NOTILE }

/-- The comparison of lines 184-201 (and, again, 236-254) between entry `pa` of `a` and
entry `pb` of `b`: the flag `same` and `order`, which is -1, 0 or 1.  The loop over the
modes stops at the first mode in which the two indices differ. -/
def union_cmp (nmodes : Nat) (a b : sptensor) (pa pb : Nat) : Bool × Int :=
  match (List.range nmodes).find? (fun m => decide (rd a.ind m pa ≠ rd b.ind m pb)) with
  | none => (decide (a.vals.getD pa 0 = b.vals.getD pb 0), 0)
  | some m => (false, if rd a.ind m pa < rd b.ind m pb then -1 else 1)

/-- The `printf` of lines 205-207 reads `ind[0]`, `ind[1]` and `ind[2]` of both
tensors at `pa` and `pb`: whether these six cells exist. -/
def print_ok (a b : sptensor) (pa pb : Nat) : Bool :=
  [0, 1, 2].all (fun m =>
    decide (m < a.ind.length ∧ pa < (a.ind.getD m []).length ∧
      m < b.ind.length ∧ pb < (b.ind.getD m []).length))

/-- One pass of the counting loop (lines 183-223) on the state `(uniq, ptra, ptrb)`;
`none` when the `printf` reads outside the index arrays.  The counter never exceeds
`nnz(a) + nnz(b)`, the number of entries the two tensors hold in memory, so it does not
wrap. -/
def union_count_step (nmodes : Nat) (a b : sptensor) (st : Nat × Nat × Nat) :
    Option (Nat × Nat × Nat) :=
  if (union_cmp nmodes a b st.2.1 st.2.2).1 then
    if print_ok a b st.2.1 st.2.2 then some (st.1 + 1, st.2.1 + 1, st.2.2 + 1) else none
  else if (union_cmp nmodes a b st.2.1 st.2.2).2 = 0 then
    some (st.1 + 1 + 1, st.2.1 + 1, st.2.2 + 1)
  else if (union_cmp nmodes a b st.2.1 st.2.2).2 = -1 then
    some (st.1 + 1, st.2.1 + 1, st.2.2)
  else some (st.1 + 1, st.2.1, st.2.2 + 1)

/-- The counting loop `while(ptra < tt_a->nnz && ptrb < tt_b->nnz)` with at most `fuel`
passes; `none` also when the fuel runs out before the loop ends. -/
def union_count_loop (nmodes : Nat) (a b : sptensor) :
    Nat → Nat × Nat × Nat → Option (Nat × Nat × Nat)
  | 0, st => if st.2.1 < a.nnz ∧ st.2.2 < b.nnz then none else some st
  | fuel + 1, st =>
    if st.2.1 < a.nnz ∧ st.2.2 < b.nnz then
      match union_count_step nmodes a b st with
      | none => none
      | some st2 => union_count_loop nmodes a b fuel st2
    else some st

/-- The size of the result as lines 179-226 compute it: the counting loop, then the
leftovers `(tt_a->nnz - ptra) + (tt_b->nnz - ptrb)`.  Every pass advances `ptra` or
`ptrb`, so `nnz(a) + nnz(b)` passes are enough. -/
def union_count (nmodes : Nat) (a b : sptensor) : Option Nat :=
  match union_count_loop nmodes a b (a.nnz + b.nnz) (0, 0, 0) with
  | none => none
  | some st => some (st.1 + ((a.nnz - st.2.1) + (b.nnz - st.2.2)))

/-- The stores `ret->vals[uniq] = src->vals[p]` and, for every mode,
`ret->ind[m][uniq] = src->ind[m][p]`; `none` when `uniq` is outside the arrays of
`ret`. -/
def put_entry (nmodes : Nat) (src : sptensor) (p : Nat) (ret : raw_tensor) (uniq : Nat) :
    Option raw_tensor :=
  if uniq < ret.vals.length ∧ ∀ m < nmodes, uniq < (ret.ind.getD m []).length then
    some { ret with
      vals := ret.vals.set uniq (some (src.vals.getD p 0))
      ind := (List.range nmodes).foldl
        (fun ind m => ind.set m ((ind.getD m []).set uniq (some (rd src.ind m p)))) ret.ind }
  else none

/-- One pass of the copying loop (lines 235-294) on the state
`(ret, uniq, ptra, ptrb)`. -/
def union_copy_step (nmodes : Nat) (a b : sptensor) (st : raw_tensor × Nat × Nat × Nat) :
    Option (raw_tensor × Nat × Nat × Nat) :=
  if (union_cmp nmodes a b st.2.2.1 st.2.2.2).1 then
    match put_entry nmodes a st.2.2.1 st.1 st.2.1 with
    | none => none
    | some r => some (r, st.2.1 + 1, st.2.2.1 + 1, st.2.2.2 + 1)
  else if (union_cmp nmodes a b st.2.2.1 st.2.2.2).2 = 0 then
    match put_entry nmodes a st.2.2.1 st.1 st.2.1 with
    | none => none
    | some r1 =>
      match put_entry nmodes b st.2.2.2 r1 (st.2.1 + 1) with
      | none => none
      | some r => some (r, st.2.1 + 1 + 1, st.2.2.1 + 1, st.2.2.2 + 1)
  else if (union_cmp nmodes a b st.2.2.1 st.2.2.2).2 = -1 then
    match put_entry nmodes a st.2.2.1 st.1 st.2.1 with
    | none => none
    | some r => some (r, st.2.1 + 1, st.2.2.1 + 1, st.2.2.2)
  else
    match put_entry nmodes b st.2.2.2 st.1 st.2.1 with
    | none => none
    | some r => some (r, st.2.1 + 1, st.2.2.1, st.2.2.2 + 1)

/-- The copying loop, with at most `fuel` passes. -/
def union_copy_loop (nmodes : Nat) (a b : sptensor) :
    Nat → raw_tensor × Nat × Nat × Nat → Option (raw_tensor × Nat × Nat × Nat)
  | 0, st => if st.2.2.1 < a.nnz ∧ st.2.2.2 < b.nnz then none else some st
  | fuel + 1, st =>
    if st.2.2.1 < a.nnz ∧ st.2.2.2 < b.nnz then
      match union_copy_step nmodes a b st with
      | none => none
      | some st2 => union_copy_loop nmodes a b fuel st2
    else some st

/-- A leftover loop (lines 297-303 for `tt_a`, 305-311 for `tt_b`): the entries
`p .. nnz - 1` of `src` are appended to `ret`. -/
def union_copy_rest (nmodes : Nat) (src : sptensor) (st : raw_tensor × Nat) (p : Nat) :
    Option (raw_tensor × Nat) :=
  (List.range' p (src.nnz - p)).foldlM
    (fun (s : raw_tensor × Nat) q =>
      (put_entry nmodes src q s.1 s.2).map (fun r => (r, s.2 + 1)))
    st

/-- Lines 179-311 of `tt_union` on the two sorted operands: the counting pass, the
allocation, and the copying pass with both leftover loops.  The result is the size
that was allocated, the arrays of `ret` after the copying, and the final value of
`uniq`, which is the number of entries written. -/
def union_fill (nmodes : Nat) (a b : sptensor) : Option (Nat × raw_tensor × Nat) :=
  match union_count nmodes a b with
  | none => none
  | some n =>
    match union_copy_loop nmodes a b (a.nnz + b.nnz) (tt_alloc n nmodes, 0, 0, 0) with
    | none => none
    | some st =>
      match union_copy_rest nmodes a (st.1, st.2.1) st.2.2.1 with
      | none => none
      | some s2 =>
        match union_copy_rest nmodes b s2 st.2.2.2 with
        | none => none
        | some s3 => some (n, s3.1, s3.2)

/-- Read an allocated tensor whose cells have all been written; `none` when a cell of
`ind` or `vals` is still as `malloc` left it.  `dims` gets one cell per mode, which
`tt_fill_dims` overwrites. -/
def raw_load (r : raw_tensor) : Option sptensor :=
  if (∀ v ∈ r.vals, v ≠ none) ∧ ∀ row ∈ r.ind, ∀ c ∈ row, c ≠ none then
    some { ttype := r.ttype
           nmodes := r.nmodes
           nnz := r.nnz
           dims := List.replicate r.nmodes 0
           ind := r.ind.map (fun row => row.map (fun c => c.getD 0))
           vals := r.vals.map (fun v => v.getD 0)
           tiled := r.tiled
           indmap := List.replicate r.nmodes none }
  else none

/-- The function `tt_union` (lines 168-319): `none` when the assertion
`tt_a->nmodes == tt_b->nmodes` fails, when an access is out of bounds, or when
`tt_fill_dims` would read a cell that was never written.  The call also leaves both
operands sorted by mode 0. -/
def tt_union (tt_a tt_b : sptensor) : Option sptensor :=
  if tt_a.nmodes = tt_b.nmodes then
    match union_fill tt_a.nmodes (tt_sort tt_a 0) (tt_sort tt_b 0) with
    | none => none
    | some res =>
      match raw_load res.2.1 with
      | none => none
      | some ret => some (tt_fill_dims ret)
  else none

/-! ## The row exchange of `mpi_cpd.c` -/

/-- Modelled from the spec: `matrix_t` of `matrix.h`, which is not among the sources.
The spec: a factor matrix is a "row-major dense matrix", `I` rows of `J` values each,
so the value of row `i`, column `f` is `vals[f + i * J]`. -/
structure matrix where
  I : Nat
  J : Nat
  vals : List Int
deriving DecidableEq

/-- Modelled from the spec: the fields of `rank_info` (`splatt_mpi.h`, not among the
sources) that `mpi_cpd.c` reads, each taken at the mode `m` of the call, so that
`mat_start` stands for `rinfo->mat_start[m]`.  The spec (Partition Descriptor):
`mat_start`, `mat_end` are the global row range the rank owns; `ownstart`, `nowned`
the sub-range of the local matrix holding the owned rows; `nbr2globs_inds` is the send
manifest (global row ids), `local2nbr_inds` the receive manifest (local slots); the
`_ptr` and `_disp` arrays hold, per neighbour rank, the count and the offset of its
segment in the send and the receive buffer, in values. -/
structure rank_info where
  mat_start : Nat
  mat_end : Nat
  ownstart : Nat
  nowned : Nat
  nnbr2globs : Nat
  nlocal2nbr : Nat
  nbr2globs_inds : List Nat
  local2nbr_inds : List Nat
  nbr2globs_ptr : List Nat
  nbr2globs_disp : List Nat
  local2nbr_ptr : List Nat
  local2nbr_disp : List Nat
deriving DecidableEq

/-- What one rank passes to a call of the exchange: the optional index map, the two
buffers and the two matrices, and its descriptor.  The parameter `local2nbr_buf` of
`mpi_reduce_rows` is the buffer `nbr2local_buf`. -/
structure rank_args where
  indmap : Option (List Nat)
  nbr2globs_buf : List Int
  nbr2local_buf : List Int
  localmat : matrix
  globalmat : matrix
  rinfo : rank_info
deriving DecidableEq

/-- The inner loop `for(f = 0; f < nfactors; ++f)` of every row transfer:
`dst[f + d * nfactors] = src[f + s * nfactors]`, or `+=` instead of `=` when `acc` is
set; `none` when an index is outside its array.  An index inside an array does not
wrap. -/
def row_loop (acc : Bool) (nfactors : Nat) (src : List Int) (s : Nat) (dst : List Int)
    (d : Nat) : Option (List Int) :=
  (List.range nfactors).foldlM
    (fun (dst : List Int) f =>
      if f + s * nfactors < src.length ∧ f + d * nfactors < dst.length then
        some (dst.set (f + d * nfactors)
          (if acc then dst.getD (f + d * nfactors) 0 + src.getD (f + s * nfactors) 0
           else src.getD (f + s * nfactors) 0))
      else none)
    dst

/-- The function `__flush_glob_to_local` (lines 28-48): the assertion, then the
`memcpy` of the first `nowned` rows of the global matrix over the owned region of the
local matrix.  The result is the local matrix. -/
def __flush_glob_to_local (_indmap : Option (List Nat)) (localmat globalmat : matrix)
    (rinfo : rank_info) (nfactors : Nat) : Option matrix :=
  if idx_add rinfo.ownstart rinfo.nowned ≤ localmat.I then
    if rinfo.nowned * nfactors ≤ globalmat.vals.length ∧
        rinfo.ownstart * nfactors + rinfo.nowned * nfactors ≤ localmat.vals.length then
      some { localmat with
        vals := localmat.vals.take (rinfo.ownstart * nfactors)
          ++ globalmat.vals.take (rinfo.nowned * nfactors)
          ++ localmat.vals.drop (rinfo.ownstart * nfactors + rinfo.nowned * nfactors) }
    else none
  else none

/-- The gather loop of `mpi_update_rows` (lines 151-157): row `s` of the send buffer
becomes row `nbr2globs_inds[s] - mat_start` of the global matrix. -/
def update_gather (rinfo : rank_info) (nfactors : Nat) (gmatv nbr2globs_buf : List Int) :
    Option (List Int) :=
  (List.range rinfo.nnbr2globs).foldlM
    (fun (buf : List Int) s =>
      if s < rinfo.nbr2globs_inds.length then
        row_loop false nfactors gmatv (idx_sub (rinfo.nbr2globs_inds.getD s 0) rinfo.mat_start)
          buf s
      else none)
    nbr2globs_buf

/-- The scatter loop of `mpi_update_rows` (lines 186-192): row `local2nbr_inds[r]` of
the local matrix becomes row `r` of the receive buffer. -/
def update_scatter (rinfo : rank_info) (nfactors : Nat) (nbr2local_buf matv : List Int) :
    Option (List Int) :=
  (List.range rinfo.nlocal2nbr).foldlM
    (fun (matv : List Int) r =>
      if r < rinfo.local2nbr_inds.length then
        row_loop false nfactors nbr2local_buf r matv (rinfo.local2nbr_inds.getD r 0)
      else none)
    matv

/-- Modelled from the spec: `MPI_Alltoallv`, as the rank `me` sees it.  `sends` holds,
for every rank `p` of the communicator, its send buffer, its send counts and its send
displacements.  For each `p`, the segment of `p`'s send buffer meant for `me` is copied
into the segment of the receive buffer of `me` meant for `p` ("any manifest count must
be ... consistent between sender and receiver"); `none` when the two counts differ or
a segment leaves its buffer. -/
def MPI_Alltoallv (sends : List (List Int × List Nat × List Nat)) (me : Nat)
    (recvbuf : List Int) (recvcounts rdispls : List Nat) : Option (List Int) :=
  (List.range sends.length).foldlM
    (fun (buf : List Int) p =>
      if (sends.getD p ([], [], [])).2.1.getD me 0 = recvcounts.getD p 0 ∧
          (sends.getD p ([], [], [])).2.2.getD me 0 + recvcounts.getD p 0
            ≤ (sends.getD p ([], [], [])).1.length ∧
          rdispls.getD p 0 + recvcounts.getD p 0 ≤ buf.length then
        some (buf.take (rdispls.getD p 0)
          ++ (((sends.getD p ([], [], [])).1.drop
                ((sends.getD p ([], [], [])).2.2.getD me 0)).take (recvcounts.getD p 0))
          ++ buf.drop (rdispls.getD p 0 + recvcounts.getD p 0))
      else none)
    recvbuf

/-- The send side of `mpi_update_rows` on every rank of the communicator: each rank's
gathered send buffer with its counts and displacements. -/
def update_sends (nfactors : Nat) :
    List rank_args → Option (List (List Int × List Nat × List Nat))
  | [] => some []
  | a :: rest =>
    match update_gather a.rinfo nfactors a.globalmat.vals a.nbr2globs_buf with
    | none => none
    | some buf =>
      match update_sends nfactors rest with
      | none => none
      | some bufs => some ((buf, a.rinfo.nbr2globs_ptr, a.rinfo.nbr2globs_disp) :: bufs)

/-- The function `mpi_update_rows` (lines 132-200) on the rank `me` of a communicator
whose ranks call it with the arguments `world`: gather, exchange, scatter, flush.  The
result is what the rank's buffers and matrices hold afterwards. -/
def mpi_update_rows (world : List rank_args) (me nfactors : Nat) : Option rank_args :=
  match update_sends nfactors world with
  | none => none
  | some sends =>
    match world[me]? with
    | none => none
    | some a =>
      match MPI_Alltoallv sends me a.nbr2local_buf a.rinfo.local2nbr_ptr
          a.rinfo.local2nbr_disp with
      | none => none
      | some rbuf =>
        match update_scatter a.rinfo nfactors rbuf a.localmat.vals with
        | none => none
        | some matv =>
          match __flush_glob_to_local a.indmap { a.localmat with vals := matv } a.globalmat
              a.rinfo nfactors with
          | none => none
          | some lm =>
            some { a with
              nbr2globs_buf := (sends.getD me ([], [], [])).1
              nbr2local_buf := rbuf
              localmat := lm }

/-- The gather loop of `mpi_reduce_rows` (lines 219-225): row `s` of the send buffer
becomes row `local2nbr_inds[s]` of the local matrix. -/
def reduce_gather (rinfo : rank_info) (nfactors : Nat) (matv local2nbr_buf : List Int) :
    Option (List Int) :=
  (List.range rinfo.nlocal2nbr).foldlM
    (fun (buf : List Int) s =>
      if s < rinfo.local2nbr_inds.length then
        row_loop false nfactors matv (rinfo.local2nbr_inds.getD s 0) buf s
      else none)
    local2nbr_buf

/-- The accumulation loop of `mpi_reduce_rows` (lines 249-254): row `r` of the receive
buffer is added to row `nbr2globs_inds[r] - mat_start` of the global matrix. -/
def reduce_accum (rinfo : rank_info) (nfactors : Nat) (nbr2globs_buf gmatv : List Int) :
    Option (List Int) :=
  (List.range rinfo.nnbr2globs).foldlM
    (fun (gmatv : List Int) r =>
      if r < rinfo.nbr2globs_inds.length then
        row_loop true nfactors nbr2globs_buf r gmatv
          (idx_sub (rinfo.nbr2globs_inds.getD r 0) rinfo.mat_start)
      else none)
    gmatv

/-- The send side of `mpi_reduce_rows` on every rank of the communicator. -/
def reduce_sends (nfactors : Nat) :
    List rank_args → Option (List (List Int × List Nat × List Nat))
  | [] => some []
  | a :: rest =>
    match reduce_gather a.rinfo nfactors a.localmat.vals a.nbr2local_buf with
    | none => none
    | some buf =>
      match reduce_sends nfactors rest with
      | none => none
      | some bufs => some ((buf, a.rinfo.local2nbr_ptr, a.rinfo.local2nbr_disp) :: bufs)

/-- The function `mpi_reduce_rows` (lines 203-256) on the rank `me` of a communicator
whose ranks call it with the arguments `world`: gather the partial rows, exchange with
the manifests swapped, add what arrived to the global matrix. -/
def mpi_reduce_rows (world : List rank_args) (me nfactors : Nat) : Option rank_args :=
  match reduce_sends nfactors world with
  | none => none
  | some sends =>
    match world[me]? with
    | none => none
    | some a =>
      match MPI_Alltoallv sends me a.nbr2globs_buf a.rinfo.nbr2globs_ptr
          a.rinfo.nbr2globs_disp with
      | none => none
      | some rbuf =>
        match reduce_accum a.rinfo nfactors rbuf a.globalmat.vals with
        | none => none
        | some gmatv =>
          some { a with
            nbr2local_buf := (sends.getD me ([], [], [])).1
            nbr2globs_buf := rbuf
            globalmat := { a.globalmat with vals := gmatv } }

/-- The offset of lines 278-279: `start - mat_start` without an index map,
`indmap[start] - mat_start` with one, in `idx_t` arithmetic; `none` when `start` is
outside the index map. -/
def partials_goffset (indmap : Option (List Nat)) (rinfo : rank_info) : Option Nat :=
  match indmap with
  | none => some (idx_sub rinfo.ownstart rinfo.mat_start)
  | some im =>
    if rinfo.ownstart < im.length then
      some (idx_sub (im.getD rinfo.ownstart 0) rinfo.mat_start)
    else none

/-- The function `mpi_add_my_partials` (lines 259-285): `memset` of the global matrix,
then `memcpy` of the owned local rows to the row `goffset` of the global matrix.  The
result is the pair of the local matrix, which the function only reads, and the global
matrix. -/
def mpi_add_my_partials (indmap : Option (List Nat)) (localmat globmat : matrix)
    (rinfo : rank_info) (nfactors : Nat) : Option (matrix × matrix) :=
  if globmat.I * nfactors ≤ globmat.vals.length then
    match partials_goffset indmap rinfo with
    | none => none
    | some goffset =>
      if goffset * nfactors + rinfo.nowned * nfactors ≤ globmat.vals.length ∧
          rinfo.ownstart * nfactors + rinfo.nowned * nfactors ≤ localmat.vals.length then
        some (localmat,
          { globmat with
            vals := ((List.replicate (globmat.I * nfactors) 0
                ++ globmat.vals.drop (globmat.I * nfactors)).take (goffset * nfactors))
              ++ ((localmat.vals.drop (rinfo.ownstart * nfactors)).take
                (rinfo.nowned * nfactors))
              ++ (List.replicate (globmat.I * nfactors) 0
                ++ globmat.vals.drop (globmat.I * nfactors)).drop
                  (goffset * nfactors + rinfo.nowned * nfactors) })
      else none
  else none

/-! ## `mpi_recv_rows` -/

/-- Modelled from the spec: `MPI_Recv` of `count` values into `buf` from the position
`offset` on, a "blocking receive of exactly the row count designated in the receive
manifest for that source".  `msg` is the message the source rank sent; `none` when it
does not hold `count` values or the segment leaves the buffer. -/
def MPI_Recv (buf : List Int) (offset count : Nat) (msg : List Int) : Option (List Int) :=
  if msg.length = count ∧ offset + count ≤ buf.length then
    some (buf.take offset ++ msg ++ buf.drop (offset + count))
  else none

/-- The scatter loop of `mpi_recv_rows` (lines 117-123): for `r` from `disp` to
`disp + nrecvs - 1`, row `local2nbr_inds[r]` of the local matrix becomes row `r` of the
receive buffer. -/
def recv_scatter (rinfo : rank_info) (nfactors disp nrecvs : Nat)
    (nbr2local_buf matv : List Int) : Option (List Int) :=
  (List.range' disp nrecvs).foldlM
    (fun (matv : List Int) r =>
      if r < rinfo.local2nbr_inds.length then
        row_loop false nfactors nbr2local_buf r matv (rinfo.local2nbr_inds.getD r 0)
      else none)
    matv

/-- The function `mpi_recv_rows` (lines 92-128) for the source rank `porig`, which sent
the message `msg`: the row count and the displacement are read off the receive
manifest; a count of zero returns at once; otherwise receive, scatter, flush.  The
result is the receive buffer and the local matrix after the call; `none` when
`porig` is outside the manifest, `nfactors` is zero (a division by zero), or an
access is out of bounds. -/
def mpi_recv_rows (porig : Nat) (indmap : Option (List Nat)) (nbr2local_buf : List Int)
    (localmat globalmat : matrix) (rinfo : rank_info) (nfactors : Nat) (msg : List Int) :
    Option (List Int × matrix) :=
  if porig < rinfo.local2nbr_ptr.length ∧ porig < rinfo.local2nbr_disp.length ∧
      0 < nfactors then
    if rinfo.local2nbr_ptr.getD porig 0 / nfactors = 0 then some (nbr2local_buf, localmat)
    else
      match MPI_Recv nbr2local_buf (rinfo.local2nbr_disp.getD porig 0 / nfactors * nfactors)
          (rinfo.local2nbr_ptr.getD porig 0 / nfactors * nfactors) msg with
      | none => none
      | some buf =>
        match recv_scatter rinfo nfactors (rinfo.local2nbr_disp.getD porig 0 / nfactors)
            (rinfo.local2nbr_ptr.getD porig 0 / nfactors) buf localmat.vals with
        | none => none
        | some matv =>
          match __flush_glob_to_local indmap { localmat with vals := matv } globalmat rinfo
              nfactors with
          | none => none
          | some lm => some (buf, lm)
  else none


/-! ## Closed forms used in the proofs -/

/-- Number of index values below `n` that occur in `row`. -/
def nused (row : List Nat) (n : Nat) : Nat :=
  ((List.range n).filter (fun i => decide (i ∈ row))).length

/-- The index values below `dim` that occur in `row`, in increasing order. -/
def slice_list (row : List Nat) (dim : Nat) : List Nat :=
  (List.range dim).filter (fun i => decide (i ∈ row))

/-- Closed form of one pass of the mode loop of `tt_remove_empty`. -/
def compact_mode (st : sptensor × Nat) (m : Nat) : sptensor × Nat :=
  if ((st.1.ind.getD m []).take st.1.nnz).dedup.length = st.1.dims.getD m 0 then
    ({ st.1 with indmap := st.1.indmap.set m none }, st.2)
  else
    ({ st.1 with
        dims := st.1.dims.set m ((st.1.ind.getD m []).take st.1.nnz).dedup.length
        ind := st.1.ind.set m
          (((st.1.ind.getD m []).take st.1.nnz).map (nused ((st.1.ind.getD m []).take st.1.nnz))
            ++ (st.1.ind.getD m []).drop st.1.nnz)
        indmap := st.1.indmap.set m
          (some ((slice_list ((st.1.ind.getD m []).take st.1.nnz) (st.1.dims.getD m 0)).map some)) },
      idx_add st.2 (idx_sub (st.1.dims.getD m 0) ((st.1.ind.getD m []).take st.1.nnz).dedup.length))

/-- The number of distinct index values among the first `nnz` of `ind[m]`. -/
def distinct_in (tt : sptensor) (m : Nat) : Nat :=
  ((tt.ind.getD m []).take tt.nnz).dedup.length

/-- State of the mode loop of `tt_remove_empty` after the modes `0 .. k - 1`. -/
def compact_upto (tt : sptensor) (k : Nat) : sptensor × Nat :=
  (List.range k).foldl compact_mode (tt, 0)

/-- The entries in the order `tt_sort tt 0` stores them. -/
def sorted_entries (tt : sptensor) : List (List Nat × Int) :=
  (entries tt).insertionSort (entry_le tt.nmodes 0)

/-- The entries in the slots `0 .. k - 1`. -/
def slots (tt : sptensor) (k : Nat) : List (List Nat × Int) :=
  (List.range k).map (entry_at tt)

/-- Closed form of the merging loop of `tt_remove_dups`: `cur` is the entry being
accumulated, the list holds the entries still to be read. -/
def merge_run (cur : List Nat × Int) : List (List Nat × Int) → List (List Nat × Int)
  | [] => [cur]
  | e :: rest =>
    if cur.1 = e.1 then merge_run (cur.1, cur.2 + e.2) rest else cur :: merge_run e rest

/-- The index rows and the value array have room for `cap` entries. -/
def room (tt : sptensor) (cap : Nat) : Prop :=
  tt.ind.length = tt.nmodes ∧ (∀ m < tt.nmodes, cap ≤ (tt.ind.getD m []).length) ∧
  cap ≤ tt.vals.length

/-- The sum of the values of the entries of `l` whose coordinate is `c`. -/
def csum (c : List Nat) (l : List (List Nat × Int)) : Int :=
  ((l.filter (fun e => decide (e.1 = c))).map (fun e => e.2)).sum

/-- Closed form of `tt_remove_dups` on the sorted entries. -/
def merge_all : List (List Nat × Int) → List (List Nat × Int)
  | [] => []
  | e :: rest => merge_run e rest
/-! ## Closed forms, preconditions and inputs: slices, unfolding, union, row exchange -/

/-- The distinct index values of a row, in increasing order, as `tt_get_slices`
collects them. -/
def slices_of (lo hi : Nat) (row : List Nat) : List Nat :=
  (slice_list (row.map (fun g => g - lo)) (hi - lo + 1)).map (fun i => i + lo)

/-- The modes other than `mode`, from the highest-numbered down. -/
def rem_modes (nmodes mode : Nat) : List Nat :=
  ((List.range nmodes).map (fun m => nmodes - 1 - m)).filter (fun off => decide (off ≠ mode))

/-- The value of a mixed-radix numeral, given as `(digit, base)` pairs with the least
significant digit first. -/
def mixed_radix : List (Nat × Nat) → Nat
  | [] => 0
  | (d, b) :: rest => d + b * mixed_radix rest

/-- The product of the bases of a mixed-radix numeral. -/
def radix_prod : List (Nat × Nat) → Nat
  | [] => 1
  | (_, b) :: rest => b * radix_prod rest

/-- The remaining indices of entry `n` with the extents of their modes: the digits and
bases of its column id, the highest-numbered remaining mode first. -/
def col_digits (tt : sptensor) (mode n : Nat) : List (Nat × Nat) :=
  (rem_modes tt.nmodes mode).map (fun off => (rd tt.ind off n, tt.dims.getD off 0))

/-- The product of the extents of the modes other than `mode`. -/
def other_dims_prod (tt : sptensor) (mode : Nat) : Nat :=
  ((rem_modes tt.nmodes mode).map (fun off => tt.dims.getD off 0)).prod

/-- The entries in the order `tt_sort tt mode` stores them. -/
def sorted_by (tt : sptensor) (mode : Nat) : List (List Nat × Int) :=
  (entries tt).insertionSort (entry_le tt.nmodes mode)

/-- The number of entries `n < nnz` whose mode-`mode` index is below `r`. -/
def rows_below (tt : sptensor) (mode r : Nat) : Nat :=
  ((List.range tt.nnz).filter (fun n => decide (rd tt.ind mode n < r))).length

/-- The value of `row` in `tt_unfold` after the entries `0 .. k - 1`. -/
def row_after (tt : sptensor) (mode k : Nat) : Nat :=
  if k = 0 then 0 else rd tt.ind mode (k - 1) + 1

/-- The matrix under construction in `tt_unfold` after the entries `0 .. k - 1`. -/
def unfold_upto (ts : sptensor) (mode nrows ncols k : Nat) : spmatrix × Nat :=
  ({ I := nrows
     J := ncols
     nnz := ts.nnz
     rowptr := ((List.range (row_after ts mode k)).map (rows_below ts mode)).map some
       ++ List.replicate (nrows + 1 - row_after ts mode k) none
     colind := ((List.range k).map (fun n => (unfold_col ts mode n).1)).map some
       ++ List.replicate (ts.nnz - k) none
     vals := ((List.range k).map (fun n => ts.vals.getD n 0)).map some
       ++ List.replicate (ts.nnz - k) none }, row_after ts mode k)

/-- Entry `p` of `src`, read over `nmodes` modes: coordinate tuple and value. -/
def entry_of (nmodes : Nat) (src : sptensor) (p : Nat) : List Nat × Int :=
  ((List.range nmodes).map (fun m => rd src.ind m p), src.vals.getD p 0)

/-- The arrays of a result allocated for `n` entries whose first cells hold the
entries `w` and whose last `k` cells are still unwritten. -/
def raw_of (nmodes n : Nat) (w : List (List Nat × Int)) (k : Nat) : raw_tensor :=
  { ttype := if nmodes = 3 then tt_type.SPLATT_3MODE else tt_type.SPLATT_NMODE
    nmodes := nmodes
    nnz := n
    ind := (List.range nmodes).map
      (fun m => w.map (fun e => some (e.1.getD m 0)) ++ List.replicate k none)
    vals := w.map (fun e => some e.2) ++ List.replicate k none
    tiled := tile_type.SPLATT_NOTILE }

/-- The entries the main loop of `tt_union` emits from the positions `pa` and `pb` on,
in order, within `fuel` passes. -/
def union_main (nmodes : Nat) (a b : sptensor) : Nat → Nat → Nat → List (List Nat × Int)
  | 0, _, _ => []
  | fuel + 1, pa, pb =>
    if pa < a.nnz ∧ pb < b.nnz then
      if (union_cmp nmodes a b pa pb).1 then
        entry_of nmodes a pa :: union_main nmodes a b fuel (pa + 1) (pb + 1)
      else if (union_cmp nmodes a b pa pb).2 = 0 then
        entry_of nmodes a pa :: entry_of nmodes b pb
          :: union_main nmodes a b fuel (pa + 1) (pb + 1)
      else if (union_cmp nmodes a b pa pb).2 = -1 then
        entry_of nmodes a pa :: union_main nmodes a b fuel (pa + 1) pb
      else entry_of nmodes b pb :: union_main nmodes a b fuel pa (pb + 1)
    else []

/-- All the entries `tt_union` writes, in order: those of the main loop, then the
leftovers of `a` from `pa` on and those of `b` from `pb` on. -/
def union_all (nmodes : Nat) (a b : sptensor) (pa pb : Nat) : List (List Nat × Int) :=
  union_main nmodes a b (a.nnz + b.nnz) 0 0
    ++ (List.range' pa (a.nnz - pa)).map (entry_of nmodes a)
    ++ (List.range' pb (b.nnz - pb)).map (entry_of nmodes b)

/-- Operand A of a three-mode union: the entries `(1,1,1) = 4`, `(0,0,0) = 2` and
`(0,1,0) = 3`. -/
def union_a : sptensor :=
  { ttype := tt_type.SPLATT_3MODE
    nmodes := 3
    nnz := 3
    dims := [2, 2, 2]
    ind := [[1, 0, 0], [1, 0, 1], [1, 0, 0]]
    vals := [4, 2, 3]
    tiled := tile_type.SPLATT_NOTILE
    indmap := [none, none, none] }

/-- Operand B of a three-mode union: `(0,0,0) = 2`, which A has with the same value,
`(1,1,1) = 5`, which A has with another value, and `(1,0,1) = 7`, which A lacks. -/
def union_b : sptensor :=
  { ttype := tt_type.SPLATT_3MODE
    nmodes := 3
    nnz := 3
    dims := [2, 2, 2]
    ind := [[0, 1, 1], [0, 1, 0], [0, 1, 1]]
    vals := [2, 5, 7]
    tiled := tile_type.SPLATT_NOTILE
    indmap := [none, none, none] }

/-- Operand A of a two-mode union: the entries `(0,0) = 1` and `(1,0) = 2`. -/
def pair_a : sptensor :=
  { ttype := tt_type.SPLATT_NMODE
    nmodes := 2
    nnz := 2
    dims := [2, 2]
    ind := [[0, 1], [0, 0]]
    vals := [1, 2]
    tiled := tile_type.SPLATT_NOTILE
    indmap := [none, none] }

/-- Operand B of a two-mode union: `(0,0) = 1`, as in A, and `(0,1) = 3`. -/
def pair_b : sptensor :=
  { ttype := tt_type.SPLATT_NMODE
    nmodes := 2
    nnz := 2
    dims := [2, 2]
    ind := [[0, 0], [0, 1]]
    vals := [1, 3]
    tiled := tile_type.SPLATT_NOTILE
    indmap := [none, none] }

/-- The tensor `tt_union` returns before `tt_fill_dims`, given the entries `w` it
wrote. -/
def tensor_of (nmodes n : Nat) (w : List (List Nat × Int)) : sptensor :=
  { ttype := if nmodes = 3 then tt_type.SPLATT_3MODE else tt_type.SPLATT_NMODE
    nmodes := nmodes
    nnz := n
    dims := List.replicate nmodes 0
    ind := (List.range nmodes).map (fun m => w.map (fun e => e.1.getD m 0))
    vals := w.map (fun e => e.2)
    tiled := tile_type.SPLATT_NOTILE
    indmap := List.replicate nmodes none }

/-- The merge of two entry lists as `tt_union` performs it, within `fuel` steps: equal
entries are emitted once, entries with equal coordinate and different values both
(first the one of `xs`), otherwise the entry with the smaller coordinate goes first. -/
def merge_upto : Nat → List (List Nat × Int) → List (List Nat × Int) → List (List Nat × Int)
  | 0, xs, ys => xs ++ ys
  | _ + 1, [], ys => ys
  | _ + 1, x :: xs, [] => x :: xs
  | fuel + 1, x :: xs, y :: ys =>
    if x.1 = y.1 ∧ x.2 = y.2 then x :: merge_upto fuel xs ys
    else if x.1 = y.1 then x :: y :: merge_upto fuel xs ys
    else if lex_le x.1 y.1 = true then x :: merge_upto fuel xs (y :: ys)
    else y :: merge_upto fuel (x :: xs) ys

/-- Strictly increasing coordinates: the order of a sorted tensor without duplicate
coordinates. -/
def coord_lt (e1 e2 : List Nat × Int) : Prop :=
  lex_le e1.1 e2.1 = true ∧ e1.1 ≠ e2.1

/-- The value a row transfer leaves in a cell that held `v`. -/
def row_val (acc : Bool) (F : Nat) (src : List Int) (s d j : Nat) (v : Int) : Int :=
  if d * F ≤ j ∧ j < d * F + F then
    (if acc then v + src.getD (j - d * F + s * F) 0 else src.getD (j - d * F + s * F) 0)
  else v

/-- Well-formedness of the arguments of one rank for the factorization rank `F`: both
matrices have `F` values per row, the global matrix holds the owned rows
`mat_start .. mat_end - 1`, the manifests fit their index arrays and name rows that
exist (owned global rows to send, local slots to fill), the buffers hold the volume
the manifests imply, and the owned region lies inside the local matrix. -/
def rank_ok (a : rank_args) (F : Nat) : Prop :=
  a.globalmat.vals.length = a.globalmat.I * F ∧
  a.localmat.vals.length = a.localmat.I * F ∧
  a.localmat.I < IDX_MOD ∧
  a.rinfo.mat_end < IDX_MOD ∧
  a.rinfo.mat_end ≤ a.rinfo.mat_start + a.globalmat.I ∧
  a.rinfo.nnbr2globs ≤ a.rinfo.nbr2globs_inds.length ∧
  a.rinfo.nlocal2nbr ≤ a.rinfo.local2nbr_inds.length ∧
  a.rinfo.nnbr2globs * F ≤ a.nbr2globs_buf.length ∧
  a.rinfo.nlocal2nbr * F ≤ a.nbr2local_buf.length ∧
  (∀ s < a.rinfo.nnbr2globs, a.rinfo.mat_start ≤ a.rinfo.nbr2globs_inds.getD s 0 ∧
    a.rinfo.nbr2globs_inds.getD s 0 < a.rinfo.mat_end) ∧
  (∀ r < a.rinfo.nlocal2nbr, a.rinfo.local2nbr_inds.getD r 0 < a.localmat.I) ∧
  a.rinfo.ownstart + a.rinfo.nowned ≤ a.localmat.I ∧
  a.rinfo.nowned ≤ a.globalmat.I

instance (a : rank_args) (F : Nat) : Decidable (rank_ok a F) := by
  unfold rank_ok; infer_instance

/-- Arguments that hold nothing: what a rank number outside the communicator reads. -/
def no_rank : rank_args :=
  { indmap := none
    nbr2globs_buf := []
    nbr2local_buf := []
    localmat := { I := 0, J := 0, vals := [] }
    globalmat := { I := 0, J := 0, vals := [] }
    rinfo :=
      { mat_start := 0
        mat_end := 0
        ownstart := 0
        nowned := 0
        nnbr2globs := 0
        nlocal2nbr := 0
        nbr2globs_inds := []
        local2nbr_inds := []
        nbr2globs_ptr := []
        nbr2globs_disp := []
        local2nbr_ptr := []
        local2nbr_disp := [] } }

/-- The manifests are mutual for the exchange of `mpi_update_rows` towards rank `me`:
every rank `p` sends to `me` as many values as `me` expects from `p`, and both
segments lie inside their buffers. -/
def update_exchange_ok (world : List rank_args) (me : Nat) : Prop :=
  ∀ p < world.length,
    (world.getD p no_rank).rinfo.nbr2globs_ptr.getD me 0
      = (world.getD me no_rank).rinfo.local2nbr_ptr.getD p 0 ∧
    (world.getD p no_rank).rinfo.nbr2globs_disp.getD me 0
      + (world.getD me no_rank).rinfo.local2nbr_ptr.getD p 0
      ≤ (world.getD p no_rank).nbr2globs_buf.length ∧
    (world.getD me no_rank).rinfo.local2nbr_disp.getD p 0
      + (world.getD me no_rank).rinfo.local2nbr_ptr.getD p 0
      ≤ (world.getD me no_rank).nbr2local_buf.length

instance (world : List rank_args) (me : Nat) : Decidable (update_exchange_ok world me) := by
  unfold update_exchange_ok; infer_instance

/-- The manifests of a communicator of two ranks `[A, B]` are mutual: what `A` sends is
what `B` expects and conversely, no rank sends to itself, and every segment starts
where the segments before it end. -/
def pair_ok (A B : rank_args) (F : Nat) : Prop :=
  A.rinfo.nnbr2globs = B.rinfo.nlocal2nbr ∧ B.rinfo.nnbr2globs = A.rinfo.nlocal2nbr ∧
  A.rinfo.nbr2globs_ptr = [0, A.rinfo.nnbr2globs * F] ∧ A.rinfo.nbr2globs_disp = [0, 0] ∧
  A.rinfo.local2nbr_ptr = [0, A.rinfo.nlocal2nbr * F] ∧ A.rinfo.local2nbr_disp = [0, 0] ∧
  B.rinfo.nbr2globs_ptr = [B.rinfo.nnbr2globs * F, 0] ∧
  B.rinfo.nbr2globs_disp = [0, B.rinfo.nnbr2globs * F] ∧
  B.rinfo.local2nbr_ptr = [B.rinfo.nlocal2nbr * F, 0] ∧
  B.rinfo.local2nbr_disp = [0, B.rinfo.nlocal2nbr * F]

instance (A B : rank_args) (F : Nat) : Decidable (pair_ok A B F) := by
  unfold pair_ok; infer_instance

/-- The receive manifest names each local slot once, and no slot lies in the owned
region of the local matrix. -/
def ghost_ok (a : rank_args) : Prop :=
  (a.rinfo.local2nbr_inds.take a.rinfo.nlocal2nbr).Nodup ∧
  ∀ r < a.rinfo.nlocal2nbr, a.rinfo.local2nbr_inds.getD r 0 < a.rinfo.ownstart ∨
    a.rinfo.ownstart + a.rinfo.nowned ≤ a.rinfo.local2nbr_inds.getD r 0

instance (a : rank_args) : Decidable (ghost_ok a) := by
  unfold ghost_ok; infer_instance

/-- Rank 0 of the toy partition of an 8 x 2 matrix: it owns the global rows 0 to 3,
keeps them in the local rows 0 to 3, and holds ghost copies of the rows 4 to 7 in the
local rows 4 to 7, not yet filled. -/
def toy_rank0 : rank_args :=
  { indmap := none
    nbr2globs_buf := [0, 0, 0, 0, 0, 0, 0, 0]
    nbr2local_buf := [0, 0, 0, 0, 0, 0, 0, 0]
    localmat := { I := 8, J := 2, vals := [10, 11, 20, 21, 30, 31, 40, 41, 0, 0, 0, 0, 0, 0, 0, 0] }
    globalmat := { I := 4, J := 2, vals := [10, 11, 20, 21, 30, 31, 40, 41] }
    rinfo :=
      { mat_start := 0
        mat_end := 4
        ownstart := 0
        nowned := 4
        nnbr2globs := 4
        nlocal2nbr := 4
        nbr2globs_inds := [0, 1, 2, 3]
        local2nbr_inds := [4, 5, 6, 7]
        nbr2globs_ptr := [0, 8]
        nbr2globs_disp := [0, 0]
        local2nbr_ptr := [0, 8]
        local2nbr_disp := [0, 0] } }

/-- Rank 1 of the toy partition: it owns the global rows 4 to 7, keeps them in the
local rows 4 to 7, and holds ghost copies of the rows 0 to 3 in the local rows 0 to
3, not yet filled. -/
def toy_rank1 : rank_args :=
  { indmap := none
    nbr2globs_buf := [0, 0, 0, 0, 0, 0, 0, 0]
    nbr2local_buf := [0, 0, 0, 0, 0, 0, 0, 0]
    localmat := { I := 8, J := 2, vals := [0, 0, 0, 0, 0, 0, 0, 0, 50, 51, 60, 61, 70, 71, 80, 81] }
    globalmat := { I := 4, J := 2, vals := [50, 51, 60, 61, 70, 71, 80, 81] }
    rinfo :=
      { mat_start := 4
        mat_end := 8
        ownstart := 4
        nowned := 4
        nnbr2globs := 4
        nlocal2nbr := 4
        nbr2globs_inds := [4, 5, 6, 7]
        local2nbr_inds := [0, 1, 2, 3]
        nbr2globs_ptr := [8, 0]
        nbr2globs_disp := [0, 8]
        local2nbr_ptr := [8, 0]
        local2nbr_disp := [0, 8] } }

/-- Rank 1 of the toy partition with a local matrix that is out of date everywhere:
the owned rows 4 to 7 hold old values, the ghost row 3 is not in the receive
manifest. -/
def stale_rank1 : rank_args :=
  { toy_rank1 with
    nbr2local_buf := [0, 0, 0, 0, 0, 0]
    localmat := { I := 8, J := 2, vals := [1, 1, 1, 1, 1, 1, 7, 7, 5, 5, 6, 6, 7, 7, 8, 8] }
    rinfo :=
      { toy_rank1.rinfo with
        nlocal2nbr := 3
        local2nbr_inds := [0, 1, 2]
        local2nbr_ptr := [6, 0]
        local2nbr_disp := [0, 6] } }

/-- Rank 0 of the toy partition, sending only its rows 0 to 2. -/
def short_rank0 : rank_args :=
  { toy_rank0 with
    rinfo :=
      { toy_rank0.rinfo with
        nnbr2globs := 3
        nbr2globs_inds := [0, 1, 2]
        nbr2globs_ptr := [0, 6] } }

/-- The manifests are mutual for the exchange of `mpi_reduce_rows` towards rank `me`:
every rank `p` sends to `me` as many values as `me` expects from `p`, and both
segments lie inside their buffers. -/
def reduce_exchange_ok (world : List rank_args) (me : Nat) : Prop :=
  ∀ p < world.length,
    (world.getD p no_rank).rinfo.local2nbr_ptr.getD me 0
      = (world.getD me no_rank).rinfo.nbr2globs_ptr.getD p 0 ∧
    (world.getD p no_rank).rinfo.local2nbr_disp.getD me 0
      + (world.getD me no_rank).rinfo.nbr2globs_ptr.getD p 0
      ≤ (world.getD p no_rank).nbr2local_buf.length ∧
    (world.getD me no_rank).rinfo.nbr2globs_disp.getD p 0
      + (world.getD me no_rank).rinfo.nbr2globs_ptr.getD p 0
      ≤ (world.getD me no_rank).nbr2globs_buf.length

instance (world : List rank_args) (me : Nat) : Decidable (reduce_exchange_ok world me) := by
  unfold reduce_exchange_ok; infer_instance

/-- The rows a receive buffer holds for the accumulation of `mpi_reduce_rows`: for each
buffer row, the global row the manifest gives it and its `F` values. -/
def recv_rows (rinfo : rank_info) (F : Nat) (buf : List Int) : List (Nat × List Int) :=
  (List.range rinfo.nnbr2globs).map
    (fun r => (rinfo.nbr2globs_inds.getD r 0, (List.range F).map (fun f => buf.getD (f + r * F) 0)))

/-- The owner in the reduction of three partial rows: it owns the global row 0 of a
one-column matrix and receives one row from each of the ranks 1, 2 and 3. -/
def reduce_owner : rank_args :=
  { indmap := none
    nbr2globs_buf := [0, 0, 0]
    nbr2local_buf := []
    localmat := { I := 1, J := 1, vals := [0] }
    globalmat := { I := 1, J := 1, vals := [0] }
    rinfo :=
      { mat_start := 0
        mat_end := 1
        ownstart := 0
        nowned := 1
        nnbr2globs := 3
        nlocal2nbr := 0
        nbr2globs_inds := [0, 0, 0]
        local2nbr_inds := []
        nbr2globs_ptr := [0, 1, 1, 1]
        nbr2globs_disp := [0, 0, 1, 2]
        local2nbr_ptr := [0, 0, 0, 0]
        local2nbr_disp := [0, 0, 0, 0] } }

/-- A rank that does not own the global row 0 and holds the partial contribution 1 for
it in its local row 0. -/
def reduce_peer : rank_args :=
  { indmap := none
    nbr2globs_buf := []
    nbr2local_buf := [0]
    localmat := { I := 1, J := 1, vals := [1] }
    globalmat := { I := 0, J := 1, vals := [] }
    rinfo :=
      { mat_start := 1
        mat_end := 1
        ownstart := 0
        nowned := 0
        nnbr2globs := 0
        nlocal2nbr := 1
        nbr2globs_inds := []
        local2nbr_inds := [0]
        nbr2globs_ptr := [0, 0, 0, 0]
        nbr2globs_disp := [0, 0, 0, 0]
        local2nbr_ptr := [1, 0, 0, 0]
        local2nbr_disp := [0, 1, 1, 1] } }

/-- A descriptor with an index map: the rank owns the local rows 1 and 2, the index map
sends the local row 1 to the global row 11, and the rank's global rows start at 10. -/
def seed_rinfo : rank_info :=
  { mat_start := 10
    mat_end := 14
    ownstart := 1
    nowned := 2
    nnbr2globs := 0
    nlocal2nbr := 0
    nbr2globs_inds := []
    local2nbr_inds := []
    nbr2globs_ptr := []
    nbr2globs_disp := []
    local2nbr_ptr := []
    local2nbr_disp := [] }

/-- The length of the mark array of `tt_get_slices` (line 88): `1 + maxidx - minidx`,
computed in `idx_t`. -/
def slice_maxrange (tt : sptensor) (m : Nat) : Nat :=
  idx_sub (idx_add 1 (slice_bounds (tt.dims.getD m 0) (tt.ind.getD m []) tt.nnz).2)
    (slice_bounds (tt.dims.getD m 0) (tt.ind.getD m []) tt.nnz).1

/-- A rank that needs no row from any other rank: its local matrix holds only the four
rows it owns, with values older than those of its global matrix. -/
def lone_rank : rank_args :=
  { indmap := none
    nbr2globs_buf := []
    nbr2local_buf := []
    localmat := { I := 4, J := 2, vals := [5, 5, 6, 6, 7, 7, 8, 8] }
    globalmat := { I := 4, J := 2, vals := [50, 51, 60, 61, 70, 71, 80, 81] }
    rinfo :=
      { mat_start := 4
        mat_end := 8
        ownstart := 0
        nowned := 4
        nnbr2globs := 0
        nlocal2nbr := 0
        nbr2globs_inds := []
        local2nbr_inds := []
        nbr2globs_ptr := [0, 0]
        nbr2globs_disp := [0, 0]
        local2nbr_ptr := [0, 0]
        local2nbr_disp := [0, 0] } }


/-! ## Concrete tensors -/

/-- The scenario of the spec: entries `(0,0,0,2.0)`, `(0,0,0,3.0)`, `(1,1,1,4.0)`. -/
def dup_tensor : sptensor :=
  { ttype := tt_type.SPLATT_3MODE
    nmodes := 3
    nnz := 3
    dims := [2, 2, 2]
    ind := [[0, 0, 1], [0, 0, 1], [0, 0, 1]]
    vals := [2, 3, 4]
    tiled := tile_type.SPLATT_NOTILE
    indmap := [none, none, none] }

/-- Four entries out of order, two of them at the coordinate `(2,0)`. -/
def shuffled_tensor : sptensor :=
  { ttype := tt_type.SPLATT_NMODE
    nmodes := 2
    nnz := 4
    dims := [3, 2]
    ind := [[2, 0, 2, 1], [0, 1, 0, 1]]
    vals := [7, 1, 5, 2]
    tiled := tile_type.SPLATT_NOTILE
    indmap := [none, none] }

/-- A three-mode tensor without entries. -/
def empty_tensor : sptensor :=
  { ttype := tt_type.SPLATT_3MODE
    nmodes := 3
    nnz := 0
    dims := [4, 4, 4]
    ind := [[], [], []]
    vals := []
    tiled := tile_type.SPLATT_NOTILE
    indmap := [none, none, none] }

/-- A two-mode tensor whose mode 0 uses only the slices 2 and 5 of 6, and whose
mode 1 uses all of its 3 slices. -/
def gap_tensor : sptensor :=
  { ttype := tt_type.SPLATT_NMODE
    nmodes := 2
    nnz := 3
    dims := [6, 3]
    ind := [[5, 2, 5], [0, 1, 2]]
    vals := [1, 1, 1]
    tiled := tile_type.SPLATT_NOTILE
    indmap := [none, none] }

/-- A one-mode tensor with an entry at the largest value of `idx_t`. -/
def maxidx_tensor : sptensor :=
  { ttype := tt_type.SPLATT_NMODE
    nmodes := 1
    nnz := 2
    dims := [0]
    ind := [[5, 18446744073709551615]]
    vals := [1, 1]
    tiled := tile_type.SPLATT_NOTILE
    indmap := [none] }

/-! ## Lemmas -/

theorem getD_set_eq {α : Type} (l : List α) (i j : Nat) (a d : α) :
    (l.set i a).getD j d = if i = j ∧ i < l.length then a else l.getD j d := by
  simp only [List.getD_eq_getElem?_getD, List.getElem?_set]
  by_cases h : i = j
  · subst h
    by_cases h2 : i < l.length
    · simp [h2]
    · simp [h2]
      have : l.length ≤ i := Nat.le_of_not_lt h2
      simp [List.getElem?_eq_none this]
  · simp [h]

theorem foldl_set_length {α : Type} (f : Nat → α) (n : Nat) (d : List α) :
    ((List.range n).foldl (fun d m => d.set m (f m)) d).length = d.length := by
  induction n with
  | zero => simp
  | succ n ih => simp [List.range_succ, List.foldl_append, ih]

theorem foldl_set_getD {α : Type} (f : Nat → α) (n : Nat) (d : List α) (m : Nat) (x : α) :
    ((List.range n).foldl (fun d m => d.set m (f m)) d).getD m x
      = if m < n ∧ m < d.length then f m else d.getD m x := by
  induction n with
  | zero => simp
  | succ n ih =>
    simp only [List.range_succ, List.foldl_append, List.foldl_cons, List.foldl_nil]
    rw [getD_set_eq, foldl_set_length, ih]
    by_cases h1 : n = m
    · subst h1; simp
    · by_cases h2 : m < n
      · have : m < n + 1 := by omega
        simp [h1, h2, this]
      · have : ¬ m < n + 1 := by omega
        simp [h1, h2, this]

theorem idx_add_one {x : Nat} (h : x + 1 < IDX_MOD) : idx_add x 1 = x + 1 := by
  unfold idx_add; exact Nat.mod_eq_of_lt h

theorem SS_MAX_eq (x y : Nat) : SS_MAX x y = max x y := by
  unfold SS_MAX; split <;> omega

theorem fill_dim_succ (row : List Nat) (k : Nat) :
    fill_dim row (k + 1) = SS_MAX (fill_dim row k) (idx_add (row.getD k 0) 1) := by
  simp [fill_dim, List.range_succ, List.foldl_append]

theorem fill_dim_upper (row : List Nat) (k : Nat)
    (h : ∀ n < k, row.getD n 0 + 1 < IDX_MOD) :
    ∀ n < k, row.getD n 0 + 1 ≤ fill_dim row k := by
  induction k with
  | zero => intro n hn; omega
  | succ k ih =>
    intro n hn
    rw [fill_dim_succ, SS_MAX_eq, idx_add_one (h k (by omega))]
    by_cases hk : n = k
    · subst hk; omega
    · have := ih (fun n hn => h n (by omega)) n (by omega)
      omega

theorem fill_dim_attained (row : List Nat) (k : Nat) (hk : 0 < k)
    (h : ∀ n < k, row.getD n 0 + 1 < IDX_MOD) :
    ∃ n < k, fill_dim row k = row.getD n 0 + 1 := by
  induction k with
  | zero => omega
  | succ k ih =>
    rw [fill_dim_succ, SS_MAX_eq, idx_add_one (h k (by omega))]
    by_cases hle : fill_dim row k ≤ row.getD k 0 + 1
    · exact ⟨k, by omega, by omega⟩
    · have hk0 : 0 < k := by
        rcases Nat.eq_zero_or_pos k with h0 | h0
        · subst h0; simp [fill_dim] at hle
        · exact h0
      obtain ⟨n, hn, he⟩ := ih hk0 (fun n hn => h n (by omega))
      exact ⟨n, by omega, by omega⟩

theorem nused_succ (row : List Nat) (n : Nat) :
    nused row (n + 1) = nused row n + (if n ∈ row then 1 else 0) := by
  unfold nused
  rw [List.range_succ, List.filter_append, List.length_append]
  by_cases h : n ∈ row <;> simp [h]

theorem nused_mono (row : List Nat) {a b : Nat} (h : a ≤ b) : nused row a ≤ nused row b := by
  induction b with
  | zero => have : a = 0 := by omega
            subst this; exact Nat.le_refl _
  | succ b ih =>
    rcases Nat.lt_or_ge a (b + 1) with h1 | h1
    · have := ih (by omega)
      rw [nused_succ]; omega
    · have : a = b + 1 := by omega
      subst this; exact Nat.le_refl _

theorem nused_le (row : List Nat) (n : Nat) : nused row n ≤ n := by
  induction n with
  | zero => simp [nused]
  | succ n ih => rw [nused_succ]; split <;> omega

theorem nused_congr {l l2 : List Nat} (h : ∀ i, i ∈ l ↔ i ∈ l2) (n : Nat) :
    nused l n = nused l2 n := by
  induction n with
  | zero => simp [nused]
  | succ n ih => rw [nused_succ, nused_succ, ih]; simp [h]

theorem nused_cons_old {l : List Nat} {g : Nat} (h : g ∈ l) (n : Nat) :
    nused (g :: l) n = nused l n := by
  apply nused_congr
  intro i; constructor
  · intro hi
    rcases List.mem_cons.1 hi with h1 | h1
    · subst h1; exact h
    · exact h1
  · intro hi; exact List.mem_cons_of_mem _ hi

theorem nused_cons_new {l : List Nat} {g : Nat} (h : g ∉ l) (n : Nat) :
    nused (g :: l) n = nused l n + (if g < n then 1 else 0) := by
  induction n with
  | zero => simp [nused]
  | succ n ih =>
    rw [nused_succ, nused_succ, ih]
    by_cases h1 : n = g
    · subst h1; simp [h]
    · have h2 : (n ∈ g :: l) ↔ n ∈ l := by simp [h1]
      by_cases h3 : g < n
      · have : g < n + 1 := by omega
        simp [h2, h3, this]; omega
      · have : ¬ g < n + 1 := by omega
        simp [h2, h3, this]

theorem nused_of_bounded {row : List Nat} {n k : Nat} (h : ∀ g ∈ row, g < n) (hk : n ≤ k) :
    nused row k = nused row n := by
  induction k with
  | zero => have : n = 0 := by omega
            subst this; rfl
  | succ k ih =>
    rcases Nat.lt_or_ge n (k + 1) with h1 | h1
    · rw [nused_succ, ih (by omega)]
      have : k ∉ row := fun hc => by have := h k hc; omega
      simp [this]
    · have : n = k + 1 := by omega
      subst this; rfl

theorem nused_eq_dedup {row : List Nat} {n : Nat} (h : ∀ g ∈ row, g < n) :
    nused row n = row.dedup.length := by
  unfold nused
  rw [← List.card_toFinset, ← List.toFinset_card_of_nodup
    (List.Nodup.filter _ (List.nodup_range n))]
  congr 1
  ext i
  simp only [List.mem_toFinset, List.mem_filter, List.mem_range, decide_eq_true_eq]
  constructor
  · intro hi; exact hi.2
  · intro hi; exact ⟨h i hi, hi⟩

theorem slice_list_length (row : List Nat) (dim : Nat) :
    (slice_list row dim).length = nused row dim := rfl

theorem mem_slice_list {row : List Nat} {dim i : Nat} :
    i ∈ slice_list row dim ↔ i < dim ∧ i ∈ row := by
  simp [slice_list]

theorem slice_list_sorted (row : List Nat) (dim : Nat) :
    (slice_list row dim).Pairwise (· < ·) := by
  unfold slice_list
  exact List.Pairwise.filter _ (List.pairwise_lt_range dim)

theorem slice_list_getD_rank {row : List Nat} {dim g : Nat} (hg : g ∈ row) (hd : g < dim) :
    (slice_list row dim).getD (nused row g) 0 = g := by
  obtain ⟨k, rfl⟩ : ∃ k, dim = g + (k + 1) := ⟨dim - g - 1, by omega⟩
  unfold slice_list nused
  rw [List.range_add, List.filter_append, List.range_succ_eq_map, List.map_cons,
    List.filter_cons]
  simp only [hg, decide_True, Nat.add_zero, if_true, List.getD_eq_getElem?_getD]
  rw [List.getElem?_append_right (Nat.le_refl _)]
  simp

theorem count_slices_spec (rest : List Nat) :
    ∀ (seen scounts : List Nat) (dsz : Nat),
      (∀ g ∈ rest, g < scounts.length) →
      (∀ i < scounts.length, scounts.getD i 0 = if i ∈ seen then 1 else 0) →
      dsz = nused seen scounts.length →
      ∃ sc, count_slices rest scounts dsz = some (sc, nused (rest ++ seen) scounts.length) ∧
        sc.length = scounts.length ∧
        ∀ i < scounts.length, sc.getD i 0 = if i ∈ rest ++ seen then 1 else 0 := by
  induction rest with
  | nil =>
    intro seen scounts dsz _ hsc hd
    exact ⟨scounts, by simp [count_slices, hd], rfl, by simpa using hsc⟩
  | cons g rest ih =>
    intro seen scounts dsz hb hsc hd
    have hg : g < scounts.length := hb g (List.mem_cons_self _ _)
    have hb2 : ∀ x ∈ rest, x < scounts.length := fun x hx => hb x (List.mem_cons_of_mem _ hx)
    have hmem : ∀ i, i ∈ rest ++ g :: seen ↔ i ∈ g :: rest ++ seen := by
      intro i; simp only [List.mem_append, List.mem_cons]; tauto
    unfold count_slices
    rw [if_pos hg]
    by_cases hs : g ∈ seen
    · have h1 : scounts.getD g 0 ≠ 0 := by rw [hsc g hg]; simp [hs]
      rw [if_neg h1]
      obtain ⟨sc, h2, h3, h4⟩ := ih (g :: seen) scounts dsz hb2
        (by intro i hi
            rw [hsc i hi]
            by_cases hig : i = g
            · subst hig; simp [hs]
            · simp [hig])
        (by rw [hd, nused_cons_old hs])
      refine ⟨sc, ?_, h3, ?_⟩
      · rw [h2, nused_congr hmem]
      · intro i hi; rw [h4 i hi]; simp only [hmem]
    · have h1 : scounts.getD g 0 = 0 := by rw [hsc g hg]; simp [hs]
      rw [if_pos h1]
      obtain ⟨sc, h2, h3, h4⟩ := ih (g :: seen) (scounts.set g 1) (dsz + 1)
        (by simpa using hb2)
        (by intro i hi
            rw [List.length_set] at hi
            rw [getD_set_eq, hsc i hi]
            by_cases hig : g = i
            · subst hig; simp [hg]
            · have : ¬ i = g := fun h => hig h.symm
              simp [hig, this])
        (by rw [List.length_set, nused_cons_new hs, hd]; simp [hg])
      rw [List.length_set] at h2 h3 h4
      refine ⟨sc, ?_, h3, ?_⟩
      · rw [h2, nused_congr hmem]
      · intro i hi; rw [h4 i hi]; simp only [hmem]

theorem getD_replicate_zero (n i : Nat) : (List.replicate n 0).getD i 0 = 0 := by
  simp [List.getD_eq_getElem?_getD, List.getElem?_replicate]
  split <;> simp

/-- The counting loop `count_slices` started on a cleared `scounts`. -/
theorem count_slices_init (row : List Nat) (maxdim : Nat) (hb : ∀ g ∈ row, g < maxdim) :
    ∃ sc, count_slices row (List.replicate maxdim 0) 0 = some (sc, nused row maxdim) ∧
      sc.length = maxdim ∧ ∀ i < maxdim, sc.getD i 0 = if i ∈ row then 1 else 0 := by
  obtain ⟨sc, h1, h2, h3⟩ := count_slices_spec row [] (List.replicate maxdim 0) 0
    (by simpa using hb) (by intro i _; simp [getD_replicate_zero])
    (by simp [nused])
  simp only [List.length_replicate, List.append_nil] at h1 h2 h3
  exact ⟨sc, h1, h2, h3⟩

theorem count_slices_none (rest : List Nat) :
    ∀ (scounts : List Nat) (dsz : Nat), (∃ g ∈ rest, scounts.length ≤ g) →
      count_slices rest scounts dsz = none := by
  induction rest with
  | nil => intro _ _ h; obtain ⟨g, hg, _⟩ := h; cases hg
  | cons a rest ih =>
    intro scounts dsz h
    unfold count_slices
    by_cases ha : a < scounts.length
    · have h2 : ∃ g ∈ rest, scounts.length ≤ g := by
        obtain ⟨g, hg, hl⟩ := h
        rcases List.mem_cons.1 hg with h1 | h1
        · subst h1; omega
        · exact ⟨g, h1, hl⟩
      rw [if_pos ha]
      split
      · exact ih _ _ (by simpa using h2)
      · exact ih _ _ h2
    · rw [if_neg ha]

/-- State of `scan_slices` after the first `k` slots. -/
theorem scan_slices_spec (row sc0 : List Nat)
    (h0 : ∀ i < sc0.length, sc0.getD i 0 = if i ∈ row then 1 else 0) (k : Nat)
    (hk : k ≤ sc0.length) :
    (scan_slices k sc0).2 = nused row k ∧ (scan_slices k sc0).1.length = sc0.length ∧
    ∀ i < sc0.length, (scan_slices k sc0).1.getD i 0 =
      if i < k then (if i ∈ row then nused row i else 0) else sc0.getD i 0 := by
  induction k with
  | zero => simp [scan_slices, nused]
  | succ k ih =>
    obtain ⟨h1, h2, h3⟩ := ih (by omega)
    have hstep : scan_slices (k + 1) sc0 =
        if (scan_slices k sc0).1.getD k 0 = 1 then
          ((scan_slices k sc0).1.set k (scan_slices k sc0).2, (scan_slices k sc0).2 + 1)
        else scan_slices k sc0 := by
      simp [scan_slices, List.range_succ, List.foldl_append]
    have hrd : (scan_slices k sc0).1.getD k 0 = if k ∈ row then 1 else 0 := by
      rw [h3 k (by omega), if_neg (Nat.lt_irrefl k), h0 k (by omega)]
    rw [hstep, nused_succ]
    by_cases hm : k ∈ row
    · rw [if_pos (by rw [hrd]; simp [hm])]
      simp only [hm, if_true]
      refine ⟨by rw [h1], by rw [List.length_set, h2], ?_⟩
      intro i hi
      rw [getD_set_eq, h2, h3 i hi, h1]
      by_cases hik : k = i
      · subst hik; simp [hm]; omega
      · by_cases hlt : i < k
        · have : i < k + 1 := by omega
          simp [hik, hlt, this]
        · have : ¬ i < k + 1 := by omega
          simp [hik, hlt, this]
    · rw [if_neg (by rw [hrd]; simp [hm])]
      simp only [hm, if_false]
      refine ⟨by simp [h1], h2, ?_⟩
      intro i hi
      rw [h3 i hi]
      by_cases hik : i = k
      · subst hik
        have := h0 i hi
        simp only [hm, if_false] at this
        rw [if_neg (Nat.lt_irrefl i), if_pos (Nat.lt_succ_self i), if_neg hm, this]
      · by_cases hlt : i < k
        · have : i < k + 1 := by omega
          simp [hlt, this]
        · have : ¬ i < k + 1 := by omega
          simp [hlt, this]

theorem relabel_spec (sc : List Nat) (dsz : Nat) (rk : Nat → Nat) (rest : List Nat) :
    ∀ imap : List (Option Nat),
      (∀ g ∈ rest, g < sc.length ∧ sc.getD g 0 = rk g ∧ rk g < dsz) →
      relabel sc dsz rest imap =
        some (rest.map rk, rest.foldl (fun im g => im.set (rk g) (some g)) imap) := by
  induction rest with
  | nil => intro imap _; rfl
  | cons g rest ih =>
    intro imap h
    obtain ⟨h1, h2, h3⟩ := h g (List.mem_cons_self _ _)
    unfold relabel
    rw [if_pos h1, h2, if_pos h3, ih _ (fun x hx => h x (List.mem_cons_of_mem _ hx))]
    rfl

theorem foldl_imap_length (rk : Nat → Nat) (rest : List Nat) :
    ∀ imap : List (Option Nat),
      (rest.foldl (fun im g => im.set (rk g) (some g)) imap).length = imap.length := by
  induction rest with
  | nil => intro imap; rfl
  | cons g rest ih => intro imap; simp [ih]

theorem foldl_imap_untouched (rk : Nat → Nat) (r : Nat) (rest : List Nat) :
    ∀ imap : List (Option Nat), (∀ g ∈ rest, rk g ≠ r) →
      (rest.foldl (fun im g => im.set (rk g) (some g)) imap).getD r none = imap.getD r none := by
  induction rest with
  | nil => intro imap _; rfl
  | cons g rest ih =>
    intro imap h
    rw [List.foldl_cons, ih _ (fun x hx => h x (List.mem_cons_of_mem _ hx)), getD_set_eq]
    have := h g (List.mem_cons_self _ _)
    simp [this]

theorem foldl_imap_hit (rk : Nat → Nat) (rest : List Nat) :
    ∀ imap : List (Option Nat),
      (∀ a ∈ rest, ∀ b ∈ rest, rk a = rk b → a = b) →
      ∀ g ∈ rest, rk g < imap.length →
      (rest.foldl (fun im g => im.set (rk g) (some g)) imap).getD (rk g) none = some g := by
  induction rest with
  | nil => intro _ _ g hg; cases hg
  | cons a rest ih =>
    intro imap hinj g hg hlt
    rw [List.foldl_cons]
    by_cases hgr : g ∈ rest
    · exact ih _ (fun x hx y hy => hinj x (List.mem_cons_of_mem _ hx) y (List.mem_cons_of_mem _ hy))
        g hgr (by simpa using hlt)
    · have hga : g = a := by
        rcases List.mem_cons.1 hg with h | h
        · exact h
        · exact absurd h hgr
      subst hga
      rw [foldl_imap_untouched, getD_set_eq]
      · simp [hlt]
      · intro x hx hrk
        have := hinj x (List.mem_cons_of_mem _ hx) g (List.mem_cons_self _ _) hrk
        subst this
        exact hgr hx

theorem nused_lt_of_mem {row : List Nat} {g dim : Nat} (hg : g ∈ row) (hd : g < dim) :
    nused row g < nused row dim := by
  have h1 := nused_succ row g
  have h2 := nused_mono row (show g + 1 ≤ dim by omega)
  simp only [hg, if_true] at h1
  omega

theorem nused_inj {row : List Nat} {dim a b : Nat} (ha : a ∈ row) (hb : b ∈ row)
    (had : a < dim) (hbd : b < dim) (h : nused row a = nused row b) : a = b := by
  rw [← slice_list_getD_rank ha had, ← slice_list_getD_rank hb hbd, h]

/-- The local-to-global map written by the relabelling loop. -/
theorem foldl_imap_eq (row : List Nat) (dim : Nat) (hb : ∀ g ∈ row, g < dim) :
    row.foldl (fun im g => im.set (nused row g) (some g)) (List.replicate (nused row dim) none)
      = (slice_list row dim).map some := by
  apply List.ext_getElem
  · rw [foldl_imap_length, List.length_replicate, List.length_map, slice_list_length]
  · intro r h1 h2
    rw [List.length_map, slice_list_length] at h2
    have hr : r < (slice_list row dim).length := by rw [slice_list_length]; exact h2
    have hmem := List.getElem_mem hr
    obtain ⟨hgd, hgr⟩ := mem_slice_list.1 hmem
    have hrank := slice_list_getD_rank hgr hgd
    have hlt := nused_lt_of_mem hgr hgd
    have hlt2 : nused row ((slice_list row dim)[r]) < (slice_list row dim).length := by
      rw [slice_list_length]; exact hlt
    rw [List.getD_eq_getElem _ _ hlt2] at hrank
    have hnd : (slice_list row dim).Nodup := (slice_list_sorted row dim).imp (fun h => Nat.ne_of_lt h)
    have hidx : nused row ((slice_list row dim)[r]) = r := (hnd.getElem_inj_iff).1 hrank
    have hit := foldl_imap_hit (nused row) row (List.replicate (nused row dim) none)
      (fun a ha b hb2 hab => nused_inj ha hb2 (hb a ha) (hb b hb2) hab)
      _ hgr (by simpa using hlt)
    rw [hidx, List.getD_eq_getElem _ _ h1] at hit
    rw [hit, List.getElem_map]

theorem remove_empty_mode_eq (maxdim : Nat) (st : sptensor × Nat) (m : Nat)
    (hb : ∀ g ∈ (st.1.ind.getD m []).take st.1.nnz, g < st.1.dims.getD m 0)
    (hd : st.1.dims.getD m 0 ≤ maxdim) :
    remove_empty_mode maxdim st m = some (compact_mode st m) := by
  have hb2 : ∀ g ∈ (st.1.ind.getD m []).take st.1.nnz, g < maxdim :=
    fun g hg => Nat.lt_of_lt_of_le (hb g hg) hd
  obtain ⟨sc, h1, h2, h3⟩ := count_slices_init _ maxdim hb2
  have hcnt : nused ((st.1.ind.getD m []).take st.1.nnz) maxdim
      = ((st.1.ind.getD m []).take st.1.nnz).dedup.length := nused_eq_dedup hb2
  have hcnt2 : nused ((st.1.ind.getD m []).take st.1.nnz) (st.1.dims.getD m 0)
      = ((st.1.ind.getD m []).take st.1.nnz).dedup.length := nused_eq_dedup hb
  rw [hcnt] at h1
  unfold remove_empty_mode compact_mode
  rw [h1]
  simp only
  by_cases heq : ((st.1.ind.getD m []).take st.1.nnz).dedup.length = st.1.dims.getD m 0
  · rw [if_pos heq, if_pos heq]
  · rw [if_neg heq, if_neg heq]
    obtain ⟨_, s2, s3⟩ := scan_slices_spec _ sc (by rw [h2]; exact h3) (st.1.dims.getD m 0)
      (by rw [h2]; exact hd)
    rw [relabel_spec _ _ (nused ((st.1.ind.getD m []).take st.1.nnz)) _ _
      (by
        intro g hg
        have hgd := hb g hg
        refine ⟨by rw [s2, h2]; exact hb2 g hg, ?_, ?_⟩
        · rw [s3 g (by rw [h2]; exact hb2 g hg), if_pos hgd, if_pos hg]
        · rw [← hcnt2]; exact nused_lt_of_mem hg hgd)]
    simp only
    rw [← hcnt2, foldl_imap_eq _ _ hb]

theorem compact_upto_succ (tt : sptensor) (k : Nat) :
    compact_upto tt (k + 1) = compact_mode (compact_upto tt k) k := by
  simp [compact_upto, List.range_succ, List.foldl_append]

theorem mem_take_lt {tt : sptensor} (hr : in_range tt) {m : Nat} (hm : m < tt.nmodes) :
    ∀ g ∈ (tt.ind.getD m []).take tt.nnz, g < tt.dims.getD m 0 := by
  intro g hg
  obtain ⟨i, hi, rfl⟩ := List.mem_iff_getElem.1 hg
  rw [List.length_take] at hi
  have h := hr m hm i (by omega)
  rw [List.getElem_take]
  unfold rd at h
  rw [List.getD_eq_getElem _ _ (by omega)] at h
  exact h

theorem max_dim_ge_aux (dims : List Nat) (k : Nat) :
    ∀ m < k, dims.getD m 0 ≤ (List.range k).foldl
      (fun maxdim m => if dims.getD m 0 > maxdim then dims.getD m 0 else maxdim) 0 := by
  induction k with
  | zero => intro m hm; omega
  | succ k ih =>
    intro m hm
    rw [List.range_succ, List.foldl_append, List.foldl_cons, List.foldl_nil]
    by_cases hmk : m = k
    · subst hmk; split <;> omega
    · have := ih m (by omega)
      split <;> omega

theorem max_dim_ge (tt : sptensor) {m : Nat} (hm : m < tt.nmodes) :
    tt.dims.getD m 0 ≤ max_dim tt :=
  max_dim_ge_aux tt.dims tt.nmodes m hm

/-- What one pass of the mode loop leaves alone. -/
theorem compact_mode_frame (st : sptensor × Nat) (m : Nat) :
    (compact_mode st m).1.nmodes = st.1.nmodes ∧ (compact_mode st m).1.nnz = st.1.nnz ∧
    (compact_mode st m).1.vals = st.1.vals ∧ (compact_mode st m).1.ttype = st.1.ttype ∧
    (compact_mode st m).1.tiled = st.1.tiled ∧
    (compact_mode st m).1.dims.length = st.1.dims.length ∧
    (compact_mode st m).1.ind.length = st.1.ind.length ∧
    (compact_mode st m).1.indmap.length = st.1.indmap.length ∧
    ∀ j, j ≠ m → (compact_mode st m).1.dims.getD j 0 = st.1.dims.getD j 0 ∧
      (compact_mode st m).1.ind.getD j [] = st.1.ind.getD j [] ∧
      (compact_mode st m).1.indmap.getD j none = st.1.indmap.getD j none := by
  unfold compact_mode
  split
  · refine ⟨rfl, rfl, rfl, rfl, rfl, rfl, rfl, by simp, ?_⟩
    intro j hj
    refine ⟨rfl, rfl, ?_⟩
    simp only [getD_set_eq]
    rw [if_neg (fun h => hj h.1.symm)]
  · refine ⟨rfl, rfl, rfl, rfl, rfl, by simp, by simp, by simp, ?_⟩
    intro j hj
    simp only [getD_set_eq]
    rw [if_neg (fun h => hj h.1.symm), if_neg (fun h => hj h.1.symm),
      if_neg (fun h => hj h.1.symm)]
    exact ⟨rfl, rfl, rfl⟩

/-- What one pass of the mode loop does to its own mode. -/
theorem compact_mode_own (st : sptensor × Nat) (m : Nat) (h1 : m < st.1.dims.length)
    (h2 : m < st.1.ind.length) (h3 : m < st.1.indmap.length) :
    (compact_mode st m).1.dims.getD m 0 = ((st.1.ind.getD m []).take st.1.nnz).dedup.length ∧
    ((((st.1.ind.getD m []).take st.1.nnz).dedup.length = st.1.dims.getD m 0 ∧
        (compact_mode st m).1.ind.getD m [] = st.1.ind.getD m [] ∧
        (compact_mode st m).1.indmap.getD m (some []) = none) ∨
     (((st.1.ind.getD m []).take st.1.nnz).dedup.length ≠ st.1.dims.getD m 0 ∧
        (compact_mode st m).1.ind.getD m [] =
          ((st.1.ind.getD m []).take st.1.nnz).map (nused ((st.1.ind.getD m []).take st.1.nnz))
            ++ (st.1.ind.getD m []).drop st.1.nnz ∧
        (compact_mode st m).1.indmap.getD m none =
          some ((slice_list ((st.1.ind.getD m []).take st.1.nnz) (st.1.dims.getD m 0)).map some))) ∧
    (∀ S, st.2 = S % IDX_MOD →
      ((st.1.ind.getD m []).take st.1.nnz).dedup.length ≤ st.1.dims.getD m 0 →
      (compact_mode st m).2 = (S + (st.1.dims.getD m 0 -
        ((st.1.ind.getD m []).take st.1.nnz).dedup.length)) % IDX_MOD) := by
  unfold compact_mode
  split
  next heq =>
    refine ⟨heq.symm, Or.inl ⟨heq, rfl, ?_⟩, ?_⟩
    · simp [getD_set_eq, h3]
    · intro S hS _
      simp only [heq, Nat.sub_self, Nat.add_zero]
      exact hS
  next hne =>
    refine ⟨?_, Or.inr ⟨hne, ?_, ?_⟩, ?_⟩
    rotate_left 3
    · intro S hS hle
      simp only [idx_add, idx_sub, hS]
      have h4 : st.1.dims.getD m 0 + IDX_MOD -
          ((st.1.ind.getD m []).take st.1.nnz).dedup.length
          = (st.1.dims.getD m 0 - ((st.1.ind.getD m []).take st.1.nnz).dedup.length)
            + IDX_MOD := by omega
      rw [h4, Nat.add_mod_right, ← Nat.add_mod]
    · simp [getD_set_eq, h1]
    · simp [getD_set_eq, h2]
    · simp [getD_set_eq, h3]

/-- What the first `k` passes of the mode loop leave alone. -/
theorem compact_upto_frame (tt : sptensor) (k : Nat) :
    (compact_upto tt k).1.nmodes = tt.nmodes ∧ (compact_upto tt k).1.nnz = tt.nnz ∧
    (compact_upto tt k).1.vals = tt.vals ∧ (compact_upto tt k).1.ttype = tt.ttype ∧
    (compact_upto tt k).1.tiled = tt.tiled ∧
    (compact_upto tt k).1.dims.length = tt.dims.length ∧
    (compact_upto tt k).1.ind.length = tt.ind.length ∧
    (compact_upto tt k).1.indmap.length = tt.indmap.length ∧
    ∀ j, k ≤ j → (compact_upto tt k).1.dims.getD j 0 = tt.dims.getD j 0 ∧
      (compact_upto tt k).1.ind.getD j [] = tt.ind.getD j [] ∧
      (compact_upto tt k).1.indmap.getD j none = tt.indmap.getD j none := by
  induction k with
  | zero => simp [compact_upto]
  | succ k ih =>
    obtain ⟨a1, a2, a3, a4, a5, a6, a7, a8, a9⟩ := ih
    obtain ⟨b1, b2, b3, b4, b5, b6, b7, b8, b9⟩ := compact_mode_frame (compact_upto tt k) k
    rw [compact_upto_succ]
    refine ⟨b1.trans a1, b2.trans a2, b3.trans a3, b4.trans a4, b5.trans a5, b6.trans a6,
      b7.trans a7, b8.trans a8, ?_⟩
    intro j hj
    obtain ⟨c1, c2, c3⟩ := b9 j (by omega)
    obtain ⟨d1, d2, d3⟩ := a9 j (by omega)
    exact ⟨c1.trans d1, c2.trans d2, c3.trans d3⟩

/-- The modes already handled keep their state in the later passes. -/
theorem compact_upto_stable (tt : sptensor) (m : Nat) (k : Nat) (hk : m < k) :
    (compact_upto tt k).1.dims.getD m 0 = (compact_upto tt (m + 1)).1.dims.getD m 0 ∧
    (compact_upto tt k).1.ind.getD m [] = (compact_upto tt (m + 1)).1.ind.getD m [] ∧
    (compact_upto tt k).1.indmap.getD m none = (compact_upto tt (m + 1)).1.indmap.getD m none := by
  induction k with
  | zero => omega
  | succ k ih =>
    by_cases hmk : m = k
    · subst hmk; exact ⟨rfl, rfl, rfl⟩
    · obtain ⟨a1, a2, a3⟩ := ih (by omega)
      obtain ⟨_, _, _, _, _, _, _, _, b9⟩ := compact_mode_frame (compact_upto tt k) k
      obtain ⟨c1, c2, c3⟩ := b9 m hmk
      rw [compact_upto_succ]
      exact ⟨c1.trans a1, c2.trans a2, c3.trans a3⟩

/-- The count `nremoved` after the first `k` passes. -/
theorem compact_upto_removed (tt : sptensor) (hr : in_range tt) (k : Nat) (hk : k ≤ tt.nmodes) :
    (compact_upto tt k).2 =
      ((List.range k).map (fun m => tt.dims.getD m 0 - distinct_in tt m)).sum % IDX_MOD := by
  induction k with
  | zero => simp [compact_upto, IDX_MOD]
  | succ k ih =>
    obtain ⟨a1, a2, a3, a4, a5, a6, a7, a8, a9⟩ := compact_upto_frame tt k
    obtain ⟨d1, d2, d3⟩ := a9 k (Nat.le_refl k)
    have hle : distinct_in tt k ≤ tt.dims.getD k 0 := by
      unfold distinct_in
      rw [← nused_eq_dedup (mem_take_lt hr (show k < tt.nmodes by omega))]
      exact nused_le _ _
    rw [compact_upto_succ, List.range_succ, List.map_append, List.sum_append]
    unfold compact_mode
    simp only [d1, d2, a2, List.map_cons, List.map_nil, List.sum_cons, List.sum_nil, Nat.add_zero]
    have ih2 := ih (by omega)
    unfold distinct_in at hle ih2 ⊢
    split
    next heq =>
      simp only [heq, Nat.sub_self, Nat.add_zero]
      exact ih2
    next hne =>
      simp only [idx_add, idx_sub, ih2]
      have h4 : tt.dims.getD k 0 + IDX_MOD - ((tt.ind.getD k []).take tt.nnz).dedup.length
          = (tt.dims.getD k 0 - ((tt.ind.getD k []).take tt.nnz).dedup.length) + IDX_MOD := by
        omega
      rw [h4, Nat.add_mod_right, ← Nat.add_mod]

/-- On a well-shaped tensor that satisfies the index-range invariant, the mode loop of
`tt_remove_empty` runs to completion and computes the closed form. -/
theorem remove_empty_loop (tt : sptensor) (hr : in_range tt) (k : Nat) (hk : k ≤ tt.nmodes) :
    (List.range k).foldlM (remove_empty_mode (max_dim tt)) (tt, 0) = some (compact_upto tt k) := by
  induction k with
  | zero => rfl
  | succ k ih =>
    obtain ⟨a1, a2, a3, a4, a5, a6, a7, a8, a9⟩ := compact_upto_frame tt k
    obtain ⟨d1, d2, d3⟩ := a9 k (Nat.le_refl k)
    rw [List.range_succ, List.foldlM_append, ih (by omega), compact_upto_succ]
    simp only [List.foldlM_cons, List.foldlM_nil, Option.some_bind, Option.bind_eq_bind]
    rw [remove_empty_mode_eq]
    · rfl
    · rw [d1, d2, a2]; exact mem_take_lt hr (by omega)
    · rw [d1]; exact max_dim_ge tt (by omega)

theorem tt_remove_empty_eq (tt : sptensor) (hr : in_range tt) :
    tt_remove_empty tt = some (compact_upto tt tt.nmodes) :=
  remove_empty_loop tt hr tt.nmodes (Nat.le_refl _)

theorem getElem?_of_getD {α : Type} {l : List α} {m : Nat} {d x : α} (h : m < l.length)
    (hx : l.getD m d = x) : l[m]? = some x := by
  rw [List.getD_eq_getElem _ _ h] at hx
  rw [List.getElem?_eq_getElem h, hx]

theorem getD_of_getElem? {α : Type} {l : List α} {m : Nat} {x : α} (d : α)
    (hx : l[m]? = some x) : l.getD m d = x := by
  rw [List.getD_eq_getElem?_getD, hx]; rfl

/-- The state of mode `m` after `tt_remove_empty`, in terms of the tensor before. -/
theorem compact_upto_mode (tt : sptensor) (hs : shape_ok tt) (m : Nat) (hm : m < tt.nmodes) :
    (compact_upto tt tt.nmodes).1.dims.getD m 0 = distinct_in tt m ∧
    ((distinct_in tt m = tt.dims.getD m 0 ∧
        (compact_upto tt tt.nmodes).1.ind.getD m [] = tt.ind.getD m [] ∧
        (compact_upto tt tt.nmodes).1.indmap[m]? = some none) ∨
     (distinct_in tt m ≠ tt.dims.getD m 0 ∧
        (compact_upto tt tt.nmodes).1.ind.getD m [] =
          ((tt.ind.getD m []).take tt.nnz).map (nused ((tt.ind.getD m []).take tt.nnz))
            ++ (tt.ind.getD m []).drop tt.nnz ∧
        (compact_upto tt tt.nmodes).1.indmap[m]? =
          some (some ((slice_list ((tt.ind.getD m []).take tt.nnz) (tt.dims.getD m 0)).map some)))) := by
  obtain ⟨s1, s2, s3, s4, s5⟩ := hs
  obtain ⟨a1, a2, a3, a4, a5, a6, a7, a8, a9⟩ := compact_upto_frame tt m
  obtain ⟨d1, d2, d3⟩ := a9 m (Nat.le_refl m)
  obtain ⟨e1, e2, e3⟩ := compact_upto_stable tt m tt.nmodes hm
  obtain ⟨f1, f2, _⟩ := compact_mode_own (compact_upto tt m) m (by omega) (by omega) (by omega)
  rw [← compact_upto_succ] at f1 f2
  simp only [d1, d2, a2] at f1 f2
  obtain ⟨_, _, _, _, _, _, _, b8, _⟩ := compact_upto_frame tt tt.nmodes
  obtain ⟨_, _, _, _, _, _, _, c8, _⟩ := compact_upto_frame tt (m + 1)
  have h1 : m < (compact_upto tt tt.nmodes).1.indmap.length := by omega
  have h2 : m < (compact_upto tt (m + 1)).1.indmap.length := by omega
  have e4 : (compact_upto tt tt.nmodes).1.indmap[m]? = (compact_upto tt (m + 1)).1.indmap[m]? := by
    rw [List.getD_eq_getElem _ _ h1, List.getD_eq_getElem _ _ h2] at e3
    rw [List.getElem?_eq_getElem h1, List.getElem?_eq_getElem h2, e3]
  unfold distinct_in
  rw [e1, e2, e4]
  refine ⟨f1, ?_⟩
  rcases f2 with ⟨g1, g2, g3⟩ | ⟨g1, g2, g3⟩
  · exact Or.inl ⟨g1, g2, getElem?_of_getD h2 g3⟩
  · exact Or.inr ⟨g1, g2, getElem?_of_getD h2 g3⟩

theorem row_length {tt : sptensor} (hs : shape_ok tt) {m : Nat} (hm : m < tt.nmodes) :
    tt.nnz ≤ (tt.ind.getD m []).length := by
  obtain ⟨_, s2, s3, _, _⟩ := hs
  have h : m < tt.ind.length := by omega
  rw [List.getD_eq_getElem _ _ h]
  exact s3 _ (List.getElem_mem h)

theorem take_eq_map_rd {tt : sptensor} (hs : shape_ok tt) {m : Nat} (hm : m < tt.nmodes) :
    (tt.ind.getD m []).take tt.nnz = (List.range tt.nnz).map (fun n => rd tt.ind m n) := by
  have hl := row_length hs hm
  apply List.ext_getElem
  · rw [List.length_take, List.length_map, List.length_range]; omega
  · intro n h1 h2
    have h3 : n < tt.nnz := by
      rw [List.length_take] at h1; omega
    rw [List.getElem_take, List.getElem_map, List.getElem_range]
    unfold rd
    exact (List.getD_eq_getElem _ _ (by omega)).symm

theorem mem_take_iff {tt : sptensor} (hs : shape_ok tt) {m : Nat} (hm : m < tt.nmodes) (v : Nat) :
    v ∈ (tt.ind.getD m []).take tt.nnz ↔ ∃ n < tt.nnz, rd tt.ind m n = v := by
  rw [take_eq_map_rd hs hm, List.mem_map]
  constructor
  · rintro ⟨n, hn, rfl⟩; exact ⟨n, List.mem_range.1 hn, rfl⟩
  · rintro ⟨n, hn, rfl⟩; exact ⟨n, List.mem_range.2 hn, rfl⟩

theorem distinct_in_eq_card {tt : sptensor} (hs : shape_ok tt) {m : Nat} (hm : m < tt.nmodes) :
    distinct_in tt m = ((Finset.range tt.nnz).image (fun n => rd tt.ind m n)).card := by
  unfold distinct_in
  have himg : ((List.range tt.nnz).map (fun n => rd tt.ind m n)).toFinset
      = (Finset.range tt.nnz).image (fun n => rd tt.ind m n) := by
    ext x; simp
  rw [take_eq_map_rd hs hm, ← List.card_toFinset, himg]

theorem distinct_in_le {tt : sptensor} (hr : in_range tt) {m : Nat} (hm : m < tt.nmodes) :
    distinct_in tt m ≤ tt.dims.getD m 0 := by
  unfold distinct_in
  rw [← nused_eq_dedup (mem_take_lt hr hm)]
  exact nused_le _ _

theorem dedup_length_map_nused (row : List Nat) (dim : Nat) (hb : ∀ g ∈ row, g < dim) :
    (row.map (nused row)).dedup.length = row.dedup.length := by
  have himg : (row.map (nused row)).toFinset = row.toFinset.image (nused row) := by
    ext x; simp
  rw [← List.card_toFinset, ← List.card_toFinset, himg]
  apply Finset.card_image_of_injOn
  intro a ha b hb2 hab
  have ha2 : a ∈ row := by simpa using ha
  have hb3 : b ∈ row := by simpa using hb2
  exact nused_inj ha2 hb3 (hb a ha2) (hb b hb3) hab

/-- The relabelled index of entry `n`. -/
theorem rd_compacted {tt : sptensor} (hs : shape_ok tt) {m : Nat} (hm : m < tt.nmodes)
    {row2 : List Nat}
    (h : row2 = ((tt.ind.getD m []).take tt.nnz).map (nused ((tt.ind.getD m []).take tt.nnz))
      ++ (tt.ind.getD m []).drop tt.nnz) {n : Nat} (hn : n < tt.nnz) :
    row2.getD n 0 = nused ((tt.ind.getD m []).take tt.nnz) (rd tt.ind m n) := by
  have hl := row_length hs hm
  have h1 : n < (((tt.ind.getD m []).take tt.nnz).map
      (nused ((tt.ind.getD m []).take tt.nnz))).length := by
    rw [List.length_map, List.length_take]; omega
  have h2 : n < (tt.ind.getD m []).length := by omega
  rw [h, List.getD_eq_getElem?_getD, List.getElem?_append_left h1, List.getElem?_eq_getElem h1,
    List.getElem_map, List.getElem_take]
  unfold rd
  rw [List.getD_eq_getElem (tt.ind.getD m []) 0 h2]
  rfl

theorem length_compacted {tt : sptensor} (hs : shape_ok tt) {m : Nat} (hm : m < tt.nmodes) :
    (((tt.ind.getD m []).take tt.nnz).map (nused ((tt.ind.getD m []).take tt.nnz))
      ++ (tt.ind.getD m []).drop tt.nnz).length = (tt.ind.getD m []).length := by
  have hl := row_length hs hm
  rw [List.length_append, List.length_map, List.length_take, List.length_drop]
  omega

theorem take_compacted {tt : sptensor} (hs : shape_ok tt) {m : Nat} (hm : m < tt.nmodes) :
    (((tt.ind.getD m []).take tt.nnz).map (nused ((tt.ind.getD m []).take tt.nnz))
      ++ (tt.ind.getD m []).drop tt.nnz).take tt.nnz
      = ((tt.ind.getD m []).take tt.nnz).map (nused ((tt.ind.getD m []).take tt.nnz)) := by
  have hl := row_length hs hm
  rw [List.take_append_eq_append_take, List.take_of_length_le, List.length_map, List.length_take]
  · have : tt.nnz - min tt.nnz (tt.ind.getD m []).length = 0 := by omega
    rw [this]; simp
  · rw [List.length_map, List.length_take]; omega

/-- After `tt_remove_empty` the arrays keep their shape, every index is below the
extent of its mode, and every mode is dense. -/
theorem compact_upto_preserves (tt : sptensor) (hs : shape_ok tt) (hr : in_range tt) :
    shape_ok (compact_upto tt tt.nmodes).1 ∧ in_range (compact_upto tt tt.nmodes).1 ∧
    ∀ m < tt.nmodes, distinct_in (compact_upto tt tt.nmodes).1 m
      = (compact_upto tt tt.nmodes).1.dims.getD m 0 := by
  obtain ⟨a1, a2, a3, a4, a5, a6, a7, a8, a9⟩ := compact_upto_frame tt tt.nmodes
  have hs0 := hs
  obtain ⟨s1, s2, s3, s4, s5⟩ := hs
  refine ⟨⟨by omega, by omega, ?_, by rw [a2, a3]; exact s4, by omega⟩, ?_, ?_⟩
  · intro row hrow
    obtain ⟨m, hm, rfl⟩ := List.mem_iff_getElem.1 hrow
    have hm2 : m < tt.nmodes := by omega
    obtain ⟨_, h⟩ := compact_upto_mode tt hs0 m hm2
    rw [a2, ← List.getD_eq_getElem _ [] hm]
    rcases h with ⟨_, g2, _⟩ | ⟨_, g2, _⟩
    · rw [g2]; exact row_length hs0 hm2
    · rw [g2, length_compacted hs0 hm2]; exact row_length hs0 hm2
  · intro m hm n hn
    rw [a1] at hm
    rw [a2] at hn
    obtain ⟨h0, h⟩ := compact_upto_mode tt hs0 m hm
    rw [h0]
    rcases h with ⟨g1, g2, _⟩ | ⟨_, g2, _⟩
    · unfold rd; rw [g2, g1]; exact hr m hm n hn
    · unfold rd
      rw [rd_compacted hs0 hm g2 hn]
      unfold distinct_in
      rw [← nused_eq_dedup (mem_take_lt hr hm)]
      exact nused_lt_of_mem ((mem_take_iff hs0 hm _).2 ⟨n, hn, rfl⟩) (hr m hm n hn)
  · intro m hm
    obtain ⟨h0, h⟩ := compact_upto_mode tt hs0 m hm
    rw [h0]
    unfold distinct_in
    rw [a2]
    rcases h with ⟨_, g2, _⟩ | ⟨_, g2, _⟩
    · rw [g2]
    · rw [g2, take_compacted hs0 hm, dedup_length_map_nused _ _ (mem_take_lt hr hm)]

theorem lex_le_total (a : List Nat) : ∀ b, lex_le a b = true ∨ lex_le b a = true := by
  induction a with
  | nil => intro b; left; simp [lex_le]
  | cons x xs ih =>
    intro b
    cases b with
    | nil => right; simp [lex_le]
    | cons y ys =>
      simp only [lex_le]
      rcases Nat.lt_trichotomy x y with h | h | h
      · left; simp [h]
      · subst h; simp; exact ih ys
      · right; simp [h]

theorem lex_le_trans (a : List Nat) :
    ∀ b c, lex_le a b = true → lex_le b c = true → lex_le a c = true := by
  induction a with
  | nil => intro b c _ _; simp [lex_le]
  | cons x xs ih =>
    intro b c hab hbc
    cases b with
    | nil => simp [lex_le] at hab
    | cons y ys =>
      cases c with
      | nil => simp [lex_le] at hbc
      | cons z zs =>
        simp only [lex_le] at hab hbc ⊢
        by_cases h1 : x < y
        · by_cases h2 : y < z
          · have : x < z := by omega
            simp [this]
          · by_cases h3 : z < y
            · simp [h2, h3] at hbc
            · have : x < z := by omega
              simp [this]
        · by_cases h1b : y < x
          · simp [h1, h1b] at hab
          · have hxy : x = y := by omega
            subst hxy
            simp only [h1, if_false] at hab
            by_cases h2 : x < z
            · simp [h2]
            · by_cases h3 : z < x
              · simp [h2, h3] at hbc
              · simp only [h2, h3, if_false] at hbc ⊢
                exact ih ys zs hab hbc

theorem lex_le_antisymm (a : List Nat) :
    ∀ b, lex_le a b = true → lex_le b a = true → a = b := by
  induction a with
  | nil =>
    intro b _ hba
    cases b with
    | nil => rfl
    | cons y ys => simp [lex_le] at hba
  | cons x xs ih =>
    intro b hab hba
    cases b with
    | nil => simp [lex_le] at hab
    | cons y ys =>
      simp only [lex_le] at hab hba
      by_cases h1 : x < y
      · have : ¬ y < x := by omega
        simp [h1, this] at hba
      · by_cases h2 : y < x
        · simp [h1, h2] at hab
        · have hxy : x = y := by omega
          subst hxy
          simp only [h1, if_false] at hab hba
          rw [ih ys hab hba]

instance (nmodes mode : Nat) : IsTotal (List Nat × Int) (entry_le nmodes mode) :=
  ⟨fun a _ => lex_le_total (sort_key nmodes mode a.1) _⟩

instance (nmodes mode : Nat) : IsTrans (List Nat × Int) (entry_le nmodes mode) :=
  ⟨fun a _ _ hab hbc => lex_le_trans (sort_key nmodes mode a.1) _ _ hab hbc⟩

theorem sort_key_zero {nmodes : Nat} {c : List Nat} (hc : c.length = nmodes) :
    sort_key nmodes 0 c = c := by
  unfold sort_key
  apply List.ext_getElem
  · simp [hc]
  · intro n h1 h2
    have hn : n < nmodes := by simpa using h1
    rw [List.getElem_map, List.getElem_range, Nat.zero_add, Nat.mod_eq_of_lt hn,
      List.getD_eq_getElem _ _ h2]

theorem coord_length (tt : sptensor) (n : Nat) : (coord tt n).length = tt.nmodes := by
  simp [coord]

theorem entries_length (tt : sptensor) : (entries tt).length = tt.nnz := by
  simp [entries]



theorem sorted_entries_perm (tt : sptensor) : (sorted_entries tt).Perm (entries tt) :=
  List.perm_insertionSort _ _

theorem sorted_entries_length (tt : sptensor) : (sorted_entries tt).length = tt.nnz := by
  rw [(sorted_entries_perm tt).length_eq, entries_length]

theorem sorted_entries_coord_length (tt : sptensor) :
    ∀ e ∈ sorted_entries tt, e.1.length = tt.nmodes := by
  intro e he
  have := (sorted_entries_perm tt).mem_iff.1 he
  unfold entries at this
  obtain ⟨n, _, rfl⟩ := List.mem_map.1 this
  exact coord_length tt n

theorem sorted_entries_sorted (tt : sptensor) :
    (sorted_entries tt).Pairwise (fun a b => lex_le a.1 b.1 = true) := by
  have h : (sorted_entries tt).Pairwise (entry_le tt.nmodes 0) :=
    List.sorted_insertionSort _ _
  refine List.Pairwise.imp_of_mem ?_ h
  intro a b ha hb hab
  unfold entry_le at hab
  rwa [sort_key_zero (sorted_entries_coord_length tt a ha),
    sort_key_zero (sorted_entries_coord_length tt b hb)] at hab

theorem tt_sort_row (tt : sptensor) (hl : tt.ind.length = tt.nmodes) {m : Nat}
    (hm : m < tt.nmodes) :
    (tt_sort tt 0).ind.getD m [] =
      (sorted_entries tt).map (fun e => e.1.getD m 0) ++ (tt.ind.getD m []).drop tt.nnz := by
  have h1 : m < ((List.range tt.ind.length).map (fun m =>
      if m < tt.nmodes then
        ((entries tt).insertionSort (entry_le tt.nmodes 0)).map (fun e => e.1.getD m 0)
          ++ (tt.ind.getD m []).drop tt.nnz
      else tt.ind.getD m [])).length := by
    rw [List.length_map, List.length_range, hl]; exact hm
  unfold tt_sort
  simp only
  rw [List.getD_eq_getElem _ _ h1, List.getElem_map, List.getElem_range, if_pos hm]
  rfl

theorem tt_sort_frame (tt : sptensor) :
    (tt_sort tt 0).nmodes = tt.nmodes ∧ (tt_sort tt 0).nnz = tt.nnz ∧
    (tt_sort tt 0).dims = tt.dims ∧ (tt_sort tt 0).indmap = tt.indmap ∧
    (tt_sort tt 0).ttype = tt.ttype ∧ (tt_sort tt 0).tiled = tt.tiled ∧
    (tt_sort tt 0).ind.length = tt.ind.length :=
  ⟨rfl, rfl, rfl, rfl, rfl, rfl, by simp [tt_sort]⟩

theorem tt_sort_vals (tt : sptensor) :
    (tt_sort tt 0).vals = (sorted_entries tt).map (fun e => e.2) ++ tt.vals.drop tt.nnz := rfl

theorem tt_sort_rd (tt : sptensor) (hl : tt.ind.length = tt.nmodes) {m n : Nat}
    (hm : m < tt.nmodes) (hn : n < tt.nnz) :
    rd (tt_sort tt 0).ind m n = ((sorted_entries tt).getD n ([], 0)).1.getD m 0 := by
  have h1 : n < (sorted_entries tt).length := by rw [sorted_entries_length]; exact hn
  have h2 : n < ((sorted_entries tt).map (fun e => e.1.getD m 0)).length := by
    rw [List.length_map]; exact h1
  unfold rd
  rw [tt_sort_row tt hl hm, List.getD_eq_getElem?_getD, List.getElem?_append_left h2,
    List.getElem?_eq_getElem h2, List.getElem_map, List.getD_eq_getElem _ _ h1]
  rfl

theorem tt_sort_entry_at (tt : sptensor) (hl : tt.ind.length = tt.nmodes) {n : Nat}
    (hn : n < tt.nnz) :
    entry_at (tt_sort tt 0) n = (sorted_entries tt).getD n ([], 0) := by
  have h1 : n < (sorted_entries tt).length := by rw [sorted_entries_length]; exact hn
  have hlen := sorted_entries_coord_length tt _ (List.getElem_mem h1)
  have hc : coord (tt_sort tt 0) n = ((sorted_entries tt).getD n ([], 0)).1 := by
    unfold coord
    apply List.ext_getElem
    · rw [List.length_map, List.length_range, List.getD_eq_getElem _ _ h1, hlen]; rfl
    · intro m h3 h4
      have hm : m < tt.nmodes := by
        rw [List.length_map, List.length_range] at h3; exact h3
      rw [List.getElem_map, List.getElem_range]
      have := tt_sort_rd tt hl hm hn
      rw [List.getD_eq_getElem _ 0 h4] at this
      exact this
  have hv : (tt_sort tt 0).vals.getD n 0 = ((sorted_entries tt).getD n ([], 0)).2 := by
    have h2 : n < ((sorted_entries tt).map (fun e => e.2)).length := by
      rw [List.length_map]; exact h1
    rw [tt_sort_vals, List.getD_eq_getElem?_getD, List.getElem?_append_left h2,
      List.getElem?_eq_getElem h2, List.getElem_map, List.getD_eq_getElem _ _ h1]
    rfl
  unfold entry_at
  rw [hc, hv]

theorem tt_sort_entries (tt : sptensor) (hl : tt.ind.length = tt.nmodes) :
    entries (tt_sort tt 0) = sorted_entries tt := by
  apply List.ext_getElem
  · rw [entries_length, sorted_entries_length]; rfl
  · intro n h1 h2
    have hn : n < tt.nnz := by rw [sorted_entries_length] at h2; exact h2
    unfold entries
    rw [List.getElem_map, List.getElem_range, tt_sort_entry_at tt hl hn,
      List.getD_eq_getElem _ _ h2]

theorem tt_sort_row_length (tt : sptensor) (hs : shape_ok tt) {m : Nat} (hm : m < tt.nmodes) :
    ((tt_sort tt 0).ind.getD m []).length = (tt.ind.getD m []).length := by
  obtain ⟨_, s2, s3, _, _⟩ := hs
  have h : m < tt.ind.length := by omega
  have h3 : tt.nnz ≤ (tt.ind.getD m []).length := by
    rw [List.getD_eq_getElem _ _ h]; exact s3 _ (List.getElem_mem h)
  rw [tt_sort_row tt s2 hm, List.length_append, List.length_map, sorted_entries_length,
    List.length_drop]
  omega

theorem tt_sort_vals_length (tt : sptensor) (hs : shape_ok tt) :
    (tt_sort tt 0).vals.length = tt.vals.length := by
  obtain ⟨_, _, _, s4, _⟩ := hs
  rw [tt_sort_vals, List.length_append, List.length_map, sorted_entries_length, List.length_drop]
  omega

theorem rd_wr (ind : List (List Nat)) (a q v m n : Nat) :
    rd (wr ind a q v) m n =
      if m = a ∧ n = q ∧ a < ind.length ∧ q < (ind.getD a []).length then v else rd ind m n := by
  unfold rd wr
  rw [getD_set_eq]
  by_cases h1 : a = m
  · subst h1
    by_cases h2 : a < ind.length
    · rw [if_pos ⟨rfl, h2⟩, getD_set_eq]
      by_cases h3 : q = n
      · subst h3
        by_cases h4 : q < (ind.getD a []).length
        · simp [h2, h4]
        · simp [h2, h4]
      · have : ¬ n = q := fun h => h3 h.symm
        simp [h3, this]
    · simp [h2]
  · have : ¬ m = a := fun h => h1 h.symm
    simp [h1, this]

theorem wr_length (ind : List (List Nat)) (a q v : Nat) : (wr ind a q v).length = ind.length := by
  simp [wr]

theorem wr_row_length (ind : List (List Nat)) (a q v m : Nat) :
    ((wr ind a q v).getD m []).length = (ind.getD m []).length := by
  unfold wr
  rw [getD_set_eq]
  by_cases h : a = m ∧ a < ind.length
  · rw [if_pos h, List.length_set, h.1]
  · rw [if_neg h]

theorem copy_loop (q j : Nat) (ind0 : List (List Nat)) (nm : Nat)
    (hb : ∀ m < nm, m < ind0.length ∧ q < (ind0.getD m []).length) :
    ((List.range nm).foldl (fun ind m => wr ind m q (rd ind m j)) ind0).length = ind0.length ∧
    (∀ m, (((List.range nm).foldl (fun ind m => wr ind m q (rd ind m j)) ind0).getD m []).length
      = (ind0.getD m []).length) ∧
    ∀ m n, rd ((List.range nm).foldl (fun ind m => wr ind m q (rd ind m j)) ind0) m n =
      if m < nm ∧ n = q then rd ind0 m j else rd ind0 m n := by
  induction nm with
  | zero => simp
  | succ nm ih =>
    obtain ⟨h1, h2, h3⟩ := ih (fun m hm => hb m (by omega))
    obtain ⟨b1, b2⟩ := hb nm (by omega)
    rw [List.range_succ, List.foldl_append, List.foldl_cons, List.foldl_nil]
    refine ⟨by rw [wr_length, h1], fun m => by rw [wr_row_length, h2], ?_⟩
    intro m n
    rw [rd_wr, h1, h2, h3 nm j, h3 m n]
    simp only [Nat.lt_irrefl, false_and, if_false]
    by_cases hm : m = nm
    · subst hm
      by_cases hn : n = q
      · subst hn
        rw [if_pos ⟨rfl, rfl, b1, b2⟩, if_pos ⟨Nat.lt_succ_self _, rfl⟩]
      · simp only [hn, and_false, false_and, if_false]
    · by_cases hm2 : m < nm
      · have : m < nm + 1 := by omega
        simp [hm, hm2, this]
      · have : ¬ m < nm + 1 := by omega
        simp [hm, hm2, this]

theorem p_same_coord_iff (tt : sptensor) (i j : Nat) :
    p_same_coord tt i j = true ↔ coord tt i = coord tt j := by
  unfold p_same_coord coord
  by_cases h3 : tt.nmodes = 3
  · rw [if_pos h3, h3]
    simp [List.range_succ, List.range_zero]
    tauto
  · rw [if_neg h3, List.all_eq_true]
    constructor
    · intro h
      apply List.map_congr_left
      intro m hm
      simpa using h m hm
    · intro h m hm
      have := (List.map_inj_left.1 h) m hm
      simpa using this

theorem dups_step_same (st : sptensor × Nat) (n cap : Nat) (hr : room st.1 cap)
    (hp : st.2 < n) (hn : n < cap) (hc : coord st.1 st.2 = coord st.1 n) :
    (dups_step st n).2 = st.2 ∧ room (dups_step st n).1 cap ∧
    (dups_step st n).1.nmodes = st.1.nmodes ∧ (dups_step st n).1.nnz = st.1.nnz ∧
    (dups_step st n).1.dims = st.1.dims ∧ (dups_step st n).1.indmap = st.1.indmap ∧
    (∀ m, ((dups_step st n).1.ind.getD m []).length = (st.1.ind.getD m []).length) ∧
    (dups_step st n).1.vals.length = st.1.vals.length ∧
    ∀ x, entry_at (dups_step st n).1 x =
      if x = st.2 then ((entry_at st.1 st.2).1, (entry_at st.1 st.2).2 + (entry_at st.1 n).2)
      else entry_at st.1 x := by
  obtain ⟨r1, r2, r3⟩ := hr
  unfold dups_step
  rw [if_pos ((p_same_coord_iff _ _ _).2 hc)]
  refine ⟨rfl, ⟨r1, r2, by simpa using r3⟩, rfl, rfl, rfl, rfl, fun _ => rfl, by simp, ?_⟩
  intro x
  unfold entry_at coord
  simp only [getD_set_eq]
  by_cases hx : x = st.2
  · subst hx
    have : st.2 < st.1.vals.length := by omega
    simp [this]
  · have : ¬ st.2 = x := fun h => hx h.symm
    simp [hx, this]

theorem dups_step_new (st : sptensor × Nat) (n cap : Nat) (hr : room st.1 cap)
    (hp : st.2 < n) (hn : n < cap) (hc : coord st.1 st.2 ≠ coord st.1 n) :
    (dups_step st n).2 = st.2 + 1 ∧ room (dups_step st n).1 cap ∧
    (dups_step st n).1.nmodes = st.1.nmodes ∧ (dups_step st n).1.nnz = st.1.nnz ∧
    (dups_step st n).1.dims = st.1.dims ∧ (dups_step st n).1.indmap = st.1.indmap ∧
    (∀ m, ((dups_step st n).1.ind.getD m []).length = (st.1.ind.getD m []).length) ∧
    (dups_step st n).1.vals.length = st.1.vals.length ∧
    ∀ x, entry_at (dups_step st n).1 x =
      if x = st.2 + 1 then entry_at st.1 n else entry_at st.1 x := by
  obtain ⟨r1, r2, r3⟩ := hr
  obtain ⟨c1, c2, c3⟩ := copy_loop (st.2 + 1) n st.1.ind st.1.nmodes
    (fun m hm => ⟨by omega, by have := r2 m hm; omega⟩)
  unfold dups_step
  rw [if_neg (fun h => hc ((p_same_coord_iff _ _ _).1 h))]
  refine ⟨rfl, ⟨by simpa using c1.trans r1, ?_, by simpa using r3⟩, rfl, rfl, rfl, rfl,
    fun m => c2 m, by simp, ?_⟩
  · intro m hm
    simp only
    rw [c2 m]; exact r2 m hm
  · intro x
    unfold entry_at coord
    simp only [getD_set_eq]
    by_cases hx : x = st.2 + 1
    · subst hx
      have h1 : st.2 + 1 < st.1.vals.length := by omega
      rw [if_pos ⟨rfl, h1⟩, if_pos rfl]
      congr 1
      apply List.map_congr_left
      intro m hm
      rw [c3, if_pos ⟨List.mem_range.1 hm, rfl⟩]
    · have h2 : ¬ st.2 + 1 = x := fun h => hx h.symm
      rw [if_neg (fun h => h2 h.1), if_neg hx]
      congr 1
      apply List.map_congr_left
      intro m hm
      rw [c3, if_neg (fun h => hx h.2)]

theorem slots_congr {t1 t2 : sptensor} {k : Nat} (h : ∀ x < k, entry_at t1 x = entry_at t2 x) :
    slots t1 k = slots t2 k := by
  unfold slots
  apply List.map_congr_left
  intro x hx
  exact h x (List.mem_range.1 hx)

theorem slots_succ (tt : sptensor) (k : Nat) : slots tt (k + 1) = slots tt k ++ [entry_at tt k] := by
  simp [slots, List.range_succ]

/-- The merging loop of `tt_remove_dups`, run over the counters `j .. j + k - 1`. -/
theorem dups_loop (cap : Nat) (k : Nat) :
    ∀ (j : Nat) (st : sptensor × Nat), room st.1 cap → st.2 < j → j + k ≤ cap →
      slots ((List.range' j k).foldl dups_step st).1 (((List.range' j k).foldl dups_step st).2 + 1)
        = slots st.1 st.2 ++
          merge_run (entry_at st.1 st.2) ((List.range' j k).map (entry_at st.1)) ∧
      ((List.range' j k).foldl dups_step st).2 < j + k ∧
      room ((List.range' j k).foldl dups_step st).1 cap ∧
      ((List.range' j k).foldl dups_step st).1.nmodes = st.1.nmodes ∧
      ((List.range' j k).foldl dups_step st).1.nnz = st.1.nnz ∧
      ((List.range' j k).foldl dups_step st).1.dims = st.1.dims ∧
      ((List.range' j k).foldl dups_step st).1.indmap = st.1.indmap ∧
      (∀ m, (((List.range' j k).foldl dups_step st).1.ind.getD m []).length
        = (st.1.ind.getD m []).length) ∧
      ((List.range' j k).foldl dups_step st).1.vals.length = st.1.vals.length := by
  induction k with
  | zero =>
    intro j st hr hp _
    exact ⟨by simp [List.range', merge_run, slots_succ], by simpa [List.range'] using hp, hr,
      rfl, rfl, rfl, rfl, fun _ => rfl, rfl⟩
  | succ k ih =>
    intro j st hr hp hcap
    simp only [List.range', List.foldl_cons, List.map_cons]
    by_cases hc : coord st.1 st.2 = coord st.1 j
    · obtain ⟨e1, e2, e3, e4, e5, e6, e7, e8, e9⟩ := dups_step_same st j cap hr hp (by omega) hc
      obtain ⟨f1, f2, f3, f4, f5, f6, f7, f8, f9⟩ := ih (j + 1) (dups_step st j) e2
        (by omega) (by omega)
      refine ⟨?_, by omega, f3, f4.trans e3, f5.trans e4, f6.trans e5, f7.trans e6,
        fun m => (f8 m).trans (e7 m), f9.trans e8⟩
      rw [f1, e1]
      have h1 : slots (dups_step st j).1 st.2 = slots st.1 st.2 :=
        slots_congr (fun x hx => by rw [e9 x, if_neg (by omega)])
      have h2 : (List.range' (j + 1) k).map (entry_at (dups_step st j).1)
          = (List.range' (j + 1) k).map (entry_at st.1) := by
        apply List.map_congr_left
        intro x hx
        have := (List.mem_range'_1.1 hx).1
        rw [e9 x, if_neg (by omega)]
      have h3 : (entry_at st.1 st.2).1 = (entry_at st.1 j).1 := hc
      rw [h1, h2, e9 st.2, if_pos rfl]
      conv_rhs => rw [merge_run, if_pos h3]
    · obtain ⟨e1, e2, e3, e4, e5, e6, e7, e8, e9⟩ := dups_step_new st j cap hr hp (by omega) hc
      obtain ⟨f1, f2, f3, f4, f5, f6, f7, f8, f9⟩ := ih (j + 1) (dups_step st j) e2
        (by omega) (by omega)
      refine ⟨?_, by omega, f3, f4.trans e3, f5.trans e4, f6.trans e5, f7.trans e6,
        fun m => (f8 m).trans (e7 m), f9.trans e8⟩
      rw [f1, e1]
      have h1 : slots (dups_step st j).1 (st.2 + 1) = slots st.1 st.2 ++ [entry_at st.1 st.2] := by
        rw [slots_succ, e9 st.2, if_neg (by omega)]
        congr 1
        exact slots_congr (fun x hx => by rw [e9 x, if_neg (by omega)])
      have h2 : (List.range' (j + 1) k).map (entry_at (dups_step st j).1)
          = (List.range' (j + 1) k).map (entry_at st.1) := by
        apply List.map_congr_left
        intro x hx
        have := (List.mem_range'_1.1 hx).1
        rw [e9 x, if_neg (by omega)]
      have h3 : ¬ (entry_at st.1 st.2).1 = (entry_at st.1 j).1 := hc
      rw [h1, h2, e9 (st.2 + 1), if_pos rfl]
      conv_rhs => rw [merge_run, if_neg h3]
      simp

theorem csum_nil (c : List Nat) : csum c [] = 0 := rfl

theorem csum_cons (c : List Nat) (e : List Nat × Int) (l : List (List Nat × Int)) :
    csum c (e :: l) = (if e.1 = c then e.2 else 0) + csum c l := by
  unfold csum
  by_cases h : e.1 = c <;> simp [List.filter_cons, h]

theorem merge_run_mem_coord (l : List (List Nat × Int)) :
    ∀ (cur : List Nat × Int) (c : List Nat),
      c ∈ (merge_run cur l).map (fun e => e.1) ↔ c = cur.1 ∨ c ∈ l.map (fun e => e.1) := by
  induction l with
  | nil => intro cur c; simp [merge_run]
  | cons e rest ih =>
    intro cur c
    rw [merge_run]
    by_cases h : cur.1 = e.1
    · rw [if_pos h, ih]
      simp only [List.map_cons, List.mem_cons]
      rw [← h]; tauto
    · rw [if_neg h, List.map_cons, List.mem_cons, ih]
      simp only [List.map_cons, List.mem_cons]

theorem merge_run_csum (l : List (List Nat × Int)) :
    ∀ (cur : List Nat × Int) (c : List Nat), csum c (merge_run cur l) = csum c (cur :: l) := by
  induction l with
  | nil => intro cur c; rfl
  | cons e rest ih =>
    intro cur c
    rw [merge_run]
    by_cases h : cur.1 = e.1
    · rw [if_pos h, ih, csum_cons, csum_cons, csum_cons, ← h]
      by_cases hc : cur.1 = c
      · simp only [hc, if_true]; omega
      · simp only [hc, if_false]; omega
    · rw [if_neg h, csum_cons, ih, csum_cons, csum_cons, csum_cons]

theorem merge_run_length (l : List (List Nat × Int)) :
    ∀ cur : List Nat × Int, 0 < (merge_run cur l).length ∧ (merge_run cur l).length ≤ l.length + 1 := by
  induction l with
  | nil => intro cur; simp [merge_run]
  | cons e rest ih =>
    intro cur
    rw [merge_run]
    by_cases h : cur.1 = e.1
    · rw [if_pos h]
      have := ih (cur.1, cur.2 + e.2)
      simp only [List.length_cons]; omega
    · rw [if_neg h]
      have := ih e
      simp only [List.length_cons]; omega

theorem merge_run_distinct (l : List (List Nat × Int)) :
    ∀ cur : List Nat × Int,
      (cur :: l).Pairwise (fun a b => lex_le a.1 b.1 = true) →
      (merge_run cur l).Pairwise (fun a b => a.1 ≠ b.1) := by
  induction l with
  | nil => intro cur _; simp [merge_run]
  | cons e rest ih =>
    intro cur hp
    rw [merge_run]
    obtain ⟨hcur, hrest⟩ := List.pairwise_cons.1 hp
    by_cases h : cur.1 = e.1
    · rw [if_pos h]
      apply ih
      obtain ⟨he, hrest2⟩ := List.pairwise_cons.1 hrest
      rw [List.pairwise_cons]
      refine ⟨?_, hrest2⟩
      intro b hb
      simp only [h]
      exact he b hb
    · rw [if_neg h, List.pairwise_cons]
      refine ⟨?_, ih e hrest⟩
      intro b hb hcb
      have hmem : b.1 ∈ (merge_run e rest).map (fun x => x.1) := List.mem_map.2 ⟨b, hb, rfl⟩
      have hce : lex_le cur.1 e.1 = true := hcur e (List.mem_cons_self _ _)
      obtain ⟨_, hrest2⟩ := List.pairwise_cons.1 hrest
      rcases (merge_run_mem_coord rest e b.1).1 hmem with h1 | h1
      · exact h (hcb.trans h1)
      · obtain ⟨x, hx, hxb⟩ := List.mem_map.1 h1
        have heb : lex_le e.1 b.1 = true := by
          have hh := (List.pairwise_cons.1 hrest).1 x hx
          rw [← hxb]; exact hh
        rw [← hcb] at heb
        exact h (lex_le_antisymm _ _ hce heb)

theorem csum_of_not_mem (c : List Nat) (l : List (List Nat × Int))
    (h : ∀ e ∈ l, e.1 ≠ c) : csum c l = 0 := by
  induction l with
  | nil => rfl
  | cons e rest ih =>
    rw [csum_cons, if_neg (h e (List.mem_cons_self _ _)),
      ih (fun x hx => h x (List.mem_cons_of_mem _ hx))]
    rfl

theorem csum_unique (l : List (List Nat × Int)) (hp : l.Pairwise (fun a b => a.1 ≠ b.1))
    (e : List Nat × Int) (he : e ∈ l) : csum e.1 l = e.2 := by
  induction l with
  | nil => cases he
  | cons a rest ih =>
    obtain ⟨ha, hrest⟩ := List.pairwise_cons.1 hp
    rw [csum_cons]
    rcases List.mem_cons.1 he with h | h
    · subst h
      rw [if_pos rfl, csum_of_not_mem _ _ (fun x hx hc => ha x hx hc.symm)]
      omega
    · rw [if_neg (fun hc => ha e h hc), ih hrest h]
      omega

theorem csum_perm (c : List Nat) {l1 l2 : List (List Nat × Int)} (h : l1.Perm l2) :
    csum c l1 = csum c l2 := by
  unfold csum
  exact ((h.filter _).map _).sum_eq

theorem merge_all_mem_coord (l : List (List Nat × Int)) (c : List Nat) :
    c ∈ (merge_all l).map (fun e => e.1) ↔ c ∈ l.map (fun e => e.1) := by
  cases l with
  | nil => simp [merge_all]
  | cons e rest => rw [merge_all, merge_run_mem_coord]; simp

theorem merge_all_csum (l : List (List Nat × Int)) (c : List Nat) :
    csum c (merge_all l) = csum c l := by
  cases l with
  | nil => rfl
  | cons e rest => rw [merge_all, merge_run_csum]

theorem merge_all_distinct (l : List (List Nat × Int))
    (hp : l.Pairwise (fun a b => lex_le a.1 b.1 = true)) :
    (merge_all l).Pairwise (fun a b => a.1 ≠ b.1) := by
  cases l with
  | nil => simp [merge_all]
  | cons e rest => exact merge_run_distinct rest e hp

theorem merge_all_length (l : List (List Nat × Int)) (h : 0 < l.length) :
    0 < (merge_all l).length ∧ (merge_all l).length ≤ l.length := by
  cases l with
  | nil => simp at h
  | cons e rest => exact merge_run_length rest e

theorem room_sorted (tt : sptensor) (hs : shape_ok tt) : room (tt_sort tt 0) tt.nnz := by
  have hs0 := hs
  obtain ⟨_, s2, s3, s4, _⟩ := hs
  refine ⟨by rw [(tt_sort_frame tt).2.2.2.2.2.2, s2]; rfl, ?_, ?_⟩
  · intro m hm
    have hm2 : m < tt.nmodes := hm
    rw [tt_sort_row_length tt hs0 hm2]
    have h : m < tt.ind.length := by omega
    rw [List.getD_eq_getElem _ _ h]
    exact s3 _ (List.getElem_mem h)
  · rw [tt_sort_vals_length tt hs0]; exact s4

theorem entries_eq_slots (tt : sptensor) : entries tt = slots tt tt.nnz := rfl

theorem slots_pos (tt : sptensor) (k : Nat) :
    slots tt (k + 1) = entry_at tt 0 :: (List.range' 1 k).map (entry_at tt) := by
  unfold slots
  rw [List.range_eq_range']
  rfl

/-- What `tt_remove_dups` leaves in a tensor with at least one entry. -/
theorem tt_remove_dups_eq (tt : sptensor) (hs : shape_ok tt) (hnz : 0 < tt.nnz) :
    entries (tt_remove_dups tt).1 = merge_all (sorted_entries tt) ∧
    (tt_remove_dups tt).1.nnz ≤ tt.nnz ∧ 0 < (tt_remove_dups tt).1.nnz ∧
    (tt_remove_dups tt).1.nmodes = tt.nmodes ∧ (tt_remove_dups tt).1.dims = tt.dims ∧
    (tt_remove_dups tt).1.indmap = tt.indmap ∧ room (tt_remove_dups tt).1 tt.nnz := by
  obtain ⟨k, hk⟩ : ∃ k, tt.nnz = k + 1 := ⟨tt.nnz - 1, by omega⟩
  obtain ⟨f1, f2, f3, f4, f5, f6, f7, f8, f9⟩ := dups_loop tt.nnz (tt.nnz - 1) 1
    (tt_sort tt 0, 0) (room_sorted tt hs) (by simp) (by omega)
  have hsl : slots (tt_sort tt 0) 0 = [] := rfl
  have hse : sorted_entries tt =
      entry_at (tt_sort tt 0) 0 :: (List.range' 1 (tt.nnz - 1)).map (entry_at (tt_sort tt 0)) := by
    rw [← tt_sort_entries tt hs.2.1, entries_eq_slots]
    have : (tt_sort tt 0).nnz = (tt.nnz - 1) + 1 := by
      show tt.nnz = _
      omega
    rw [this, slots_pos]
  have hent : entries (tt_remove_dups tt).1 = merge_all (sorted_entries tt) := by
    rw [hse, merge_all]
    simp only at f1
    rw [hsl, List.nil_append] at f1
    exact f1
  refine ⟨hent, ?_, Nat.succ_pos _, f4, f6, f7, ?_⟩
  · show ((List.range' 1 (tt.nnz - 1)).foldl dups_step (tt_sort tt 0, 0)).2 + 1 ≤ tt.nnz
    omega
  · exact f3

theorem coord_eq_iff (tt : sptensor) (i j : Nat) :
    coord tt i = coord tt j ↔ ∀ m < tt.nmodes, rd tt.ind m i = rd tt.ind m j := by
  unfold coord
  rw [List.map_inj_left]
  constructor
  · intro h m hm; exact h m (List.mem_range.2 hm)
  · intro h m hm; exact h m (List.mem_range.1 hm)

theorem mem_entries_coord (tt : sptensor) (c : List Nat) :
    c ∈ (entries tt).map (fun e => e.1) ↔ ∃ n < tt.nnz, coord tt n = c := by
  unfold entries
  rw [List.map_map, List.mem_map]
  constructor
  · rintro ⟨n, hn, rfl⟩; exact ⟨n, List.mem_range.1 hn, rfl⟩
  · rintro ⟨n, hn, rfl⟩; exact ⟨n, List.mem_range.2 hn, rfl⟩

theorem csum_entries (tt : sptensor) (c : List Nat) :
    csum c (entries tt) =
      (((List.range tt.nnz).filter (fun k => decide (coord tt k = c))).map
        (fun k => tt.vals.getD k 0)).sum := by
  unfold csum entries
  rw [List.filter_map, List.map_map]
  rfl

theorem entries_getElem (tt : sptensor) (n : Nat) (h : n < (entries tt).length) :
    (entries tt)[n] = entry_at tt n := by
  unfold entries
  rw [List.getElem_map, List.getElem_range]

theorem nused_full {row : List Nat} {k : Nat} (h : ∀ i < k, i ∈ row) : nused row k = k := by
  induction k with
  | zero => rfl
  | succ k ih =>
    rw [nused_succ, ih (fun i hi => h i (by omega)), if_pos (h k (by omega))]

theorem list_ext_getD {α : Type} (d : α) {l1 l2 : List α} (hl : l1.length = l2.length)
    (h : ∀ m, l1.getD m d = l2.getD m d) : l1 = l2 := by
  apply List.ext_getElem hl
  intro n h1 h2
  have := h n
  rw [List.getD_eq_getElem _ _ h1, List.getD_eq_getElem _ _ h2] at this
  exact this

theorem tt_fill_dims_getD (tt : sptensor) (hs : shape_ok tt) {m : Nat} (hm : m < tt.nmodes) :
    (tt_fill_dims tt).dims.getD m 0 = fill_dim (tt.ind.getD m []) tt.nnz := by
  unfold tt_fill_dims
  simp only
  rw [foldl_set_getD (fun m => fill_dim (tt.ind.getD m []) tt.nnz), if_pos ⟨hm, by rw [hs.1]; exact hm⟩]

theorem coord_getD (tt : sptensor) (n : Nat) {m : Nat} (hm : m < tt.nmodes) :
    (coord tt n).getD m 0 = rd tt.ind m n := by
  unfold coord
  rw [List.getD_eq_getElem _ _ (by simpa using hm), List.getElem_map, List.getElem_range]

/-- The index-range invariant survives `tt_remove_dups`. -/
theorem tt_remove_dups_in_range (tt : sptensor) (hs : shape_ok tt) (hr : in_range tt)
    (hnz : 0 < tt.nnz) : in_range (tt_remove_dups tt).1 := by
  obtain ⟨h1, _, _, h4, h5, _, _⟩ := tt_remove_dups_eq tt hs hnz
  intro m hm n hn
  have hm2 : m < tt.nmodes := by rw [← h4]; exact hm
  have hmem : coord (tt_remove_dups tt).1 n ∈ (entries (tt_remove_dups tt).1).map (fun e => e.1) :=
    (mem_entries_coord _ _).2 ⟨n, hn, rfl⟩
  rw [h1, merge_all_mem_coord] at hmem
  have hmem2 := ((sorted_entries_perm tt).map (fun e => e.1)).mem_iff.1 hmem
  obtain ⟨k, hk, hck⟩ := (mem_entries_coord _ _).1 hmem2
  rw [← coord_getD _ n hm, ← hck, coord_getD _ k hm2, h5]
  exact hr m hm2 k hk

/-- On a tensor with at least one entry `tt_remove_dups` does not raise `nnz` and
returns the number of entries it removed. -/
theorem tt_remove_dups_count (tt : sptensor) (hs : shape_ok tt) (hnz : 0 < tt.nnz)
    (hrep : tt.nnz < IDX_MOD) :
    (tt_remove_dups tt).1.nnz ≤ tt.nnz ∧
    (tt_remove_dups tt).2 = tt.nnz - (tt_remove_dups tt).1.nnz := by
  obtain ⟨_, h2, _, _, _, _, _⟩ := tt_remove_dups_eq tt hs hnz
  refine ⟨h2, ?_⟩
  have h3 : (tt_remove_dups tt).2 = idx_sub tt.nnz (tt_remove_dups tt).1.nnz := rfl
  rw [h3]
  unfold idx_sub
  have h4 : tt.nnz + IDX_MOD - (tt_remove_dups tt).1.nnz
      = (tt.nnz - (tt_remove_dups tt).1.nnz) + IDX_MOD := by omega
  rw [h4, Nat.add_mod_right, Nat.mod_eq_of_lt (by omega)]
/-! ## Lemmas: slices, unfolding, union, row exchange -/

theorem SS_MIN_eq (x y : Nat) : SS_MIN x y = min x y := by
  unfold SS_MIN; split <;> omega

theorem slice_bounds_succ (dim : Nat) (inds : List Nat) (k : Nat) :
    slice_bounds dim inds (k + 1) =
      (SS_MIN (slice_bounds dim inds k).1 (inds.getD k 0),
       SS_MAX (slice_bounds dim inds k).2 (inds.getD k 0)) := by
  simp [slice_bounds, List.range_succ, List.foldl_append]

/-- The bounds found by the first pass of `tt_get_slices` enclose every index. -/
theorem slice_bounds_spec (dim : Nat) (inds : List Nat) (k : Nat) :
    (slice_bounds dim inds k).1 ≤ dim ∧
    (∀ n < k, (slice_bounds dim inds k).1 ≤ inds.getD n 0 ∧
      inds.getD n 0 ≤ (slice_bounds dim inds k).2) ∧
    (0 < k → ∃ n < k, (slice_bounds dim inds k).2 = inds.getD n 0) := by
  induction k with
  | zero => exact ⟨Nat.le_refl _, fun n hn => by omega, fun h => by omega⟩
  | succ k ih =>
    obtain ⟨h1, h2, h3⟩ := ih
    rw [slice_bounds_succ, SS_MIN_eq, SS_MAX_eq]
    refine ⟨by simp only; omega, ?_, ?_⟩
    · intro n hn
      simp only
      by_cases hk : n = k
      · subst hk; omega
      · have := h2 n (by omega); omega
    · intro _
      simp only
      by_cases hle : (slice_bounds dim inds k).2 ≤ inds.getD k 0
      · exact ⟨k, by omega, by omega⟩
      · have hk0 : 0 < k := by
          rcases Nat.eq_zero_or_pos k with h0 | h0
          · subst h0; simp [slice_bounds] at hle
          · exact h0
        obtain ⟨n, hn, he⟩ := h3 hk0
        exact ⟨n, by omega, by omega⟩

theorem mark_slices_eq_count (minidx : Nat) (l : List Nat) :
    ∀ (mkrs : List Nat) (found : Nat), (∀ g ∈ l, minidx ≤ g) →
      mark_slices minidx l mkrs found = count_slices (l.map (fun g => g - minidx)) mkrs found := by
  induction l with
  | nil => intro _ _ _; rfl
  | cons g rest ih =>
    intro mkrs found h
    have hg := h g (List.mem_cons_self _ _)
    have hr : ∀ x ∈ rest, minidx ≤ x := fun x hx => h x (List.mem_cons_of_mem _ hx)
    rw [List.map_cons]
    unfold mark_slices count_slices
    rw [if_pos hg]
    by_cases h1 : g - minidx < mkrs.length
    · rw [if_pos h1, if_pos h1]
      by_cases h2 : mkrs.getD (g - minidx) 0 = 0
      · rw [if_pos h2, if_pos h2, ih _ _ hr]
      · rw [if_neg h2, if_neg h2, ih _ _ hr]
    · rw [if_neg h1, if_neg h1]

theorem set_written {α : Type} (w : List α) (k : Nat) (x : α) :
    (w.map some ++ List.replicate (k + 1) none).set w.length (some x)
      = (w ++ [x]).map some ++ List.replicate k none := by
  have h : w.length = (w.map some).length := by simp
  rw [h, List.set_append_right _ _ (Nat.le_refl _)]
  simp [List.replicate_succ]

/-- State of `collect_slices` after the first `k` cells of the mark array. -/
theorem collect_slices_spec (minidx : Nat) (row mkrs : List Nat) (found : Nat)
    (hm : ∀ i < mkrs.length, mkrs.getD i 0 = if i ∈ row then 1 else 0)
    (hf : found = nused row mkrs.length) (k : Nat) (hk : k ≤ mkrs.length) :
    (List.range k).foldlM
      (fun (st : List (Option Nat) × Nat) i =>
        if mkrs.getD i 0 = 1 then
          if st.2 < st.1.length then some (st.1.set st.2 (some (i + minidx)), st.2 + 1)
          else none
        else some st)
      (List.replicate found none, 0)
    = some ((((slice_list row k).map (fun i => i + minidx)).map some)
        ++ List.replicate (found - nused row k) none, nused row k) := by
  induction k with
  | zero => simp [slice_list, nused]
  | succ k ih =>
    rw [List.range_succ, List.foldlM_append, ih (by omega)]
    simp only [List.foldlM_cons, List.foldlM_nil, Option.some_bind, Option.bind_eq_bind]
    rw [hm k (by omega), nused_succ]
    have hsl : slice_list row (k + 1) = slice_list row k ++ (if k ∈ row then [k] else []) := by
      unfold slice_list
      rw [List.range_succ, List.filter_append]
      by_cases h : k ∈ row <;> simp [h]
    by_cases hmem : k ∈ row
    · have hlt : nused row k < found := by
        rw [hf]; exact nused_lt_of_mem hmem (by omega)
      obtain ⟨d, hd⟩ : ∃ d, found - nused row k = d + 1 := ⟨found - nused row k - 1, by omega⟩
      have hlen : (((slice_list row k).map (fun i => i + minidx)).map some).length
          = nused row k := by
        rw [List.length_map, List.length_map, slice_list_length]
      simp only [hmem, if_true, hsl]
      rw [if_pos (by rw [List.length_append, hlen, List.length_replicate]; omega)]
      have hset := set_written ((slice_list row k).map (fun i => i + minidx)) d (k + minidx)
      rw [List.length_map, slice_list_length] at hset
      rw [hd, hset]
      have hd2 : found - (nused row k + 1) = d := by omega
      simp [hd2]
    · simp [hmem, hsl]

theorem slice_bounds_min_attained (dim : Nat) (inds : List Nat) (k : Nat) :
    (slice_bounds dim inds k).1 = dim ∨ ∃ n < k, (slice_bounds dim inds k).1 = inds.getD n 0 := by
  induction k with
  | zero => left; rfl
  | succ k ih =>
    rw [slice_bounds_succ, SS_MIN_eq]
    simp only
    by_cases hle : (slice_bounds dim inds k).1 ≤ inds.getD k 0
    · rcases ih with h | ⟨n, hn, h⟩
      · left; omega
      · right; exact ⟨n, by omega, by omega⟩
    · right; exact ⟨k, by omega, by omega⟩

theorem maxrange_eq {lo hi : Nat} (hle : lo ≤ hi) (hrep : hi < IDX_MOD)
    (hno : hi - lo + 1 < IDX_MOD) : idx_sub (idx_add 1 hi) lo = hi - lo + 1 := by
  unfold idx_sub idx_add
  by_cases h : 1 + hi < IDX_MOD
  · rw [Nat.mod_eq_of_lt h]
    have : 1 + hi + IDX_MOD - lo = (hi - lo + 1) + IDX_MOD := by omega
    rw [this, Nat.add_mod_right, Nat.mod_eq_of_lt hno]
  · have h2 : 1 + hi = IDX_MOD := by omega
    rw [h2, Nat.mod_self, Nat.zero_add]
    have : IDX_MOD - lo = hi - lo + 1 := by omega
    rw [this, Nat.mod_eq_of_lt hno]

theorem slices_of_sorted (lo hi : Nat) (row : List Nat) :
    (slices_of lo hi row).Sorted (· < ·) := by
  unfold slices_of
  exact (List.pairwise_map.2 ((slice_list_sorted _ _).imp (fun h => by omega)))

theorem mem_slices_of {lo hi : Nat} {row : List Nat} (hb : ∀ g ∈ row, lo ≤ g ∧ g ≤ hi)
    (v : Nat) : v ∈ slices_of lo hi row ↔ v ∈ row := by
  unfold slices_of
  rw [List.mem_map]
  constructor
  · rintro ⟨i, hi2, rfl⟩
    obtain ⟨_, hmem⟩ := mem_slice_list.1 hi2
    obtain ⟨g, hg, rfl⟩ := List.mem_map.1 hmem
    have := hb g hg
    have : g - lo + lo = g := by omega
    rw [this]; exact hg
  · intro hv
    have := hb v hv
    exact ⟨v - lo, mem_slice_list.2 ⟨by omega, List.mem_map.2 ⟨v, hv, rfl⟩⟩, by omega⟩

theorem slices_of_length {lo hi : Nat} {row : List Nat} (hb : ∀ g ∈ row, lo ≤ g ∧ g ≤ hi) :
    (slices_of lo hi row).length = row.dedup.length := by
  have hnd : (slices_of lo hi row).Nodup :=
    (slices_of_sorted lo hi row).imp (fun h => Nat.ne_of_lt h)
  rw [← List.card_toFinset, ← List.toFinset_card_of_nodup hnd]
  congr 1
  ext v
  rw [List.mem_toFinset, List.mem_toFinset, mem_slices_of hb]

/-- What `tt_get_slices` returns when the length of its mark array does not wrap. -/
theorem tt_get_slices_eq (tt : sptensor) (m : Nat)
    (hl : tt.nnz ≤ (tt.ind.getD m []).length) (hnz : 0 < tt.nnz)
    (hrep : ∀ n < tt.nnz, rd tt.ind m n < IDX_MOD)
    (hno : (slice_bounds (tt.dims.getD m 0) (tt.ind.getD m []) tt.nnz).2
      - (slice_bounds (tt.dims.getD m 0) (tt.ind.getD m []) tt.nnz).1 + 1 < IDX_MOD) :
    (∀ g ∈ (tt.ind.getD m []).take tt.nnz,
      (slice_bounds (tt.dims.getD m 0) (tt.ind.getD m []) tt.nnz).1 ≤ g ∧
      g ≤ (slice_bounds (tt.dims.getD m 0) (tt.ind.getD m []) tt.nnz).2) ∧
    tt_get_slices tt m =
      some ((slices_of (slice_bounds (tt.dims.getD m 0) (tt.ind.getD m []) tt.nnz).1
          (slice_bounds (tt.dims.getD m 0) (tt.ind.getD m []) tt.nnz).2
          ((tt.ind.getD m []).take tt.nnz)).map some,
        (slices_of (slice_bounds (tt.dims.getD m 0) (tt.ind.getD m []) tt.nnz).1
          (slice_bounds (tt.dims.getD m 0) (tt.ind.getD m []) tt.nnz).2
          ((tt.ind.getD m []).take tt.nnz)).length) := by
  obtain ⟨b1, b2, b3⟩ := slice_bounds_spec (tt.dims.getD m 0) (tt.ind.getD m []) tt.nnz
  generalize hmm : slice_bounds (tt.dims.getD m 0) (tt.ind.getD m []) tt.nnz = mm at *
  have hb : ∀ g ∈ (tt.ind.getD m []).take tt.nnz, mm.1 ≤ g ∧ g ≤ mm.2 := by
    intro g hg
    obtain ⟨i, hi, rfl⟩ := List.mem_iff_getElem.1 hg
    rw [List.length_take] at hi
    have := b2 i (by omega)
    rw [List.getD_eq_getElem _ _ (by omega)] at this
    rw [List.getElem_take]
    exact this
  refine ⟨hb, ?_⟩
  obtain ⟨n0, hn0, hmax⟩ := b3 hnz
  have hle : mm.1 ≤ mm.2 := by have := b2 n0 hn0; omega
  have hrep2 : mm.2 < IDX_MOD := by rw [hmax]; exact hrep n0 hn0
  have hmr := maxrange_eq hle hrep2 hno
  have hsh : ∀ g ∈ ((tt.ind.getD m []).take tt.nnz).map (fun g => g - mm.1),
      g < mm.2 - mm.1 + 1 := by
    intro i hi
    obtain ⟨g, hg, rfl⟩ := List.mem_map.1 hi
    have := hb g hg; omega
  obtain ⟨sc, c1, c2, c3⟩ := count_slices_init _ (mm.2 - mm.1 + 1) hsh
  unfold tt_get_slices
  simp only [hmm, hmr]
  rw [mark_slices_eq_count _ _ _ _ (fun g hg => (hb g hg).1), c1]
  simp only
  unfold collect_slices
  rw [collect_slices_spec mm.1 _ sc _ (by rw [c2]; exact c3) (by rw [c2]) sc.length
    (Nat.le_refl _)]
  simp only [c2, Nat.sub_self, List.replicate_zero, List.append_nil]
  unfold slices_of
  rw [List.length_map, slice_list_length]

theorem mixed_radix_append (P : List (Nat × Nat)) (d b : Nat) :
    mixed_radix (P ++ [(d, b)]) = mixed_radix P + d * radix_prod P := by
  induction P with
  | nil => simp [mixed_radix, radix_prod]
  | cons x rest ih =>
    obtain ⟨d0, b0⟩ := x
    show d0 + b0 * mixed_radix (rest ++ [(d, b)])
      = d0 + b0 * mixed_radix rest + d * (b0 * radix_prod rest)
    rw [ih]
    ring

theorem radix_prod_append (P : List (Nat × Nat)) (d b : Nat) :
    radix_prod (P ++ [(d, b)]) = radix_prod P * b := by
  induction P with
  | nil => simp [radix_prod]
  | cons x rest ih =>
    obtain ⟨d0, b0⟩ := x
    show b0 * radix_prod (rest ++ [(d, b)]) = b0 * radix_prod rest * b
    rw [ih]
    ring

theorem mixed_radix_lt (D : List (Nat × Nat)) (h : ∀ x ∈ D, x.1 < x.2) :
    mixed_radix D < radix_prod D := by
  induction D with
  | nil => simp [mixed_radix, radix_prod]
  | cons x rest ih =>
    obtain ⟨d, b⟩ := x
    have hd : d < b := h (d, b) (List.mem_cons_self _ _)
    have hr := ih (fun y hy => h y (List.mem_cons_of_mem _ hy))
    simp only [mixed_radix, radix_prod]
    calc d + b * mixed_radix rest < b + b * mixed_radix rest := by omega
      _ = b * (mixed_radix rest + 1) := by ring
      _ ≤ b * radix_prod rest := Nat.mul_le_mul_left _ hr

theorem mixed_radix_inj (D : List (Nat × Nat)) :
    ∀ E : List (Nat × Nat), D.map (fun x => x.2) = E.map (fun x => x.2) →
      (∀ x ∈ D, x.1 < x.2) → (∀ x ∈ E, x.1 < x.2) →
      mixed_radix D = mixed_radix E → D = E := by
  induction D with
  | nil =>
    intro E hb _ _ _
    cases E with
    | nil => rfl
    | cons y ys => simp at hb
  | cons x rest ih =>
    intro E hb hD hE hv
    cases E with
    | nil => simp at hb
    | cons y ys =>
      obtain ⟨d, b⟩ := x
      obtain ⟨e, c⟩ := y
      simp only [List.map_cons, List.cons.injEq] at hb
      obtain ⟨hbc, hbr⟩ := hb
      subst hbc
      have hd : d < b := hD (d, b) (List.mem_cons_self _ _)
      have he : e < b := hE (e, b) (List.mem_cons_self _ _)
      simp only [mixed_radix] at hv
      have hmod : d = e := by
        have h1 : (d + b * mixed_radix rest) % b = d := by
          rw [Nat.add_mul_mod_self_left]; exact Nat.mod_eq_of_lt hd
        have h2 : (e + b * mixed_radix ys) % b = e := by
          rw [Nat.add_mul_mod_self_left]; exact Nat.mod_eq_of_lt he
        rw [← h1, ← h2, hv]
      subst hmod
      have hq : mixed_radix rest = mixed_radix ys := by
        have : b * mixed_radix rest = b * mixed_radix ys := by omega
        exact Nat.eq_of_mul_eq_mul_left (by omega) this
      rw [ih ys hbr (fun z hz => hD z (List.mem_cons_of_mem _ hz))
        (fun z hz => hE z (List.mem_cons_of_mem _ hz)) hq]

/-- The loop that computes a column id, after the first `k` passes: the value and the
weight of the digits read so far, reduced modulo `2 ^ 64`. -/
theorem unfold_col_upto (tt : sptensor) (mode n : Nat) (k : Nat) :
    (List.range k).foldl
      (fun cm m =>
        if tt.nmodes - 1 - m = mode then cm
        else (idx_add cm.1 (idx_mul (rd tt.ind (tt.nmodes - 1 - m) n) cm.2),
              idx_mul cm.2 (tt.dims.getD (tt.nmodes - 1 - m) 0)))
      (0, 1)
    = (mixed_radix ((((List.range k).map (fun m => tt.nmodes - 1 - m)).filter
          (fun off => decide (off ≠ mode))).map
            (fun off => (rd tt.ind off n, tt.dims.getD off 0))) % IDX_MOD,
       radix_prod ((((List.range k).map (fun m => tt.nmodes - 1 - m)).filter
          (fun off => decide (off ≠ mode))).map
            (fun off => (rd tt.ind off n, tt.dims.getD off 0))) % IDX_MOD) := by
  induction k with
  | zero => simp [mixed_radix, radix_prod, IDX_MOD]
  | succ k ih =>
    rw [List.range_succ, List.foldl_append, ih, List.map_append, List.filter_append,
      List.map_append]
    simp only [List.foldl_cons, List.foldl_nil, List.map_cons, List.map_nil]
    by_cases h : tt.nmodes - 1 - k = mode
    · simp [h]
    · rw [if_neg h, List.filter_cons_of_pos (by simpa using h), List.filter_nil]
      simp only [List.map_cons, List.map_nil]
      rw [mixed_radix_append, radix_prod_append]
      unfold idx_add idx_mul
      apply Prod.ext
      · simp only
        rw [Nat.mul_mod, Nat.mod_mod, ← Nat.mul_mod, Nat.add_mod, Nat.mod_mod, Nat.mod_mod,
          ← Nat.add_mod]
      · simp only
        rw [Nat.mul_mod, Nat.mod_mod, ← Nat.mul_mod]

theorem unfold_col_eq (tt : sptensor) (mode n : Nat) :
    unfold_col tt mode n = (mixed_radix (col_digits tt mode n) % IDX_MOD,
      radix_prod (col_digits tt mode n) % IDX_MOD) :=
  unfold_col_upto tt mode n tt.nmodes

theorem mod_of_lt_two_mul {a n : Nat} (h : a < 2 * n) :
    a % n = if a < n then a else a - n := by
  by_cases h1 : a < n
  · rw [if_pos h1, Nat.mod_eq_of_lt h1]
  · rw [if_neg h1, Nat.mod_eq_sub_mod (by omega), Nat.mod_eq_of_lt (by omega)]

theorem mem_rem_modes {nmodes mode x : Nat} :
    x ∈ rem_modes nmodes mode ↔ x < nmodes ∧ x ≠ mode := by
  unfold rem_modes
  simp only [List.mem_filter, List.mem_map, List.mem_range, decide_eq_true_eq]
  constructor
  · rintro ⟨⟨m, hm, rfl⟩, h2⟩
    exact ⟨by omega, h2⟩
  · rintro ⟨h1, h2⟩
    exact ⟨⟨nmodes - 1 - x, by omega, by omega⟩, h2⟩

theorem rem_modes_nodup (nmodes mode : Nat) : (rem_modes nmodes mode).Nodup := by
  unfold rem_modes
  apply List.Nodup.filter
  apply List.Nodup.map_on _ (List.nodup_range nmodes)
  intro x hx y hy hxy
  have := List.mem_range.1 hx
  have := List.mem_range.1 hy
  omega

theorem rotation_perm {nmodes mode : Nat} (h : mode < nmodes) :
    ((List.range' 1 (nmodes - 1)).map (fun m => (mode + m) % nmodes)).Perm
      (rem_modes nmodes mode) := by
  apply List.perm_of_nodup_nodup_toFinset_eq
  · apply List.Nodup.map_on _ (List.nodup_range' 1 (nmodes - 1))
    intro x hx y hy hxy
    have hx2 := List.mem_range'_1.1 hx
    have hy2 := List.mem_range'_1.1 hy
    rw [mod_of_lt_two_mul (by omega), mod_of_lt_two_mul (by omega)] at hxy
    split at hxy <;> split at hxy <;> omega
  · exact rem_modes_nodup nmodes mode
  · ext x
    rw [List.mem_toFinset, List.mem_toFinset, mem_rem_modes, List.mem_map]
    constructor
    · rintro ⟨m, hm, rfl⟩
      have hm2 := List.mem_range'_1.1 hm
      rw [mod_of_lt_two_mul (by omega)]
      split <;> omega
    · rintro ⟨h1, h2⟩
      by_cases hlt : mode < x
      · refine ⟨x - mode, List.mem_range'_1.2 (by omega), ?_⟩
        rw [mod_of_lt_two_mul (by omega)]
        split <;> omega
      · refine ⟨x + nmodes - mode, List.mem_range'_1.2 (by omega), ?_⟩
        rw [mod_of_lt_two_mul (by omega)]
        split <;> omega

theorem foldl_idx_mul_lt (g : Nat → Nat) (l : List Nat) :
    ∀ a, a < IDX_MOD → l.foldl (fun x m => idx_mul x (g m)) a < IDX_MOD := by
  induction l with
  | nil => intro a ha; exact ha
  | cons y rest ih =>
    intro a _
    rw [List.foldl_cons]
    exact ih _ (Nat.mod_lt _ (by unfold IDX_MOD; omega))

theorem foldl_idx_mul_mod (g : Nat → Nat) (l : List Nat) :
    ∀ a, (l.foldl (fun x m => idx_mul x (g m)) a) % IDX_MOD
      = (a * (l.map g).prod) % IDX_MOD := by
  induction l with
  | nil => intro a; simp
  | cons y rest ih =>
    intro a
    rw [List.foldl_cons, ih, List.map_cons, List.prod_cons]
    unfold idx_mul
    rw [Nat.mul_mod, Nat.mod_mod, ← Nat.mul_mod, Nat.mul_assoc]

theorem radix_prod_map (f : Nat → Nat × Nat) (l : List Nat) :
    radix_prod (l.map f) = (l.map (fun x => (f x).2)).prod := by
  induction l with
  | nil => rfl
  | cons y rest ih =>
    rw [List.map_cons, List.map_cons, List.prod_cons, ← ih]
    rfl

theorem radix_prod_col_digits (tt : sptensor) (mode n : Nat) :
    radix_prod (col_digits tt mode n) = other_dims_prod tt mode := by
  unfold col_digits other_dims_prod
  rw [radix_prod_map]

/-- The column count computed by `tt_unfold` is the product of the other extents,
reduced modulo `2 ^ 64`. -/
theorem unfold_ncols_eq (tt : sptensor) {mode : Nat} (h : mode < tt.nmodes) :
    unfold_ncols tt mode = other_dims_prod tt mode % IDX_MOD := by
  have h1 := foldl_idx_mul_lt (fun m => tt.dims.getD ((mode + m) % tt.nmodes) 0)
    (List.range' 1 (tt.nmodes - 1)) 1 (by unfold IDX_MOD; omega)
  have h2 := foldl_idx_mul_mod (fun m => tt.dims.getD ((mode + m) % tt.nmodes) 0)
    (List.range' 1 (tt.nmodes - 1)) 1
  rw [Nat.mod_eq_of_lt h1, Nat.one_mul] at h2
  unfold unfold_ncols other_dims_prod
  rw [h2]
  congr 1
  have hp := (rotation_perm h).map (fun off => tt.dims.getD off 0)
  rw [List.map_map] at hp
  exact hp.prod_eq

theorem sorted_by_perm (tt : sptensor) (mode : Nat) : (sorted_by tt mode).Perm (entries tt) :=
  List.perm_insertionSort _ _

theorem sorted_by_length (tt : sptensor) (mode : Nat) : (sorted_by tt mode).length = tt.nnz := by
  rw [(sorted_by_perm tt mode).length_eq, entries_length]

theorem sorted_by_coord_length (tt : sptensor) (mode : Nat) :
    ∀ e ∈ sorted_by tt mode, e.1.length = tt.nmodes := by
  intro e he
  have := (sorted_by_perm tt mode).mem_iff.1 he
  unfold entries at this
  obtain ⟨n, _, rfl⟩ := List.mem_map.1 this
  exact coord_length tt n

theorem lex_le_head {x y : Nat} {xs ys : List Nat} (h : lex_le (x :: xs) (y :: ys) = true) :
    x ≤ y := by
  simp only [lex_le] at h
  by_cases h1 : x < y
  · omega
  · by_cases h2 : y < x
    · simp [h1, h2] at h
    · omega

/-- After `tt_sort tt mode` the indices of mode `mode` are in non-decreasing order. -/
theorem sorted_by_sorted (tt : sptensor) {mode : Nat} (hm : mode < tt.nmodes) :
    (sorted_by tt mode).Pairwise (fun a b => a.1.getD mode 0 ≤ b.1.getD mode 0) := by
  have h : (sorted_by tt mode).Pairwise (entry_le tt.nmodes mode) :=
    List.sorted_insertionSort _ _
  refine h.imp ?_
  intro a b hab
  unfold entry_le sort_key at hab
  obtain ⟨k, hk⟩ : ∃ k, tt.nmodes = k + 1 := ⟨tt.nmodes - 1, by omega⟩
  rw [hk, List.range_succ_eq_map, List.map_cons, List.map_cons] at hab
  have := lex_le_head hab
  rw [Nat.add_zero, ← hk, Nat.mod_eq_of_lt hm] at this
  exact this

theorem tt_sort_row_mode (tt : sptensor) (mode : Nat) (hl : tt.ind.length = tt.nmodes) {m : Nat}
    (hm : m < tt.nmodes) :
    (tt_sort tt mode).ind.getD m [] =
      (sorted_by tt mode).map (fun e => e.1.getD m 0) ++ (tt.ind.getD m []).drop tt.nnz := by
  have h1 : m < ((List.range tt.ind.length).map (fun m =>
      if m < tt.nmodes then
        ((entries tt).insertionSort (entry_le tt.nmodes mode)).map (fun e => e.1.getD m 0)
          ++ (tt.ind.getD m []).drop tt.nnz
      else tt.ind.getD m [])).length := by
    rw [List.length_map, List.length_range, hl]; exact hm
  unfold tt_sort
  simp only
  rw [List.getD_eq_getElem _ _ h1, List.getElem_map, List.getElem_range, if_pos hm]
  rfl

theorem tt_sort_frame_mode (tt : sptensor) (mode : Nat) :
    (tt_sort tt mode).nmodes = tt.nmodes ∧ (tt_sort tt mode).nnz = tt.nnz ∧
    (tt_sort tt mode).dims = tt.dims ∧ (tt_sort tt mode).indmap = tt.indmap ∧
    (tt_sort tt mode).ttype = tt.ttype ∧ (tt_sort tt mode).tiled = tt.tiled ∧
    (tt_sort tt mode).ind.length = tt.ind.length :=
  ⟨rfl, rfl, rfl, rfl, rfl, rfl, by simp [tt_sort]⟩

theorem tt_sort_vals_mode (tt : sptensor) (mode : Nat) :
    (tt_sort tt mode).vals
      = (sorted_by tt mode).map (fun e => e.2) ++ tt.vals.drop tt.nnz := rfl

theorem tt_sort_rd_mode (tt : sptensor) (mode : Nat) (hl : tt.ind.length = tt.nmodes)
    {m n : Nat} (hm : m < tt.nmodes) (hn : n < tt.nnz) :
    rd (tt_sort tt mode).ind m n = ((sorted_by tt mode).getD n ([], 0)).1.getD m 0 := by
  have h1 : n < (sorted_by tt mode).length := by rw [sorted_by_length]; exact hn
  have h2 : n < ((sorted_by tt mode).map (fun e => e.1.getD m 0)).length := by
    rw [List.length_map]; exact h1
  unfold rd
  rw [tt_sort_row_mode tt mode hl hm, List.getD_eq_getElem?_getD, List.getElem?_append_left h2,
    List.getElem?_eq_getElem h2, List.getElem_map, List.getD_eq_getElem _ _ h1]
  rfl

theorem tt_sort_entry_at_mode (tt : sptensor) (mode : Nat) (hl : tt.ind.length = tt.nmodes)
    {n : Nat} (hn : n < tt.nnz) :
    entry_at (tt_sort tt mode) n = (sorted_by tt mode).getD n ([], 0) := by
  have h1 : n < (sorted_by tt mode).length := by rw [sorted_by_length]; exact hn
  have hlen := sorted_by_coord_length tt mode _ (List.getElem_mem h1)
  have hc : coord (tt_sort tt mode) n = ((sorted_by tt mode).getD n ([], 0)).1 := by
    unfold coord
    apply List.ext_getElem
    · rw [List.length_map, List.length_range, List.getD_eq_getElem _ _ h1, hlen]; rfl
    · intro m h3 h4
      have hm : m < tt.nmodes := by
        rw [List.length_map, List.length_range] at h3; exact h3
      rw [List.getElem_map, List.getElem_range]
      have := tt_sort_rd_mode tt mode hl hm hn
      rw [List.getD_eq_getElem _ 0 h4] at this
      exact this
  have hv : (tt_sort tt mode).vals.getD n 0 = ((sorted_by tt mode).getD n ([], 0)).2 := by
    have h2 : n < ((sorted_by tt mode).map (fun e => e.2)).length := by
      rw [List.length_map]; exact h1
    rw [tt_sort_vals_mode, List.getD_eq_getElem?_getD, List.getElem?_append_left h2,
      List.getElem?_eq_getElem h2, List.getElem_map, List.getD_eq_getElem _ _ h1]
    rfl
  unfold entry_at
  rw [hc, hv]

theorem tt_sort_entries_mode (tt : sptensor) (mode : Nat) (hl : tt.ind.length = tt.nmodes) :
    entries (tt_sort tt mode) = sorted_by tt mode := by
  apply List.ext_getElem
  · rw [entries_length, sorted_by_length]; rfl
  · intro n h1 h2
    have hn : n < tt.nnz := by rw [sorted_by_length] at h2; exact h2
    unfold entries
    rw [List.getElem_map, List.getElem_range, tt_sort_entry_at_mode tt mode hl hn,
      List.getD_eq_getElem _ _ h2]

theorem tt_sort_shape_ok (tt : sptensor) (mode : Nat) (hs : shape_ok tt) :
    shape_ok (tt_sort tt mode) := by
  have hs0 := hs
  obtain ⟨s1, s2, s3, s4, s5⟩ := hs
  refine ⟨s1, by rw [(tt_sort_frame_mode tt mode).2.2.2.2.2.2]; exact s2, ?_, ?_, s5⟩
  · intro row hrow
    obtain ⟨m, hm, rfl⟩ := List.mem_iff_getElem.1 hrow
    rw [(tt_sort_frame_mode tt mode).2.2.2.2.2.2] at hm
    have hm2 : m < tt.nmodes := by omega
    rw [← List.getD_eq_getElem _ [] (by rw [(tt_sort_frame_mode tt mode).2.2.2.2.2.2]; exact hm),
      tt_sort_row_mode tt mode s2 hm2, List.length_append, List.length_map, sorted_by_length]
    show tt.nnz ≤ _
    omega
  · show tt.nnz ≤ _
    rw [tt_sort_vals_mode, List.length_append, List.length_map, sorted_by_length]
    omega

/-- Sorting is a rearrangement: every entry of the sorted tensor is an entry of the
tensor before. -/
theorem tt_sort_entry_mem (tt : sptensor) (mode : Nat) (hs : shape_ok tt) {n : Nat}
    (hn : n < tt.nnz) : ∃ k < tt.nnz, entry_at (tt_sort tt mode) n = entry_at tt k := by
  have h1 : n < (sorted_by tt mode).length := by rw [sorted_by_length]; exact hn
  have hmem : entry_at (tt_sort tt mode) n ∈ entries tt := by
    rw [tt_sort_entry_at_mode tt mode hs.2.1 hn, List.getD_eq_getElem _ _ h1]
    exact (sorted_by_perm tt mode).mem_iff.1 (List.getElem_mem h1)
  unfold entries at hmem
  obtain ⟨k, hk, he⟩ := List.mem_map.1 hmem
  exact ⟨k, List.mem_range.1 hk, he.symm⟩

theorem tt_sort_in_range (tt : sptensor) (mode : Nat) (hs : shape_ok tt) (hr : in_range tt) :
    in_range (tt_sort tt mode) := by
  intro m hm n hn
  have hm2 : m < tt.nmodes := hm
  have hn2 : n < tt.nnz := hn
  obtain ⟨k, hk, he⟩ := tt_sort_entry_mem tt mode hs hn2
  have hc : coord (tt_sort tt mode) n = coord tt k := congrArg Prod.fst he
  have h1 := coord_getD (tt_sort tt mode) n hm
  have h2 := coord_getD tt k hm2
  rw [← h1, hc, h2]
  exact hr m hm2 k hk

/-- The mode-`mode` indices of the sorted tensor are in non-decreasing order. -/
theorem tt_sort_mono (tt : sptensor) {mode : Nat} (hs : shape_ok tt) (hm : mode < tt.nmodes)
    {i j : Nat} (hij : i ≤ j) (hj : j < tt.nnz) :
    rd (tt_sort tt mode).ind mode i ≤ rd (tt_sort tt mode).ind mode j := by
  rcases Nat.eq_or_lt_of_le hij with h | h
  · subst h; exact Nat.le_refl _
  · have hi : i < tt.nnz := by omega
    have h1 : i < (sorted_by tt mode).length := by rw [sorted_by_length]; exact hi
    have h2 : j < (sorted_by tt mode).length := by rw [sorted_by_length]; exact hj
    rw [tt_sort_rd_mode tt mode hs.2.1 hm hi, tt_sort_rd_mode tt mode hs.2.1 hm hj,
      List.getD_eq_getElem _ _ h1, List.getD_eq_getElem _ _ h2]
    exact List.pairwise_iff_getElem.1 (sorted_by_sorted tt hm) i j h1 h2 h

theorem filter_range_le (p : Nat → Bool) (n : Nat) :
    ∀ N, (∀ i, n ≤ i → i < N → p i = false) → ((List.range N).filter p).length ≤ n := by
  intro N
  induction N with
  | zero => intro _; simp
  | succ N ih =>
    intro h
    have h1 := ih (fun i hi hN => h i hi (by omega))
    rw [List.range_succ, List.filter_append, List.length_append]
    by_cases hN : n ≤ N
    · have : p N = false := h N hN (by omega)
      simp [this, h1]
    · have h2 : ((List.range N).filter p).length ≤ N := by
        have := List.length_filter_le p (List.range N)
        simpa using this
      have h3 : ([N].filter p).length ≤ 1 := by
        have := List.length_filter_le p [N]
        simpa using this
      omega

theorem filter_range_ge (p : Nat → Bool) :
    ∀ N n, n ≤ N → (∀ i < n, p i = true) → n ≤ ((List.range N).filter p).length := by
  intro N
  induction N with
  | zero => intro n h _; omega
  | succ N ih =>
    intro n hN h
    rw [List.range_succ, List.filter_append, List.length_append]
    by_cases hn : n ≤ N
    · have := ih n hn h; omega
    · have hn2 : n = N + 1 := by omega
      have h1 := ih N (Nat.le_refl N) (fun i hi => h i (by omega))
      have h2 : p N = true := h N (by omega)
      simp [h2]; omega

theorem rows_below_eq (tt : sptensor) (mode r k : Nat) (hk : k ≤ tt.nnz)
    (h1 : ∀ i < k, rd tt.ind mode i < r)
    (h2 : ∀ i, k ≤ i → i < tt.nnz → r ≤ rd tt.ind mode i) : rows_below tt mode r = k := by
  unfold rows_below
  apply Nat.le_antisymm
  · exact filter_range_le _ k _ (fun i hi hN => by simpa using h2 i hi hN)
  · exact filter_range_ge _ _ k hk (fun i hi => by simpa using h1 i hi)

theorem fill_rowptr_aux (n : Nat) (c : Nat) :
    ∀ (w : List Nat) (k : Nat), c ≤ k →
      (List.range' w.length c).foldlM
        (fun (s : List (Option Nat) × Nat) r =>
          if r < s.1.length then some (s.1.set r (some n), r + 1) else none)
        (w.map some ++ List.replicate k none, w.length)
      = some ((w ++ List.replicate c n).map some ++ List.replicate (k - c) none,
          w.length + c) := by
  induction c with
  | zero => intro w k _; simp
  | succ c ih =>
    intro w k hk
    obtain ⟨d, rfl⟩ : ∃ d, k = d + 1 := ⟨k - 1, by omega⟩
    rw [List.range', List.foldlM_cons]
    rw [if_pos (by rw [List.length_append, List.length_map, List.length_replicate]; omega)]
    simp only [Option.some_bind, Option.bind_eq_bind]
    rw [set_written]
    have h := ih (w ++ [n]) d (by omega)
    rw [List.length_append, List.length_singleton] at h
    rw [h]
    have h1 : w ++ [n] ++ List.replicate c n = w ++ List.replicate (c + 1) n := by
      rw [List.append_assoc, List.replicate_succ]; rfl
    have h2 : d + 1 - (c + 1) = d - c := by omega
    rw [h1, h2, Nat.add_assoc, Nat.add_comm 1 c]

theorem fill_rowptr_spec (n last : Nat) (w : List Nat) (k : Nat)
    (hcap : last + 1 ≤ w.length + k) :
    fill_rowptr n last (w.map some ++ List.replicate k none, w.length)
      = some ((w ++ List.replicate (last + 1 - w.length) n).map some
          ++ List.replicate (k - (last + 1 - w.length)) none,
          w.length + (last + 1 - w.length)) := by
  unfold fill_rowptr
  exact fill_rowptr_aux n (last + 1 - w.length) w k (by omega)

theorem replicate_eq_map_range (f : Nat → Nat) (a c v : Nat)
    (h : ∀ r, a ≤ r → r < a + c → f r = v) :
    ((List.range c).map (fun i => a + i)).map f = List.replicate c v := by
  rw [List.eq_replicate_iff]
  refine ⟨by simp, ?_⟩
  intro b hb
  obtain ⟨x, hx, rfl⟩ := List.mem_map.1 hb
  obtain ⟨i, hi, rfl⟩ := List.mem_map.1 hx
  have := List.mem_range.1 hi
  exact h _ (by omega) (by omega)

theorem map_range_extend (f : Nat → Nat) (a c v : Nat)
    (h : ∀ r, a ≤ r → r < a + c → f r = v) :
    (List.range a).map f ++ List.replicate c v = (List.range (a + c)).map f := by
  rw [List.range_add, List.map_append, replicate_eq_map_range f a c v h]

theorem unfold_loop (ts : sptensor) (mode nrows ncols : Nat)
    (hmono : ∀ i j, i ≤ j → j < ts.nnz → rd ts.ind mode i ≤ rd ts.ind mode j)
    (hrng : ∀ n < ts.nnz, rd ts.ind mode n < nrows) (k : Nat) (hk : k ≤ ts.nnz) :
    (List.range k).foldlM (unfold_step ts mode) (spmat_alloc nrows ncols ts.nnz, 0)
      = some (unfold_upto ts mode nrows ncols k) := by
  induction k with
  | zero => simp [unfold_upto, row_after, spmat_alloc]
  | succ k ih =>
    rw [List.range_succ, List.foldlM_append, ih (by omega)]
    simp only [List.foldlM_cons, List.foldlM_nil, Option.some_bind, Option.bind_eq_bind,
      Option.bind_some]
    have hrc : row_after ts mode k ≤ rd ts.ind mode k + 1 := by
      unfold row_after
      split
      · omega
      · have := hmono (k - 1) k (by omega) (by omega); omega
    have hrk := hrng k (by omega)
    have hlen : ((List.range (row_after ts mode k)).map (rows_below ts mode)).length
        = row_after ts mode k := by simp
    have hfill := fill_rowptr_spec k (rd ts.ind mode k)
      ((List.range (row_after ts mode k)).map (rows_below ts mode))
      (nrows + 1 - row_after ts mode k) (by rw [hlen]; omega)
    rw [hlen] at hfill
    have hext := map_range_extend (rows_below ts mode) (row_after ts mode k)
      (rd ts.ind mode k + 1 - row_after ts mode k) k
      (by
        intro r hr1 hr2
        apply rows_below_eq ts mode r k (by omega)
        · intro i hi
          have h1 : rd ts.ind mode i ≤ rd ts.ind mode (k - 1) :=
            hmono i (k - 1) (by omega) (by omega)
          have h2 : row_after ts mode k = rd ts.ind mode (k - 1) + 1 := by
            unfold row_after; rw [if_neg (by omega)]
          omega
        · intro i hi hin
          have := hmono k i hi hin
          omega)
    have hsum : row_after ts mode k + (rd ts.ind mode k + 1 - row_after ts mode k)
        = rd ts.ind mode k + 1 := by omega
    rw [hext, hsum] at hfill
    have hra : row_after ts mode (k + 1) = rd ts.ind mode k + 1 := by
      unfold row_after; rw [if_neg (by omega)]; rfl
    unfold unfold_step
    simp only [unfold_upto]
    rw [hfill]
    simp only
    rw [if_pos (by
      constructor
      · rw [List.length_append, List.length_map, List.length_map, List.length_range,
          List.length_replicate]; omega
      · rw [List.length_append, List.length_map, List.length_map, List.length_range,
          List.length_replicate]; omega)]
    obtain ⟨d, hd⟩ : ∃ d, ts.nnz - k = d + 1 := ⟨ts.nnz - k - 1, by omega⟩
    have hv := set_written ((List.range k).map (fun n => ts.vals.getD n 0)) d (ts.vals.getD k 0)
    have hc := set_written ((List.range k).map (fun n => (unfold_col ts mode n).1)) d
      (unfold_col ts mode k).1
    rw [List.length_map, List.length_range] at hv hc
    have hd2 : ts.nnz - (k + 1) = d := by omega
    have hd3 : nrows + 1 - row_after ts mode k - (rd ts.ind mode k + 1 - row_after ts mode k)
        = nrows + 1 - (rd ts.ind mode k + 1) := by omega
    rw [hd, hv, hc, hra, hd2, hd3]
    simp [List.range_succ]

/-- What `tt_unfold` returns on a well-shaped tensor that satisfies the index-range
invariant: the sorted tensor and the completed matrix. -/
theorem tt_unfold_eq (tt : sptensor) (hs : shape_ok tt) (hr : in_range tt) {mode : Nat}
    (hm : mode < tt.nmodes) :
    tt_unfold tt mode = some (tt_sort tt mode,
      { I := tt.dims.getD mode 0
        J := unfold_ncols tt mode
        nnz := tt.nnz
        rowptr := ((List.range (tt.dims.getD mode 0 + 1)).map
          (rows_below (tt_sort tt mode) mode)).map some
        colind := ((List.range tt.nnz).map
          (fun n => (unfold_col (tt_sort tt mode) mode n).1)).map some
        vals := ((List.range tt.nnz).map (fun n => (tt_sort tt mode).vals.getD n 0)).map some }) := by
  have hmono : ∀ i j, i ≤ j → j < (tt_sort tt mode).nnz →
      rd (tt_sort tt mode).ind mode i ≤ rd (tt_sort tt mode).ind mode j :=
    fun i j hij hj => tt_sort_mono tt hs hm hij hj
  have hrng : ∀ n < (tt_sort tt mode).nnz,
      rd (tt_sort tt mode).ind mode n < tt.dims.getD mode 0 :=
    fun n hn => tt_sort_in_range tt mode hs hr mode hm n hn
  have hloop := unfold_loop (tt_sort tt mode) mode (tt.dims.getD mode 0) (unfold_ncols tt mode)
    hmono hrng (tt_sort tt mode).nnz (Nat.le_refl _)
  have hnnz : (tt_sort tt mode).nnz = tt.nnz := rfl
  have hra : row_after (tt_sort tt mode) mode tt.nnz ≤ tt.dims.getD mode 0 := by
    unfold row_after
    split
    · omega
    · have := hrng (tt.nnz - 1) (by rw [hnnz]; omega); omega
  have hlen : ((List.range (row_after (tt_sort tt mode) mode tt.nnz)).map
      (rows_below (tt_sort tt mode) mode)).length = row_after (tt_sort tt mode) mode tt.nnz := by
    simp
  have hfill := fill_rowptr_spec tt.nnz (tt.dims.getD mode 0)
    ((List.range (row_after (tt_sort tt mode) mode tt.nnz)).map
      (rows_below (tt_sort tt mode) mode))
    (tt.dims.getD mode 0 + 1 - row_after (tt_sort tt mode) mode tt.nnz)
    (by rw [hlen]; omega)
  rw [hlen] at hfill
  have hext := map_range_extend (rows_below (tt_sort tt mode) mode)
    (row_after (tt_sort tt mode) mode tt.nnz)
    (tt.dims.getD mode 0 + 1 - row_after (tt_sort tt mode) mode tt.nnz) tt.nnz
    (by
      intro r hr1 _
      apply rows_below_eq (tt_sort tt mode) mode r tt.nnz (Nat.le_refl _)
      · intro i hi
        have h1 := hmono i (tt.nnz - 1) (by omega) (by rw [hnnz]; omega)
        have h2 : row_after (tt_sort tt mode) mode tt.nnz
            = rd (tt_sort tt mode).ind mode (tt.nnz - 1) + 1 := by
          unfold row_after; rw [if_neg (by omega)]
        omega
      · intro i hi hin
        rw [hnnz] at hin; omega)
  have hsum : row_after (tt_sort tt mode) mode tt.nnz
      + (tt.dims.getD mode 0 + 1 - row_after (tt_sort tt mode) mode tt.nnz)
      = tt.dims.getD mode 0 + 1 := by omega
  rw [hext, hsum, Nat.sub_self, List.replicate_zero, List.append_nil] at hfill
  unfold tt_unfold
  simp only
  rw [hloop]
  simp only [unfold_upto, hnnz]
  rw [hfill]
  simp

/-- In a tensor sorted by `mode`, the row pointer of row `r` is at most `n` exactly
when entry `n` lies in row `r` or a later one. -/
theorem rows_below_le_iff (ts : sptensor) (mode : Nat)
    (hmono : ∀ i j, i ≤ j → j < ts.nnz → rd ts.ind mode i ≤ rd ts.ind mode j)
    (r n : Nat) (hn : n < ts.nnz) :
    rows_below ts mode r ≤ n ↔ r ≤ rd ts.ind mode n := by
  constructor
  · intro h
    by_contra hc
    have hge := filter_range_ge (fun i => decide (rd ts.ind mode i < r)) ts.nnz (n + 1)
      (by omega)
      (fun i hi => by
        have := hmono i n (by omega) hn
        simp; omega)
    unfold rows_below at h
    omega
  · intro h
    unfold rows_below
    exact filter_range_le _ n _ (fun i hi hN => by
      have := hmono n i hi hN
      simp; omega)

theorem rows_below_le_nnz (ts : sptensor) (mode r : Nat) : rows_below ts mode r ≤ ts.nnz := by
  unfold rows_below
  have := List.length_filter_le (fun n => decide (rd ts.ind mode n < r)) (List.range ts.nnz)
  simpa using this

theorem rows_below_mono (ts : sptensor) (mode : Nat)
    (hmono : ∀ i j, i ≤ j → j < ts.nnz → rd ts.ind mode i ≤ rd ts.ind mode j) (r : Nat) :
    rows_below ts mode r ≤ rows_below ts mode (r + 1) := by
  by_contra hc
  have h1 : rows_below ts mode (r + 1) < ts.nnz := by
    have := rows_below_le_nnz ts mode r; omega
  have h2 := (rows_below_le_iff ts mode hmono (r + 1) _ h1).1 (Nat.le_refl _)
  have h3 := (rows_below_le_iff ts mode hmono r _ h1).2 (by omega)
  omega

theorem replicate_eq_map {α : Type} (n : Nat) (x : α) :
    List.replicate n x = (List.range n).map (fun _ => x) := by
  apply List.ext_getElem
  · simp
  · intro i h1 h2; simp

theorem tt_alloc_eq (n nmodes : Nat) : tt_alloc n nmodes = raw_of nmodes n [] n := by
  unfold tt_alloc raw_of
  rw [replicate_eq_map nmodes]
  simp

theorem foldl_set_rows {α : Type} (f : Nat → List α → List α) (L : List (List α)) :
    ∀ n, n ≤ L.length →
      (List.range n).foldl (fun ind m => ind.set m (f m (ind.getD m []))) L
        = (List.range L.length).map (fun m => if m < n then f m (L.getD m []) else L.getD m []) := by
  intro n
  induction n with
  | zero =>
    intro _
    simp only [List.range_zero, List.foldl_nil, Nat.not_lt_zero, if_false]
    apply List.ext_getElem
    · simp
    · intro i h1 h2
      rw [List.getElem_map, List.getElem_range]
      exact (List.getD_eq_getElem _ _ h1).symm
  | succ n ih =>
    intro hn
    rw [List.range_succ, List.foldl_append, ih (by omega)]
    simp only [List.foldl_cons, List.foldl_nil]
    apply List.ext_getElem
    · simp
    · intro i h1 h2
      have hi : i < L.length := by simpa using h2
      rw [List.getElem_set]
      by_cases h : n = i
      · subst h
        rw [if_pos rfl, List.getElem_map, List.getElem_range, if_pos (by omega),
          List.getD_eq_getElem _ _ (by simp; omega), List.getElem_map, List.getElem_range,
          if_neg (by omega)]
      · rw [if_neg h, List.getElem_map, List.getElem_map, List.getElem_range]
        by_cases h3 : i < n
        · rw [if_pos h3, if_pos (by omega)]
        · rw [if_neg h3, if_neg (by omega)]

theorem put_entry_raw (nmodes n : Nat) (src : sptensor) (p : Nat) (w : List (List Nat × Int))
    (k : Nat) :
    put_entry nmodes src p (raw_of nmodes n w (k + 1)) w.length
      = some (raw_of nmodes n (w ++ [entry_of nmodes src p]) k) := by
  have hrow : ∀ m < nmodes, ((raw_of nmodes n w (k + 1)).ind.getD m [])
      = w.map (fun e => some (e.1.getD m 0)) ++ List.replicate (k + 1) none := by
    intro m hm
    unfold raw_of
    simp only
    rw [List.getD_eq_getElem _ _ (by simp; omega), List.getElem_map, List.getElem_range]
  unfold put_entry
  rw [if_pos]
  · have hlen : (raw_of nmodes n w (k + 1)).ind.length = nmodes := by simp [raw_of]
    rw [foldl_set_rows (fun m row => row.set w.length (some (rd src.ind m p))) _ nmodes
      (by rw [hlen]), hlen]
    congr 1
    unfold raw_of
    simp only [raw_tensor.mk.injEq, true_and]
    refine ⟨?_, ?_, trivial⟩
    · apply List.map_congr_left
      intro m hm
      have hm2 : m < nmodes := List.mem_range.1 hm
      rw [if_pos hm2]
      have := hrow m hm2
      unfold raw_of at this
      simp only at this
      rw [this]
      have h1 : w.length = (w.map (fun e => some (e.1.getD m 0))).length := by simp
      rw [h1, List.set_append_right _ _ (Nat.le_refl _)]
      simp only [Nat.sub_self, List.replicate_succ, List.set_cons_zero, List.map_append,
        List.map_cons, List.map_nil, List.append_assoc, List.singleton_append]
      congr 3
      unfold entry_of
      simp only
      rw [List.getD_eq_getElem _ _ (by simp; omega), List.getElem_map, List.getElem_range]
    · have h1 : w.length = (w.map (fun e => some e.2)).length := by simp
      rw [h1, List.set_append_right _ _ (Nat.le_refl _)]
      simp [List.replicate_succ, entry_of]
  · refine ⟨by simp [raw_of], ?_⟩
    intro m hm
    rw [hrow m hm]
    simp

/-- The counting loop and the copying loop take the same decisions: where the counting
loop ends with the counter raised by `d`, the copying loop appends the `d` entries of
`union_main` to a buffer that has room for them, and stops at the same positions. -/
theorem union_copy_sim (nmodes : Nat) (a b : sptensor) :
    ∀ (fuel u pa pb : Nat) (st : Nat × Nat × Nat),
      union_count_loop nmodes a b fuel (u, pa, pb) = some st →
      st.1 = u + (union_main nmodes a b fuel pa pb).length ∧
      ∀ (n : Nat) (w : List (List Nat × Int)) (k : Nat),
        union_copy_loop nmodes a b fuel
            (raw_of nmodes n w ((union_main nmodes a b fuel pa pb).length + k), w.length, pa, pb)
          = some (raw_of nmodes n (w ++ union_main nmodes a b fuel pa pb) k,
              w.length + (union_main nmodes a b fuel pa pb).length, st.2.1, st.2.2) := by
  intro fuel
  induction fuel with
  | zero =>
    intro u pa pb st h
    simp only [union_count_loop] at h
    by_cases hc : pa < a.nnz ∧ pb < b.nnz
    · rw [if_pos hc] at h; cases h
    · rw [if_neg hc] at h
      cases h
      refine ⟨by simp [union_main], ?_⟩
      intro n w k
      simp [union_main, union_copy_loop, hc]
  | succ fuel ih =>
    intro u pa pb st h
    simp only [union_count_loop] at h
    by_cases hc : pa < a.nnz ∧ pb < b.nnz
    · rw [if_pos hc] at h
      simp only [union_count_step] at h
      by_cases h1 : (union_cmp nmodes a b pa pb).1 = true
      · rw [if_pos h1] at h
        by_cases hp : print_ok a b pa pb = true
        · rw [if_pos hp] at h
          simp only at h
          obtain ⟨e1, e2⟩ := ih _ _ _ _ h
          have hm : union_main nmodes a b (fuel + 1) pa pb
              = entry_of nmodes a pa :: union_main nmodes a b fuel (pa + 1) (pb + 1) := by
            simp only [union_main]; rw [if_pos hc, if_pos h1]
          refine ⟨by rw [e1, hm, List.length_cons]; omega, ?_⟩
          intro n w k
          simp only [union_copy_loop]
          rw [if_pos hc]
          simp only [union_copy_step]
          rw [if_pos h1, hm, List.length_cons]
          have hk : (union_main nmodes a b fuel (pa + 1) (pb + 1)).length + 1 + k
              = ((union_main nmodes a b fuel (pa + 1) (pb + 1)).length + k) + 1 := by omega
          rw [hk, put_entry_raw]
          simp only
          have := e2 n (w ++ [entry_of nmodes a pa]) k
          rw [List.length_append, List.length_singleton] at this
          rw [this]
          simp only [List.append_assoc, List.singleton_append, Option.some.injEq, Prod.mk.injEq,
            true_and, and_true]
          omega
        · rw [if_neg hp] at h; cases h
      · rw [if_neg h1] at h
        by_cases h2 : (union_cmp nmodes a b pa pb).2 = 0
        · rw [if_pos h2] at h
          simp only at h
          obtain ⟨e1, e2⟩ := ih _ _ _ _ h
          have hm : union_main nmodes a b (fuel + 1) pa pb
              = entry_of nmodes a pa :: entry_of nmodes b pb
                :: union_main nmodes a b fuel (pa + 1) (pb + 1) := by
            simp only [union_main]; rw [if_pos hc, if_neg h1, if_pos h2]
          refine ⟨by rw [e1, hm, List.length_cons, List.length_cons]; omega, ?_⟩
          intro n w k
          simp only [union_copy_loop]
          rw [if_pos hc]
          simp only [union_copy_step]
          rw [if_neg h1, if_pos h2, hm, List.length_cons, List.length_cons]
          have hk : (union_main nmodes a b fuel (pa + 1) (pb + 1)).length + 1 + 1 + k
              = ((union_main nmodes a b fuel (pa + 1) (pb + 1)).length + k + 1) + 1 := by omega
          rw [hk, put_entry_raw]
          simp only
          have hput := put_entry_raw nmodes n b pb (w ++ [entry_of nmodes a pa])
            ((union_main nmodes a b fuel (pa + 1) (pb + 1)).length + k)
          rw [List.length_append, List.length_singleton] at hput
          rw [hput]
          simp only
          have := e2 n (w ++ [entry_of nmodes a pa] ++ [entry_of nmodes b pb]) k
          rw [List.length_append, List.length_append, List.length_singleton,
            List.length_singleton] at this
          rw [this]
          simp only [List.append_assoc, List.singleton_append, List.cons_append, List.nil_append,
            Option.some.injEq, Prod.mk.injEq, true_and, and_true]
          omega
        · rw [if_neg h2] at h
          by_cases h3 : (union_cmp nmodes a b pa pb).2 = -1
          · rw [if_pos h3] at h
            simp only at h
            obtain ⟨e1, e2⟩ := ih _ _ _ _ h
            have hm : union_main nmodes a b (fuel + 1) pa pb
                = entry_of nmodes a pa :: union_main nmodes a b fuel (pa + 1) pb := by
              simp only [union_main]; rw [if_pos hc, if_neg h1, if_neg h2, if_pos h3]
            refine ⟨by rw [e1, hm, List.length_cons]; omega, ?_⟩
            intro n w k
            simp only [union_copy_loop]
            rw [if_pos hc]
            simp only [union_copy_step]
            rw [if_neg h1, if_neg h2, if_pos h3, hm, List.length_cons]
            have hk : (union_main nmodes a b fuel (pa + 1) pb).length + 1 + k
                = ((union_main nmodes a b fuel (pa + 1) pb).length + k) + 1 := by omega
            rw [hk, put_entry_raw]
            simp only
            have := e2 n (w ++ [entry_of nmodes a pa]) k
            rw [List.length_append, List.length_singleton] at this
            rw [this]
            simp only [List.append_assoc, List.singleton_append, Option.some.injEq,
              Prod.mk.injEq, true_and, and_true]
            omega
          · rw [if_neg h3] at h
            simp only at h
            obtain ⟨e1, e2⟩ := ih _ _ _ _ h
            have hm : union_main nmodes a b (fuel + 1) pa pb
                = entry_of nmodes b pb :: union_main nmodes a b fuel pa (pb + 1) := by
              simp only [union_main]; rw [if_pos hc, if_neg h1, if_neg h2, if_neg h3]
            refine ⟨by rw [e1, hm, List.length_cons]; omega, ?_⟩
            intro n w k
            simp only [union_copy_loop]
            rw [if_pos hc]
            simp only [union_copy_step]
            rw [if_neg h1, if_neg h2, if_neg h3, hm, List.length_cons]
            have hk : (union_main nmodes a b fuel pa (pb + 1)).length + 1 + k
                = ((union_main nmodes a b fuel pa (pb + 1)).length + k) + 1 := by omega
            rw [hk, put_entry_raw]
            simp only
            have := e2 n (w ++ [entry_of nmodes b pb]) k
            rw [List.length_append, List.length_singleton] at this
            rw [this]
            simp only [List.append_assoc, List.singleton_append, Option.some.injEq,
              Prod.mk.injEq, true_and, and_true]
            omega
    · rw [if_neg hc] at h
      cases h
      have hm : union_main nmodes a b (fuel + 1) pa pb = [] := by
        simp only [union_main]; rw [if_neg hc]
      refine ⟨by rw [hm]; rfl, ?_⟩
      intro n w k
      simp only [union_copy_loop]
      rw [if_neg hc, hm]
      simp

/-- A leftover loop appends the entries `p .. p + c - 1` of `src`. -/
theorem union_copy_rest_spec (nmodes n : Nat) (src : sptensor) (p : Nat) :
    ∀ (c : Nat) (w : List (List Nat × Int)) (k : Nat),
      (List.range' p c).foldlM
          (fun (s : raw_tensor × Nat) q =>
            (put_entry nmodes src q s.1 s.2).map (fun r => (r, s.2 + 1)))
          (raw_of nmodes n w (c + k), w.length)
        = some (raw_of nmodes n (w ++ (List.range' p c).map (entry_of nmodes src)) k,
            w.length + c) := by
  intro c
  induction c with
  | zero => intro w k; simp
  | succ c ih =>
    intro w k
    rw [List.range'_concat, List.foldlM_append, Nat.one_mul]
    have hk : c + 1 + k = c + (k + 1) := by omega
    rw [hk, ih w (k + 1)]
    simp only [List.foldlM_cons, List.foldlM_nil, Option.some_bind, Option.bind_eq_bind]
    have := put_entry_raw nmodes n src (p + c) (w ++ (List.range' p c).map (entry_of nmodes src)) k
    rw [List.length_append, List.length_map, List.length_range'] at this
    rw [this]
    simp [Nat.add_assoc]

theorem print_ok_of_shape {a b : sptensor} (ha : shape_ok a) (hb : shape_ok b)
    (h3a : 3 ≤ a.nmodes) (h3b : 3 ≤ b.nmodes) {pa pb : Nat} (hpa : pa < a.nnz)
    (hpb : pb < b.nnz) : print_ok a b pa pb = true := by
  have hrow : ∀ (t : sptensor), shape_ok t → ∀ m < t.nmodes, t.nnz ≤ (t.ind.getD m []).length := by
    intro t ht m hm
    obtain ⟨_, s2, s3, _, _⟩ := ht
    rw [List.getD_eq_getElem _ _ (by omega)]
    exact s3 _ (List.getElem_mem _)
  unfold print_ok
  rw [List.all_eq_true]
  intro m hm
  have hm3 : m < 3 := by
    simp only [List.mem_cons, List.mem_singleton, List.not_mem_nil, or_false] at hm
    omega
  have h1 := hrow a ha m (by omega)
  have h2 := hrow b hb m (by omega)
  rw [decide_eq_true_eq]
  exact ⟨by rw [ha.2.1]; omega, by omega, by rw [hb.2.1]; omega, by omega⟩

/-- The counting loop ends within `fuel` passes when `fuel` is at least the number of
entries still ahead and the `printf` never reads out of bounds. -/
theorem union_count_loop_total (nmodes : Nat) (a b : sptensor)
    (hp : ∀ pa < a.nnz, ∀ pb < b.nnz, print_ok a b pa pb = true) :
    ∀ (fuel u pa pb : Nat), (a.nnz - pa) + (b.nnz - pb) ≤ fuel →
      ∃ st, union_count_loop nmodes a b fuel (u, pa, pb) = some st := by
  intro fuel
  induction fuel with
  | zero =>
    intro u pa pb h
    simp only [union_count_loop]
    rw [if_neg (by omega)]
    exact ⟨_, rfl⟩
  | succ fuel ih =>
    intro u pa pb h
    simp only [union_count_loop]
    by_cases hc : pa < a.nnz ∧ pb < b.nnz
    · rw [if_pos hc]
      simp only [union_count_step]
      by_cases h1 : (union_cmp nmodes a b pa pb).1 = true
      · rw [if_pos h1, if_pos (hp pa hc.1 pb hc.2)]
        exact ih _ _ _ (by omega)
      · rw [if_neg h1]
        by_cases h2 : (union_cmp nmodes a b pa pb).2 = 0
        · rw [if_pos h2]; exact ih _ _ _ (by omega)
        · rw [if_neg h2]
          by_cases h3 : (union_cmp nmodes a b pa pb).2 = -1
          · rw [if_pos h3]; exact ih _ _ _ (by omega)
          · rw [if_neg h3]; exact ih _ _ _ (by omega)
    · rw [if_neg hc]
      exact ⟨_, rfl⟩

/-- Where the counting loop ends in the state `st`, `union_fill` allocates as many
entries as it then writes, and leaves no cell unwritten. -/
theorem union_fill_eq (nmodes : Nat) (a b : sptensor) (st : Nat × Nat × Nat)
    (h : union_count_loop nmodes a b (a.nnz + b.nnz) (0, 0, 0) = some st) :
    union_count nmodes a b = some (union_all nmodes a b st.2.1 st.2.2).length ∧
    union_fill nmodes a b = some ((union_all nmodes a b st.2.1 st.2.2).length,
      raw_of nmodes (union_all nmodes a b st.2.1 st.2.2).length
        (union_all nmodes a b st.2.1 st.2.2) 0,
      (union_all nmodes a b st.2.1 st.2.2).length) := by
  obtain ⟨e1, e2⟩ := union_copy_sim nmodes a b _ _ _ _ st h
  have hlen : (union_all nmodes a b st.2.1 st.2.2).length
      = st.1 + ((a.nnz - st.2.1) + (b.nnz - st.2.2)) := by
    unfold union_all
    rw [List.length_append, List.length_append, List.length_map, List.length_map,
      List.length_range', List.length_range', e1]
    omega
  have hc : union_count nmodes a b = some (union_all nmodes a b st.2.1 st.2.2).length := by
    unfold union_count
    rw [h, hlen]
  refine ⟨hc, ?_⟩
  unfold union_fill
  rw [hc]
  simp only
  rw [tt_alloc_eq]
  have hcap : (union_all nmodes a b st.2.1 st.2.2).length
      = (union_main nmodes a b (a.nnz + b.nnz) 0 0).length
        + ((a.nnz - st.2.1) + (b.nnz - st.2.2)) := by
    rw [hlen, e1]; omega
  have hmain := e2 (union_all nmodes a b st.2.1 st.2.2).length [] ((a.nnz - st.2.1) + (b.nnz - st.2.2))
  rw [← hcap] at hmain
  rw [List.length_nil] at hmain
  rw [hmain]
  simp only [List.nil_append, Nat.zero_add]
  unfold union_copy_rest
  have hra := union_copy_rest_spec nmodes (union_all nmodes a b st.2.1 st.2.2).length a st.2.1
    (a.nnz - st.2.1) (union_main nmodes a b (a.nnz + b.nnz) 0 0) (b.nnz - st.2.2)
  rw [hra]
  simp only
  have hrb := union_copy_rest_spec nmodes (union_all nmodes a b st.2.1 st.2.2).length b st.2.2
    (b.nnz - st.2.2) (union_main nmodes a b (a.nnz + b.nnz) 0 0
      ++ (List.range' st.2.1 (a.nnz - st.2.1)).map (entry_of nmodes a)) 0
  rw [List.length_append, List.length_map, List.length_range', Nat.add_zero] at hrb
  rw [hrb]
  simp only [Option.some.injEq, Prod.mk.injEq, true_and]
  refine ⟨rfl, ?_⟩
  rw [hcap]; omega

theorem raw_of_written (nmodes n : Nat) (w : List (List Nat × Int)) :
    (raw_of nmodes n w 0).nnz = n ∧ (raw_of nmodes n w 0).vals.length = w.length ∧
    (∀ v ∈ (raw_of nmodes n w 0).vals, v ≠ none) ∧
    (raw_of nmodes n w 0).ind.length = nmodes ∧
    ∀ row ∈ (raw_of nmodes n w 0).ind, row.length = w.length ∧ ∀ c ∈ row, c ≠ none := by
  refine ⟨rfl, by simp [raw_of], ?_, by simp [raw_of], ?_⟩
  · intro v hv
    simp only [raw_of, List.replicate_zero, List.append_nil, List.mem_map] at hv
    obtain ⟨e, _, rfl⟩ := hv
    exact Option.some_ne_none _
  · intro row hrow
    simp only [raw_of, List.replicate_zero, List.append_nil, List.mem_map, List.mem_range] at hrow
    obtain ⟨m, _, rfl⟩ := hrow
    refine ⟨by simp, ?_⟩
    intro c hc
    obtain ⟨e, _, rfl⟩ := List.mem_map.1 hc
    exact Option.some_ne_none _

theorem raw_load_raw_of (nmodes n : Nat) (w : List (List Nat × Int)) :
    raw_load (raw_of nmodes n w 0) = some
      { ttype := if nmodes = 3 then tt_type.SPLATT_3MODE else tt_type.SPLATT_NMODE
        nmodes := nmodes
        nnz := n
        dims := List.replicate nmodes 0
        ind := (List.range nmodes).map (fun m => w.map (fun e => e.1.getD m 0))
        vals := w.map (fun e => e.2)
        tiled := tile_type.SPLATT_NOTILE
        indmap := List.replicate nmodes none } := by
  have hw := raw_of_written nmodes n w
  unfold raw_load
  rw [if_pos ⟨hw.2.2.1, fun row hr => (hw.2.2.2.2 row hr).2⟩]
  simp [raw_of, Function.comp_def]

/-- What `tt_union` returns where its counting loop ends in the state `st`. -/
theorem tt_union_eq (a b : sptensor) (hn : a.nmodes = b.nmodes) (st : Nat × Nat × Nat)
    (h : union_count_loop a.nmodes (tt_sort a 0) (tt_sort b 0) (a.nnz + b.nnz) (0, 0, 0)
      = some st) :
    tt_union a b = some (tt_fill_dims (tensor_of a.nmodes
      (union_all a.nmodes (tt_sort a 0) (tt_sort b 0) st.2.1 st.2.2).length
      (union_all a.nmodes (tt_sort a 0) (tt_sort b 0) st.2.1 st.2.2))) := by
  have hf := (union_fill_eq a.nmodes (tt_sort a 0) (tt_sort b 0) st h).2
  unfold tt_union
  rw [if_pos hn, hf]
  simp only
  rw [raw_load_raw_of]
  rfl

theorem union_cmp_self (nmodes : Nat) (s : sptensor) (i : Nat) :
    union_cmp nmodes s s i i = (true, 0) := by
  unfold union_cmp
  have : (List.range nmodes).find? (fun m => decide (rd s.ind m i ≠ rd s.ind m i)) = none := by
    rw [List.find?_eq_none]
    intro m _
    simp
  rw [this]
  simp

/-- The loops of `tt_union` on a tensor and its copy: every pass finds an exact match. -/
theorem union_self_loop (nmodes : Nat) (s : sptensor)
    (hp : ∀ i < s.nnz, print_ok s s i i = true) :
    ∀ (fuel u i : Nat), s.nnz - i ≤ fuel → i ≤ s.nnz →
      union_count_loop nmodes s s fuel (u, i, i) = some (u + (s.nnz - i), s.nnz, s.nnz) ∧
      union_main nmodes s s fuel i i = (List.range' i (s.nnz - i)).map (entry_of nmodes s) := by
  intro fuel
  induction fuel with
  | zero =>
    intro u i h1 h2
    have : s.nnz - i = 0 := by omega
    have hi : i = s.nnz := by omega
    simp only [union_count_loop, union_main]
    rw [if_neg (by omega), this]
    subst hi
    simp
  | succ fuel ih =>
    intro u i h1 h2
    simp only [union_count_loop, union_main]
    by_cases hc : i < s.nnz
    · rw [if_pos ⟨hc, hc⟩, if_pos ⟨hc, hc⟩]
      simp only [union_count_step]
      rw [union_cmp_self, if_pos rfl, if_pos (hp i hc), if_pos rfl]
      obtain ⟨e1, e2⟩ := ih (u + 1) (i + 1) (by omega) (by omega)
      simp only
      rw [e1, e2]
      obtain ⟨d, hd⟩ : ∃ d, s.nnz - i = d + 1 := ⟨s.nnz - i - 1, by omega⟩
      have hd2 : s.nnz - (i + 1) = d := by omega
      rw [hd, hd2, List.range'_succ, List.map_cons]
      refine ⟨?_, rfl⟩
      congr 2
      omega
    · rw [if_neg (fun h => hc h.1), if_neg (fun h => hc h.1)]
      have hi : i = s.nnz := by omega
      subst hi
      simp

theorem entry_of_eq (s : sptensor) (p : Nat) : entry_of s.nmodes s p = entry_at s p := rfl

/-- A tensor with at least three modes unioned with an identical copy: the result holds
the entries of the sorted tensor, one per original entry. -/
theorem tt_union_self (a : sptensor) (hs : shape_ok a) (h3 : 3 ≤ a.nmodes) :
    tt_union a a = some (tt_fill_dims (tensor_of a.nmodes a.nnz (entries (tt_sort a 0)))) := by
  have hss := tt_sort_shape_ok a 0 hs
  have hp : ∀ i < (tt_sort a 0).nnz, print_ok (tt_sort a 0) (tt_sort a 0) i i = true :=
    fun i hi => print_ok_of_shape hss hss h3 h3 hi hi
  obtain ⟨e1, e2⟩ := union_self_loop a.nmodes (tt_sort a 0) hp (a.nnz + a.nnz) 0 0
    (by show a.nnz - 0 ≤ _; omega) (Nat.zero_le _)
  have hnz : (tt_sort a 0).nnz = a.nnz := rfl
  rw [tt_union_eq a a rfl _ e1]
  have hall : union_all a.nmodes (tt_sort a 0) (tt_sort a 0) (tt_sort a 0).nnz (tt_sort a 0).nnz
      = entries (tt_sort a 0) := by
    unfold union_all
    rw [hnz] at e2 ⊢
    rw [e2, Nat.sub_self, Nat.sub_zero]
    simp only [List.range'_zero, List.map_nil, List.append_nil]
    unfold entries
    rw [hnz, List.range_eq_range']
    rfl
  simp only
  rw [hall, entries_length]
  rfl

theorem entries_tensor_of (nmodes : Nat) (w : List (List Nat × Int))
    (hw : ∀ e ∈ w, e.1.length = nmodes) :
    entries (tensor_of nmodes w.length w) = w := by
  apply List.ext_getElem
  · rw [entries_length]; rfl
  · intro i h1 h2
    rw [entries_getElem]
    unfold entry_at coord rd tensor_of
    simp only
    have hv : (w.map (fun e => e.2)).getD i 0 = w[i].2 := by
      rw [List.getD_eq_getElem _ _ (by simpa using h2), List.getElem_map]
    rw [hv]
    have hc : (List.range nmodes).map (fun m =>
        (((List.range nmodes).map (fun m => w.map (fun e => e.1.getD m 0))).getD m []).getD i 0)
        = w[i].1 := by
      apply list_ext_getD 0
      · rw [List.length_map, List.length_range, hw _ (List.getElem_mem _)]
      · intro m
        by_cases hm : m < nmodes
        · have hrow : ((List.range nmodes).map (fun m => w.map (fun e => e.1.getD m 0))).getD m []
              = w.map (fun e => e.1.getD m 0) := by
            rw [List.getD_eq_getElem _ _ (by rw [List.length_map, List.length_range]; exact hm),
              List.getElem_map, List.getElem_range]
          rw [List.getD_eq_getElem _ _ (by rw [List.length_map, List.length_range]; exact hm),
            List.getElem_map, List.getElem_range, hrow,
            List.getD_eq_getElem _ _ (by rw [List.length_map]; exact h2), List.getElem_map]
        · rw [List.getD_eq_default _ _ (by rw [List.length_map, List.length_range]; omega),
            List.getD_eq_default _ _ (by rw [hw _ (List.getElem_mem _)]; omega)]
    rw [hc]

theorem entries_tt_fill_dims (t : sptensor) : entries (tt_fill_dims t) = entries t := rfl

/-- A tensor with at least three modes unioned with an identical copy yields `nnz`
entries, those of the tensor itself in sorted order. -/
theorem tt_union_self_entries (a : sptensor) (hs : shape_ok a) (h3 : 3 ≤ a.nmodes) :
    ∃ r, tt_union a a = some r ∧ r.nnz = a.nnz ∧ entries r = entries (tt_sort a 0) ∧
      (entries r).Perm (entries a) := by
  have he : entries (tt_fill_dims (tensor_of a.nmodes a.nnz (entries (tt_sort a 0))))
      = entries (tt_sort a 0) := by
    rw [entries_tt_fill_dims]
    have hl : (entries (tt_sort a 0)).length = a.nnz := entries_length _
    have := entries_tensor_of a.nmodes (entries (tt_sort a 0)) (by
      intro e he
      unfold entries at he
      obtain ⟨n, _, rfl⟩ := List.mem_map.1 he
      exact coord_length _ n)
    rw [hl] at this
    exact this
  refine ⟨_, tt_union_self a hs h3, rfl, he, ?_⟩
  rw [he, tt_sort_entries_mode a 0 hs.2.1]
  exact sorted_by_perm a 0

/-- The first index at which two index functions differ decides the order of the two
coordinate tuples. -/
theorem find_differ (f g : Nat → Nat) :
    ∀ l : List Nat,
      match l.find? (fun m => decide (f m ≠ g m)) with
      | none => l.map f = l.map g
      | some m => l.map f ≠ l.map g ∧ (lex_le (l.map f) (l.map g) = true ↔ f m < g m) := by
  intro l
  induction l with
  | nil => simp
  | cons x rest ih =>
    by_cases h : f x = g x
    · rw [List.find?_cons_of_neg _ (by simpa using h)]
      cases hf : rest.find? (fun m => decide (f m ≠ g m)) with
      | none =>
        rw [hf] at ih
        simp only at ih ⊢
        rw [List.map_cons, List.map_cons, ih, h]
      | some m =>
        rw [hf] at ih
        simp only at ih ⊢
        obtain ⟨i1, i2⟩ := ih
        refine ⟨?_, ?_⟩
        · intro hc
          rw [List.map_cons, List.map_cons] at hc
          exact i1 (List.cons.inj hc).2
        · rw [List.map_cons, List.map_cons, ← i2]
          simp only [lex_le, h, Nat.lt_irrefl, if_false]
    · rw [List.find?_cons_of_pos _ (by simpa using h)]
      simp only
      refine ⟨?_, ?_⟩
      · intro hc
        rw [List.map_cons, List.map_cons] at hc
        exact h (List.cons.inj hc).1
      · rw [List.map_cons, List.map_cons]
        simp only [lex_le]
        by_cases h2 : f x < g x
        · simp [h2]
        · have h3 : g x < f x := by omega
          simp [h2, h3]

/-- The comparison of `tt_union`, read on the two entries. -/
theorem union_cmp_entries (nmodes : Nat) (a b : sptensor) (pa pb : Nat) :
    ((union_cmp nmodes a b pa pb).1 = true ↔
      (entry_of nmodes a pa).1 = (entry_of nmodes b pb).1 ∧
      (entry_of nmodes a pa).2 = (entry_of nmodes b pb).2) ∧
    ((union_cmp nmodes a b pa pb).2 = 0 ↔
      (entry_of nmodes a pa).1 = (entry_of nmodes b pb).1) ∧
    ((union_cmp nmodes a b pa pb).2 = -1 ↔
      (entry_of nmodes a pa).1 ≠ (entry_of nmodes b pb).1 ∧
      lex_le (entry_of nmodes a pa).1 (entry_of nmodes b pb).1 = true) := by
  have hd := find_differ (fun m => rd a.ind m pa) (fun m => rd b.ind m pb) (List.range nmodes)
  unfold union_cmp entry_of
  simp only
  cases hf : (List.range nmodes).find? (fun m => decide (rd a.ind m pa ≠ rd b.ind m pb)) with
  | none =>
    rw [hf] at hd
    simp only at hd ⊢
    refine ⟨?_, ?_, ?_⟩
    · rw [decide_eq_true_eq]
      exact ⟨fun h => ⟨hd, h⟩, fun h => h.2⟩
    · exact ⟨fun _ => hd, fun _ => trivial⟩
    · constructor
      · intro h; exact absurd h (by decide)
      · intro h; exact absurd hd h.1
  | some m =>
    rw [hf] at hd
    simp only at hd ⊢
    obtain ⟨d1, d2⟩ := hd
    refine ⟨?_, ?_, ?_⟩
    · constructor
      · intro h; cases h
      · intro h; exact absurd h.1 d1
    · constructor
      · intro h
        by_cases h2 : rd a.ind m pa < rd b.ind m pb
        · rw [if_pos h2] at h; exact absurd h (by decide)
        · rw [if_neg h2] at h; exact absurd h (by decide)
      · intro h; exact absurd h d1
    · constructor
      · intro h
        by_cases h2 : rd a.ind m pa < rd b.ind m pb
        · exact ⟨d1, d2.2 h2⟩
        · rw [if_neg h2] at h; exact absurd h (by decide)
      · intro h
        rw [if_pos (d2.1 h.2)]

theorem range'_map_cons (f : Nat → List Nat × Int) (p n : Nat) (h : p < n) :
    (List.range' p (n - p)).map f = f p :: (List.range' (p + 1) (n - (p + 1))).map f := by
  obtain ⟨d, hd⟩ : ∃ d, n - p = d + 1 := ⟨n - p - 1, by omega⟩
  have hd2 : n - (p + 1) = d := by omega
  rw [hd, hd2, List.range'_succ, List.map_cons]

theorem range'_map_nil (f : Nat → List Nat × Int) (p n : Nat) (h : ¬ p < n) :
    (List.range' p (n - p)).map f = [] := by
  have : n - p = 0 := by omega
  rw [this]
  rfl

/-- The entries `tt_union` writes are the merge of the remaining entries of the two
operands. -/
theorem union_main_merge (nmodes : Nat) (a b : sptensor) :
    ∀ (fuel u pa pb : Nat) (st : Nat × Nat × Nat),
      union_count_loop nmodes a b fuel (u, pa, pb) = some st →
      union_main nmodes a b fuel pa pb
          ++ (List.range' st.2.1 (a.nnz - st.2.1)).map (entry_of nmodes a)
          ++ (List.range' st.2.2 (b.nnz - st.2.2)).map (entry_of nmodes b)
        = merge_upto fuel ((List.range' pa (a.nnz - pa)).map (entry_of nmodes a))
            ((List.range' pb (b.nnz - pb)).map (entry_of nmodes b)) := by
  intro fuel
  induction fuel with
  | zero =>
    intro u pa pb st h
    simp only [union_count_loop] at h
    by_cases hc : pa < a.nnz ∧ pb < b.nnz
    · rw [if_pos hc] at h; cases h
    · rw [if_neg hc] at h
      cases h
      simp [union_main, merge_upto]
  | succ fuel ih =>
    intro u pa pb st h
    simp only [union_count_loop] at h
    by_cases hc : pa < a.nnz ∧ pb < b.nnz
    · rw [if_pos hc] at h
      obtain ⟨c1, c2, c3⟩ := union_cmp_entries nmodes a b pa pb
      rw [range'_map_cons _ pa a.nnz hc.1, range'_map_cons _ pb b.nnz hc.2]
      simp only [union_count_step] at h
      simp only [union_main, merge_upto]
      rw [if_pos hc]
      by_cases h1 : (union_cmp nmodes a b pa pb).1 = true
      · rw [if_pos h1] at h ⊢
        rw [if_pos (c1.1 h1)]
        by_cases hp : print_ok a b pa pb = true
        · rw [if_pos hp] at h
          simp only at h
          rw [← ih _ _ _ _ h]
          simp
        · rw [if_neg hp] at h; cases h
      · rw [if_neg h1] at h ⊢
        rw [if_neg (fun hh => h1 (c1.2 hh))]
        by_cases h2 : (union_cmp nmodes a b pa pb).2 = 0
        · rw [if_pos h2] at h ⊢
          rw [if_pos (c2.1 h2)]
          simp only at h
          rw [← ih _ _ _ _ h]
          simp
        · rw [if_neg h2] at h ⊢
          rw [if_neg (fun hh => h2 (c2.2 hh))]
          by_cases h3 : (union_cmp nmodes a b pa pb).2 = -1
          · rw [if_pos h3] at h ⊢
            rw [if_pos (c3.1 h3).2]
            simp only at h
            have := ih _ _ _ _ h
            rw [range'_map_cons _ pb b.nnz hc.2] at this
            rw [← this]
            simp
          · rw [if_neg h3] at h ⊢
            rw [if_neg (fun hh => h3 (c3.2 ⟨fun he => h2 (c2.2 he), hh⟩))]
            simp only at h
            have := ih _ _ _ _ h
            rw [range'_map_cons _ pa a.nnz hc.1] at this
            rw [← this]
            simp
    · rw [if_neg hc] at h
      cases h
      simp only [union_main]
      rw [if_neg hc]
      by_cases ha : pa < a.nnz
      · have hb : ¬ pb < b.nnz := fun hb => hc ⟨ha, hb⟩
        rw [range'_map_nil _ pb b.nnz hb, range'_map_cons _ pa a.nnz ha]
        simp [merge_upto]
      · rw [range'_map_nil _ pa a.nnz ha]
        simp [merge_upto]

theorem coord_lt_trans {e1 e2 e3 : List Nat × Int} (h1 : coord_lt e1 e2) (h2 : coord_lt e2 e3) :
    coord_lt e1 e3 := by
  refine ⟨lex_le_trans _ _ _ h1.1 h2.1, ?_⟩
  intro he
  have h3 : lex_le e2.1 e1.1 = true := by rw [he]; exact h2.1
  exact h1.2 (lex_le_antisymm _ _ h1.1 h3)

theorem filter_coord_nil {l : List (List Nat × Int)} {c : List Nat} (h : ∀ e ∈ l, e.1 ≠ c) :
    l.filter (fun e => decide (e.1 = c)) = [] := by
  rw [List.filter_eq_nil_iff]
  intro e he
  simpa using h e he

theorem mem_merge_upto :
    ∀ (fuel : Nat) (xs ys : List (List Nat × Int)) (e : List Nat × Int),
      e ∈ merge_upto fuel xs ys → e ∈ xs ∨ e ∈ ys := by
  intro fuel
  induction fuel with
  | zero =>
    intro xs ys e he
    simp only [merge_upto] at he
    exact List.mem_append.1 he
  | succ fuel ih =>
    intro xs ys e he
    cases xs with
    | nil => simp only [merge_upto] at he; exact Or.inr he
    | cons x xs =>
      cases ys with
      | nil => simp only [merge_upto] at he; exact Or.inl he
      | cons y ys =>
        simp only [merge_upto] at he
        split at he
        · rcases List.mem_cons.1 he with rfl | h
          · exact Or.inl (List.mem_cons_self _ _)
          · rcases ih _ _ _ h with h | h
            · exact Or.inl (List.mem_cons_of_mem _ h)
            · exact Or.inr (List.mem_cons_of_mem _ h)
        · split at he
          · rcases List.mem_cons.1 he with rfl | h
            · exact Or.inl (List.mem_cons_self _ _)
            · rcases List.mem_cons.1 h with rfl | h
              · exact Or.inr (List.mem_cons_self _ _)
              · rcases ih _ _ _ h with h | h
                · exact Or.inl (List.mem_cons_of_mem _ h)
                · exact Or.inr (List.mem_cons_of_mem _ h)
          · split at he
            · rcases List.mem_cons.1 he with rfl | h
              · exact Or.inl (List.mem_cons_self _ _)
              · rcases ih _ _ _ h with h | h
                · exact Or.inl (List.mem_cons_of_mem _ h)
                · exact Or.inr h
            · rcases List.mem_cons.1 he with rfl | h
              · exact Or.inr (List.mem_cons_self _ _)
              · rcases ih _ _ _ h with h | h
                · exact Or.inl h
                · exact Or.inr (List.mem_cons_of_mem _ h)

/-- The entries of the merge at one coordinate: those of `xs` at that coordinate
followed by those of `ys`, or just once when the two operands agree there. -/
theorem merge_upto_filter :
    ∀ (fuel : Nat) (xs ys : List (List Nat × Int)), xs.length + ys.length ≤ fuel →
      xs.Pairwise coord_lt → ys.Pairwise coord_lt → ∀ c : List Nat,
      (merge_upto fuel xs ys).filter (fun e => decide (e.1 = c))
        = if xs.filter (fun e => decide (e.1 = c)) = ys.filter (fun e => decide (e.1 = c))
          then xs.filter (fun e => decide (e.1 = c))
          else xs.filter (fun e => decide (e.1 = c)) ++ ys.filter (fun e => decide (e.1 = c)) := by
  intro fuel
  induction fuel with
  | zero =>
    intro xs ys hl _ _ c
    have hx : xs = [] := List.eq_nil_of_length_eq_zero (by omega)
    have hy : ys = [] := List.eq_nil_of_length_eq_zero (by omega)
    subst hx; subst hy
    simp [merge_upto]
  | succ fuel ih =>
    intro xs ys hl hsx hsy c
    cases xs with
    | nil =>
      simp only [merge_upto, List.filter_nil, List.nil_append]
      split
      · rename_i h; exact h.symm
      · rfl
    | cons x xs =>
      cases ys with
      | nil =>
        simp only [merge_upto, List.filter_nil, List.append_nil]
        split <;> rfl
      | cons y ys =>
        have hx := List.pairwise_cons.1 hsx
        have hy := List.pairwise_cons.1 hsy
        simp only [List.length_cons] at hl
        have fxs : x.1 = c → xs.filter (fun e => decide (e.1 = c)) = [] := fun hc =>
          filter_coord_nil (fun e he => by rw [← hc]; exact fun h => (hx.1 e he).2 h.symm)
        have fys : y.1 = c → ys.filter (fun e => decide (e.1 = c)) = [] := fun hc =>
          filter_coord_nil (fun e he => by rw [← hc]; exact fun h => (hy.1 e he).2 h.symm)
        simp only [merge_upto]
        by_cases h1 : x.1 = y.1 ∧ x.2 = y.2
        · rw [if_pos h1]
          have hxy : x = y := Prod.ext h1.1 h1.2
          rw [List.filter_cons, ih xs ys (by omega) hx.2 hy.2 c]
          by_cases hc : x.1 = c
          · have hcy : y.1 = c := h1.1 ▸ hc
            have dx : decide (x.1 = c) = true := decide_eq_true hc
            have dy : decide (y.1 = c) = true := decide_eq_true hcy
            simp only [List.filter_cons, dx, dy, fxs hc, fys hcy, hxy]
            simp
          · have hcy : ¬ y.1 = c := fun h => hc (h1.1.trans h)
            have dx : decide (x.1 = c) = false := decide_eq_false hc
            have dy : decide (y.1 = c) = false := decide_eq_false hcy
            simp only [List.filter_cons, dx, dy]
            simp
        · rw [if_neg h1]
          by_cases h2 : x.1 = y.1
          · rw [if_pos h2]
            have hv : x.2 ≠ y.2 := fun h => h1 ⟨h2, h⟩
            have hxy : x ≠ y := fun h => hv (by rw [h])
            rw [List.filter_cons, List.filter_cons, ih xs ys (by omega) hx.2 hy.2 c]
            by_cases hc : x.1 = c
            · have hcy : y.1 = c := h2 ▸ hc
              have dx : decide (x.1 = c) = true := decide_eq_true hc
              have dy : decide (y.1 = c) = true := decide_eq_true hcy
              simp only [List.filter_cons, dx, dy, fxs hc, fys hcy]
              simp [hxy]
            · have hcy : ¬ y.1 = c := fun h => hc (h2.trans h)
              have dx : decide (x.1 = c) = false := decide_eq_false hc
              have dy : decide (y.1 = c) = false := decide_eq_false hcy
              simp only [List.filter_cons, dx, dy]
              simp
          · rw [if_neg h2]
            by_cases h3 : lex_le x.1 y.1 = true
            · rw [if_pos h3]
              have hlt : coord_lt x y := ⟨h3, h2⟩
              rw [List.filter_cons,
                ih xs (y :: ys) (by simp only [List.length_cons]; omega) hx.2 hsy c]
              by_cases hc : x.1 = c
              · have hcy : ¬ y.1 = c := fun h => h2 (hc.trans h.symm)
                have dx : decide (x.1 = c) = true := decide_eq_true hc
                have dy : decide (y.1 = c) = false := decide_eq_false hcy
                have fy2 : ys.filter (fun e => decide (e.1 = c)) = [] :=
                  filter_coord_nil (fun e he => by
                    rw [← hc]
                    exact fun h => (coord_lt_trans hlt (hy.1 e he)).2 h.symm)
                simp only [List.filter_cons, dx, dy, fxs hc, fy2]
                simp
              · have dx : decide (x.1 = c) = false := decide_eq_false hc
                simp only [List.filter_cons, dx]
                simp
            · rw [if_neg h3]
              have h4 : lex_le y.1 x.1 = true := by
                rcases lex_le_total x.1 y.1 with h | h
                · exact absurd h h3
                · exact h
              have hlt : coord_lt y x := ⟨h4, fun h => h2 h.symm⟩
              rw [List.filter_cons,
                ih (x :: xs) ys (by simp only [List.length_cons]; omega) hsx hy.2 c]
              by_cases hc : y.1 = c
              · have hcx : ¬ x.1 = c := fun h => h2 (h.trans hc.symm)
                have dx : decide (x.1 = c) = false := decide_eq_false hcx
                have dy : decide (y.1 = c) = true := decide_eq_true hc
                have fx2 : xs.filter (fun e => decide (e.1 = c)) = [] :=
                  filter_coord_nil (fun e he => by
                    rw [← hc]
                    exact fun h => (coord_lt_trans hlt (hx.1 e he)).2 h.symm)
                simp only [List.filter_cons, dx, dy, fys hc, fx2]
                simp
              · have dy : decide (y.1 = c) = false := decide_eq_false hc
                simp only [List.filter_cons, dy]
                simp

/-- The length of the merge: every exact match saves one entry. -/
theorem merge_upto_length :
    ∀ (fuel : Nat) (xs ys : List (List Nat × Int)), xs.length + ys.length ≤ fuel →
      xs.Pairwise coord_lt → ys.Pairwise coord_lt →
      (merge_upto fuel xs ys).length + (xs.filter (fun e => decide (e ∈ ys))).length
        = xs.length + ys.length := by
  intro fuel
  induction fuel with
  | zero =>
    intro xs ys hl _ _
    have hx : xs = [] := List.eq_nil_of_length_eq_zero (by omega)
    have hy : ys = [] := List.eq_nil_of_length_eq_zero (by omega)
    subst hx; subst hy
    simp [merge_upto]
  | succ fuel ih =>
    intro xs ys hl hsx hsy
    cases xs with
    | nil => simp [merge_upto]
    | cons x xs =>
      cases ys with
      | nil => simp [merge_upto]
      | cons y ys =>
        have hx := List.pairwise_cons.1 hsx
        have hy := List.pairwise_cons.1 hsy
        simp only [List.length_cons] at hl
        have hirr : ∀ e : List Nat × Int, ¬ coord_lt e e := fun e h => h.2 rfl
        simp only [merge_upto]
        by_cases h1 : x.1 = y.1 ∧ x.2 = y.2
        · rw [if_pos h1]
          have hxy : x = y := Prod.ext h1.1 h1.2
          have hmem : x ∈ y :: ys := by rw [hxy]; exact List.mem_cons_self _ _
          have hcg : xs.filter (fun e => decide (e ∈ y :: ys))
              = xs.filter (fun e => decide (e ∈ ys)) := by
            apply List.filter_congr
            intro e he
            have : e ≠ y := fun h => (hx.1 e he).2 (by rw [h, h1.1])
            simp [this]
          rw [List.filter_cons_of_pos (by simpa using hmem), hcg]
          have := ih xs ys (by omega) hx.2 hy.2
          simp only [List.length_cons]
          omega
        · rw [if_neg h1]
          by_cases h2 : x.1 = y.1
          · rw [if_pos h2]
            have hv : x.2 ≠ y.2 := fun h => h1 ⟨h2, h⟩
            have hnm : ¬ x ∈ y :: ys := by
              intro h
              rcases List.mem_cons.1 h with h | h
              · exact hv (by rw [h])
              · exact (hy.1 x h).2 h2.symm
            have hcg : xs.filter (fun e => decide (e ∈ y :: ys))
                = xs.filter (fun e => decide (e ∈ ys)) := by
              apply List.filter_congr
              intro e he
              have : e ≠ y := fun h => (hx.1 e he).2 (by rw [h, h2])
              simp [this]
            rw [List.filter_cons_of_neg (by simpa using hnm), hcg]
            have := ih xs ys (by omega) hx.2 hy.2
            simp only [List.length_cons]
            omega
          · rw [if_neg h2]
            by_cases h3 : lex_le x.1 y.1 = true
            · rw [if_pos h3]
              have hlt : coord_lt x y := ⟨h3, h2⟩
              have hnm : ¬ x ∈ y :: ys := by
                intro h
                rcases List.mem_cons.1 h with h | h
                · exact h2 (by rw [h])
                · exact hirr x (coord_lt_trans hlt (hy.1 x h))
              rw [List.filter_cons_of_neg (by simpa using hnm)]
              have := ih xs (y :: ys) (by simp only [List.length_cons]; omega) hx.2 hsy
              simp only [List.length_cons] at this ⊢
              omega
            · rw [if_neg h3]
              have h4 : lex_le y.1 x.1 = true := by
                rcases lex_le_total x.1 y.1 with h | h
                · exact absurd h h3
                · exact h
              have hlt : coord_lt y x := ⟨h4, fun h => h2 h.symm⟩
              have hcg : (x :: xs).filter (fun e => decide (e ∈ y :: ys))
                  = (x :: xs).filter (fun e => decide (e ∈ ys)) := by
                apply List.filter_congr
                intro e he
                have : e ≠ y := by
                  intro h
                  rw [h] at he
                  rcases List.mem_cons.1 he with h5 | h5
                  · exact h2 (by rw [h5])
                  · exact hirr y (coord_lt_trans hlt (hx.1 y h5))
                simp [this]
              rw [hcg]
              have := ih (x :: xs) ys (by simp only [List.length_cons]; omega) hsx hy.2
              simp only [List.length_cons] at this ⊢
              omega

/-- A sorted list of entries with pairwise different coordinates is strictly
increasing. -/
theorem sorted_entries_strict (tt : sptensor) (hd : ((entries tt).map (fun e => e.1)).Nodup) :
    (sorted_entries tt).Pairwise coord_lt := by
  have h1 := sorted_entries_sorted tt
  have h2 : ((sorted_entries tt).map (fun e => e.1)).Nodup :=
    ((sorted_entries_perm tt).map _).nodup_iff.2 hd
  have h3 : (sorted_entries tt).Pairwise (fun a b => a.1 ≠ b.1) := List.pairwise_map.1 h2
  exact h1.and h3

/-- Sorting does not change the entries at a coordinate, when coordinates are not
repeated. -/
theorem filter_coord_perm {l1 l2 : List (List Nat × Int)} (hp : l1.Perm l2)
    (hd : (l1.map (fun e => e.1)).Nodup) (c : List Nat) :
    l1.filter (fun e => decide (e.1 = c)) = l2.filter (fun e => decide (e.1 = c)) := by
  have hpf := hp.filter (fun e => decide (e.1 = c))
  have hnd : ((l1.filter (fun e => decide (e.1 = c))).map (fun e => e.1)).Nodup :=
    (List.Nodup.sublist (List.Sublist.map _ (List.filter_sublist _)) hd)
  cases hl : l1.filter (fun e => decide (e.1 = c)) with
  | nil =>
    rw [hl] at hpf
    exact (List.Perm.nil_eq hpf)
  | cons x rest =>
    cases rest with
    | nil =>
      rw [hl] at hpf
      exact (List.singleton_perm.1 hpf)
    | cons y rest2 =>
      exfalso
      rw [hl] at hnd
      have hx : x ∈ l1.filter (fun e => decide (e.1 = c)) := by rw [hl]; simp
      have hy : y ∈ l1.filter (fun e => decide (e.1 = c)) := by rw [hl]; simp
      have ex : x.1 = c := by simpa using (List.mem_filter.1 hx).2
      have ey : y.1 = c := by simpa using (List.mem_filter.1 hy).2
      simp only [List.map_cons, List.nodup_cons, List.mem_cons, not_or] at hnd
      exact hnd.1.1 (ex.trans ey.symm)

/-- For operands with at least three modes and no repeated coordinates `tt_union`
returns the merge: at every coordinate the result holds the entry of A followed by
the entry of B, or one entry where both operands hold the same entry; its `nnz` is
`nnz(A) + nnz(B)` minus the number of entries A shares with B. -/
theorem tt_union_merge (a b : sptensor) (ha : shape_ok a) (hb : shape_ok b)
    (hn : a.nmodes = b.nmodes) (h3 : 3 ≤ a.nmodes)
    (hda : ((entries a).map (fun e => e.1)).Nodup)
    (hdb : ((entries b).map (fun e => e.1)).Nodup) :
    ∃ r, tt_union a b = some r ∧ r.nmodes = a.nmodes ∧
      r.nnz + ((entries a).filter (fun e => decide (e ∈ entries b))).length = a.nnz + b.nnz ∧
      ∀ c : List Nat, (entries r).filter (fun e => decide (e.1 = c))
        = if (entries a).filter (fun e => decide (e.1 = c))
              = (entries b).filter (fun e => decide (e.1 = c))
          then (entries a).filter (fun e => decide (e.1 = c))
          else (entries a).filter (fun e => decide (e.1 = c))
            ++ (entries b).filter (fun e => decide (e.1 = c)) := by
  have hsa := tt_sort_shape_ok a 0 ha
  have hsb := tt_sort_shape_ok b 0 hb
  obtain ⟨st, hst⟩ := union_count_loop_total a.nmodes (tt_sort a 0) (tt_sort b 0)
    (fun pa hpa pb hpb => print_ok_of_shape hsa hsb h3 (by show 3 ≤ b.nmodes; omega) hpa hpb)
    ((tt_sort a 0).nnz + (tt_sort b 0).nnz) 0 0 0 (by omega)
  have hA : (List.range' 0 ((tt_sort a 0).nnz - 0)).map (entry_of a.nmodes (tt_sort a 0))
      = sorted_entries a := by
    rw [← tt_sort_entries a ha.2.1, Nat.sub_zero]
    unfold entries
    rw [List.range_eq_range']
    rfl
  have hB : (List.range' 0 ((tt_sort b 0).nnz - 0)).map (entry_of a.nmodes (tt_sort b 0))
      = sorted_entries b := by
    rw [← tt_sort_entries b hb.2.1, Nat.sub_zero, hn]
    unfold entries
    rw [List.range_eq_range']
    rfl
  have hW : union_all a.nmodes (tt_sort a 0) (tt_sort b 0) st.2.1 st.2.2
      = merge_upto (a.nnz + b.nnz) (sorted_entries a) (sorted_entries b) := by
    have := union_main_merge a.nmodes (tt_sort a 0) (tt_sort b 0) _ 0 0 0 st hst
    rw [hA, hB] at this
    exact this
  have hu := tt_union_eq a b hn st hst
  rw [hW] at hu
  have hsA := sorted_entries_strict a hda
  have hsB := sorted_entries_strict b hdb
  have hlen : (sorted_entries a).length + (sorted_entries b).length ≤ a.nnz + b.nnz := by
    rw [sorted_entries_length, sorted_entries_length]
  have hcl : ∀ e ∈ merge_upto (a.nnz + b.nnz) (sorted_entries a) (sorted_entries b),
      e.1.length = a.nmodes := by
    intro e he
    rcases mem_merge_upto _ _ _ e he with h | h
    · exact sorted_entries_coord_length a e h
    · rw [hn]; exact sorted_entries_coord_length b e h
  have hent : entries (tt_fill_dims (tensor_of a.nmodes
      (merge_upto (a.nnz + b.nnz) (sorted_entries a) (sorted_entries b)).length
      (merge_upto (a.nnz + b.nnz) (sorted_entries a) (sorted_entries b))))
      = merge_upto (a.nnz + b.nnz) (sorted_entries a) (sorted_entries b) := by
    rw [entries_tt_fill_dims]
    exact entries_tensor_of a.nmodes _ hcl
  refine ⟨_, hu, rfl, ?_, ?_⟩
  · have hl := merge_upto_length _ _ _ hlen hsA hsB
    rw [sorted_entries_length, sorted_entries_length] at hl
    have hm : ((sorted_entries a).filter (fun e => decide (e ∈ sorted_entries b))).length
        = ((entries a).filter (fun e => decide (e ∈ entries b))).length := by
      have e1 : (sorted_entries a).filter (fun e => decide (e ∈ sorted_entries b))
          = (sorted_entries a).filter (fun e => decide (e ∈ entries b)) := by
        apply List.filter_congr
        intro e _
        exact decide_eq_decide.2 (sorted_entries_perm b).mem_iff
      rw [e1]
      exact ((sorted_entries_perm a).filter _).length_eq
    rw [← hm]
    exact hl
  · intro c
    rw [hent, merge_upto_filter _ _ _ hlen hsA hsB c,
      filter_coord_perm (sorted_entries_perm a)
        (((sorted_entries_perm a).map _).nodup_iff.2 hda) c,
      filter_coord_perm (sorted_entries_perm b)
        (((sorted_entries_perm b).map _).nodup_iff.2 hdb) c]

/-- The cell `f + g * F` with `f < F` lies in row `d` exactly when `d = g`. -/
theorem row_mem_iff {F f g d : Nat} (hf : f < F) :
    (d * F ≤ f + g * F ∧ f + g * F < d * F + F) ↔ d = g := by
  constructor
  · rintro ⟨h1, h2⟩
    by_contra hne
    rcases Nat.lt_or_gt_of_ne hne with h | h
    · have : (d + 1) * F ≤ g * F := Nat.mul_le_mul_right F h
      rw [Nat.add_mul, Nat.one_mul] at this
      omega
    · have : (g + 1) * F ≤ d * F := Nat.mul_le_mul_right F h
      rw [Nat.add_mul, Nat.one_mul] at this
      omega
  · rintro rfl
    omega

theorem row_loop_upto (acc : Bool) (F : Nat) (src : List Int) (s : Nat) (dst : List Int)
    (d : Nat) (hs : s * F + F ≤ src.length) (hd : d * F + F ≤ dst.length) :
    ∀ k ≤ F, ∃ out,
      (List.range k).foldlM
        (fun (dst : List Int) f =>
          if f + s * F < src.length ∧ f + d * F < dst.length then
            some (dst.set (f + d * F)
              (if acc then dst.getD (f + d * F) 0 + src.getD (f + s * F) 0
               else src.getD (f + s * F) 0))
          else none)
        dst = some out ∧
      out.length = dst.length ∧
      ∀ j, out.getD j 0 = if d * F ≤ j ∧ j < d * F + k then
          (if acc then dst.getD j 0 + src.getD (j - d * F + s * F) 0
           else src.getD (j - d * F + s * F) 0)
        else dst.getD j 0 := by
  intro k
  induction k with
  | zero =>
    intro _
    refine ⟨dst, rfl, rfl, ?_⟩
    intro j
    rw [if_neg (by omega)]
  | succ k ih =>
    intro hk
    obtain ⟨out, e1, e2, e3⟩ := ih (by omega)
    rw [List.range_succ, List.foldlM_append, e1]
    simp only [List.foldlM_cons, List.foldlM_nil, Option.some_bind, Option.bind_eq_bind]
    rw [if_pos ⟨by omega, by omega⟩]
    refine ⟨_, rfl, by rw [List.length_set, e2], ?_⟩
    intro j
    have hout : out.getD (k + d * F) 0 = dst.getD (k + d * F) 0 := by
      rw [e3 (k + d * F)]
      exact if_neg (by omega)
    rw [getD_set_eq, hout, e3 j]
    by_cases hj : k + d * F = j
    · subst hj
      have h1 : k + d * F = k + d * F ∧ k + d * F < out.length := ⟨rfl, by omega⟩
      have h2 : d * F ≤ k + d * F ∧ k + d * F < d * F + (k + 1) := ⟨by omega, by omega⟩
      rw [if_pos h1, if_pos h2]
      have : k + d * F - d * F + s * F = k + s * F := by omega
      rw [this]
    · have h1 : ¬ (k + d * F = j ∧ k + d * F < out.length) := fun h => hj h.1
      rw [if_neg h1]
      by_cases h2 : d * F ≤ j ∧ j < d * F + k
      · have h3 : d * F ≤ j ∧ j < d * F + (k + 1) := ⟨h2.1, by omega⟩
        rw [if_pos h2, if_pos h3]
      · have h3 : ¬ (d * F ≤ j ∧ j < d * F + (k + 1)) := by omega
        rw [if_neg h2, if_neg h3]

/-- One row transfer, in closed form. -/
theorem row_loop_spec (acc : Bool) (F : Nat) (src : List Int) (s : Nat) (dst : List Int)
    (d : Nat) (hs : s * F + F ≤ src.length) (hd : d * F + F ≤ dst.length) :
    ∃ out, row_loop acc F src s dst d = some out ∧ out.length = dst.length ∧
      ∀ j, out.getD j 0 = row_val acc F src s d j (dst.getD j 0) := by
  obtain ⟨out, e1, e2, e3⟩ := row_loop_upto acc F src s dst d hs hd F (Nat.le_refl _)
  exact ⟨out, e1, e2, fun j => by rw [e3 j]; rfl⟩

/-- A loop of row transfers over the iterations `l`, in closed form. -/
theorem rows_loop_spec (acc : Bool) (F : Nat) (src : List Int) (sf df : Nat → Nat) :
    ∀ (l : List Nat) (dst : List Int), (∀ i ∈ l, sf i * F + F ≤ src.length) →
      (∀ i ∈ l, df i * F + F ≤ dst.length) →
      ∃ out, l.foldlM (fun (dst : List Int) i => row_loop acc F src (sf i) dst (df i)) dst
          = some out ∧
        out.length = dst.length ∧
        ∀ j, out.getD j 0
          = l.foldl (fun v i => row_val acc F src (sf i) (df i) j v) (dst.getD j 0) := by
  intro l
  induction l with
  | nil => intro dst _ _; exact ⟨dst, rfl, rfl, fun j => rfl⟩
  | cons x rest ih =>
    intro dst hs hd
    obtain ⟨o1, a1, a2, a3⟩ := row_loop_spec acc F src (sf x) dst (df x)
      (hs x (List.mem_cons_self _ _)) (hd x (List.mem_cons_self _ _))
    obtain ⟨o2, b1, b2, b3⟩ := ih o1 (fun i hi => hs i (List.mem_cons_of_mem _ hi))
      (fun i hi => by rw [a2]; exact hd i (List.mem_cons_of_mem _ hi))
    refine ⟨o2, ?_, by rw [b2, a2], ?_⟩
    · rw [List.foldlM_cons, a1]
      exact b1
    · intro j
      rw [b3 j, a3 j]
      rfl

/-- A guard that always holds can be dropped from a loop. -/
theorem foldlM_guard {β : Type} (g : Nat → Prop) [DecidablePred g]
    (f : β → Nat → Option β) :
    ∀ (l : List Nat) (b : β), (∀ i ∈ l, g i) →
      l.foldlM (fun b i => if g i then f b i else none) b = l.foldlM f b := by
  intro l
  induction l with
  | nil => intro b _; rfl
  | cons x rest ih =>
    intro b h
    rw [List.foldlM_cons, List.foldlM_cons, if_pos (h x (List.mem_cons_self _ _))]
    cases hf : f b x with
    | none => rfl
    | some b2 =>
      exact ih b2 (fun i hi => h i (List.mem_cons_of_mem _ hi))

/-- Cells outside every row that is written keep their value. -/
theorem rows_foldl_frame (acc : Bool) (F : Nat) (src : List Int) (sf df : Nat → Nat) (j : Nat) :
    ∀ (l : List Nat) (v : Int), (∀ i ∈ l, ¬ (df i * F ≤ j ∧ j < df i * F + F)) →
      l.foldl (fun v i => row_val acc F src (sf i) (df i) j v) v = v := by
  intro l
  induction l with
  | nil => intro v _; rfl
  | cons x rest ih =>
    intro v h
    rw [List.foldl_cons]
    have : row_val acc F src (sf x) (df x) j v = v := by
      unfold row_val
      rw [if_neg (h x (List.mem_cons_self _ _))]
    rw [this]
    exact ih v (fun i hi => h i (List.mem_cons_of_mem _ hi))

/-- A copying loop whose iterations write different rows leaves in the row of
iteration `i` the source row of iteration `i`. -/
theorem rows_foldl_copy (F : Nat) (src : List Int) (sf df : Nat → Nat) {f : Nat} (hf : f < F) :
    ∀ (l : List Nat) (v : Int) (i : Nat), (l.map df).Nodup → i ∈ l →
      l.foldl (fun v k => row_val false F src (sf k) (df k) (f + df i * F) v) v
        = src.getD (f + sf i * F) 0 := by
  intro l
  induction l with
  | nil => intro v i _ hi; cases hi
  | cons x rest ih =>
    intro v i hnd hi
    rw [List.map_cons, List.nodup_cons] at hnd
    rw [List.foldl_cons]
    rcases List.mem_cons.1 hi with rfl | hi2
    · rw [rows_foldl_frame false F src sf df (f + df i * F) rest _ (by
        intro k hk hrow
        have := (row_mem_iff hf).1 hrow
        exact hnd.1 (by rw [← this]; exact List.mem_map_of_mem df hk))]
      unfold row_val
      rw [if_pos ((row_mem_iff hf).2 rfl)]
      have : f + df i * F - df i * F + sf i * F = f + sf i * F := by omega
      simp [this]
    · exact ih _ i hnd.2 hi2

/-- An accumulating loop adds to a cell of row `g` the source cells of the iterations
that address row `g`. -/
theorem rows_foldl_acc (F : Nat) (src : List Int) (sf df : Nat → Nat) {f : Nat} (hf : f < F)
    (g : Nat) :
    ∀ (l : List Nat) (v : Int),
      l.foldl (fun v k => row_val true F src (sf k) (df k) (f + g * F) v) v
        = v + ((l.filter (fun k => decide (df k = g))).map
            (fun k => src.getD (f + sf k * F) 0)).sum := by
  intro l
  induction l with
  | nil => intro v; simp
  | cons x rest ih =>
    intro v
    rw [List.foldl_cons, ih]
    unfold row_val
    by_cases hx : df x = g
    · rw [if_pos ((row_mem_iff hf).2 hx), List.filter_cons_of_pos (by simpa using hx)]
      have : f + g * F - df x * F + sf x * F = f + sf x * F := by rw [hx]; omega
      simp only [this, if_true, List.map_cons, List.sum_cons]
      omega
    · rw [if_neg (fun h => hx ((row_mem_iff hf).1 h)),
        List.filter_cons_of_neg (by simpa using hx)]

theorem idx_sub_eq {a b : Nat} (h : b ≤ a) (ha : a < IDX_MOD) : idx_sub a b = a - b := by
  unfold idx_sub
  have : a + IDX_MOD - b = (a - b) + IDX_MOD := by omega
  rw [this, Nat.add_mod_right]
  exact Nat.mod_eq_of_lt (by omega)

theorem row_bound {s n F L : Nat} (h : s < n) (hL : n * F ≤ L) : s * F + F ≤ L := by
  have : (s + 1) * F ≤ n * F := Nat.mul_le_mul_right F h
  rw [Nat.add_mul, Nat.one_mul] at this
  omega

theorem take_eq_map_getD (l : List Nat) (n : Nat) (h : n ≤ l.length) :
    l.take n = (List.range n).map (fun r => l.getD r 0) := by
  apply List.ext_getElem
  · rw [List.length_take, List.length_map, List.length_range]; omega
  · intro i h1 h2
    have h3 : i < n := by rw [List.length_take] at h1; omega
    rw [List.getElem_take, List.getElem_map, List.getElem_range]
    exact (List.getD_eq_getElem _ _ (by omega)).symm

/-- A segment of a list replaced by another list of the same length as the segment. -/
theorem splice_getD (l mid : List Int) (a : Nat) (h : a + mid.length ≤ l.length) :
    (l.take a ++ mid ++ l.drop (a + mid.length)).length = l.length ∧
    ∀ j, (l.take a ++ mid ++ l.drop (a + mid.length)).getD j 0
      = if a ≤ j ∧ j < a + mid.length then mid.getD (j - a) 0 else l.getD j 0 := by
  have hlen : (l.take a ++ mid ++ l.drop (a + mid.length)).length = l.length := by
    simp only [List.length_append, List.length_take, List.length_drop]
    omega
  refine ⟨hlen, ?_⟩
  intro j
  have hta : (l.take a).length = a := by rw [List.length_take]; omega
  simp only [List.getD_eq_getElem?_getD]
  by_cases h1 : j < a
  · rw [if_neg (by omega), List.append_assoc, List.getElem?_append_left (by omega),
      List.getElem?_take_of_lt h1]
  · by_cases h2 : j < a + mid.length
    · rw [if_pos ⟨by omega, h2⟩, List.getElem?_append_left (by
        rw [List.length_append, hta]; exact h2),
        List.getElem?_append_right (by omega), hta]
    · rw [if_neg (by omega), List.getElem?_append_right (by
        rw [List.length_append, hta]; omega), List.length_append, hta, List.getElem?_drop]
      congr 2
      omega

/-- The gather loop of `mpi_update_rows`, in closed form. -/
theorem update_gather_spec (rinfo : rank_info) (F : Nat) (gmatv buf : List Int)
    (hn : rinfo.nnbr2globs ≤ rinfo.nbr2globs_inds.length)
    (hb : rinfo.nnbr2globs * F ≤ buf.length)
    (hr : ∀ s < rinfo.nnbr2globs,
      idx_sub (rinfo.nbr2globs_inds.getD s 0) rinfo.mat_start * F + F ≤ gmatv.length) :
    ∃ out, update_gather rinfo F gmatv buf = some out ∧ out.length = buf.length ∧
      ∀ s < rinfo.nnbr2globs, ∀ f < F, out.getD (f + s * F) 0
        = gmatv.getD (f + idx_sub (rinfo.nbr2globs_inds.getD s 0) rinfo.mat_start * F) 0 := by
  obtain ⟨out, e1, e2, e3⟩ := rows_loop_spec false F gmatv
    (fun s => idx_sub (rinfo.nbr2globs_inds.getD s 0) rinfo.mat_start) (fun s => s)
    (List.range rinfo.nnbr2globs) buf
    (fun i hi => hr i (List.mem_range.1 hi))
    (fun i hi => row_bound (List.mem_range.1 hi) hb)
  refine ⟨out, ?_, e2, ?_⟩
  · unfold update_gather
    rw [foldlM_guard (fun s => s < rinfo.nbr2globs_inds.length) _ _ _
      (fun i hi => by have := List.mem_range.1 hi; omega)]
    exact e1
  · intro s hs f hf
    rw [e3]
    exact rows_foldl_copy F gmatv _ (fun s => s) hf _ _ s
      (by rw [List.map_id']; exact List.nodup_range _) (List.mem_range.2 hs)

/-- The scatter loop of `mpi_update_rows`, in closed form. -/
theorem update_scatter_spec (rinfo : rank_info) (F : Nat) (rbuf matv : List Int)
    (hn : rinfo.nlocal2nbr ≤ rinfo.local2nbr_inds.length)
    (hb : rinfo.nlocal2nbr * F ≤ rbuf.length)
    (hr : ∀ r < rinfo.nlocal2nbr, rinfo.local2nbr_inds.getD r 0 * F + F ≤ matv.length) :
    ∃ out, update_scatter rinfo F rbuf matv = some out ∧ out.length = matv.length ∧
      (∀ j, (∀ r < rinfo.nlocal2nbr, ¬ (rinfo.local2nbr_inds.getD r 0 * F ≤ j ∧
          j < rinfo.local2nbr_inds.getD r 0 * F + F)) → out.getD j 0 = matv.getD j 0) ∧
      ((rinfo.local2nbr_inds.take rinfo.nlocal2nbr).Nodup →
        ∀ r < rinfo.nlocal2nbr, ∀ f < F,
          out.getD (f + rinfo.local2nbr_inds.getD r 0 * F) 0 = rbuf.getD (f + r * F) 0) := by
  obtain ⟨out, e1, e2, e3⟩ := rows_loop_spec false F rbuf (fun r => r)
    (fun r => rinfo.local2nbr_inds.getD r 0) (List.range rinfo.nlocal2nbr) matv
    (fun i hi => row_bound (List.mem_range.1 hi) hb)
    (fun i hi => hr i (List.mem_range.1 hi))
  refine ⟨out, ?_, e2, ?_, ?_⟩
  · unfold update_scatter
    rw [foldlM_guard (fun r => r < rinfo.local2nbr_inds.length) _ _ _
      (fun i hi => by have := List.mem_range.1 hi; omega)]
    exact e1
  · intro j hj
    rw [e3]
    exact rows_foldl_frame false F rbuf _ _ j _ _ (fun i hi => hj i (List.mem_range.1 hi))
  · intro hnd r hr2 f hf
    rw [e3]
    exact rows_foldl_copy F rbuf (fun r => r) (fun r => rinfo.local2nbr_inds.getD r 0) hf _ _ r
      (by rw [← take_eq_map_getD _ _ hn]; exact hnd) (List.mem_range.2 hr2)

/-- The gather loop of `mpi_reduce_rows`, in closed form. -/
theorem reduce_gather_spec (rinfo : rank_info) (F : Nat) (matv buf : List Int)
    (hn : rinfo.nlocal2nbr ≤ rinfo.local2nbr_inds.length)
    (hb : rinfo.nlocal2nbr * F ≤ buf.length)
    (hr : ∀ s < rinfo.nlocal2nbr, rinfo.local2nbr_inds.getD s 0 * F + F ≤ matv.length) :
    ∃ out, reduce_gather rinfo F matv buf = some out ∧ out.length = buf.length ∧
      ∀ s < rinfo.nlocal2nbr, ∀ f < F, out.getD (f + s * F) 0
        = matv.getD (f + rinfo.local2nbr_inds.getD s 0 * F) 0 := by
  obtain ⟨out, e1, e2, e3⟩ := rows_loop_spec false F matv
    (fun s => rinfo.local2nbr_inds.getD s 0) (fun s => s)
    (List.range rinfo.nlocal2nbr) buf
    (fun i hi => hr i (List.mem_range.1 hi))
    (fun i hi => row_bound (List.mem_range.1 hi) hb)
  refine ⟨out, ?_, e2, ?_⟩
  · unfold reduce_gather
    rw [foldlM_guard (fun s => s < rinfo.local2nbr_inds.length) _ _ _
      (fun i hi => by have := List.mem_range.1 hi; omega)]
    exact e1
  · intro s hs f hf
    rw [e3]
    exact rows_foldl_copy F matv _ (fun s => s) hf _ _ s
      (by rw [List.map_id']; exact List.nodup_range _) (List.mem_range.2 hs)

/-- The accumulation loop of `mpi_reduce_rows`, in closed form. -/
theorem reduce_accum_spec (rinfo : rank_info) (F : Nat) (rbuf gmatv : List Int)
    (hn : rinfo.nnbr2globs ≤ rinfo.nbr2globs_inds.length)
    (hb : rinfo.nnbr2globs * F ≤ rbuf.length)
    (hr : ∀ r < rinfo.nnbr2globs,
      idx_sub (rinfo.nbr2globs_inds.getD r 0) rinfo.mat_start * F + F ≤ gmatv.length) :
    ∃ out, reduce_accum rinfo F rbuf gmatv = some out ∧ out.length = gmatv.length ∧
      ∀ g f, f < F → out.getD (f + g * F) 0 = gmatv.getD (f + g * F) 0
        + (((List.range rinfo.nnbr2globs).filter
            (fun r => decide (idx_sub (rinfo.nbr2globs_inds.getD r 0) rinfo.mat_start = g))).map
            (fun r => rbuf.getD (f + r * F) 0)).sum := by
  obtain ⟨out, e1, e2, e3⟩ := rows_loop_spec true F rbuf (fun r => r)
    (fun r => idx_sub (rinfo.nbr2globs_inds.getD r 0) rinfo.mat_start)
    (List.range rinfo.nnbr2globs) gmatv
    (fun i hi => row_bound (List.mem_range.1 hi) hb)
    (fun i hi => hr i (List.mem_range.1 hi))
  refine ⟨out, ?_, e2, ?_⟩
  · unfold reduce_accum
    rw [foldlM_guard (fun r => r < rinfo.nbr2globs_inds.length) _ _ _
      (fun i hi => by have := List.mem_range.1 hi; omega)]
    exact e1
  · intro g f hf
    rw [e3]
    exact rows_foldl_acc F rbuf (fun r => r) _ hf g _ _

/-- The function `__flush_glob_to_local`, in closed form. -/
theorem flush_spec (im : Option (List Nat)) (lm gm : matrix) (rinfo : rank_info) (F : Nat)
    (h1 : rinfo.ownstart + rinfo.nowned ≤ lm.I) (h2 : lm.I < IDX_MOD)
    (h3 : rinfo.nowned * F ≤ gm.vals.length)
    (h4 : rinfo.ownstart * F + rinfo.nowned * F ≤ lm.vals.length) :
    ∃ out, __flush_glob_to_local im lm gm rinfo F = some out ∧ out.I = lm.I ∧ out.J = lm.J ∧
      out.vals.length = lm.vals.length ∧
      ∀ j, out.vals.getD j 0
        = if rinfo.ownstart * F ≤ j ∧ j < rinfo.ownstart * F + rinfo.nowned * F then
            gm.vals.getD (j - rinfo.ownstart * F) 0
          else lm.vals.getD j 0 := by
  have hadd : idx_add rinfo.ownstart rinfo.nowned = rinfo.ownstart + rinfo.nowned := by
    unfold idx_add
    exact Nat.mod_eq_of_lt (by omega)
  have hlen : (gm.vals.take (rinfo.nowned * F)).length = rinfo.nowned * F := by
    rw [List.length_take]; omega
  have hsp := splice_getD lm.vals (gm.vals.take (rinfo.nowned * F)) (rinfo.ownstart * F)
    (by rw [hlen]; exact h4)
  rw [hlen] at hsp
  unfold __flush_glob_to_local
  rw [if_pos (by rw [hadd]; exact h1), if_pos ⟨h3, h4⟩]
  refine ⟨_, rfl, rfl, rfl, hsp.1, ?_⟩
  intro j
  show (lm.vals.take (rinfo.ownstart * F) ++ gm.vals.take (rinfo.nowned * F)
    ++ lm.vals.drop (rinfo.ownstart * F + rinfo.nowned * F)).getD j 0 = _
  rw [hsp.2 j]
  by_cases hj : rinfo.ownstart * F ≤ j ∧ j < rinfo.ownstart * F + rinfo.nowned * F
  · rw [if_pos hj, if_pos hj]
    simp only [List.getD_eq_getElem?_getD]
    rw [List.getElem?_take_of_lt (by omega)]
  · rw [if_neg hj, if_neg hj]

/-- The cell `f + i * F` with `f < F` lies in the rows `a .. a + n - 1` exactly when
`i` does. -/
theorem region_mem_iff {F f i a n : Nat} (hf : f < F) :
    (a * F ≤ f + i * F ∧ f + i * F < a * F + n * F) ↔ a ≤ i ∧ i < a + n := by
  constructor
  · rintro ⟨h1, h2⟩
    constructor
    · by_contra hc
      have : (i + 1) * F ≤ a * F := Nat.mul_le_mul_right F (by omega)
      rw [Nat.add_mul, Nat.one_mul] at this
      omega
    · by_contra hc
      have : (a + n) * F ≤ i * F := Nat.mul_le_mul_right F (by omega)
      rw [Nat.add_mul] at this
      omega
  · rintro ⟨h1, h2⟩
    have e1 : a * F ≤ i * F := Nat.mul_le_mul_right F h1
    have e2 : (i + 1) * F ≤ (a + n) * F := Nat.mul_le_mul_right F h2
    rw [Nat.add_mul, Nat.one_mul, Nat.add_mul] at e2
    omega

/-- The exchange returns when the counts agree and the segments fit. -/
theorem alltoallv_total (sends : List (List Int × List Nat × List Nat)) (me : Nat)
    (recvbuf : List Int) (rc rd : List Nat)
    (h : ∀ p < sends.length,
      (sends.getD p ([], [], [])).2.1.getD me 0 = rc.getD p 0 ∧
      (sends.getD p ([], [], [])).2.2.getD me 0 + rc.getD p 0
        ≤ (sends.getD p ([], [], [])).1.length ∧
      rd.getD p 0 + rc.getD p 0 ≤ recvbuf.length) :
    ∃ out, MPI_Alltoallv sends me recvbuf rc rd = some out ∧ out.length = recvbuf.length := by
  unfold MPI_Alltoallv
  have key : ∀ k ≤ sends.length, ∃ out,
      (List.range k).foldlM
        (fun (buf : List Int) p =>
          if (sends.getD p ([], [], [])).2.1.getD me 0 = rc.getD p 0 ∧
              (sends.getD p ([], [], [])).2.2.getD me 0 + rc.getD p 0
                ≤ (sends.getD p ([], [], [])).1.length ∧
              rd.getD p 0 + rc.getD p 0 ≤ buf.length then
            some (buf.take (rd.getD p 0)
              ++ (((sends.getD p ([], [], [])).1.drop
                    ((sends.getD p ([], [], [])).2.2.getD me 0)).take (rc.getD p 0))
              ++ buf.drop (rd.getD p 0 + rc.getD p 0))
          else none)
        recvbuf = some out ∧ out.length = recvbuf.length := by
    intro k
    induction k with
    | zero => intro _; exact ⟨recvbuf, rfl, rfl⟩
    | succ k ih =>
      intro hk
      obtain ⟨out, e1, e2⟩ := ih (by omega)
      obtain ⟨c1, c2, c3⟩ := h k (by omega)
      rw [List.range_succ, List.foldlM_append, e1]
      simp only [List.foldlM_cons, List.foldlM_nil, Option.some_bind, Option.bind_eq_bind]
      rw [if_pos ⟨c1, c2, by rw [e2]; exact c3⟩]
      refine ⟨_, rfl, ?_⟩
      simp only [List.length_append, List.length_take, List.length_drop]
      omega
  exact key sends.length (Nat.le_refl _)

/-- The send side of `mpi_update_rows` where every rank's gather loop returns. -/
theorem update_sends_eq (F : Nat) :
    ∀ world : List rank_args,
      (∀ a ∈ world, ∃ buf, update_gather a.rinfo F a.globalmat.vals a.nbr2globs_buf = some buf) →
      update_sends F world = some (world.map (fun a =>
        ((update_gather a.rinfo F a.globalmat.vals a.nbr2globs_buf).getD [],
          a.rinfo.nbr2globs_ptr, a.rinfo.nbr2globs_disp))) := by
  intro world
  induction world with
  | nil => intro _; rfl
  | cons a rest ih =>
    intro h
    obtain ⟨buf, hb⟩ := h a (List.mem_cons_self _ _)
    simp only [update_sends]
    rw [hb, ih (fun b hb2 => h b (List.mem_cons_of_mem _ hb2))]
    simp only [List.map_cons, hb]
    rfl

/-- On well-formed arguments the gather loop of `mpi_update_rows` returns a buffer of
the same length whose row `s` is the global row the send manifest names. -/
theorem update_gather_ok (a : rank_args) (F : Nat) (h : rank_ok a F) :
    ∃ buf, update_gather a.rinfo F a.globalmat.vals a.nbr2globs_buf = some buf ∧
      buf.length = a.nbr2globs_buf.length ∧
      ∀ s < a.rinfo.nnbr2globs, ∀ f < F, buf.getD (f + s * F) 0
        = a.globalmat.vals.getD
            (f + (a.rinfo.nbr2globs_inds.getD s 0 - a.rinfo.mat_start) * F) 0 := by
  obtain ⟨h1, _, _, h4, h5, h6, _, h8, _, h10, _, _, _⟩ := h
  have hsub : ∀ s < a.rinfo.nnbr2globs,
      idx_sub (a.rinfo.nbr2globs_inds.getD s 0) a.rinfo.mat_start
        = a.rinfo.nbr2globs_inds.getD s 0 - a.rinfo.mat_start := by
    intro s hs
    have := h10 s hs
    exact idx_sub_eq this.1 (by omega)
  obtain ⟨buf, e1, e2, e3⟩ := update_gather_spec a.rinfo F a.globalmat.vals a.nbr2globs_buf h6 h8
    (by
      intro s hs
      rw [hsub s hs, h1]
      have := h10 s hs
      exact row_bound (by omega) (Nat.le_refl _))
  refine ⟨buf, e1, e2, ?_⟩
  intro s hs f hf
  rw [e3 s hs f hf, hsub s hs]

/-- What `mpi_update_rows` does on rank `me`, in terms of the buffer `rbuf` the
exchange delivers. -/
theorem mpi_update_rows_spec (world : List rank_args) (me F : Nat) (a : rank_args)
    (hall : ∀ b ∈ world, rank_ok b F) (ha : world[me]? = some a)
    (hex : update_exchange_ok world me) :
    ∃ rbuf res,
      MPI_Alltoallv (world.map (fun a =>
          ((update_gather a.rinfo F a.globalmat.vals a.nbr2globs_buf).getD [],
            a.rinfo.nbr2globs_ptr, a.rinfo.nbr2globs_disp))) me a.nbr2local_buf
        a.rinfo.local2nbr_ptr a.rinfo.local2nbr_disp = some rbuf ∧
      mpi_update_rows world me F = some res ∧
      ((a.rinfo.local2nbr_inds.take a.rinfo.nlocal2nbr).Nodup →
        ∀ r < a.rinfo.nlocal2nbr, (a.rinfo.local2nbr_inds.getD r 0 < a.rinfo.ownstart ∨
            a.rinfo.ownstart + a.rinfo.nowned ≤ a.rinfo.local2nbr_inds.getD r 0) →
          ∀ f < F, res.localmat.vals.getD (f + a.rinfo.local2nbr_inds.getD r 0 * F) 0
            = rbuf.getD (f + r * F) 0) ∧
      res.globalmat = a.globalmat ∧
      res.localmat.I = a.localmat.I ∧ res.localmat.J = a.localmat.J ∧
      res.localmat.vals.length = a.localmat.vals.length ∧
      (∀ i < a.localmat.I, (∀ r < a.rinfo.nlocal2nbr, a.rinfo.local2nbr_inds.getD r 0 ≠ i) →
        (i < a.rinfo.ownstart ∨ a.rinfo.ownstart + a.rinfo.nowned ≤ i) →
        ∀ f < F, res.localmat.vals.getD (f + i * F) 0 = a.localmat.vals.getD (f + i * F) 0) ∧
      (∀ i < a.rinfo.nowned, ∀ f < F,
        res.localmat.vals.getD (f + (a.rinfo.ownstart + i) * F) 0
          = a.globalmat.vals.getD (f + i * F) 0) := by
  have hme : me < world.length := by
    by_contra hc
    rw [List.getElem?_eq_none (by omega)] at ha
    cases ha
  have hga : world.getD me no_rank = a := by
    rw [List.getD_eq_getElem?_getD, ha]; rfl
  have hamem : a ∈ world := by
    rw [← hga, List.getD_eq_getElem _ _ hme]; exact List.getElem_mem _
  have hsends := update_sends_eq F world (fun b hb => by
    obtain ⟨buf, e, _⟩ := update_gather_ok b F (hall b hb)
    exact ⟨buf, e⟩)
  have hsget : ∀ p < world.length,
      (world.map (fun a =>
        ((update_gather a.rinfo F a.globalmat.vals a.nbr2globs_buf).getD [],
          a.rinfo.nbr2globs_ptr, a.rinfo.nbr2globs_disp))).getD p ([], [], [])
      = ((update_gather (world.getD p no_rank).rinfo F (world.getD p no_rank).globalmat.vals
            (world.getD p no_rank).nbr2globs_buf).getD [],
          (world.getD p no_rank).rinfo.nbr2globs_ptr,
          (world.getD p no_rank).rinfo.nbr2globs_disp) := by
    intro p hp
    rw [List.getD_eq_getElem _ _ (by rw [List.length_map]; exact hp), List.getElem_map,
      List.getD_eq_getElem _ _ hp]
  obtain ⟨o1, o2, o3, o4, o5, o6, o7, o8, o9, o10, o11, o12, o13⟩ := hall a hamem
  obtain ⟨rbuf, r1, r2⟩ := alltoallv_total
    (world.map (fun a =>
      ((update_gather a.rinfo F a.globalmat.vals a.nbr2globs_buf).getD [],
        a.rinfo.nbr2globs_ptr, a.rinfo.nbr2globs_disp))) me a.nbr2local_buf
    a.rinfo.local2nbr_ptr a.rinfo.local2nbr_disp (by
      intro p hp
      rw [List.length_map] at hp
      rw [hsget p hp]
      obtain ⟨x1, x2, x3⟩ := hex p hp
      rw [hga] at x1 x2 x3
      obtain ⟨buf, e, el, _⟩ := update_gather_ok (world.getD p no_rank) F
        (hall _ (by rw [List.getD_eq_getElem _ _ hp]; exact List.getElem_mem _))
      rw [e]
      exact ⟨x1, by show _ ≤ buf.length; rw [el]; exact x2, x3⟩)
  obtain ⟨matv, s1, s2, s3, s4⟩ := update_scatter_spec a.rinfo F rbuf a.localmat.vals o7
    (by rw [r2]; exact o9)
    (fun r hr => by rw [o2]; exact row_bound (o11 r hr) (Nat.le_refl _))
  have hown : a.rinfo.ownstart * F + a.rinfo.nowned * F ≤ a.localmat.I * F := by
    rw [← Nat.add_mul]; exact Nat.mul_le_mul_right F o12
  obtain ⟨lm, f1, f2, f3, f4, f5⟩ := flush_spec a.indmap { a.localmat with vals := matv }
    a.globalmat a.rinfo F o12 o3
    (by rw [o1]; exact Nat.mul_le_mul_right F o13)
    (by show _ ≤ matv.length; rw [s2, o2]; exact hown)
  refine ⟨rbuf, { a with
      nbr2globs_buf := ((world.map (fun a =>
        ((update_gather a.rinfo F a.globalmat.vals a.nbr2globs_buf).getD [],
          a.rinfo.nbr2globs_ptr, a.rinfo.nbr2globs_disp))).getD me ([], [], [])).1
      nbr2local_buf := rbuf
      localmat := lm }, r1, ?_, ?_, rfl, f2, f3, by rw [f4]; exact s2, ?_, ?_⟩
  · unfold mpi_update_rows
    rw [hsends]
    simp only
    rw [ha]
    simp only
    rw [r1]
    simp only
    rw [s1]
    simp only
    rw [f1]
  · intro hnd r hr hout f hf
    show lm.vals.getD (f + a.rinfo.local2nbr_inds.getD r 0 * F) 0 = _
    rw [f5, if_neg (fun h => by have := (region_mem_iff hf).1 h; omega)]
    exact s4 hnd r hr f hf
  · intro i hi hslot hreg f hf
    show lm.vals.getD (f + i * F) 0 = _
    rw [f5, if_neg (fun h => by have := (region_mem_iff hf).1 h; omega)]
    exact s3 _ (fun r hr h => hslot r hr ((row_mem_iff hf).1 h))
  · intro i hi f hf
    show lm.vals.getD (f + (a.rinfo.ownstart + i) * F) 0 = _
    rw [f5, if_pos ((region_mem_iff hf).2 ⟨by omega, by omega⟩)]
    congr 1
    rw [Nat.add_mul]
    omega

theorem pair_exchange_ok (A B : rank_args) (F : Nat) (hA : rank_ok A F) (hB : rank_ok B F)
    (hp : pair_ok A B F) : update_exchange_ok [A, B] 0 ∧ update_exchange_ok [A, B] 1 := by
  obtain ⟨p1, p2, p3, p4, p5, p6, p7, p8, p9, p10⟩ := hp
  obtain ⟨_, _, _, _, _, _, _, a8, a9, _⟩ := hA
  obtain ⟨_, _, _, _, _, _, _, b8, b9, _⟩ := hB
  constructor
  · intro p hp2
    have : p = 0 ∨ p = 1 := by simp at hp2; omega
    rcases this with rfl | rfl
    · simp [p3, p4, p5, p6]
    · simp [p7, p8, p5, p6, ← p2]
      exact ⟨b8, by rw [← p2] at a9; exact a9⟩
  · intro p hp2
    have : p = 0 ∨ p = 1 := by simp at hp2; omega
    rcases this with rfl | rfl
    · simp [p3, p4, p9, p10, ← p1]
      exact ⟨a8, by rw [← p1] at b9; exact b9⟩
    · simp [p7, p8, p9, p10]
      exact ⟨b8, b9⟩

/-- The exchange between two ranks, seen by rank 1: the receive buffer starts with the
values rank 0 sent. -/
theorem alltoallv_pair1 (sA sB rbuf : List Int) (c c2 : Nat) (h1 : c ≤ sA.length)
    (h2 : c2 ≤ sB.length) (h3 : c ≤ rbuf.length) (out : List Int)
    (h : MPI_Alltoallv [(sA, [0, c], [0, 0]), (sB, [c2, 0], [0, c2])] 1 rbuf [c, 0] [0, c]
      = some out) :
    ∀ j < c, out.getD j 0 = sA.getD j 0 := by
  have hsp := splice_getD rbuf (sA.take c) 0 (by rw [List.length_take]; omega)
  have hl : (sA.take c).length = c := by rw [List.length_take]; omega
  rw [hl] at hsp
  have e : MPI_Alltoallv [(sA, [0, c], [0, 0]), (sB, [c2, 0], [0, c2])] 1 rbuf [c, 0] [0, c]
      = some (rbuf.take 0 ++ sA.take c ++ rbuf.drop (0 + c)) := by
    unfold MPI_Alltoallv
    have hr : List.range [(sA, [0, c], [0, 0]), (sB, [c2, 0], [0, c2])].length = [0, 1] := rfl
    rw [hr]
    simp only [List.foldlM_cons, List.foldlM_nil, List.getD_cons_zero, List.getD_cons_succ,
      List.drop_zero, Nat.add_zero, Nat.zero_add]
    rw [if_pos ⟨trivial, h1, h3⟩]
    simp only [Option.some_bind, Option.bind_eq_bind, List.take_zero, List.nil_append]
    have hlen : (sA.take c ++ rbuf.drop c).length = rbuf.length := by
      simp only [List.length_append, List.length_take, List.length_drop]; omega
    rw [if_pos ⟨trivial, h2, by rw [hlen]; exact h3⟩]
    simp
  rw [e] at h
  cases h
  intro j hj
  rw [hsp.2 j, if_pos ⟨by omega, by omega⟩]
  simp only [Nat.sub_zero, List.getD_eq_getElem?_getD]
  rw [List.getElem?_take_of_lt hj]

/-- The exchange between two ranks, seen by rank 0: the receive buffer starts with the
values rank 1 sent. -/
theorem alltoallv_pair0 (sA sB rbuf : List Int) (c c2 : Nat)
    (h2 : c2 ≤ sB.length) (h3 : c2 ≤ rbuf.length) (out : List Int)
    (h : MPI_Alltoallv [(sA, [0, c], [0, 0]), (sB, [c2, 0], [0, c2])] 0 rbuf [0, c2] [0, 0]
      = some out) :
    ∀ j < c2, out.getD j 0 = sB.getD j 0 := by
  have hsp := splice_getD rbuf (sB.take c2) 0 (by rw [List.length_take]; omega)
  have hl : (sB.take c2).length = c2 := by rw [List.length_take]; omega
  rw [hl] at hsp
  have e : MPI_Alltoallv [(sA, [0, c], [0, 0]), (sB, [c2, 0], [0, c2])] 0 rbuf [0, c2] [0, 0]
      = some (rbuf.take 0 ++ sB.take c2 ++ rbuf.drop (0 + c2)) := by
    unfold MPI_Alltoallv
    have hr : List.range [(sA, [0, c], [0, 0]), (sB, [c2, 0], [0, c2])].length = [0, 1] := rfl
    rw [hr]
    simp only [List.foldlM_cons, List.foldlM_nil, List.getD_cons_zero, List.getD_cons_succ,
      List.drop_zero, Nat.add_zero, Nat.zero_add]
    rw [if_pos ⟨trivial, Nat.zero_le _, Nat.zero_le _⟩]
    simp only [Option.some_bind, Option.bind_eq_bind, List.take_zero, List.nil_append,
      List.drop_zero]
    rw [if_pos ⟨trivial, h2, h3⟩]
    simp
  rw [e] at h
  cases h
  intro j hj
  rw [hsp.2 j, if_pos ⟨by omega, by omega⟩]
  simp only [Nat.sub_zero, List.getD_eq_getElem?_getD]
  rw [List.getElem?_take_of_lt hj]

/-- The send side of `mpi_reduce_rows` where every rank's gather loop returns. -/
theorem reduce_sends_eq (F : Nat) :
    ∀ world : List rank_args,
      (∀ a ∈ world, ∃ buf, reduce_gather a.rinfo F a.localmat.vals a.nbr2local_buf = some buf) →
      reduce_sends F world = some (world.map (fun a =>
        ((reduce_gather a.rinfo F a.localmat.vals a.nbr2local_buf).getD [],
          a.rinfo.local2nbr_ptr, a.rinfo.local2nbr_disp))) := by
  intro world
  induction world with
  | nil => intro _; rfl
  | cons a rest ih =>
    intro h
    obtain ⟨buf, hb⟩ := h a (List.mem_cons_self _ _)
    simp only [reduce_sends]
    rw [hb, ih (fun b hb2 => h b (List.mem_cons_of_mem _ hb2))]
    simp only [List.map_cons, hb]
    rfl

theorem reduce_gather_ok (a : rank_args) (F : Nat) (h : rank_ok a F) :
    ∃ buf, reduce_gather a.rinfo F a.localmat.vals a.nbr2local_buf = some buf ∧
      buf.length = a.nbr2local_buf.length := by
  obtain ⟨_, h2, _, _, _, _, h7, _, h9, _, h11, _, _⟩ := h
  obtain ⟨buf, e1, e2, _⟩ := reduce_gather_spec a.rinfo F a.localmat.vals a.nbr2local_buf h7 h9
    (fun s hs => by rw [h2]; exact row_bound (h11 s hs) (Nat.le_refl _))
  exact ⟨buf, e1, e2⟩

/-- The accumulation loop on well-formed arguments: every cell of the global matrix
gets the received cells of the buffer rows addressed to its row added. -/
theorem reduce_accum_ok (rinfo : rank_info) (F : Nat) (rbuf gmatv : List Int)
    (hn : rinfo.nnbr2globs ≤ rinfo.nbr2globs_inds.length)
    (hb : rinfo.nnbr2globs * F ≤ rbuf.length)
    (hr : ∀ r < rinfo.nnbr2globs, rinfo.mat_start ≤ rinfo.nbr2globs_inds.getD r 0 ∧
      rinfo.nbr2globs_inds.getD r 0 < IDX_MOD ∧
      (rinfo.nbr2globs_inds.getD r 0 - rinfo.mat_start) * F + F ≤ gmatv.length) :
    ∃ out, reduce_accum rinfo F rbuf gmatv = some out ∧ out.length = gmatv.length ∧
      (F = 0 → out = gmatv) ∧
      ∀ g f, f < F → out.getD (f + g * F) 0 = gmatv.getD (f + g * F) 0
        + (((List.range rinfo.nnbr2globs).filter
            (fun r => decide (rinfo.nbr2globs_inds.getD r 0 - rinfo.mat_start = g))).map
            (fun r => rbuf.getD (f + r * F) 0)).sum := by
  have hsub : ∀ r < rinfo.nnbr2globs,
      idx_sub (rinfo.nbr2globs_inds.getD r 0) rinfo.mat_start
        = rinfo.nbr2globs_inds.getD r 0 - rinfo.mat_start :=
    fun r hr2 => idx_sub_eq (hr r hr2).1 (hr r hr2).2.1
  obtain ⟨out, e1, e2, e3⟩ := rows_loop_spec true F rbuf (fun r => r)
    (fun r => idx_sub (rinfo.nbr2globs_inds.getD r 0) rinfo.mat_start)
    (List.range rinfo.nnbr2globs) gmatv
    (fun i hi => row_bound (List.mem_range.1 hi) hb)
    (fun i hi => by
      have hi2 := List.mem_range.1 hi
      show idx_sub _ _ * F + F ≤ _
      rw [hsub i hi2]; exact (hr i hi2).2.2)
  refine ⟨out, ?_, e2, ?_, ?_⟩
  · unfold reduce_accum
    rw [foldlM_guard (fun r => r < rinfo.nbr2globs_inds.length) _ _ _
      (fun i hi => by have := List.mem_range.1 hi; omega)]
    exact e1
  · intro hF
    apply list_ext_getD 0 e2
    intro j
    rw [e3]
    exact rows_foldl_frame true F rbuf _ _ j _ _ (fun i _ h => by rw [hF] at h; omega)
  · intro g f hf
    rw [e3, rows_foldl_acc F rbuf (fun r => r) _ hf g]
    congr 3
    apply List.filter_congr
    intro r hr2
    rw [hsub r (List.mem_range.1 hr2)]

/-- What `mpi_reduce_rows` does on rank `me`, in terms of the buffer the exchange
delivers, which is the `nbr2globs_buf` of the result. -/
theorem mpi_reduce_rows_spec (world : List rank_args) (me F : Nat) (a : rank_args)
    (hall : ∀ b ∈ world, rank_ok b F) (ha : world[me]? = some a)
    (hex : reduce_exchange_ok world me) :
    ∃ res, mpi_reduce_rows world me F = some res ∧
      res.localmat = a.localmat ∧ res.globalmat.I = a.globalmat.I ∧
      res.globalmat.vals.length = a.globalmat.vals.length ∧
      res.nbr2globs_buf.length = a.nbr2globs_buf.length ∧
      ∀ g f, f < F → res.globalmat.vals.getD (f + g * F) 0
        = a.globalmat.vals.getD (f + g * F) 0
          + (((List.range a.rinfo.nnbr2globs).filter
              (fun r => decide (a.rinfo.nbr2globs_inds.getD r 0 - a.rinfo.mat_start = g))).map
              (fun r => res.nbr2globs_buf.getD (f + r * F) 0)).sum := by
  have hme : me < world.length := by
    by_contra hc
    rw [List.getElem?_eq_none (by omega)] at ha
    cases ha
  have hga : world.getD me no_rank = a := by
    rw [List.getD_eq_getElem?_getD, ha]; rfl
  have hamem : a ∈ world := by
    rw [← hga, List.getD_eq_getElem _ _ hme]; exact List.getElem_mem _
  have hsends := reduce_sends_eq F world (fun b hb => by
    obtain ⟨buf, e, _⟩ := reduce_gather_ok b F (hall b hb)
    exact ⟨buf, e⟩)
  have hsget : ∀ p < world.length,
      (world.map (fun a =>
        ((reduce_gather a.rinfo F a.localmat.vals a.nbr2local_buf).getD [],
          a.rinfo.local2nbr_ptr, a.rinfo.local2nbr_disp))).getD p ([], [], [])
      = ((reduce_gather (world.getD p no_rank).rinfo F (world.getD p no_rank).localmat.vals
            (world.getD p no_rank).nbr2local_buf).getD [],
          (world.getD p no_rank).rinfo.local2nbr_ptr,
          (world.getD p no_rank).rinfo.local2nbr_disp) := by
    intro p hp
    rw [List.getD_eq_getElem _ _ (by rw [List.length_map]; exact hp), List.getElem_map,
      List.getD_eq_getElem _ _ hp]
  obtain ⟨o1, o2, o3, o4, o5, o6, o7, o8, o9, o10, o11, o12, o13⟩ := hall a hamem
  obtain ⟨rbuf, r1, r2⟩ := alltoallv_total
    (world.map (fun a =>
      ((reduce_gather a.rinfo F a.localmat.vals a.nbr2local_buf).getD [],
        a.rinfo.local2nbr_ptr, a.rinfo.local2nbr_disp))) me a.nbr2globs_buf
    a.rinfo.nbr2globs_ptr a.rinfo.nbr2globs_disp (by
      intro p hp
      rw [List.length_map] at hp
      rw [hsget p hp]
      obtain ⟨x1, x2, x3⟩ := hex p hp
      rw [hga] at x1 x2 x3
      obtain ⟨buf, e, el⟩ := reduce_gather_ok (world.getD p no_rank) F
        (hall _ (by rw [List.getD_eq_getElem _ _ hp]; exact List.getElem_mem _))
      rw [e]
      exact ⟨x1, by show _ ≤ buf.length; rw [el]; exact x2, x3⟩)
  obtain ⟨gm, s1, s2, _, s4⟩ := reduce_accum_ok a.rinfo F rbuf a.globalmat.vals o6
    (by rw [r2]; exact o8)
    (fun r hr => by
      have := o10 r hr
      refine ⟨this.1, by omega, ?_⟩
      rw [o1]
      exact row_bound (by omega) (Nat.le_refl _))
  refine ⟨{ a with
      nbr2local_buf := ((world.map (fun a =>
        ((reduce_gather a.rinfo F a.localmat.vals a.nbr2local_buf).getD [],
          a.rinfo.local2nbr_ptr, a.rinfo.local2nbr_disp))).getD me ([], [], [])).1
      nbr2globs_buf := rbuf
      globalmat := { a.globalmat with vals := gm } }, ?_, rfl, rfl, s2, r2, s4⟩
  unfold mpi_reduce_rows
  rw [hsends]
  simp only
  rw [ha]
  simp only
  rw [r1]
  simp only
  rw [s1]

/-- The sum the accumulation adds to a cell, read off the list of received rows. -/
theorem recv_rows_sum (rinfo : rank_info) (F : Nat) (buf : List Int) (g : Nat) {f : Nat}
    (hf : f < F) :
    (((List.range rinfo.nnbr2globs).filter
        (fun r => decide (rinfo.nbr2globs_inds.getD r 0 - rinfo.mat_start = g))).map
        (fun r => buf.getD (f + r * F) 0)).sum
      = (((recv_rows rinfo F buf).filter (fun p => decide (p.1 - rinfo.mat_start = g))).map
          (fun p => p.2.getD f 0)).sum := by
  unfold recv_rows
  rw [List.filter_map, List.map_map]
  congr 1
  apply List.map_congr_left
  intro r _
  simp only [Function.comp_apply]
  have : ((List.range F).map (fun f => buf.getD (f + r * F) 0)).getD f 0
      = buf.getD (f + r * F) 0 := by
    rw [List.getD_eq_getElem _ _ (by rw [List.length_map, List.length_range]; exact hf),
      List.getElem_map, List.getElem_range]
  exact this.symm

theorem getD_replicate_int (n j : Nat) : (List.replicate n (0 : Int)).getD j 0 = 0 := by
  by_cases h : j < n
  · rw [List.getD_eq_getElem _ _ (by rw [List.length_replicate]; exact h)]
    simp
  · rw [List.getD_eq_default _ _ (by rw [List.length_replicate]; omega)]

/-- The mark array `tt_get_slices` allocates has `slice_maxrange` cells. -/
theorem tt_get_slices_marks (tt : sptensor) (m : Nat) :
    tt_get_slices tt m =
      match mark_slices (slice_bounds (tt.dims.getD m 0) (tt.ind.getD m []) tt.nnz).1
          ((tt.ind.getD m []).take tt.nnz) (List.replicate (slice_maxrange tt m) 0) 0 with
      | none => none
      | some (mkrs, found) =>
        match collect_slices (slice_bounds (tt.dims.getD m 0) (tt.ind.getD m []) tt.nnz).1
            mkrs (List.replicate found none) with
        | none => none
        | some (slices, _) => some (slices, found) :=
  rfl

/-- On a tensor with at least one entry whose mode-`m` indices are below `dims[m]`, the
mark array of `tt_get_slices` has at most `dims[m]` cells, the assertion
`inds[n] >= minidx` holds, and every index `inds[n] - minidx` lies inside the array. -/
theorem slice_maxrange_le (tt : sptensor) (m : Nat) (hnz : 0 < tt.nnz)
    (hr : ∀ n < tt.nnz, rd tt.ind m n < tt.dims.getD m 0) (hd : tt.dims.getD m 0 < IDX_MOD) :
    slice_maxrange tt m ≤ max 1 (tt.dims.getD m 0) ∧
    ∀ n < tt.nnz,
      (slice_bounds (tt.dims.getD m 0) (tt.ind.getD m []) tt.nnz).1 ≤ rd tt.ind m n ∧
      rd tt.ind m n - (slice_bounds (tt.dims.getD m 0) (tt.ind.getD m []) tt.nnz).1
        < slice_maxrange tt m := by
  obtain ⟨_, b2, b3⟩ := slice_bounds_spec (tt.dims.getD m 0) (tt.ind.getD m []) tt.nnz
  obtain ⟨n0, hn0, hmx⟩ := b3 hnz
  have hmax : (slice_bounds (tt.dims.getD m 0) (tt.ind.getD m []) tt.nnz).2
      < tt.dims.getD m 0 := by
    rw [hmx]; exact hr n0 hn0
  have hle : (slice_bounds (tt.dims.getD m 0) (tt.ind.getD m []) tt.nnz).1
      ≤ (slice_bounds (tt.dims.getD m 0) (tt.ind.getD m []) tt.nnz).2 := by
    have := b2 n0 hn0; omega
  have he : slice_maxrange tt m
      = (slice_bounds (tt.dims.getD m 0) (tt.ind.getD m []) tt.nnz).2
        - (slice_bounds (tt.dims.getD m 0) (tt.ind.getD m []) tt.nnz).1 + 1 :=
    maxrange_eq hle (by omega) (by omega)
  refine ⟨by rw [he]; omega, ?_⟩
  intro n hn
  have := b2 n hn
  unfold rd
  rw [he]
  omega

/-- The scatter loop of `mpi_recv_rows` returns an array of the same length when its
segment lies inside the manifest. -/
theorem recv_scatter_ok (rinfo : rank_info) (F disp nrecvs : Nat) (buf matv : List Int)
    (hn : disp + nrecvs ≤ rinfo.local2nbr_inds.length)
    (hb : (disp + nrecvs) * F ≤ buf.length)
    (hr : ∀ r < disp + nrecvs, rinfo.local2nbr_inds.getD r 0 * F + F ≤ matv.length) :
    ∃ out, recv_scatter rinfo F disp nrecvs buf matv = some out ∧ out.length = matv.length := by
  obtain ⟨out, e1, e2, _⟩ := rows_loop_spec false F buf (fun r => r)
    (fun r => rinfo.local2nbr_inds.getD r 0) (List.range' disp nrecvs) matv
    (fun i hi => row_bound (List.mem_range'_1.1 hi).2 hb)
    (fun i hi => hr i (List.mem_range'_1.1 hi).2)
  refine ⟨out, ?_, e2⟩
  unfold recv_scatter
  rw [foldlM_guard (fun r => r < rinfo.local2nbr_inds.length) _ _ _
    (fun i hi => by have := (List.mem_range'_1.1 hi).2; omega)]
  exact e1

/-- The global matrix `mpi_add_my_partials` leaves: zero everywhere but in the rows
`goffset .. goffset + nowned - 1`, which hold the owned local rows. -/
theorem mpi_add_my_partials_eq (indmap : Option (List Nat)) (localmat globmat : matrix)
    (rinfo : rank_info) (F goffset : Nat)
    (hg : partials_goffset indmap rinfo = some goffset)
    (hgl : globmat.vals.length = globmat.I * F)
    (hll : rinfo.ownstart * F + rinfo.nowned * F ≤ localmat.vals.length)
    (hoff : goffset + rinfo.nowned ≤ globmat.I) :
    ∃ gm, mpi_add_my_partials indmap localmat globmat rinfo F = some (localmat, gm) ∧
      gm.I = globmat.I ∧ gm.J = globmat.J ∧ gm.vals.length = globmat.vals.length ∧
      ∀ j, gm.vals.getD j 0
        = if goffset * F ≤ j ∧ j < goffset * F + rinfo.nowned * F then
            localmat.vals.getD (rinfo.ownstart * F + (j - goffset * F)) 0
          else 0 := by
  have h1 : goffset * F + rinfo.nowned * F ≤ globmat.I * F := by
    rw [← Nat.add_mul]; exact Nat.mul_le_mul_right F hoff
  have hz : List.replicate (globmat.I * F) (0 : Int) ++ globmat.vals.drop (globmat.I * F)
      = List.replicate (globmat.I * F) 0 := by
    rw [List.drop_of_length_le (by omega), List.append_nil]
  have hmid : ((localmat.vals.drop (rinfo.ownstart * F)).take (rinfo.nowned * F)).length
      = rinfo.nowned * F := by
    rw [List.length_take, List.length_drop]; omega
  have hsp := splice_getD (List.replicate (globmat.I * F) (0 : Int))
    ((localmat.vals.drop (rinfo.ownstart * F)).take (rinfo.nowned * F)) (goffset * F)
    (by rw [hmid, List.length_replicate]; exact h1)
  rw [hmid] at hsp
  refine ⟨{ globmat with
    vals := (List.replicate (globmat.I * F) 0).take (goffset * F)
      ++ ((localmat.vals.drop (rinfo.ownstart * F)).take (rinfo.nowned * F))
      ++ (List.replicate (globmat.I * F) 0).drop (goffset * F + rinfo.nowned * F) },
    ?_, rfl, rfl, ?_, ?_⟩
  · unfold mpi_add_my_partials
    rw [if_pos (by omega), hg]
    simp only
    rw [if_pos ⟨by omega, by omega⟩, hz]
  · show ((List.replicate (globmat.I * F) (0 : Int)).take (goffset * F)
        ++ ((localmat.vals.drop (rinfo.ownstart * F)).take (rinfo.nowned * F))
        ++ (List.replicate (globmat.I * F) 0).drop (goffset * F + rinfo.nowned * F)).length = _
    rw [hsp.1, List.length_replicate, hgl]
  · intro j
    show ((List.replicate (globmat.I * F) (0 : Int)).take (goffset * F)
        ++ ((localmat.vals.drop (rinfo.ownstart * F)).take (rinfo.nowned * F))
        ++ (List.replicate (globmat.I * F) 0).drop (goffset * F + rinfo.nowned * F)).getD j 0 = _
    rw [hsp.2]
    by_cases hj : goffset * F ≤ j ∧ j < goffset * F + rinfo.nowned * F
    · rw [if_pos hj, if_pos hj]
      simp only [List.getD_eq_getElem?_getD]
      rw [List.getElem?_take_of_lt (by omega), List.getElem?_drop]
    · rw [if_neg hj, if_neg hj]
      exact getD_replicate_int _ _

/-- The owned rows after `mpi_add_my_partials` followed by `__flush_glob_to_local`:
for matrices with `F` values per row, an owned region inside the local matrix and
`goffset + nowned <= globmat->I` both calls return; the seeding writes the global rows
from `goffset` on and the refresh reads them from row 0 on, so the owned local row
`ownstart + i` ends as the former owned row `ownstart + i - goffset` when
`i >= goffset` and as zeros when `i < goffset`.  When `goffset = 0` the local matrix is
as it was before the two calls. -/
theorem seed_then_flush_rows (indmap : Option (List Nat)) (localmat globmat : matrix)
    (rinfo : rank_info) (F goffset : Nat)
    (hg : partials_goffset indmap rinfo = some goffset)
    (hgl : globmat.vals.length = globmat.I * F) (hll : localmat.vals.length = localmat.I * F)
    (hown : rinfo.ownstart + rinfo.nowned ≤ localmat.I) (hI : localmat.I < IDX_MOD)
    (hoff : goffset + rinfo.nowned ≤ globmat.I) :
    ∃ gm lm2, mpi_add_my_partials indmap localmat globmat rinfo F = some (localmat, gm) ∧
      __flush_glob_to_local indmap localmat gm rinfo F = some lm2 ∧
      (∀ i < rinfo.nowned, ∀ f < F, lm2.vals.getD (f + (rinfo.ownstart + i) * F) 0
        = if goffset ≤ i then
            localmat.vals.getD (f + (rinfo.ownstart + (i - goffset)) * F) 0
          else 0) ∧
      (goffset = 0 → lm2 = localmat) := by
  have h2 : rinfo.ownstart * F + rinfo.nowned * F ≤ localmat.I * F := by
    rw [← Nat.add_mul]; exact Nat.mul_le_mul_right F hown
  obtain ⟨gm, g1, g2, _, g4, g5⟩ := mpi_add_my_partials_eq indmap localmat globmat rinfo F goffset
    hg hgl (by rw [hll]; exact h2) hoff
  have h3 : rinfo.nowned * F ≤ gm.vals.length := by
    rw [g4, hgl]
    exact Nat.mul_le_mul_right F (by omega)
  obtain ⟨lm2, f1, f2, f3, f4, f5⟩ := flush_spec indmap localmat gm rinfo F hown hI h3
    (by rw [hll]; exact h2)
  refine ⟨gm, lm2, g1, f1, ?_, ?_⟩
  · intro i hi f hf
    have hidx : f + (rinfo.ownstart + i) * F - rinfo.ownstart * F = f + i * F := by
      rw [Nat.add_mul]; omega
    rw [f5, if_pos ((region_mem_iff hf).2 ⟨by omega, by omega⟩), hidx, g5]
    by_cases hgi : goffset ≤ i
    · rw [if_pos ((region_mem_iff hf).2 ⟨hgi, by omega⟩), if_pos hgi]
      congr 1
      have e1 : f + i * F - goffset * F = f + (i - goffset) * F := by
        have : i * F = (i - goffset) * F + goffset * F := by
          rw [← Nat.add_mul]; congr 1; omega
        omega
      rw [e1, Nat.add_mul]
      omega
    · rw [if_neg (fun h => hgi ((region_mem_iff hf).1 h).1), if_neg hgi]
  · intro h0
    subst h0
    have hv : lm2.vals = localmat.vals := by
      apply list_ext_getD 0 f4
      intro j
      rw [f5]
      by_cases hj : rinfo.ownstart * F ≤ j ∧ j < rinfo.ownstart * F + rinfo.nowned * F
      · rw [if_pos hj, g5, if_pos ⟨by omega, by omega⟩]
        congr 1
        omega
      · rw [if_neg hj]
    cases lm2
    cases localmat
    simp only at f2 f3 hv
    rw [f2, f3, hv]


/-! ## The claims -/

/-- Claim C1: after `tt_remove_dups` on a tensor with at least one entry, two different
entries among the remaining `nnz` never have the same coordinate: `p_same_coord` is
false on them, i.e. they differ in the index of at least one of the `nmodes` modes. -/
theorem tt_remove_dups_distinct (tt : sptensor) (hs : shape_ok tt) (hnz : 0 < tt.nnz)
    (i j : Nat) (hi : i < (tt_remove_dups tt).1.nnz) (hj : j < (tt_remove_dups tt).1.nnz)
    (hij : i ≠ j) :
    p_same_coord (tt_remove_dups tt).1 i j = false ∧
    ¬ ∀ m < (tt_remove_dups tt).1.nmodes,
        rd (tt_remove_dups tt).1.ind m i = rd (tt_remove_dups tt).1.ind m j := by
  obtain ⟨h1, _, _, _, _, _, _⟩ := tt_remove_dups_eq tt hs hnz
  have hp := merge_all_distinct _ (sorted_entries_sorted tt)
  rw [← h1] at hp
  have hne : coord (tt_remove_dups tt).1 i ≠ coord (tt_remove_dups tt).1 j := by
    have hli : i < (entries (tt_remove_dups tt).1).length := by rw [entries_length]; exact hi
    have hlj : j < (entries (tt_remove_dups tt).1).length := by rw [entries_length]; exact hj
    rcases Nat.lt_or_gt_of_ne hij with h | h
    · have := List.pairwise_iff_getElem.1 hp i j hli hlj h
      rw [entries_getElem, entries_getElem] at this
      exact this
    · have := List.pairwise_iff_getElem.1 hp j i hlj hli h
      rw [entries_getElem, entries_getElem] at this
      exact fun hc => this hc.symm
  constructor
  · cases hb : p_same_coord (tt_remove_dups tt).1 i j
    · rfl
    · exact absurd ((p_same_coord_iff _ _ _).1 hb) hne
  · intro hall
    exact hne ((coord_eq_iff _ _ _).2 hall)

/-- Witness of C1: the four shuffled entries, two of them at one coordinate, leave
three entries, and the first two of these differ. -/
theorem tt_remove_dups_distinct_witness :
    shape_ok shuffled_tensor ∧ 0 < shuffled_tensor.nnz ∧
    (tt_remove_dups shuffled_tensor).1.nnz = 3 ∧
    (p_same_coord (tt_remove_dups shuffled_tensor).1 0 1 = false ∧
      ¬ ∀ m < (tt_remove_dups shuffled_tensor).1.nmodes,
          rd (tt_remove_dups shuffled_tensor).1.ind m 0
            = rd (tt_remove_dups shuffled_tensor).1.ind m 1) :=
  ⟨by decide, by decide, by decide,
    tt_remove_dups_distinct shuffled_tensor (by decide) (by decide) 0 1 (by decide) (by decide)
      (by decide)⟩

/-- Claim C2: after `tt_remove_dups` on a tensor with at least one entry, a coordinate
`c` occurs among the remaining entries iff it occurs among the entries before the call,
and the value stored at `c` is the sum of the values of all the entries that had the
coordinate `c` before the call. -/
theorem tt_remove_dups_sums (tt : sptensor) (hs : shape_ok tt) (hnz : 0 < tt.nnz)
    (c : List Nat) :
    ((∃ n < (tt_remove_dups tt).1.nnz, coord (tt_remove_dups tt).1 n = c) ↔
      ∃ k < tt.nnz, coord tt k = c) ∧
    ∀ n < (tt_remove_dups tt).1.nnz, coord (tt_remove_dups tt).1 n = c →
      (tt_remove_dups tt).1.vals.getD n 0 =
        (((List.range tt.nnz).filter (fun k => decide (coord tt k = c))).map
          (fun k => tt.vals.getD k 0)).sum := by
  obtain ⟨h1, _, _, _, _, _, _⟩ := tt_remove_dups_eq tt hs hnz
  constructor
  · rw [← mem_entries_coord, ← mem_entries_coord, h1, merge_all_mem_coord]
    exact (sorted_entries_perm tt).map _ |>.mem_iff
  · intro n hn hc
    have hp := merge_all_distinct _ (sorted_entries_sorted tt)
    rw [← h1] at hp
    have hln : n < (entries (tt_remove_dups tt).1).length := by rw [entries_length]; exact hn
    have hmem : entry_at (tt_remove_dups tt).1 n ∈ entries (tt_remove_dups tt).1 := by
      rw [← entries_getElem _ n hln]; exact List.getElem_mem hln
    have hu := csum_unique _ hp _ hmem
    rw [h1, merge_all_csum, csum_perm _ (sorted_entries_perm tt), csum_entries] at hu
    have hc2 : (entry_at (tt_remove_dups tt).1 n).1 = c := hc
    rw [hc2] at hu
    exact hu.symm

/-- Witness of C2: the scenario of the spec.  The entries `(0,0,0,2)`, `(0,0,0,3)`,
`(1,1,1,4)` become exactly the two entries `(0,0,0,5)` and `(1,1,1,4)`. -/
theorem tt_remove_dups_sums_witness :
    shape_ok dup_tensor ∧ 0 < dup_tensor.nnz ∧
    entries (tt_remove_dups dup_tensor).1 = [([0, 0, 0], 5), ([1, 1, 1], 4)] ∧
    (((∃ n < (tt_remove_dups dup_tensor).1.nnz, coord (tt_remove_dups dup_tensor).1 n = [0, 0, 0]) ↔
      ∃ k < dup_tensor.nnz, coord dup_tensor k = [0, 0, 0]) ∧
    ∀ n < (tt_remove_dups dup_tensor).1.nnz, coord (tt_remove_dups dup_tensor).1 n = [0, 0, 0] →
      (tt_remove_dups dup_tensor).1.vals.getD n 0 =
        (((List.range dup_tensor.nnz).filter (fun k => decide (coord dup_tensor k = [0, 0, 0]))).map
          (fun k => dup_tensor.vals.getD k 0)).sum) :=
  ⟨by decide, by decide, by decide,
    tt_remove_dups_sums dup_tensor (by decide) (by decide) [0, 0, 0]⟩

/-- Claim C3 at a tensor without entries: `tt_remove_dups` leaves `nnz = 1`, which is
more than the `nnz = 0` before, and returns `0 - 1` in `idx_t` arithmetic,
`2 ^ 64 - 1`, although no duplicate was removed. -/
theorem tt_remove_dups_empty :
    empty_tensor.nnz = 0 ∧ (tt_remove_dups empty_tensor).1.nnz = 1 ∧
    (tt_remove_dups empty_tensor).2 = 18446744073709551615 := by
  decide

/-- Claim C4: on a tensor whose indices are below the extents, `tt_remove_empty` runs to
completion, and for every mode `m` whose `indmap[m]` is present afterwards,
`indmap[m][ind2[m][n]]` is the index `ind[m][n]` entry `n` had before the call, and the
values stored in `indmap[m]` are exactly the index values that occurred in mode `m`. -/
theorem tt_remove_empty_roundtrip (tt : sptensor) (hs : shape_ok tt) (hr : in_range tt) :
    ∃ tt2 r, tt_remove_empty tt = some (tt2, r) ∧
      ∀ m < tt.nmodes, ∀ imap, tt2.indmap[m]? = some (some imap) →
        (∀ n < tt.nnz, imap.getD (rd tt2.ind m n) none = some (rd tt.ind m n)) ∧
        (∀ v, some v ∈ imap ↔ ∃ n < tt.nnz, rd tt.ind m n = v) := by
  refine ⟨(compact_upto tt tt.nmodes).1, (compact_upto tt tt.nmodes).2,
    tt_remove_empty_eq tt hr, ?_⟩
  intro m hm imap himap
  obtain ⟨_, h⟩ := compact_upto_mode tt hs m hm
  rcases h with ⟨_, _, g3⟩ | ⟨_, g2, g3⟩
  · rw [g3] at himap; cases himap
  · rw [g3] at himap
    have himap2 := Option.some.inj (Option.some.inj himap)
    subst himap2
    constructor
    · intro n hn
      have hmem := (mem_take_iff hs hm _).2 ⟨n, hn, rfl⟩
      have hlt := hr m hm n hn
      have h1 := slice_list_getD_rank hmem hlt
      have h2 : nused ((tt.ind.getD m []).take tt.nnz) (rd tt.ind m n) <
          (slice_list ((tt.ind.getD m []).take tt.nnz) (tt.dims.getD m 0)).length := by
        rw [slice_list_length]; exact nused_lt_of_mem hmem hlt
      have h3 : rd (compact_upto tt tt.nmodes).1.ind m n
          = nused ((tt.ind.getD m []).take tt.nnz) (rd tt.ind m n) := rd_compacted hs hm g2 hn
      rw [h3, List.getD_eq_getElem _ _ (by rw [List.length_map]; exact h2), List.getElem_map]
      rw [List.getD_eq_getElem _ _ h2] at h1
      rw [h1]
    · intro v
      rw [List.mem_map]
      constructor
      · rintro ⟨a, ha, hav⟩
        have : a = v := Option.some.inj hav
        subst this
        exact (mem_take_iff hs hm _).1 (mem_slice_list.1 ha).2
      · rintro ⟨n, hn, rfl⟩
        exact ⟨_, mem_slice_list.2 ⟨hr m hm n hn, (mem_take_iff hs hm _).2 ⟨n, hn, rfl⟩⟩, rfl⟩

/-- Witness of C4: mode 0 of `gap_tensor` is compacted, its `indmap` is `[2, 5]`. -/
theorem tt_remove_empty_roundtrip_witness :
    shape_ok gap_tensor ∧ in_range gap_tensor ∧
    (tt_remove_empty gap_tensor).map (fun p => p.1.indmap)
      = some [some [some 2, some 5], none] ∧
    ∃ tt2 r, tt_remove_empty gap_tensor = some (tt2, r) ∧
      ∀ m < gap_tensor.nmodes, ∀ imap, tt2.indmap[m]? = some (some imap) →
        (∀ n < gap_tensor.nnz, imap.getD (rd tt2.ind m n) none = some (rd gap_tensor.ind m n)) ∧
        (∀ v, some v ∈ imap ↔ ∃ n < gap_tensor.nnz, rd gap_tensor.ind m n = v) :=
  ⟨by decide, by decide, by decide,
    tt_remove_empty_roundtrip gap_tensor (by decide) (by decide)⟩

/-- Claim C5: on a tensor whose indices are below the extents, after `tt_remove_empty`
each `indmap[m]` is either absent or an array whose length is the new `dims[m]`, every
cell of which has been written, and which is strictly increasing, hence without
repetition. -/
theorem tt_remove_empty_indmap_sorted (tt : sptensor) (hs : shape_ok tt) (hr : in_range tt) :
    ∃ tt2 r, tt_remove_empty tt = some (tt2, r) ∧
      ∀ m < tt.nmodes, tt2.indmap[m]? = some none ∨
        ∃ l : List Nat, tt2.indmap[m]? = some (some (l.map some)) ∧
          l.length = tt2.dims.getD m 0 ∧ l.Sorted (· < ·) ∧ l.Nodup := by
  refine ⟨(compact_upto tt tt.nmodes).1, (compact_upto tt tt.nmodes).2,
    tt_remove_empty_eq tt hr, ?_⟩
  intro m hm
  obtain ⟨h0, h⟩ := compact_upto_mode tt hs m hm
  rcases h with ⟨_, _, g3⟩ | ⟨_, _, g3⟩
  · exact Or.inl g3
  · refine Or.inr ⟨_, g3, ?_, slice_list_sorted _ _,
      (slice_list_sorted _ _).imp (fun h => Nat.ne_of_lt h)⟩
    rw [h0, slice_list_length]
    exact nused_eq_dedup (mem_take_lt hr hm)

/-- Witness of C5: `gap_tensor` satisfies the hypotheses. -/
theorem tt_remove_empty_indmap_sorted_witness :
    shape_ok gap_tensor ∧ in_range gap_tensor ∧
    ∃ tt2 r, tt_remove_empty gap_tensor = some (tt2, r) ∧
      ∀ m < gap_tensor.nmodes, tt2.indmap[m]? = some none ∨
        ∃ l : List Nat, tt2.indmap[m]? = some (some (l.map some)) ∧
          l.length = tt2.dims.getD m 0 ∧ l.Sorted (· < ·) ∧ l.Nodup :=
  ⟨by decide, by decide, tt_remove_empty_indmap_sorted gap_tensor (by decide) (by decide)⟩

/-- Claim C6, amended: on a tensor whose indices are below the extents, a second
`tt_remove_empty` right after the first returns 0 and leaves `dims`, `ind`, `nnz` and
`vals` as the first call left them; it sets `indmap[m]` to `NULL` for every mode, so
the maps the first call stored are not kept. -/
theorem tt_remove_empty_twice (tt : sptensor) (hs : shape_ok tt) (hr : in_range tt) :
    ∃ t1 r1 t2, tt_remove_empty tt = some (t1, r1) ∧ tt_remove_empty t1 = some (t2, 0) ∧
      t2.dims = t1.dims ∧ t2.ind = t1.ind ∧ t2.nnz = t1.nnz ∧ t2.vals = t1.vals ∧
      ∀ m < tt.nmodes, t2.indmap[m]? = some none := by
  obtain ⟨hs1, hr1, hd1⟩ := compact_upto_preserves tt hs hr
  obtain ⟨a1, a2, a3, a4, a5, a6, a7, a8, a9⟩ := compact_upto_frame tt tt.nmodes
  obtain ⟨b1, b2, b3, b4, b5, b6, b7, b8, b9⟩ :=
    compact_upto_frame (compact_upto tt tt.nmodes).1 (compact_upto tt tt.nmodes).1.nmodes
  have hmode : ∀ m < tt.nmodes,
      (compact_upto (compact_upto tt tt.nmodes).1 (compact_upto tt tt.nmodes).1.nmodes).1.dims.getD m 0
        = (compact_upto tt tt.nmodes).1.dims.getD m 0 ∧
      (compact_upto (compact_upto tt tt.nmodes).1 (compact_upto tt tt.nmodes).1.nmodes).1.ind.getD m []
        = (compact_upto tt tt.nmodes).1.ind.getD m [] ∧
      (compact_upto (compact_upto tt tt.nmodes).1 (compact_upto tt tt.nmodes).1.nmodes).1.indmap[m]?
        = some none := by
    intro m hm
    obtain ⟨h0, h⟩ := compact_upto_mode _ hs1 m (by rw [a1]; exact hm)
    rcases h with ⟨g1, g2, g3⟩ | ⟨g1, _, _⟩
    · exact ⟨h0.trans g1, g2, g3⟩
    · exact absurd (hd1 m hm) g1
  have hzero : (compact_upto (compact_upto tt tt.nmodes).1
      (compact_upto tt tt.nmodes).1.nmodes).2 = 0 := by
    rw [compact_upto_removed _ hr1 _ (Nat.le_refl _)]
    have : (List.range (compact_upto tt tt.nmodes).1.nmodes).map
        (fun m => (compact_upto tt tt.nmodes).1.dims.getD m 0
          - distinct_in (compact_upto tt tt.nmodes).1 m)
        = (List.range (compact_upto tt tt.nmodes).1.nmodes).map (fun _ => 0) := by
      apply List.map_congr_left
      intro m hm
      rw [hd1 m (by rw [← a1]; exact List.mem_range.1 hm)]
      exact Nat.sub_self _
    rw [this]
    simp
  refine ⟨(compact_upto tt tt.nmodes).1, (compact_upto tt tt.nmodes).2,
    (compact_upto (compact_upto tt tt.nmodes).1 (compact_upto tt tt.nmodes).1.nmodes).1,
    tt_remove_empty_eq tt hr, ?_, ?_, ?_, b2, b3, fun m hm => (hmode m hm).2.2⟩
  · rw [tt_remove_empty_eq _ hr1, ← hzero]
  · apply list_ext_getD 0 b6
    intro m
    rcases Nat.lt_or_ge m tt.nmodes with h | h
    · exact (hmode m h).1
    · exact (b9 m (by rw [a1]; exact h)).1
  · apply list_ext_getD [] b7
    intro m
    rcases Nat.lt_or_ge m tt.nmodes with h | h
    · exact (hmode m h).2.1
    · exact (b9 m (by rw [a1]; exact h)).2.1

/-- Witness of C6 as amended: `gap_tensor` satisfies the hypotheses. -/
theorem tt_remove_empty_twice_witness :
    shape_ok gap_tensor ∧ in_range gap_tensor ∧
    ∃ t1 r1 t2, tt_remove_empty gap_tensor = some (t1, r1) ∧
      tt_remove_empty t1 = some (t2, 0) ∧
      t2.dims = t1.dims ∧ t2.ind = t1.ind ∧ t2.nnz = t1.nnz ∧ t2.vals = t1.vals ∧
      ∀ m < gap_tensor.nmodes, t2.indmap[m]? = some none :=
  ⟨by decide, by decide, tt_remove_empty_twice gap_tensor (by decide) (by decide)⟩

/-- Counterexample to C6 as stated: on `gap_tensor`, whose indices are below the
extents, the first `tt_remove_empty` stores `indmap[0] = [2, 5]`; the second sets
`indmap[0]` to `NULL`.  The state after two calls is not the state after one. -/
theorem tt_remove_empty_twice_counterexample :
    shape_ok gap_tensor ∧ in_range gap_tensor ∧
    (tt_remove_empty gap_tensor).map (fun p => p.1.indmap)
      = some [some [some 2, some 5], none] ∧
    ((tt_remove_empty gap_tensor).bind (fun p => tt_remove_empty p.1)).map
      (fun p => p.1.indmap) = some [none, none] ∧
    ((tt_remove_empty gap_tensor).bind (fun p => tt_remove_empty p.1)).map (fun p => p.1)
      ≠ (tt_remove_empty gap_tensor).map (fun p => p.1) := by
  decide

/-- Claim C7: on a tensor whose indices are below the extents, `tt_remove_empty` sets each
`dims[m]` to the number of distinct index values occurring in mode `m`, which is at most
the old `dims[m]`, and returns the sum over the modes of old `dims[m]` minus new
`dims[m]` (an `idx_t`: the sum modulo `2 ^ 64`, the sum itself when it fits). -/
theorem tt_remove_empty_dims (tt : sptensor) (hs : shape_ok tt) (hr : in_range tt) :
    ∃ tt2 r, tt_remove_empty tt = some (tt2, r) ∧
      (∀ m < tt.nmodes,
        tt2.dims.getD m 0 = ((Finset.range tt.nnz).image (fun n => rd tt.ind m n)).card ∧
        tt2.dims.getD m 0 ≤ tt.dims.getD m 0) ∧
      r = ((List.range tt.nmodes).map (fun m => tt.dims.getD m 0 - tt2.dims.getD m 0)).sum
            % IDX_MOD ∧
      (((List.range tt.nmodes).map (fun m => tt.dims.getD m 0 - tt2.dims.getD m 0)).sum
          < IDX_MOD →
        r = ((List.range tt.nmodes).map (fun m => tt.dims.getD m 0 - tt2.dims.getD m 0)).sum) := by
  suffices h : ∃ tt2 r, tt_remove_empty tt = some (tt2, r) ∧
      (∀ m < tt.nmodes,
        tt2.dims.getD m 0 = ((Finset.range tt.nnz).image (fun n => rd tt.ind m n)).card ∧
        tt2.dims.getD m 0 ≤ tt.dims.getD m 0) ∧
      r = ((List.range tt.nmodes).map (fun m => tt.dims.getD m 0 - tt2.dims.getD m 0)).sum
            % IDX_MOD by
    obtain ⟨tt2, r, h1, h2, h3⟩ := h
    exact ⟨tt2, r, h1, h2, h3, fun hlt => by rw [h3, Nat.mod_eq_of_lt hlt]⟩
  refine ⟨(compact_upto tt tt.nmodes).1, (compact_upto tt tt.nmodes).2,
    tt_remove_empty_eq tt hr, ?_, ?_⟩
  · intro m hm
    obtain ⟨h0, _⟩ := compact_upto_mode tt hs m hm
    rw [h0]
    exact ⟨distinct_in_eq_card hs hm, distinct_in_le hr hm⟩
  · rw [compact_upto_removed tt hr tt.nmodes (Nat.le_refl _)]
    congr 2
    apply List.map_congr_left
    intro m hm
    rw [(compact_upto_mode tt hs m (List.mem_range.1 hm)).1]

/-- Witness of C7: on `gap_tensor` the extents `[6, 3]` become `[2, 3]` and 4 is
returned. -/
theorem tt_remove_empty_dims_witness :
    shape_ok gap_tensor ∧ in_range gap_tensor ∧
    (tt_remove_empty gap_tensor).map (fun p => (p.1.dims, p.2)) = some ([2, 3], 4) ∧
    ∃ tt2 r, tt_remove_empty gap_tensor = some (tt2, r) ∧
      (∀ m < gap_tensor.nmodes,
        tt2.dims.getD m 0
          = ((Finset.range gap_tensor.nnz).image (fun n => rd gap_tensor.ind m n)).card ∧
        tt2.dims.getD m 0 ≤ gap_tensor.dims.getD m 0) ∧
      r = ((List.range gap_tensor.nmodes).map
            (fun m => gap_tensor.dims.getD m 0 - tt2.dims.getD m 0)).sum % IDX_MOD ∧
      (((List.range gap_tensor.nmodes).map
            (fun m => gap_tensor.dims.getD m 0 - tt2.dims.getD m 0)).sum < IDX_MOD →
        r = ((List.range gap_tensor.nmodes).map
            (fun m => gap_tensor.dims.getD m 0 - tt2.dims.getD m 0)).sum) :=
  ⟨by decide, by decide, by decide, tt_remove_empty_dims gap_tensor (by decide) (by decide)⟩

/-- Claim C8: on a tensor of the data model, whose indices satisfy the invariant
`ind[m][n] < dims[m]`, for a mode `m` in which every index value below `dims[m]` is
referenced by an entry, `tt_remove_empty` returns, leaves `dims[m]` and every
`ind[m][n]` unchanged and leaves `indmap[m]` absent. -/
theorem tt_remove_empty_dense_mode (tt : sptensor) (hs : shape_ok tt) (hr : in_range tt)
    (m : Nat) (hm : m < tt.nmodes)
    (hdense : ∀ i < tt.dims.getD m 0, ∃ n < tt.nnz, rd tt.ind m n = i) :
    ∃ tt2 r, tt_remove_empty tt = some (tt2, r) ∧ tt2.dims.getD m 0 = tt.dims.getD m 0 ∧
      (∀ n, rd tt2.ind m n = rd tt.ind m n) ∧ tt2.indmap[m]? = some none := by
  refine ⟨(compact_upto tt tt.nmodes).1, (compact_upto tt tt.nmodes).2,
    tt_remove_empty_eq tt hr, ?_⟩
  have hfull : distinct_in tt m = tt.dims.getD m 0 := by
    unfold distinct_in
    rw [← nused_eq_dedup (mem_take_lt hr hm)]
    exact nused_full (fun i hi => (mem_take_iff hs hm i).2 (hdense i hi))
  obtain ⟨h0, h⟩ := compact_upto_mode tt hs m hm
  rcases h with ⟨_, g2, g3⟩ | ⟨g1, _, _⟩
  · exact ⟨h0.trans hfull, fun n => by unfold rd; rw [g2], g3⟩
  · exact absurd hfull g1

/-- Witness of C8: mode 1 of `gap_tensor` uses all of its 3 slices. -/
theorem tt_remove_empty_dense_mode_witness :
    shape_ok gap_tensor ∧ in_range gap_tensor ∧ 1 < gap_tensor.nmodes ∧
    (∀ i < gap_tensor.dims.getD 1 0, ∃ n < gap_tensor.nnz, rd gap_tensor.ind 1 n = i) ∧
    ∃ tt2 r, tt_remove_empty gap_tensor = some (tt2, r) ∧
      tt2.dims.getD 1 0 = gap_tensor.dims.getD 1 0 ∧
      (∀ n, rd tt2.ind 1 n = rd gap_tensor.ind 1 n) ∧ tt2.indmap[1]? = some none :=
  ⟨by decide, by decide, by decide, by decide,
    tt_remove_empty_dense_mode gap_tensor (by decide) (by decide) 1 (by decide) (by decide)⟩

/-- Claim C9, amended: on a well-shaped tensor, `tt_fill_dims` establishes the
index-range invariant `ind[m][n] < dims[m]` when every index is below the largest value
of `idx_t`; `tt_remove_dups` preserves the invariant on a tensor with at least one
entry; and on a tensor that satisfies the invariant `tt_remove_empty` runs to
completion, so that its assertion `local < dim_sizes[m]` holds every time it is
reached, and the invariant holds afterwards. -/
theorem index_range_invariant (tt : sptensor) (hs : shape_ok tt) :
    ((∀ m < tt.nmodes, ∀ n < tt.nnz, rd tt.ind m n + 1 < IDX_MOD) →
      in_range (tt_fill_dims tt)) ∧
    (in_range tt → 0 < tt.nnz → in_range (tt_remove_dups tt).1) ∧
    (in_range tt → ∃ tt2 r, tt_remove_empty tt = some (tt2, r) ∧ in_range tt2) := by
  refine ⟨?_, fun hr hnz => tt_remove_dups_in_range tt hs hr hnz, ?_⟩
  · intro hrep m hm n hn
    have hm2 : m < tt.nmodes := hm
    have hn2 : n < tt.nnz := hn
    rw [tt_fill_dims_getD tt hs hm2]
    have := fill_dim_upper (tt.ind.getD m []) tt.nnz (hrep m hm2) n hn2
    show rd tt.ind m n < _
    unfold rd; omega
  · intro hr
    exact ⟨(compact_upto tt tt.nmodes).1, (compact_upto tt tt.nmodes).2,
      tt_remove_empty_eq tt hr, (compact_upto_preserves tt hs hr).2.1⟩

/-- Witness of C9 as amended: `gap_tensor` meets every hypothesis. -/
theorem index_range_invariant_witness :
    shape_ok gap_tensor ∧
    (∀ m < gap_tensor.nmodes, ∀ n < gap_tensor.nnz, rd gap_tensor.ind m n + 1 < IDX_MOD) ∧
    in_range gap_tensor ∧ 0 < gap_tensor.nnz ∧
    in_range (tt_fill_dims gap_tensor) ∧ in_range (tt_remove_dups gap_tensor).1 ∧
    ∃ tt2 r, tt_remove_empty gap_tensor = some (tt2, r) ∧ in_range tt2 :=
  ⟨by decide, by decide, by decide, by decide,
    (index_range_invariant gap_tensor (by decide)).1 (by decide),
    (index_range_invariant gap_tensor (by decide)).2.1 (by decide) (by decide),
    (index_range_invariant gap_tensor (by decide)).2.2 (by decide)⟩

/-- Counterexample to C9 as stated: on `maxidx_tensor`, which has an entry at the
largest value of `idx_t`, `tt_fill_dims` sets `dims[0] = 6` and the index-range
invariant does not hold afterwards. -/
theorem index_range_invariant_counterexample :
    shape_ok maxidx_tensor ∧ (tt_fill_dims maxidx_tensor).dims = [6] ∧
    ¬ in_range (tt_fill_dims maxidx_tensor) := by
  decide

/-- Claim C10, amended: on a tensor with at least one entry whose indices are all below
the largest value of `idx_t` (so that `ind[m][n] + 1` does not wrap), `tt_fill_dims`
sets `dims[m]` to `1 +` the largest `ind[m][n]` for every mode `m` and changes nothing
but `dims`; `tt_fill` on the same arrays computes the same `dims`. -/
theorem tt_fill_dims_max (tt : sptensor) (hs : shape_ok tt) (hnz : 0 < tt.nnz)
    (hrep : ∀ m < tt.nmodes, ∀ n < tt.nnz, rd tt.ind m n + 1 < IDX_MOD) :
    (∀ m < tt.nmodes,
      (∃ n < tt.nnz, (tt_fill_dims tt).dims.getD m 0 = 1 + rd tt.ind m n) ∧
      ∀ n < tt.nnz, 1 + rd tt.ind m n ≤ (tt_fill_dims tt).dims.getD m 0) ∧
    { tt_fill_dims tt with dims := tt.dims } = tt ∧
    (tt_fill_dims tt).dims.length = tt.dims.length ∧
    ∀ t0 : sptensor, (tt_fill t0 tt.nnz tt.nmodes tt.ind tt.vals).dims = (tt_fill_dims tt).dims := by
  refine ⟨?_, rfl, ?_, ?_⟩
  · intro m hm
    rw [tt_fill_dims_getD tt hs hm]
    constructor
    · obtain ⟨n, hn, he⟩ := fill_dim_attained (tt.ind.getD m []) tt.nnz hnz (hrep m hm)
      exact ⟨n, hn, by rw [he]; unfold rd; omega⟩
    · intro n hn
      have := fill_dim_upper (tt.ind.getD m []) tt.nnz (hrep m hm) n hn
      unfold rd; omega
  · unfold tt_fill_dims
    exact foldl_set_length _ _ _
  · intro t0
    unfold tt_fill tt_fill_dims
    simp only
    apply list_ext_getD 0
    · rw [foldl_set_length, foldl_set_length, List.length_replicate, hs.1]
    · intro m
      rw [foldl_set_getD (fun m => fill_dim (tt.ind.getD m []) tt.nnz),
        foldl_set_getD (fun m => fill_dim (tt.ind.getD m []) tt.nnz), List.length_replicate, hs.1]
      by_cases hm : m < tt.nmodes
      · rw [if_pos ⟨hm, hm⟩, if_pos ⟨hm, hm⟩]
      · rw [if_neg (fun h => hm h.1), if_neg (fun h => hm h.1)]
        have h1 : (List.replicate tt.nmodes 0).length ≤ m := by
          rw [List.length_replicate]; omega
        have h2 : tt.dims.length ≤ m := by rw [hs.1]; omega
        rw [List.getD_eq_default _ _ h1, List.getD_eq_default _ _ h2]

/-- Witness of C10 as amended: `gap_tensor` has the indices `[5, 2, 5]` and `[0, 1, 2]`;
`tt_fill_dims` gives the extents `[6, 3]`. -/
theorem tt_fill_dims_max_witness :
    shape_ok gap_tensor ∧ 0 < gap_tensor.nnz ∧
    (∀ m < gap_tensor.nmodes, ∀ n < gap_tensor.nnz, rd gap_tensor.ind m n + 1 < IDX_MOD) ∧
    (tt_fill_dims gap_tensor).dims = [6, 3] ∧
    ((∀ m < gap_tensor.nmodes,
      (∃ n < gap_tensor.nnz, (tt_fill_dims gap_tensor).dims.getD m 0 = 1 + rd gap_tensor.ind m n) ∧
      ∀ n < gap_tensor.nnz, 1 + rd gap_tensor.ind m n ≤ (tt_fill_dims gap_tensor).dims.getD m 0) ∧
    { tt_fill_dims gap_tensor with dims := gap_tensor.dims } = gap_tensor ∧
    (tt_fill_dims gap_tensor).dims.length = gap_tensor.dims.length ∧
    ∀ t0 : sptensor,
      (tt_fill t0 gap_tensor.nnz gap_tensor.nmodes gap_tensor.ind gap_tensor.vals).dims
        = (tt_fill_dims gap_tensor).dims) :=
  ⟨by decide, by decide, by decide, by decide,
    tt_fill_dims_max gap_tensor (by decide) (by decide) (by decide)⟩

/-- Counterexample to C10 as stated: `maxidx_tensor` has the indices 5 and
`2 ^ 64 - 1` in mode 0.  For the second, `ind[m][n] + 1` wraps to 0 in `idx_t`, so
`tt_fill_dims` sets `dims[0] = 6`, which is not `1 +` the largest index. -/
theorem tt_fill_dims_max_counterexample :
    shape_ok maxidx_tensor ∧ 0 < maxidx_tensor.nnz ∧
    rd maxidx_tensor.ind 0 1 = 18446744073709551615 ∧
    (tt_fill_dims maxidx_tensor).dims.getD 0 0 = 6 ∧
    (tt_fill_dims maxidx_tensor).dims.getD 0 0 < 1 + rd maxidx_tensor.ind 0 1 := by
  decide
/-! ## The claims on slices, unfolding, union and row exchange -/

/-- Claim C14: for a tensor of the data model (indices below the extents, the extent
of mode `m` an `idx_t` value) with at least one entry and a mode `m` of it,
`tt_get_slices` returns an array that is strictly increasing and contains a value `v`
iff `v` occurs in `ind[m]`, and sets `*nunique` to the length of the array, which is
the number of distinct values in `ind[m]`. -/
theorem tt_get_slices_sorted_set (tt : sptensor) (hs : shape_ok tt) (hr : in_range tt)
    (m : Nat) (hm : m < tt.nmodes) (hd : tt.dims.getD m 0 < IDX_MOD) (hnz : 0 < tt.nnz) :
    ∃ l : List Nat, tt_get_slices tt m = some (l.map some, l.length) ∧
      l.Sorted (· < ·) ∧
      (∀ v, v ∈ l ↔ ∃ n < tt.nnz, rd tt.ind m n = v) ∧
      l.length = ((Finset.range tt.nnz).image (fun n => rd tt.ind m n)).card := by
  have hl : tt.nnz ≤ (tt.ind.getD m []).length := row_length hs hm
  have hmax : ∀ n < tt.nnz, rd tt.ind m n + 1 < IDX_MOD := by
    intro n hn
    have := hr m hm n hn
    omega
  obtain ⟨_, _, b3⟩ := slice_bounds_spec (tt.dims.getD m 0) (tt.ind.getD m []) tt.nnz
  obtain ⟨n0, hn0, hmx⟩ := b3 hnz
  have hno : (slice_bounds (tt.dims.getD m 0) (tt.ind.getD m []) tt.nnz).2
      - (slice_bounds (tt.dims.getD m 0) (tt.ind.getD m []) tt.nnz).1 + 1 < IDX_MOD := by
    have := hmax n0 hn0
    unfold rd at this
    rw [hmx]; omega
  obtain ⟨hb, he⟩ := tt_get_slices_eq tt m hl hnz (fun n hn => by have := hmax n hn; omega) hno
  have hmem : ∀ v, v ∈ slices_of (slice_bounds (tt.dims.getD m 0) (tt.ind.getD m []) tt.nnz).1
      (slice_bounds (tt.dims.getD m 0) (tt.ind.getD m []) tt.nnz).2
      ((tt.ind.getD m []).take tt.nnz) ↔ ∃ n < tt.nnz, rd tt.ind m n = v := by
    intro v
    rw [mem_slices_of hb, List.mem_iff_getElem]
    constructor
    · rintro ⟨i, hi, rfl⟩
      rw [List.length_take] at hi
      refine ⟨i, by omega, ?_⟩
      rw [List.getElem_take]
      unfold rd
      exact List.getD_eq_getElem _ _ (by omega)
    · rintro ⟨n, hn, rfl⟩
      refine ⟨n, by rw [List.length_take]; omega, ?_⟩
      rw [List.getElem_take]
      unfold rd
      exact (List.getD_eq_getElem _ _ (by omega)).symm
  refine ⟨_, he, slices_of_sorted _ _ _, hmem, ?_⟩
  have hnd := (slices_of_sorted (slice_bounds (tt.dims.getD m 0) (tt.ind.getD m []) tt.nnz).1
      (slice_bounds (tt.dims.getD m 0) (tt.ind.getD m []) tt.nnz).2
      ((tt.ind.getD m []).take tt.nnz)).imp (fun h => Nat.ne_of_lt h)
  rw [← List.toFinset_card_of_nodup hnd]
  congr 1
  ext v
  rw [List.mem_toFinset, hmem]
  simp

/-- Witness of C14: mode 0 of `gap_tensor` has the indices `[5, 2, 5]`;
`tt_get_slices` returns `[2, 5]` and the count 2. -/
theorem tt_get_slices_sorted_set_witness :
    shape_ok gap_tensor ∧ in_range gap_tensor ∧ 0 < gap_tensor.nmodes ∧
    gap_tensor.dims.getD 0 0 < IDX_MOD ∧ 0 < gap_tensor.nnz ∧
    tt_get_slices gap_tensor 0 = some ([some 2, some 5], 2) ∧
    ∃ l : List Nat, tt_get_slices gap_tensor 0 = some (l.map some, l.length) ∧
      l.Sorted (· < ·) ∧
      (∀ v, v ∈ l ↔ ∃ n < gap_tensor.nnz, rd gap_tensor.ind 0 n = v) ∧
      l.length = ((Finset.range gap_tensor.nnz).image (fun n => rd gap_tensor.ind 0 n)).card :=
  ⟨by decide, by decide, by decide, by decide, by decide, by decide,
    tt_get_slices_sorted_set gap_tensor (by decide) (by decide) 0 (by decide) (by decide)
      (by decide)⟩

/-- Claim C15: for a tensor that satisfies `ind[m][n] < dims[m]` and a mode of it,
`tt_unfold` sorts the tensor by that mode and returns a matrix whose `rowptr` has
`dims[mode] + 1` cells, `rowptr[r]` being the number of entries with `ind[mode] < r`;
hence `rowptr[0] = 0`, `rowptr[dims[mode]] = nnz`, `rowptr` is non-decreasing, an empty
row has `rowptr[r] = rowptr[r + 1]`, and the positions in `[rowptr[r], rowptr[r + 1])`
are exactly those of the entries with `ind[mode] = r`. -/
theorem tt_unfold_rowptr (tt : sptensor) (hs : shape_ok tt) (hr : in_range tt) (mode : Nat)
    (hm : mode < tt.nmodes) :
    ∃ (mat : spmatrix) (rp : List Nat),
      tt_unfold tt mode = some (tt_sort tt mode, mat) ∧
      (entries (tt_sort tt mode)).Perm (entries tt) ∧
      mat.rowptr = rp.map some ∧ rp.length = tt.dims.getD mode 0 + 1 ∧
      (∀ r ≤ tt.dims.getD mode 0, rp.getD r 0 =
        ((List.range tt.nnz).filter
          (fun n => decide (rd (tt_sort tt mode).ind mode n < r))).length) ∧
      rp.getD 0 0 = 0 ∧ rp.getD (tt.dims.getD mode 0) 0 = tt.nnz ∧
      (∀ r < tt.dims.getD mode 0, rp.getD r 0 ≤ rp.getD (r + 1) 0) ∧
      (∀ r < tt.dims.getD mode 0, (∀ n < tt.nnz, rd (tt_sort tt mode).ind mode n ≠ r) →
        rp.getD r 0 = rp.getD (r + 1) 0) ∧
      (∀ r < tt.dims.getD mode 0, ∀ n < tt.nnz,
        (rp.getD r 0 ≤ n ∧ n < rp.getD (r + 1) 0) ↔ rd (tt_sort tt mode).ind mode n = r) := by
  have hmono : ∀ i j, i ≤ j → j < (tt_sort tt mode).nnz →
      rd (tt_sort tt mode).ind mode i ≤ rd (tt_sort tt mode).ind mode j :=
    fun i j hij hj => tt_sort_mono tt hs hm hij hj
  have hrng : ∀ n < (tt_sort tt mode).nnz,
      rd (tt_sort tt mode).ind mode n < tt.dims.getD mode 0 :=
    fun n hn => tt_sort_in_range tt mode hs hr mode hm n hn
  have hnnz : (tt_sort tt mode).nnz = tt.nnz := rfl
  have hget : ∀ r ≤ tt.dims.getD mode 0,
      ((List.range (tt.dims.getD mode 0 + 1)).map (rows_below (tt_sort tt mode) mode)).getD r 0
        = rows_below (tt_sort tt mode) mode r := by
    intro r hr1
    rw [List.getD_eq_getElem _ _ (by rw [List.length_map, List.length_range]; omega)]
    simp
  refine ⟨_, (List.range (tt.dims.getD mode 0 + 1)).map (rows_below (tt_sort tt mode) mode),
    tt_unfold_eq tt hs hr hm, ?_, rfl, by simp, ?_, ?_, ?_, ?_, ?_, ?_⟩
  · rw [tt_sort_entries_mode tt mode hs.2.1]
    exact sorted_by_perm tt mode
  · intro r hr1
    rw [hget r hr1]
    rfl
  · rw [hget 0 (Nat.zero_le _)]
    exact rows_below_eq (tt_sort tt mode) mode 0 0 (Nat.zero_le _)
      (fun i hi => by omega) (fun i hi _ => by omega)
  · rw [hget _ (Nat.le_refl _)]
    exact rows_below_eq (tt_sort tt mode) mode _ tt.nnz (Nat.le_refl _)
      (fun i hi => hrng i hi) (fun i hi hin => by rw [hnnz] at hin; omega)
  · intro r hr1
    rw [hget r (by omega), hget (r + 1) (by omega)]
    exact rows_below_mono _ _ hmono r
  · intro r hr1 hempty
    rw [hget r (by omega), hget (r + 1) (by omega)]
    unfold rows_below
    congr 1
    apply List.filter_congr
    intro n hn
    have := hempty n (by simpa using hn)
    rw [decide_eq_decide]
    omega
  · intro r hr1 n hn
    rw [hget r (by omega), hget (r + 1) (by omega)]
    have hA := rows_below_le_iff _ _ hmono r n hn
    have hB := rows_below_le_iff _ _ hmono (r + 1) n hn
    constructor
    · rintro ⟨h1, h2⟩
      have := hA.1 h1
      by_contra hc
      have := hB.2 (by omega)
      omega
    · intro he
      refine ⟨hA.2 (by omega), ?_⟩
      by_contra hc
      have := hB.1 (by omega)
      omega

/-- Witness of C15: `gap_tensor` unfolded along mode 0 (indices `[5, 2, 5]`, extent 6)
is sorted to `[2, 5, 5]` and gets the row pointers `[0, 0, 0, 1, 1, 1, 3]`. -/
theorem tt_unfold_rowptr_witness :
    shape_ok gap_tensor ∧ in_range gap_tensor ∧ 0 < gap_tensor.nmodes ∧
    (tt_unfold gap_tensor 0).map (fun r => (r.1.ind, r.2.rowptr))
      = some ([[2, 5, 5], [1, 0, 2]],
          [some 0, some 0, some 0, some 1, some 1, some 1, some 3]) ∧
    ∃ (mat : spmatrix) (rp : List Nat),
      tt_unfold gap_tensor 0 = some (tt_sort gap_tensor 0, mat) ∧
      (entries (tt_sort gap_tensor 0)).Perm (entries gap_tensor) ∧
      mat.rowptr = rp.map some ∧ rp.length = gap_tensor.dims.getD 0 0 + 1 ∧
      (∀ r ≤ gap_tensor.dims.getD 0 0, rp.getD r 0 =
        ((List.range gap_tensor.nnz).filter
          (fun n => decide (rd (tt_sort gap_tensor 0).ind 0 n < r))).length) ∧
      rp.getD 0 0 = 0 ∧ rp.getD (gap_tensor.dims.getD 0 0) 0 = gap_tensor.nnz ∧
      (∀ r < gap_tensor.dims.getD 0 0, rp.getD r 0 ≤ rp.getD (r + 1) 0) ∧
      (∀ r < gap_tensor.dims.getD 0 0,
        (∀ n < gap_tensor.nnz, rd (tt_sort gap_tensor 0).ind 0 n ≠ r) →
        rp.getD r 0 = rp.getD (r + 1) 0) ∧
      (∀ r < gap_tensor.dims.getD 0 0, ∀ n < gap_tensor.nnz,
        (rp.getD r 0 ≤ n ∧ n < rp.getD (r + 1) 0) ↔ rd (tt_sort gap_tensor 0).ind 0 n = r) :=
  ⟨by decide, by decide, by decide, by decide,
    tt_unfold_rowptr gap_tensor (by decide) (by decide) 0 (by decide)⟩

/-- Claim C16: for a tensor that satisfies `ind[m][n] < dims[m]`, a mode of it, and
extents of the other modes whose product fits in `idx_t` (no overflow), the column id
`tt_unfold` assigns to entry `n` is the mixed-radix number of its remaining indices,
the highest-numbered remaining mode being the least significant digit; it is below the
column count `J`, which is the product of the other extents; and two entries get the
same column id iff they agree on every index other than the unfolded mode. -/
theorem tt_unfold_colind (tt : sptensor) (hs : shape_ok tt) (hr : in_range tt) (mode : Nat)
    (hm : mode < tt.nmodes) (hno : other_dims_prod tt mode < IDX_MOD) :
    ∃ (mat : spmatrix) (cols : List Nat),
      tt_unfold tt mode = some (tt_sort tt mode, mat) ∧
      mat.J = other_dims_prod tt mode ∧
      mat.colind = cols.map some ∧ cols.length = tt.nnz ∧
      (∀ n < tt.nnz, cols.getD n 0 = mixed_radix (col_digits (tt_sort tt mode) mode n) ∧
        cols.getD n 0 < mat.J) ∧
      (∀ n < tt.nnz, ∀ k < tt.nnz, cols.getD n 0 = cols.getD k 0 ↔
        ∀ off < tt.nmodes, off ≠ mode →
          rd (tt_sort tt mode).ind off n = rd (tt_sort tt mode).ind off k) := by
  have hrng : ∀ off < tt.nmodes, ∀ n < tt.nnz,
      rd (tt_sort tt mode).ind off n < tt.dims.getD off 0 :=
    fun off ho n hn => tt_sort_in_range tt mode hs hr off ho n hn
  have hfr : (tt_sort tt mode).nmodes = tt.nmodes ∧ (tt_sort tt mode).dims = tt.dims :=
    ⟨rfl, rfl⟩
  have hprod : ∀ n, radix_prod (col_digits (tt_sort tt mode) mode n) = other_dims_prod tt mode :=
    fun n => radix_prod_col_digits (tt_sort tt mode) mode n
  have hdig : ∀ n < tt.nnz, ∀ x ∈ col_digits (tt_sort tt mode) mode n, x.1 < x.2 := by
    intro n hn x hx
    unfold col_digits at hx
    obtain ⟨off, ho, rfl⟩ := List.mem_map.1 hx
    exact hrng off (mem_rem_modes.1 ho).1 n hn
  have hlt : ∀ n < tt.nnz,
      mixed_radix (col_digits (tt_sort tt mode) mode n) < other_dims_prod tt mode := by
    intro n hn
    rw [← hprod n]
    exact mixed_radix_lt _ (hdig n hn)
  have hget : ∀ n < tt.nnz,
      ((List.range tt.nnz).map (fun n => (unfold_col (tt_sort tt mode) mode n).1)).getD n 0
        = mixed_radix (col_digits (tt_sort tt mode) mode n) := by
    intro n hn
    rw [List.getD_eq_getElem _ _ (by rw [List.length_map, List.length_range]; omega)]
    simp only [List.getElem_map, List.getElem_range]
    rw [unfold_col_eq]
    exact Nat.mod_eq_of_lt (Nat.lt_trans (hlt n hn) hno)
  have hJ : unfold_ncols tt mode = other_dims_prod tt mode := by
    rw [unfold_ncols_eq tt hm]; exact Nat.mod_eq_of_lt hno
  refine ⟨_, (List.range tt.nnz).map (fun n => (unfold_col (tt_sort tt mode) mode n).1),
    tt_unfold_eq tt hs hr hm, hJ, rfl, by simp, ?_, ?_⟩
  · intro n hn
    rw [hget n hn]
    exact ⟨rfl, by show _ < unfold_ncols tt mode; rw [hJ]; exact hlt n hn⟩
  · intro n hn k hk
    rw [hget n hn, hget k hk]
    constructor
    · intro he off ho hne
      have hD := mixed_radix_inj _ _ (by unfold col_digits; simp) (hdig n hn) (hdig k hk) he
      unfold col_digits at hD
      have := List.map_inj_left.1 hD off (mem_rem_modes.2 ⟨ho, hne⟩)
      exact (Prod.mk.inj this).1
    · intro hall
      have : col_digits (tt_sort tt mode) mode n = col_digits (tt_sort tt mode) mode k := by
        unfold col_digits
        apply List.map_inj_left.2
        intro off ho
        have := mem_rem_modes.1 ho
        rw [hall off this.1 this.2]
      rw [this]

/-- Witness of C16: `dup_tensor` (extents `[2, 2, 2]`) unfolded along mode 1 has 4
columns; entries 0 and 1 share the coordinate `(0,0,0)` and the column 0, entry 2 at
`(1,1,1)` gets column `1 + 2 * 1 = 3`. -/
theorem tt_unfold_colind_witness :
    shape_ok dup_tensor ∧ in_range dup_tensor ∧ 1 < dup_tensor.nmodes ∧
    other_dims_prod dup_tensor 1 < IDX_MOD ∧
    (tt_unfold dup_tensor 1).map (fun r => (r.2.J, r.2.colind))
      = some (4, [some 0, some 0, some 3]) ∧
    ∃ (mat : spmatrix) (cols : List Nat),
      tt_unfold dup_tensor 1 = some (tt_sort dup_tensor 1, mat) ∧
      mat.J = other_dims_prod dup_tensor 1 ∧
      mat.colind = cols.map some ∧ cols.length = dup_tensor.nnz ∧
      (∀ n < dup_tensor.nnz,
        cols.getD n 0 = mixed_radix (col_digits (tt_sort dup_tensor 1) 1 n) ∧
        cols.getD n 0 < mat.J) ∧
      (∀ n < dup_tensor.nnz, ∀ k < dup_tensor.nnz, cols.getD n 0 = cols.getD k 0 ↔
        ∀ off < dup_tensor.nmodes, off ≠ 1 →
          rd (tt_sort dup_tensor 1).ind off n = rd (tt_sort dup_tensor 1).ind off k) :=
  ⟨by decide, by decide, by decide, by decide, by decide,
    tt_unfold_colind dup_tensor (by decide) (by decide) 1 (by decide) (by decide)⟩

/-- Claim C11 at two two-mode operands without duplicate coordinates: `pair_a` and
`pair_b` share the entry `(0,0) = 1`.  On that exact match the `printf` of lines
205-207 reads `ind[2]`, a row neither tensor has, so the call has no defined result. -/
theorem tt_union_two_mode_match :
    shape_ok pair_a ∧ shape_ok pair_b ∧ in_range pair_a ∧ in_range pair_b ∧
    pair_a.nmodes = pair_b.nmodes ∧
    ((entries pair_a).map (fun e => e.1)).Nodup ∧ ((entries pair_b).map (fun e => e.1)).Nodup ∧
    entry_at (tt_sort pair_a 0) 0 = ([0, 0], 1) ∧ entry_at (tt_sort pair_b 0) 0 = ([0, 0], 1) ∧
    union_cmp 2 (tt_sort pair_a 0) (tt_sort pair_b 0) 0 0 = (true, 0) ∧
    (tt_sort pair_a 0).ind.length = 2 ∧
    print_ok (tt_sort pair_a 0) (tt_sort pair_b 0) 0 0 = false ∧
    tt_union pair_a pair_b = none := by
  decide

/-- Claim C12 at a two-mode tensor: `gap_tensor` unioned with an identical copy.  The
first pass of the counting loop finds an exact match and its `printf` (lines 205-207)
reads `ind[2]`, a row a two-mode tensor does not have, so the call has no defined
result. -/
theorem tt_union_copy_two_mode :
    shape_ok gap_tensor ∧ in_range gap_tensor ∧ 0 < gap_tensor.nnz ∧
    (tt_sort gap_tensor 0).ind.length = 2 ∧
    union_cmp 2 (tt_sort gap_tensor 0) (tt_sort gap_tensor 0) 0 0 = (true, 0) ∧
    print_ok (tt_sort gap_tensor 0) (tt_sort gap_tensor 0) 0 0 = false ∧
    tt_union gap_tensor gap_tensor = none := by
  decide

/-- Claim C13, amended: in `tt_union` the counting pass raises the counter by one for a
pair of entries with identical coordinate and identical value, as the copy pass writes
one entry for it.  The counting pass completes for operands with at least three modes,
and whenever it completes with the size `n`, the copy pass writes exactly `n` entries:
the allocated `nnz` equals the number of entries written, every cell of `vals` and of
each `ind[m]` is written, and `tt_union` returns a tensor with `nnz = n`. -/
theorem union_fill_written (a b : sptensor) (ha : shape_ok a) (hb : shape_ok b)
    (hn : a.nmodes = b.nmodes) :
    (∀ u pa pb st, (union_cmp a.nmodes (tt_sort a 0) (tt_sort b 0) pa pb).1 = true →
      union_count_step a.nmodes (tt_sort a 0) (tt_sort b 0) (u, pa, pb) = some st →
      st = (u + 1, pa + 1, pb + 1)) ∧
    (3 ≤ a.nmodes → ∃ n, union_count a.nmodes (tt_sort a 0) (tt_sort b 0) = some n) ∧
    ∀ n, union_count a.nmodes (tt_sort a 0) (tt_sort b 0) = some n →
      ∃ ret r, union_fill a.nmodes (tt_sort a 0) (tt_sort b 0) = some (n, ret, n) ∧
        ret.nnz = n ∧ ret.vals.length = n ∧ (∀ v ∈ ret.vals, v ≠ none) ∧
        ret.ind.length = a.nmodes ∧
        (∀ row ∈ ret.ind, row.length = n ∧ ∀ c ∈ row, c ≠ none) ∧
        tt_union a b = some r ∧ r.nnz = n := by
  refine ⟨?_, ?_, ?_⟩
  · intro u pa pb st h1 h2
    simp only [union_count_step] at h2
    rw [if_pos h1] at h2
    by_cases hp : print_ok (tt_sort a 0) (tt_sort b 0) pa pb = true
    · rw [if_pos hp] at h2
      exact (Option.some.inj h2).symm
    · rw [if_neg hp] at h2
      cases h2
  · intro h3
    have hsa := tt_sort_shape_ok a 0 ha
    have hsb := tt_sort_shape_ok b 0 hb
    obtain ⟨st, hst⟩ := union_count_loop_total a.nmodes (tt_sort a 0) (tt_sort b 0)
      (fun pa hpa pb hpb => print_ok_of_shape hsa hsb h3
        (by show 3 ≤ b.nmodes; omega) hpa hpb)
      ((tt_sort a 0).nnz + (tt_sort b 0).nnz) 0 0 0 (by omega)
    exact ⟨_, (union_fill_eq a.nmodes (tt_sort a 0) (tt_sort b 0) st hst).1⟩
  · intro n hcount
    have hex : ∃ st, union_count_loop a.nmodes (tt_sort a 0) (tt_sort b 0)
        ((tt_sort a 0).nnz + (tt_sort b 0).nnz) (0, 0, 0) = some st := by
      unfold union_count at hcount
      cases hc : union_count_loop a.nmodes (tt_sort a 0) (tt_sort b 0)
        ((tt_sort a 0).nnz + (tt_sort b 0).nnz) (0, 0, 0) with
      | none => rw [hc] at hcount; cases hcount
      | some st => exact ⟨st, rfl⟩
    obtain ⟨st, hst⟩ := hex
    obtain ⟨e1, e2⟩ := union_fill_eq a.nmodes (tt_sort a 0) (tt_sort b 0) st hst
    have hnl : (union_all a.nmodes (tt_sort a 0) (tt_sort b 0) st.2.1 st.2.2).length = n := by
      rw [e1] at hcount
      exact Option.some.inj hcount
    have hw := raw_of_written a.nmodes n
      (union_all a.nmodes (tt_sort a 0) (tt_sort b 0) st.2.1 st.2.2)
    rw [hnl] at e2 hw
    refine ⟨_, tt_fill_dims (tensor_of a.nmodes n
      (union_all a.nmodes (tt_sort a 0) (tt_sort b 0) st.2.1 st.2.2)),
      e2, hw.1, hw.2.1, hw.2.2.1, hw.2.2.2.1, hw.2.2.2.2, ?_, ?_⟩
    · have := tt_union_eq a b hn st hst
      rw [hnl] at this
      exact this
    · rfl

/-- Witness of C13 as amended: `union_a` and `union_b` have three modes and share the
entry `(0,0,0) = 2`; the counting pass gives 5 and the copy pass writes 5 entries. -/
theorem union_fill_written_witness :
    shape_ok union_a ∧ shape_ok union_b ∧ union_a.nmodes = union_b.nmodes ∧
    union_count 3 (tt_sort union_a 0) (tt_sort union_b 0) = some 5 ∧
    ((∀ u pa pb st,
      (union_cmp union_a.nmodes (tt_sort union_a 0) (tt_sort union_b 0) pa pb).1 = true →
      union_count_step union_a.nmodes (tt_sort union_a 0) (tt_sort union_b 0) (u, pa, pb)
        = some st →
      st = (u + 1, pa + 1, pb + 1)) ∧
    (3 ≤ union_a.nmodes →
      ∃ n, union_count union_a.nmodes (tt_sort union_a 0) (tt_sort union_b 0) = some n) ∧
    ∀ n, union_count union_a.nmodes (tt_sort union_a 0) (tt_sort union_b 0) = some n →
      ∃ ret r, union_fill union_a.nmodes (tt_sort union_a 0) (tt_sort union_b 0)
          = some (n, ret, n) ∧
        ret.nnz = n ∧ ret.vals.length = n ∧ (∀ v ∈ ret.vals, v ≠ none) ∧
        ret.ind.length = union_a.nmodes ∧
        (∀ row ∈ ret.ind, row.length = n ∧ ∀ c ∈ row, c ≠ none) ∧
        tt_union union_a union_b = some r ∧ r.nnz = n) :=
  ⟨by decide, by decide, by decide, by decide,
    union_fill_written union_a union_b (by decide) (by decide) (by decide)⟩

/-- Counterexample to C13 as stated: `union_a` and `union_b` both hold the entry
`(0,0,0) = 2`.  The counting pass raises the counter by one for that pair, the size
allocated is 5, the copy pass writes 5 entries, and no cell of the result is left
unwritten. -/
theorem union_fill_written_counterexample :
    entry_at (tt_sort union_a 0) 0 = ([0, 0, 0], 2) ∧
    entry_at (tt_sort union_b 0) 0 = ([0, 0, 0], 2) ∧
    union_count_step 3 (tt_sort union_a 0) (tt_sort union_b 0) (0, 0, 0) = some (1, 1, 1) ∧
    union_count 3 (tt_sort union_a 0) (tt_sort union_b 0) = some 5 ∧
    (union_fill 3 (tt_sort union_a 0) (tt_sort union_b 0)).map
        (fun res => (res.1, res.2.1.ind, res.2.1.vals, res.2.2))
      = some (5,
          [[some 0, some 0, some 1, some 1, some 1], [some 0, some 1, some 0, some 1, some 1],
            [some 0, some 0, some 1, some 1, some 1]],
          [some 2, some 3, some 7, some 4, some 5], 5) ∧
    (tt_union union_a union_b).map (fun r => (r.nnz, r.dims, r.ind, r.vals))
      = some (5, [2, 2, 2], [[0, 0, 1, 1, 1], [0, 1, 0, 1, 1], [0, 0, 1, 1, 1]],
          [2, 3, 7, 4, 5]) :=
  ⟨by decide, by decide, by decide, by decide, by decide, by decide⟩

/-- Claim C18: on well-formed arguments with mutual manifests, `mpi_update_rows` on
rank `me` returns, leaves the rank's global matrix unchanged, and changes no row of
the local matrix other than the receive-manifest slots
`local2nbr_inds[0 .. nlocal2nbr)` and the owned region `[ownstart, ownstart + nowned)`;
afterwards the owned region equals the first `nowned` rows of the global matrix. -/
theorem mpi_update_rows_frame (world : List rank_args) (me F : Nat) (a : rank_args)
    (hall : ∀ b ∈ world, rank_ok b F) (ha : world[me]? = some a)
    (hex : update_exchange_ok world me) :
    ∃ res, mpi_update_rows world me F = some res ∧
      res.globalmat = a.globalmat ∧
      res.localmat.I = a.localmat.I ∧ res.localmat.J = a.localmat.J ∧
      res.localmat.vals.length = a.localmat.vals.length ∧
      (∀ i < a.localmat.I, (∀ r < a.rinfo.nlocal2nbr, a.rinfo.local2nbr_inds.getD r 0 ≠ i) →
        (i < a.rinfo.ownstart ∨ a.rinfo.ownstart + a.rinfo.nowned ≤ i) →
        ∀ f < F, res.localmat.vals.getD (f + i * F) 0 = a.localmat.vals.getD (f + i * F) 0) ∧
      (∀ i < a.rinfo.nowned, ∀ f < F,
        res.localmat.vals.getD (f + (a.rinfo.ownstart + i) * F) 0
          = a.globalmat.vals.getD (f + i * F) 0) := by
  obtain ⟨_, res, _, h1, _, h2⟩ := mpi_update_rows_spec world me F a hall ha hex
  exact ⟨res, h1, h2⟩

/-- Claim C17: in a communicator of two well-formed ranks `A` and `B` with mutual
manifests, whose receive slots lie outside the owned regions, `mpi_update_rows`
returns on both ranks, and afterwards the local row `l_k` of `B`, the `k`-th slot of
its receive manifest, equals the global row `g_k - mat_start` of `A`, `g_k` being the
`k`-th row of the send manifest of `A`, in every column; likewise for the rows `A`
receives from `B`. -/
theorem mpi_update_rows_pair (A B : rank_args) (F : Nat) (hA : rank_ok A F) (hB : rank_ok B F)
    (hp : pair_ok A B F) (hgA : ghost_ok A) (hgB : ghost_ok B) :
    ∃ resA resB, mpi_update_rows [A, B] 0 F = some resA ∧
      mpi_update_rows [A, B] 1 F = some resB ∧
      (∀ k < A.rinfo.nnbr2globs, ∀ f < F,
        resB.localmat.vals.getD (f + B.rinfo.local2nbr_inds.getD k 0 * F) 0
          = A.globalmat.vals.getD
              (f + (A.rinfo.nbr2globs_inds.getD k 0 - A.rinfo.mat_start) * F) 0) ∧
      (∀ k < B.rinfo.nnbr2globs, ∀ f < F,
        resA.localmat.vals.getD (f + A.rinfo.local2nbr_inds.getD k 0 * F) 0
          = B.globalmat.vals.getD
              (f + (B.rinfo.nbr2globs_inds.getD k 0 - B.rinfo.mat_start) * F) 0) := by
  have hall : ∀ b ∈ [A, B], rank_ok b F := by
    intro b hb
    simp only [List.mem_cons, List.mem_singleton, List.not_mem_nil, or_false] at hb
    rcases hb with rfl | rfl
    · exact hA
    · exact hB
  obtain ⟨hex0, hex1⟩ := pair_exchange_ok A B F hA hB hp
  obtain ⟨gA, ga1, ga2, ga3⟩ := update_gather_ok A F hA
  obtain ⟨gB, gb1, gb2, gb3⟩ := update_gather_ok B F hB
  obtain ⟨rb0, resA, x1, x2, x3, _⟩ := mpi_update_rows_spec [A, B] 0 F A hall rfl hex0
  obtain ⟨rb1, resB, y1, y2, y3, _⟩ := mpi_update_rows_spec [A, B] 1 F B hall rfl hex1
  obtain ⟨p1, p2, p3, p4, p5, p6, p7, p8, p9, p10⟩ := hp
  simp only [List.map_cons, List.map_nil, ga1, gb1, Option.getD_some, p3, p4, p5, p6, p7, p8,
    p9, p10] at x1 y1
  have a8 := hA.2.2.2.2.2.2.2.1
  have a9 := hA.2.2.2.2.2.2.2.2.1
  have b8 := hB.2.2.2.2.2.2.2.1
  have b9 := hB.2.2.2.2.2.2.2.2.1
  refine ⟨resA, resB, x2, y2, ?_, ?_⟩
  · intro k hk f hf
    have hk2 : k < B.rinfo.nlocal2nbr := by rw [← p1]; exact hk
    rw [y3 hgB.1 k hk2 (hgB.2 k hk2) f hf]
    rw [← p1] at y1
    have hj : f + k * F < A.rinfo.nnbr2globs * F := by
      have := row_bound hk (Nat.le_refl (A.rinfo.nnbr2globs * F)); omega
    rw [alltoallv_pair1 gA gB B.nbr2local_buf _ _ (by rw [ga2]; exact a8)
      (by rw [gb2]; exact b8) (by rw [p1]; exact b9) rb1 y1 _ hj]
    exact ga3 k hk f hf
  · intro k hk f hf
    have hk2 : k < A.rinfo.nlocal2nbr := by rw [← p2]; exact hk
    rw [x3 hgA.1 k hk2 (hgA.2 k hk2) f hf]
    rw [← p2] at x1
    have hj : f + k * F < B.rinfo.nnbr2globs * F := by
      have := row_bound hk (Nat.le_refl (B.rinfo.nnbr2globs * F)); omega
    rw [alltoallv_pair0 gA gB A.nbr2local_buf _ _
      (by rw [gb2]; exact b8) (by rw [p2]; exact a9) rb0 x1 _ hj]
    exact gb3 k hk f hf

/-- Witness of C17: the toy partition of an 8 x 2 matrix, rank 0 owning the rows 0 to
3 and rank 1 the rows 4 to 7.  After the exchange both local matrices hold all eight
rows with the owners' values. -/
theorem mpi_update_rows_pair_witness :
    rank_ok toy_rank0 2 ∧ rank_ok toy_rank1 2 ∧ pair_ok toy_rank0 toy_rank1 2 ∧
    ghost_ok toy_rank0 ∧ ghost_ok toy_rank1 ∧
    (mpi_update_rows [toy_rank0, toy_rank1] 0 2).map (fun r => r.localmat.vals)
      = some [10, 11, 20, 21, 30, 31, 40, 41, 50, 51, 60, 61, 70, 71, 80, 81] ∧
    (mpi_update_rows [toy_rank0, toy_rank1] 1 2).map (fun r => r.localmat.vals)
      = some [10, 11, 20, 21, 30, 31, 40, 41, 50, 51, 60, 61, 70, 71, 80, 81] ∧
    ∃ resA resB, mpi_update_rows [toy_rank0, toy_rank1] 0 2 = some resA ∧
      mpi_update_rows [toy_rank0, toy_rank1] 1 2 = some resB ∧
      (∀ k < toy_rank0.rinfo.nnbr2globs, ∀ f < 2,
        resB.localmat.vals.getD (f + toy_rank1.rinfo.local2nbr_inds.getD k 0 * 2) 0
          = toy_rank0.globalmat.vals.getD
              (f + (toy_rank0.rinfo.nbr2globs_inds.getD k 0 - toy_rank0.rinfo.mat_start) * 2) 0) ∧
      (∀ k < toy_rank1.rinfo.nnbr2globs, ∀ f < 2,
        resA.localmat.vals.getD (f + toy_rank0.rinfo.local2nbr_inds.getD k 0 * 2) 0
          = toy_rank1.globalmat.vals.getD
              (f + (toy_rank1.rinfo.nbr2globs_inds.getD k 0 - toy_rank1.rinfo.mat_start) * 2) 0) :=
  ⟨by decide, by decide, by decide, by decide, by decide, by decide, by decide,
    mpi_update_rows_pair toy_rank0 toy_rank1 2 (by decide) (by decide) (by decide) (by decide)
      (by decide)⟩

/-- Witness of C18: rank 1 of the toy partition with an out-of-date local matrix and a
receive manifest without the local row 3.  The call fills the rows 0 to 2, refreshes
the owned rows 4 to 7 from the global matrix and leaves the row 3 as it was. -/
theorem mpi_update_rows_frame_witness :
    (∀ b ∈ [short_rank0, stale_rank1], rank_ok b 2) ∧
    [short_rank0, stale_rank1][1]? = some stale_rank1 ∧
    update_exchange_ok [short_rank0, stale_rank1] 1 ∧
    (mpi_update_rows [short_rank0, stale_rank1] 1 2).map
        (fun r => (r.localmat.vals, r.globalmat.vals))
      = some ([10, 11, 20, 21, 30, 31, 7, 7, 50, 51, 60, 61, 70, 71, 80, 81],
          [50, 51, 60, 61, 70, 71, 80, 81]) ∧
    ∃ res, mpi_update_rows [short_rank0, stale_rank1] 1 2 = some res ∧
      res.globalmat = stale_rank1.globalmat ∧
      res.localmat.I = stale_rank1.localmat.I ∧ res.localmat.J = stale_rank1.localmat.J ∧
      res.localmat.vals.length = stale_rank1.localmat.vals.length ∧
      (∀ i < stale_rank1.localmat.I,
        (∀ r < stale_rank1.rinfo.nlocal2nbr, stale_rank1.rinfo.local2nbr_inds.getD r 0 ≠ i) →
        (i < stale_rank1.rinfo.ownstart ∨
          stale_rank1.rinfo.ownstart + stale_rank1.rinfo.nowned ≤ i) →
        ∀ f < 2, res.localmat.vals.getD (f + i * 2) 0
          = stale_rank1.localmat.vals.getD (f + i * 2) 0) ∧
      (∀ i < stale_rank1.rinfo.nowned, ∀ f < 2,
        res.localmat.vals.getD (f + (stale_rank1.rinfo.ownstart + i) * 2) 0
          = stale_rank1.globalmat.vals.getD (f + i * 2) 0) :=
  ⟨by decide, rfl, by decide, by decide,
    mpi_update_rows_frame [short_rank0, stale_rank1] 1 2 stale_rank1 (by decide) rfl
      (by decide)⟩

/-- Claim C19: on well-formed arguments with mutual manifests, `mpi_reduce_rows` on
rank `me` returns and adds to the global matrix: for every owned row `g` and column
`f`, the value afterwards is the value before plus the exact sum of the cells `f` of
the received buffer rows `r` with `nbr2globs_inds[r] - mat_start = g`.  The
accumulation does not depend on the order of the rows in the receive buffer: two
buffers holding the same rows in a different order give the same global matrix. -/
theorem mpi_reduce_rows_sum (world : List rank_args) (me F : Nat) (a : rank_args)
    (hall : ∀ b ∈ world, rank_ok b F) (ha : world[me]? = some a)
    (hex : reduce_exchange_ok world me) :
    (∃ res, mpi_reduce_rows world me F = some res ∧
      res.localmat = a.localmat ∧ res.globalmat.I = a.globalmat.I ∧
      res.globalmat.vals.length = a.globalmat.vals.length ∧
      ∀ g < a.globalmat.I, ∀ f < F, res.globalmat.vals.getD (f + g * F) 0
        = a.globalmat.vals.getD (f + g * F) 0
          + (((List.range a.rinfo.nnbr2globs).filter
              (fun r => decide (a.rinfo.nbr2globs_inds.getD r 0 - a.rinfo.mat_start = g))).map
              (fun r => res.nbr2globs_buf.getD (f + r * F) 0)).sum) ∧
    ∀ (ri2 : rank_info) (rb1 rb2 : List Int),
      a.rinfo.nnbr2globs * F ≤ rb1.length → ri2.nnbr2globs * F ≤ rb2.length →
      ri2.nnbr2globs ≤ ri2.nbr2globs_inds.length → ri2.mat_start = a.rinfo.mat_start →
      (∀ r < ri2.nnbr2globs, ri2.mat_start ≤ ri2.nbr2globs_inds.getD r 0 ∧
        ri2.nbr2globs_inds.getD r 0 < a.rinfo.mat_end) →
      (recv_rows a.rinfo F rb1).Perm (recv_rows ri2 F rb2) →
      ∃ gm, reduce_accum a.rinfo F rb1 a.globalmat.vals = some gm ∧
        reduce_accum ri2 F rb2 a.globalmat.vals = some gm := by
  have hme : me < world.length := by
    by_contra hc
    rw [List.getElem?_eq_none (by omega)] at ha
    cases ha
  have hamem : a ∈ world := by
    have hga : world.getD me no_rank = a := by
      rw [List.getD_eq_getElem?_getD, ha]; rfl
    rw [← hga, List.getD_eq_getElem _ _ hme]; exact List.getElem_mem _
  constructor
  · obtain ⟨res, h1, h2, h3, h4, _, h6⟩ := mpi_reduce_rows_spec world me F a hall ha hex
    exact ⟨res, h1, h2, h3, h4, fun g _ f hf => h6 g f hf⟩
  · intro ri2 rb1 rb2 hb1 hb2 hn2 hms hr2 hperm
    obtain ⟨o1, o2, o3, o4, o5, o6, o7, o8, o9, o10, o11, o12, o13⟩ := hall a hamem
    obtain ⟨g1, a1, a2, a3, a4⟩ := reduce_accum_ok a.rinfo F rb1 a.globalmat.vals o6 hb1
      (fun r hr => by
        have := o10 r hr
        refine ⟨this.1, by omega, ?_⟩
        rw [o1]
        exact row_bound (by omega) (Nat.le_refl _))
    obtain ⟨g2, b1, b2, b3, b4⟩ := reduce_accum_ok ri2 F rb2 a.globalmat.vals hn2 hb2
      (fun r hr => by
        have := hr2 r hr
        refine ⟨this.1, by omega, ?_⟩
        rw [o1]
        exact row_bound (by omega) (Nat.le_refl _))
    refine ⟨g1, a1, ?_⟩
    rw [b1]
    congr 1
    rcases Nat.eq_zero_or_pos F with hF | hF
    · rw [a3 hF, b3 hF]
    · apply list_ext_getD 0 (by rw [a2, b2])
      intro j
      have hj : j = j % F + (j / F) * F := by
        rw [Nat.mul_comm]; exact (Nat.mod_add_div j F).symm
      have hf : j % F < F := Nat.mod_lt _ hF
      rw [hj, a4 _ _ hf, b4 _ _ hf, recv_rows_sum a.rinfo F rb1 _ hf,
        recv_rows_sum ri2 F rb2 _ hf, hms]
      congr 1
      exact (((hperm.filter _).map _).sum_eq).symm

/-- Witness of C19: the ranks 1, 2 and 3 each hold the partial contribution 1 for the
global row 0, which rank 0 owns with the value 0.  After `mpi_reduce_rows` the owner's
global matrix holds exactly 3. -/
theorem mpi_reduce_rows_sum_witness :
    (∀ b ∈ [reduce_owner, reduce_peer, reduce_peer, reduce_peer], rank_ok b 1) ∧
    [reduce_owner, reduce_peer, reduce_peer, reduce_peer][0]? = some reduce_owner ∧
    reduce_exchange_ok [reduce_owner, reduce_peer, reduce_peer, reduce_peer] 0 ∧
    (mpi_reduce_rows [reduce_owner, reduce_peer, reduce_peer, reduce_peer] 0 1).map
        (fun r => (r.nbr2globs_buf, r.globalmat.vals)) = some ([1, 1, 1], [3]) ∧
    ((∃ res, mpi_reduce_rows [reduce_owner, reduce_peer, reduce_peer, reduce_peer] 0 1
        = some res ∧
      res.localmat = reduce_owner.localmat ∧ res.globalmat.I = reduce_owner.globalmat.I ∧
      res.globalmat.vals.length = reduce_owner.globalmat.vals.length ∧
      ∀ g < reduce_owner.globalmat.I, ∀ f < 1, res.globalmat.vals.getD (f + g * 1) 0
        = reduce_owner.globalmat.vals.getD (f + g * 1) 0
          + (((List.range reduce_owner.rinfo.nnbr2globs).filter
              (fun r => decide (reduce_owner.rinfo.nbr2globs_inds.getD r 0
                - reduce_owner.rinfo.mat_start = g))).map
              (fun r => res.nbr2globs_buf.getD (f + r * 1) 0)).sum) ∧
    ∀ (ri2 : rank_info) (rb1 rb2 : List Int),
      reduce_owner.rinfo.nnbr2globs * 1 ≤ rb1.length → ri2.nnbr2globs * 1 ≤ rb2.length →
      ri2.nnbr2globs ≤ ri2.nbr2globs_inds.length →
      ri2.mat_start = reduce_owner.rinfo.mat_start →
      (∀ r < ri2.nnbr2globs, ri2.mat_start ≤ ri2.nbr2globs_inds.getD r 0 ∧
        ri2.nbr2globs_inds.getD r 0 < reduce_owner.rinfo.mat_end) →
      (recv_rows reduce_owner.rinfo 1 rb1).Perm (recv_rows ri2 1 rb2) →
      ∃ gm, reduce_accum reduce_owner.rinfo 1 rb1 reduce_owner.globalmat.vals = some gm ∧
        reduce_accum ri2 1 rb2 reduce_owner.globalmat.vals = some gm) :=
  ⟨by decide, rfl, by decide, by decide,
    mpi_reduce_rows_sum [reduce_owner, reduce_peer, reduce_peer, reduce_peer] 0 1 reduce_owner
      (by decide) rfl (by decide)⟩

/-- Claim C20: for matrices with `F` values per row, a descriptor whose owned region
lies inside the local matrix, and `goffset + nowned <= globmat->I`, where `goffset` is
`ownstart - mat_start` without an index map and `indmap[ownstart] - mat_start` with
one, `mpi_add_my_partials` returns; afterwards the global row `goffset + i` equals the
local row `ownstart + i` for every `i < nowned`, every other global row is all zeros,
and the local matrix is unchanged. -/
theorem mpi_add_my_partials_rows (indmap : Option (List Nat)) (localmat globmat : matrix)
    (rinfo : rank_info) (F goffset : Nat)
    (hg : partials_goffset indmap rinfo = some goffset)
    (hgl : globmat.vals.length = globmat.I * F) (hll : localmat.vals.length = localmat.I * F)
    (hown : rinfo.ownstart + rinfo.nowned ≤ localmat.I)
    (hoff : goffset + rinfo.nowned ≤ globmat.I) :
    (indmap = none → goffset = idx_sub rinfo.ownstart rinfo.mat_start) ∧
    (∀ im, indmap = some im → goffset = idx_sub (im.getD rinfo.ownstart 0) rinfo.mat_start) ∧
    ∃ gm, mpi_add_my_partials indmap localmat globmat rinfo F = some (localmat, gm) ∧
      gm.I = globmat.I ∧ gm.J = globmat.J ∧ gm.vals.length = globmat.vals.length ∧
      (∀ i < rinfo.nowned, ∀ f < F, gm.vals.getD (f + (goffset + i) * F) 0
        = localmat.vals.getD (f + (rinfo.ownstart + i) * F) 0) ∧
      (∀ g < globmat.I, (g < goffset ∨ goffset + rinfo.nowned ≤ g) →
        ∀ f < F, gm.vals.getD (f + g * F) 0 = 0) := by
  refine ⟨?_, ?_, ?_⟩
  · intro hn
    subst hn
    simp only [partials_goffset] at hg
    exact (Option.some.inj hg).symm
  · intro im him
    subst him
    simp only [partials_goffset] at hg
    by_cases h : rinfo.ownstart < im.length
    · rw [if_pos h] at hg
      exact (Option.some.inj hg).symm
    · rw [if_neg h] at hg
      cases hg
  · have h1 : goffset * F + rinfo.nowned * F ≤ globmat.I * F := by
      rw [← Nat.add_mul]; exact Nat.mul_le_mul_right F hoff
    have h2 : rinfo.ownstart * F + rinfo.nowned * F ≤ localmat.I * F := by
      rw [← Nat.add_mul]; exact Nat.mul_le_mul_right F hown
    have hz : List.replicate (globmat.I * F) (0 : Int) ++ globmat.vals.drop (globmat.I * F)
        = List.replicate (globmat.I * F) 0 := by
      rw [List.drop_of_length_le (by omega), List.append_nil]
    have hmid : ((localmat.vals.drop (rinfo.ownstart * F)).take (rinfo.nowned * F)).length
        = rinfo.nowned * F := by
      rw [List.length_take, List.length_drop]; omega
    have hsp := splice_getD (List.replicate (globmat.I * F) (0 : Int))
      ((localmat.vals.drop (rinfo.ownstart * F)).take (rinfo.nowned * F)) (goffset * F)
      (by rw [hmid, List.length_replicate]; exact h1)
    rw [hmid] at hsp
    refine ⟨{ globmat with
      vals := (List.replicate (globmat.I * F) 0).take (goffset * F)
        ++ ((localmat.vals.drop (rinfo.ownstart * F)).take (rinfo.nowned * F))
        ++ (List.replicate (globmat.I * F) 0).drop (goffset * F + rinfo.nowned * F) },
      ?_, rfl, rfl, ?_, ?_, ?_⟩
    · unfold mpi_add_my_partials
      rw [if_pos (by omega), hg]
      simp only
      rw [if_pos ⟨by omega, by omega⟩, hz]
    · show ((List.replicate (globmat.I * F) (0 : Int)).take (goffset * F)
          ++ ((localmat.vals.drop (rinfo.ownstart * F)).take (rinfo.nowned * F))
          ++ (List.replicate (globmat.I * F) 0).drop (goffset * F + rinfo.nowned * F)).length = _
      rw [hsp.1, List.length_replicate, hgl]
    · intro i hi f hf
      show ((List.replicate (globmat.I * F) (0 : Int)).take (goffset * F)
          ++ ((localmat.vals.drop (rinfo.ownstart * F)).take (rinfo.nowned * F))
          ++ (List.replicate (globmat.I * F) 0).drop (goffset * F + rinfo.nowned * F)).getD _ 0 = _
      rw [hsp.2, if_pos ((region_mem_iff hf).2 ⟨by omega, by omega⟩)]
      have hidx : f + (goffset + i) * F - goffset * F = f + i * F := by
        rw [Nat.add_mul]; omega
      have hlt : f + i * F < rinfo.nowned * F := by
        have := row_bound hi (Nat.le_refl (rinfo.nowned * F)); omega
      rw [hidx]
      simp only [List.getD_eq_getElem?_getD]
      rw [List.getElem?_take_of_lt hlt, List.getElem?_drop]
      congr 2
      rw [Nat.add_mul]
      omega
    · intro g _ hout f hf
      show ((List.replicate (globmat.I * F) (0 : Int)).take (goffset * F)
          ++ ((localmat.vals.drop (rinfo.ownstart * F)).take (rinfo.nowned * F))
          ++ (List.replicate (globmat.I * F) 0).drop (goffset * F + rinfo.nowned * F)).getD _ 0 = _
      rw [hsp.2, if_neg (fun h => by have := (region_mem_iff hf).1 h; omega)]
      exact getD_replicate_int _ _

/-- Witness of C20: a local matrix of 4 rows and 2 columns whose rows 1 and 2 are
owned, an index map that sends the local row 1 to the global row 11, and a global
matrix of 4 rows starting at the global row 10.  `goffset` is 1; the global matrix
becomes the zero row, the two owned rows, and the zero row. -/
theorem mpi_add_my_partials_rows_witness :
    partials_goffset (some [3, 11, 12, 20]) seed_rinfo = some 1 ∧
    ([9, 9, 9, 9, 9, 9, 9, 9] : List Int).length = 4 * 2 ∧
    ([1, 2, 3, 4, 5, 6, 7, 8] : List Int).length = 4 * 2 ∧
    seed_rinfo.ownstart + seed_rinfo.nowned ≤ 4 ∧ 1 + seed_rinfo.nowned ≤ 4 ∧
    mpi_add_my_partials (some [3, 11, 12, 20]) { I := 4, J := 2, vals := [1, 2, 3, 4, 5, 6, 7, 8] }
        { I := 4, J := 2, vals := [9, 9, 9, 9, 9, 9, 9, 9] } seed_rinfo 2
      = some ({ I := 4, J := 2, vals := [1, 2, 3, 4, 5, 6, 7, 8] },
          { I := 4, J := 2, vals := [0, 0, 3, 4, 5, 6, 0, 0] }) ∧
    ((some [3, 11, 12, 20] = none → 1 = idx_sub seed_rinfo.ownstart seed_rinfo.mat_start) ∧
    (∀ im, some [3, 11, 12, 20] = some im →
      1 = idx_sub (im.getD seed_rinfo.ownstart 0) seed_rinfo.mat_start) ∧
    ∃ gm, mpi_add_my_partials (some [3, 11, 12, 20])
          { I := 4, J := 2, vals := [1, 2, 3, 4, 5, 6, 7, 8] }
          { I := 4, J := 2, vals := [9, 9, 9, 9, 9, 9, 9, 9] } seed_rinfo 2
        = some ({ I := 4, J := 2, vals := [1, 2, 3, 4, 5, 6, 7, 8] }, gm) ∧
      gm.I = 4 ∧ gm.J = 2 ∧ gm.vals.length = ([9, 9, 9, 9, 9, 9, 9, 9] : List Int).length ∧
      (∀ i < seed_rinfo.nowned, ∀ f < 2, gm.vals.getD (f + (1 + i) * 2) 0
        = ([1, 2, 3, 4, 5, 6, 7, 8] : List Int).getD (f + (seed_rinfo.ownstart + i) * 2) 0) ∧
      (∀ g < 4, (g < 1 ∨ 1 + seed_rinfo.nowned ≤ g) →
        ∀ f < 2, gm.vals.getD (f + g * 2) 0 = 0)) :=
  ⟨by decide, by decide, by decide, by decide, by decide, by decide,
    mpi_add_my_partials_rows (some [3, 11, 12, 20])
      { I := 4, J := 2, vals := [1, 2, 3, 4, 5, 6, 7, 8] }
      { I := 4, J := 2, vals := [9, 9, 9, 9, 9, 9, 9, 9] } seed_rinfo 2 1
      (by decide) (by decide) (by decide) (by decide) (by decide)⟩

/-- Claim C22 at a tensor with no entries: `empty_tensor` has the extent 4 in mode 0
and satisfies the index bound vacuously.  The bounds stay at `minidx = 4`,
`maxidx = 0`, and `1 + 0 - 4` wraps in `idx_t`: the mark array of `tt_get_slices` gets
`2 ^ 64 - 3` cells, far more than `max(1, dims[0]) = 4`. -/
theorem tt_get_slices_empty_range :
    shape_ok empty_tensor ∧ in_range empty_tensor ∧ empty_tensor.nnz = 0 ∧
    slice_bounds (empty_tensor.dims.getD 0 0) (empty_tensor.ind.getD 0 []) empty_tensor.nnz
      = (4, 0) ∧
    slice_maxrange empty_tensor 0 = 18446744073709551613 ∧
    ¬ slice_maxrange empty_tensor 0 ≤ max 1 (empty_tensor.dims.getD 0 0) := by
  decide

/-- Claim C21, amended: on well-formed arguments, for a source rank whose
receive-manifest count is at least one row, `mpi_recv_rows` returns with the
owned-row region `[ownstart, ownstart + nowned)` of the local matrix equal to the first
`nowned` rows of the global matrix, whatever was received; for a source rank whose
count is zero the call returns at once and leaves the buffer and the local matrix as
they were, the owned region not refreshed. -/
theorem mpi_recv_rows_refresh (porig : Nat) (a : rank_args) (F : Nat) (msg : List Int)
    (ha : rank_ok a F) (hF : 0 < F)
    (hp : porig < a.rinfo.local2nbr_ptr.length ∧ porig < a.rinfo.local2nbr_disp.length)
    (hseg : a.rinfo.local2nbr_disp.getD porig 0 / F + a.rinfo.local2nbr_ptr.getD porig 0 / F
      ≤ a.rinfo.nlocal2nbr)
    (hmsg : msg.length = a.rinfo.local2nbr_ptr.getD porig 0 / F * F) :
    (a.rinfo.local2nbr_ptr.getD porig 0 / F ≠ 0 →
      ∃ buf lm, mpi_recv_rows porig a.indmap a.nbr2local_buf a.localmat a.globalmat a.rinfo F msg
          = some (buf, lm) ∧
        lm.I = a.localmat.I ∧ lm.vals.length = a.localmat.vals.length ∧
        ∀ i < a.rinfo.nowned, ∀ f < F,
          lm.vals.getD (f + (a.rinfo.ownstart + i) * F) 0 = a.globalmat.vals.getD (f + i * F) 0) ∧
    (a.rinfo.local2nbr_ptr.getD porig 0 / F = 0 →
      mpi_recv_rows porig a.indmap a.nbr2local_buf a.localmat a.globalmat a.rinfo F msg
        = some (a.nbr2local_buf, a.localmat)) := by
  obtain ⟨o1, o2, o3, o4, o5, o6, o7, o8, o9, o10, o11, o12, o13⟩ := ha
  constructor
  · intro hnz
    have hseg2 : (a.rinfo.local2nbr_disp.getD porig 0 / F
        + a.rinfo.local2nbr_ptr.getD porig 0 / F) * F ≤ a.nbr2local_buf.length :=
      Nat.le_trans (Nat.mul_le_mul_right F hseg) o9
    have hrecv : MPI_Recv a.nbr2local_buf (a.rinfo.local2nbr_disp.getD porig 0 / F * F)
        (a.rinfo.local2nbr_ptr.getD porig 0 / F * F) msg
        = some (a.nbr2local_buf.take (a.rinfo.local2nbr_disp.getD porig 0 / F * F) ++ msg
            ++ a.nbr2local_buf.drop (a.rinfo.local2nbr_disp.getD porig 0 / F * F
              + a.rinfo.local2nbr_ptr.getD porig 0 / F * F)) := by
      unfold MPI_Recv
      rw [if_pos ⟨hmsg, by rw [← Nat.add_mul]; exact hseg2⟩]
    have hblen : (a.nbr2local_buf.take (a.rinfo.local2nbr_disp.getD porig 0 / F * F) ++ msg
        ++ a.nbr2local_buf.drop (a.rinfo.local2nbr_disp.getD porig 0 / F * F
          + a.rinfo.local2nbr_ptr.getD porig 0 / F * F)).length = a.nbr2local_buf.length := by
      have := (splice_getD a.nbr2local_buf msg (a.rinfo.local2nbr_disp.getD porig 0 / F * F)
        (by rw [hmsg, ← Nat.add_mul]; exact hseg2)).1
      rw [hmsg] at this
      exact this
    obtain ⟨matv, s1, s2⟩ := recv_scatter_ok a.rinfo F
      (a.rinfo.local2nbr_disp.getD porig 0 / F) (a.rinfo.local2nbr_ptr.getD porig 0 / F)
      (a.nbr2local_buf.take (a.rinfo.local2nbr_disp.getD porig 0 / F * F) ++ msg
        ++ a.nbr2local_buf.drop (a.rinfo.local2nbr_disp.getD porig 0 / F * F
          + a.rinfo.local2nbr_ptr.getD porig 0 / F * F)) a.localmat.vals
      (by omega) (by rw [hblen]; exact hseg2)
      (fun r hr => by rw [o2]; exact row_bound (o11 r (by omega)) (Nat.le_refl _))
    have hown : a.rinfo.ownstart * F + a.rinfo.nowned * F ≤ a.localmat.I * F := by
      rw [← Nat.add_mul]; exact Nat.mul_le_mul_right F o12
    obtain ⟨lm, f1, f2, f3, f4, f5⟩ := flush_spec a.indmap { a.localmat with vals := matv }
      a.globalmat a.rinfo F o12 o3
      (by rw [o1]; exact Nat.mul_le_mul_right F o13)
      (by show _ ≤ matv.length; rw [s2, o2]; exact hown)
    refine ⟨a.nbr2local_buf.take (a.rinfo.local2nbr_disp.getD porig 0 / F * F) ++ msg
        ++ a.nbr2local_buf.drop (a.rinfo.local2nbr_disp.getD porig 0 / F * F
          + a.rinfo.local2nbr_ptr.getD porig 0 / F * F), lm, ?_, f2, by rw [f4]; exact s2, ?_⟩
    · unfold mpi_recv_rows
      rw [if_pos ⟨hp.1, hp.2, hF⟩, if_neg hnz, hrecv]
      simp only
      rw [s1]
      simp only
      rw [f1]
    · intro i hi f hf
      rw [f5, if_pos ((region_mem_iff hf).2 ⟨by omega, by omega⟩)]
      congr 1
      rw [Nat.add_mul]
      omega
  · intro hz
    unfold mpi_recv_rows
    rw [if_pos ⟨hp.1, hp.2, hF⟩, if_pos hz]

/-- Witness of C21 as amended: rank 1 of the toy partition with an out-of-date local
matrix receives three rows from rank 0; afterwards its owned rows 4 to 7 hold the
values of its global matrix. -/
theorem mpi_recv_rows_refresh_witness :
    rank_ok stale_rank1 2 ∧ 0 < 2 ∧
    (0 < stale_rank1.rinfo.local2nbr_ptr.length ∧ 0 < stale_rank1.rinfo.local2nbr_disp.length) ∧
    stale_rank1.rinfo.local2nbr_disp.getD 0 0 / 2 + stale_rank1.rinfo.local2nbr_ptr.getD 0 0 / 2
      ≤ stale_rank1.rinfo.nlocal2nbr ∧
    ([10, 11, 20, 21, 30, 31] : List Int).length
      = stale_rank1.rinfo.local2nbr_ptr.getD 0 0 / 2 * 2 ∧
    stale_rank1.rinfo.local2nbr_ptr.getD 0 0 / 2 ≠ 0 ∧
    (mpi_recv_rows 0 stale_rank1.indmap stale_rank1.nbr2local_buf stale_rank1.localmat
        stale_rank1.globalmat stale_rank1.rinfo 2 [10, 11, 20, 21, 30, 31]).map
        (fun r => r.2.vals)
      = some [10, 11, 20, 21, 30, 31, 7, 7, 50, 51, 60, 61, 70, 71, 80, 81] ∧
    ((stale_rank1.rinfo.local2nbr_ptr.getD 0 0 / 2 ≠ 0 →
      ∃ buf lm, mpi_recv_rows 0 stale_rank1.indmap stale_rank1.nbr2local_buf
          stale_rank1.localmat stale_rank1.globalmat stale_rank1.rinfo 2
          [10, 11, 20, 21, 30, 31] = some (buf, lm) ∧
        lm.I = stale_rank1.localmat.I ∧
        lm.vals.length = stale_rank1.localmat.vals.length ∧
        ∀ i < stale_rank1.rinfo.nowned, ∀ f < 2,
          lm.vals.getD (f + (stale_rank1.rinfo.ownstart + i) * 2) 0
            = stale_rank1.globalmat.vals.getD (f + i * 2) 0) ∧
    (stale_rank1.rinfo.local2nbr_ptr.getD 0 0 / 2 = 0 →
      mpi_recv_rows 0 stale_rank1.indmap stale_rank1.nbr2local_buf stale_rank1.localmat
          stale_rank1.globalmat stale_rank1.rinfo 2 [10, 11, 20, 21, 30, 31]
        = some (stale_rank1.nbr2local_buf, stale_rank1.localmat))) :=
  ⟨by decide, by decide, by decide, by decide, by decide, by decide, by decide,
    mpi_recv_rows_refresh 0 stale_rank1 2 [10, 11, 20, 21, 30, 31] (by decide) (by decide)
      (by decide) (by decide) (by decide)⟩

/-- Counterexample to C21 as stated: `lone_rank` expects nothing from the source rank
0, its receive-manifest count is zero.  `mpi_recv_rows` returns at once; the owned rows
0 to 3 of the local matrix still hold `5 5 6 6 7 7 8 8`, not the rows of the global
matrix, `50 51 60 61 70 71 80 81`. -/
theorem mpi_recv_rows_refresh_counterexample :
    rank_ok lone_rank 2 ∧ lone_rank.rinfo.local2nbr_ptr.getD 0 0 / 2 = 0 ∧
    mpi_recv_rows 0 lone_rank.indmap lone_rank.nbr2local_buf lone_rank.localmat
        lone_rank.globalmat lone_rank.rinfo 2 []
      = some ([], { I := 4, J := 2, vals := [5, 5, 6, 6, 7, 7, 8, 8] }) ∧
    lone_rank.rinfo.ownstart = 0 ∧ lone_rank.rinfo.nowned = 4 ∧
    lone_rank.globalmat.vals = [50, 51, 60, 61, 70, 71, 80, 81] ∧
    lone_rank.localmat.vals.getD (0 + (lone_rank.rinfo.ownstart + 0) * 2) 0
      ≠ lone_rank.globalmat.vals.getD (0 + 0 * 2) 0 :=
  ⟨by decide, by decide, by decide, by decide, by decide, by decide, by decide⟩

/-- Claim C23 at a descriptor with `goffset = 1`: `seed_rinfo` owns the local rows 1
and 2, its global rows are 10 to 13, and the index map `[3, 11, 12, 20]` sends the
local row 1 to the global row 11.  `mpi_add_my_partials` writes the owned rows `3 4`
and `5 6` to the rows 1 and 2 of the global matrix; `__flush_glob_to_local` copies the
rows 0 and 1 of the global matrix back.  Both calls return, and the owned rows of the
local matrix have become `0 0` and `3 4`. -/
theorem seed_then_flush_offset :
    seed_rinfo.mat_start = 10 ∧ seed_rinfo.mat_end = 14 ∧
    seed_rinfo.ownstart = 1 ∧ seed_rinfo.nowned = 2 ∧
    partials_goffset (some [3, 11, 12, 20]) seed_rinfo = some 1 ∧
    mpi_add_my_partials (some [3, 11, 12, 20])
        { I := 4, J := 2, vals := [1, 2, 3, 4, 5, 6, 7, 8] }
        { I := 4, J := 2, vals := [9, 9, 9, 9, 9, 9, 9, 9] } seed_rinfo 2
      = some ({ I := 4, J := 2, vals := [1, 2, 3, 4, 5, 6, 7, 8] },
          { I := 4, J := 2, vals := [0, 0, 3, 4, 5, 6, 0, 0] }) ∧
    __flush_glob_to_local (some [3, 11, 12, 20])
        { I := 4, J := 2, vals := [1, 2, 3, 4, 5, 6, 7, 8] }
        { I := 4, J := 2, vals := [0, 0, 3, 4, 5, 6, 0, 0] } seed_rinfo 2
      = some { I := 4, J := 2, vals := [1, 2, 0, 0, 3, 4, 7, 8] } ∧
    (([1, 2, 3, 4, 5, 6, 7, 8] : List Int).drop (seed_rinfo.ownstart * 2)).take
        (seed_rinfo.nowned * 2) = [3, 4, 5, 6] ∧
    (([1, 2, 0, 0, 3, 4, 7, 8] : List Int).drop (seed_rinfo.ownstart * 2)).take
        (seed_rinfo.nowned * 2) = [0, 0, 3, 4] :=
  ⟨by decide, by decide, by decide, by decide, by decide, by decide, by decide, by decide,
    by decide⟩

end Splatt
